import Mathlib

/-!
PlaidML tile EDSL front-end: shape inference, linearisation and lowering.

A shallow embedding of `tile/lang/tile_cc.cc` and of `MatMul` and `LoadConstCalc`
of `tile/lib/lib.cc`.  Pointers to shared `Expr` nodes become addresses (`Nat`)
into a heap, C++ exceptions become `Except.error` carrying the message of the
`throw`, and loops that run until a worklist is empty take an explicit step
budget.  The objects of the builder (`Index`, `Tensor`, `Access`) live in a
store that every builder function takes and returns.
-/

set_option autoImplicit false

deriving instance DecidableEq for Except

namespace TileCC

/-! ## Declarations the translation unit takes from its headers -/

/-- Modelled from the spec: `DataType` is declared in `tile/base/shape.h`, which
is not part of the sources at hand; the enumerators are the ones the spec lists. -/
inductive DataType where
  | INVALID
  | BOOLEAN
  | INT16
  | INT32
  | INT64
  | UINT16
  | UINT32
  | UINT64
  | FLOAT16
  | FLOAT32
  | FLOAT64
  | PRNG
  deriving DecidableEq, Repr

/-- A C++ `double`, kept as its IEEE-754 bit pattern.  The modelled code never
computes with it; it is only stored and printed. -/
structure Double where
  bits : Nat
  deriving DecidableEq, Repr

/-- Modelled from the spec: what the headers and the C++ library fix and the
sources at hand do not show.  `bool_width` and `prng_width` are the values of
`bit_width` on `BOOLEAN` and `PRNG`, `k_rng_size` is the constant of
`tile/lang/gen_special.h`, and `double_to_string` is `std::to_string(double)`. -/
structure Extern where
  bool_width : Nat
  prng_width : Nat
  k_rng_size : Nat
  double_to_string : Double → String

/-- Modelled from the spec: `is_float` of `tile/base/shape.h`; the float types
are `FLOAT16`, `FLOAT32` and `FLOAT64`. -/
def is_float : DataType → Bool
  | .FLOAT16 => true
  | .FLOAT32 => true
  | .FLOAT64 => true
  | _ => false

/-- Modelled from the spec: `bit_width` of `tile/base/shape.h`.  A sized type has
the width in its name and `INVALID` has width 0 (so that "the first input
seeds" the dtype fold); the widths of `BOOLEAN` and `PRNG` are left to `env`. -/
def bit_width (env : Extern) : DataType → Nat
  | .INVALID => 0
  | .BOOLEAN => env.bool_width
  | .INT16 => 16
  | .INT32 => 32
  | .INT64 => 64
  | .UINT16 => 16
  | .UINT32 => 32
  | .UINT64 => 64
  | .FLOAT16 => 16
  | .FLOAT32 => 32
  | .FLOAT64 => 64
  | .PRNG => env.prng_width

/-- One dimension of a tensor: `int64_t stride; uint64_t size;`. -/
structure TensorDimension where
  stride : Int
  size : Nat
  deriving DecidableEq, Repr

/-- A tensor shape: element type and dimensions, outermost first. -/
structure TensorShape where
  type : DataType
  dims : List TensorDimension
  deriving DecidableEq, Repr

/-- The sizes of a list of dimensions. -/
def sizesOf (dims : List TensorDimension) : List Nat :=
  dims.map (fun d => d.size)

/-- Conversion of a `size_t` value to `int64_t` (two's complement). -/
def toInt64 (v : Nat) : Int :=
  if v % 2 ^ 64 < 2 ^ 63 then ((v % 2 ^ 64 : Nat) : Int) else ((v % 2 ^ 64 : Nat) : Int) - 2 ^ 64

/-- The inferred value at a node: `Binding` with its four tags. -/
inductive Binding where
  | TENSOR (shape : TensorShape)
  | ICONST (iconst : Int)
  | FCONST (fconst : Double) (type : DataType)
  | TUPLE (tuple : List Binding)

/-! ## MergeShapes (tile_cc.cc 467-518) -/

/-- The `for (;; ++dst, ++src)` loop of `MergeShapes`.  Both lists are the
dimensions in reverse order (`rbegin` first); the result is the new `into->dims`,
reversed.  When `dst` runs out first the remaining leading dims of `src` are
inserted in front of `into->dims`. -/
def MergeShapes.loop : List TensorDimension → List TensorDimension →
    Except String (List TensorDimension)
  | dst, [] => .ok dst
  | [], s :: ss => .ok (s :: ss)
  | d :: ds, s :: ss =>
    if s.size = d.size then
      (MergeShapes.loop ds ss).map (fun r => d :: r)
    else if s.size = 1 then
      (MergeShapes.loop ds ss).map (fun r => d :: r)
    else if d.size = 1 then
      (MergeShapes.loop ds ss).map (fun r => { d with size := s.size } :: r)
    else
      .error "Mismatched tensor shapes in elementwise operation"

/-- The function `MergeShapes(TensorShape* into, const TensorShape& shape)`:
returns the updated `*into` together with the `bool` result. -/
def MergeShapes (into shape : TensorShape) : Except String (TensorShape × Bool) :=
  if shape.dims.length ≠ 0 then
    if into.dims.isEmpty then
      .ok ({ into with dims := shape.dims }, false)
    else if into.dims ≠ shape.dims then
      match MergeShapes.loop into.dims.reverse shape.dims.reverse with
      | .ok r => .ok ({ into with dims := r.reverse }, true)
      | .error e => .error e
    else
      .ok (into, false)
  else
    .ok (into, false)

/-! ## ComputeOutputType (tile_cc.cc 520-538) -/

/-- One iteration of the loop of `ComputeOutputType`. -/
def ComputeOutputType.step (env : Extern) (ret : DataType) (shape : TensorShape) : DataType :=
  let cur := shape.type
  if is_float cur != is_float ret then
    if is_float cur then cur else ret
  else
    if bit_width env cur > bit_width env ret then cur else ret

/-- The function `ComputeOutputType(const std::vector<TensorShape>& shapes)`. -/
def ComputeOutputType (env : Extern) (shapes : List TensorShape) : DataType :=
  shapes.foldl (ComputeOutputType.step env) DataType.INVALID

/-! ## ComputeOutputShape (tile_cc.cc 540-572) -/

/-- The shape an input binding contributes (the `switch (input.tag)`). -/
def ComputeOutputShape.shapeOf : Binding → Except String TensorShape
  | .TENSOR shape => .ok shape
  | .ICONST _ => .ok { type := DataType.INT32, dims := [] }
  | .FCONST _ _ => .ok { type := DataType.FLOAT32, dims := [] }
  | .TUPLE _ => .error "Unknown binding tag"

/-- The `for (const auto& input : inputs)` loop of `ComputeOutputShape`, on the
state `(ret, did_broadcast, shapes)`. -/
def ComputeOutputShape.merge : List Binding → TensorShape × Bool × List TensorShape →
    Except String (TensorShape × Bool × List TensorShape)
  | [], st => .ok st
  | input :: rest, (ret, did_broadcast, shapes) =>
    match ComputeOutputShape.shapeOf input with
    | .error e => .error e
    | .ok shape =>
      match MergeShapes ret shape with
      | .error e => .error e
      | .ok (ret1, b) =>
        ComputeOutputShape.merge rest (ret1, b || did_broadcast, shapes ++ [shape])

/-- The stride recomputation loop: `dims` is in reverse order (`rbegin` first) and
`stride` is the `size_t` accumulator, which wraps at `2 ^ 64`. -/
def ComputeOutputShape.restride : List TensorDimension → Nat → List TensorDimension
  | [], _ => []
  | d :: ds, stride =>
    { d with stride := toInt64 stride } ::
      ComputeOutputShape.restride ds ((stride * d.size) % 2 ^ 64)

/-- The function `ComputeOutputShape(const std::vector<Binding>& inputs)`. -/
def ComputeOutputShape (env : Extern) (inputs : List Binding) : Except String TensorShape :=
  match ComputeOutputShape.merge inputs ({ type := DataType.INVALID, dims := [] }, false, []) with
  | .error e => .error e
  | .ok (ret, did_broadcast, shapes) =>
    let dims :=
      if did_broadcast then (ComputeOutputShape.restride ret.dims.reverse 1).reverse
      else ret.dims
    .ok { type := ComputeOutputType env shapes, dims := dims }

/-- A sample instance of the header constants, used for concrete evaluation only.
Its values are not read from the headers, and no statement made for every `env`
depends on them. -/
def refEnv : Extern :=
  { bool_width := 8, prng_width := 0, k_rng_size := 2048,
    double_to_string := fun d => toString d.bits }

/-! ## Vocabulary of the statements about MergeShapes -/

/-- A right-aligned pair of sizes that cannot be broadcast. -/
def clash (p : Nat × Nat) : Prop :=
  p.1 ≠ p.2 ∧ p.1 ≠ 1 ∧ p.2 ≠ 1

instance (p : Nat × Nat) : Decidable (clash p) := by
  unfold clash; infer_instance

/-! ## The expression graph (tile/lang/ast.h) -/

/-- The address of a shared `Expr` node (`std::shared_ptr<Expr>`); node identity is
equality of addresses. -/
abbrev ExprPtr := Nat

/-- The affine index sub-language: `PolyIndex` (with the address of the owning
`Index::Impl` and an optional name, empty when anonymous), `PolyLiteral`, `PolyOp`. -/
inductive PolyExpr where
  | PolyIndex (ptr : Nat) (name : String)
  | PolyLiteral (value : Int)
  | PolyOp (op : String) (operands : List PolyExpr)

/-- The struct `ConstraintExpr`: `lhs < rhs`. -/
structure ConstraintExpr where
  lhs : PolyExpr
  rhs : Nat

/-- The struct `TensorSpecExpr`: one tensor access inside a contraction. -/
structure TensorSpecExpr where
  ref : ExprPtr
  index_spec : List PolyExpr
  output_sizes : List Nat

/-- The enumeration `AggregationOp`. -/
inductive AggregationOp where
  | NONE
  | SUM
  | PROD
  | MAX
  | MIN
  | ASSIGN
  deriving DecidableEq, Repr

/-- The enumeration `CombinationOp`. -/
inductive CombinationOp where
  | NONE
  | PLUS
  | MULTIPLY
  | EQ
  | COND
  deriving DecidableEq, Repr

/-- The struct `ContractionExpr` (its `name` lives in the `Expr` base). -/
structure ContractionExpr where
  agg_op : AggregationOp
  combo_op : CombinationOp
  output : TensorSpecExpr
  inputs : List TensorSpecExpr
  constraints : List ConstraintExpr
  use_default : Option ExprPtr
  no_defract : Bool

/-- The dynamic type of an `Expr` node with the fields of that subclass. -/
inductive ExprNode where
  | ParamExpr (shape : TensorShape)
  | IntConst (value : Int)
  | FloatConst (value : Double)
  | CallExpr (fn : String) (args : List ExprPtr)
  | ContractionExpr (cion : ContractionExpr)
  | TensorSpecExpr (spec : TensorSpecExpr)
  | ConstraintExpr (constraint : ConstraintExpr)

/-- An `Expr` node: the `name` of the base class (empty when unnamed) and the
subclass part. -/
structure Expr where
  name : String
  node : ExprNode

/-- The store of `Expr` nodes: what each address points to. -/
abbrev Heap := ExprPtr → Expr

/-! ## AstTraversal (tile_cc.cc 377-437) -/

/-- Fields of `AstTraversal`.  `stack_` has its top first; `seen_` is used as a set. -/
structure AstTraversal where
  stack_ : List (ExprPtr × Bool)
  flat_ : List ExprPtr
  seen_ : List ExprPtr

/-- The `Visit` overloads of `AstTraversal`, selected by `Accept`: the result lists
the nodes handed to `Push`, in the order of the calls. -/
def AstTraversal.Visit : ExprNode → Except String (List ExprPtr)
  | .CallExpr _ args => .ok args.reverse
  | .ConstraintExpr _ => .error "Not implemented"
  | .ContractionExpr cion =>
    .ok ((cion.inputs.reverse.map (fun input => input.ref)) ++
      (match cion.use_default with
       | some d => [d]
       | none => []))
  | .FloatConst _ => .ok []
  | .IntConst _ => .ok []
  | .ParamExpr _ => .ok []
  | .TensorSpecExpr _ => .error "Not implemented"

/-- The method `Push` applied to each node of `exprs` in turn (the last pushed is on top). -/
def AstTraversal.PushAll (exprs : List ExprPtr) (stack : List (ExprPtr × Bool)) :
    List (ExprPtr × Bool) :=
  (exprs.reverse.map (fun e => (e, false))) ++ stack

/-- One iteration of the `while (stack_.size())` loop of the constructor. -/
def AstTraversal.step (heap : Heap) (t : AstTraversal) : Except String AstTraversal :=
  match t.stack_ with
  | [] => .ok t
  | (entry, post) :: rest =>
    if post then
      .ok { t with stack_ := rest, flat_ := t.flat_ ++ [entry] }
    else if entry ∈ t.seen_ then
      .ok { t with stack_ := rest }
    else
      match AstTraversal.Visit (heap entry).node with
      | .error e => .error e
      | .ok pushes =>
        .ok { stack_ := AstTraversal.PushAll pushes ((entry, true) :: rest),
              flat_ := t.flat_,
              seen_ := entry :: t.seen_ }

/-- The `while (stack_.size())` loop, run for at most `fuel` iterations; `none`
when the budget runs out before the stack is empty. -/
def AstTraversal.loop (heap : Heap) : Nat → AstTraversal → Option (Except String AstTraversal)
  | fuel, t =>
    match t.stack_, fuel with
    | [], _ => some (.ok t)
    | _ :: _, 0 => none
    | _ :: _, fuel + 1 =>
      match AstTraversal.step heap t with
      | .error e => some (.error e)
      | .ok t1 => AstTraversal.loop heap fuel t1

/-- The constructor `AstTraversal(exprs)` followed by `flat()`. -/
def AstTraversal.flat (fuel : Nat) (heap : Heap) (exprs : List ExprPtr) :
    Option (Except String (List ExprPtr)) :=
  match AstTraversal.loop heap fuel
      { stack_ := AstTraversal.PushAll exprs [], flat_ := [], seen_ := [] } with
  | none => none
  | some (.error e) => some (.error e)
  | some (.ok t) => some (.ok t.flat_)

/-! ## Vocabulary of the statements about AstTraversal -/

/-- The nodes an `Expr` depends on: the args of a `CallExpr`; the refs of the inputs
and the `use_default` of a `ContractionExpr`. -/
def ExprNode.children : ExprNode → List ExprPtr
  | .CallExpr _ args => args
  | .ContractionExpr cion =>
    cion.inputs.map (fun input => input.ref) ++
      (match cion.use_default with
       | some d => [d]
       | none => [])
  | _ => []

/-- Whether `AstTraversal` has a `Visit` for this node that does not throw. -/
def ExprNode.visitable : ExprNode → Bool
  | .TensorSpecExpr _ => false
  | .ConstraintExpr _ => false
  | _ => true

/-- Reachability from the roots through `ExprNode.children`. -/
inductive Reachable (heap : Heap) (roots : List ExprPtr) : ExprPtr → Prop where
  | root (r : ExprPtr) (h : r ∈ roots) : Reachable heap roots r
  | child (n c : ExprPtr) (hn : Reachable heap roots n) (hc : c ∈ (heap n).node.children) :
      Reachable heap roots c

/-- A number of loop iterations that suffices for a traversal from `exprs` that
stays inside the nodes `dom`. -/
def AstTraversal.budget (heap : Heap) (dom exprs : List ExprPtr) : Nat :=
  exprs.length + (dom.map (fun n => 1 + (heap n).node.children.length)).sum + 1

/-- The total weight `w` of the nodes of `dom` that are not in `seen`. -/
def AstTraversal.unseenWeight (w : ExprPtr → Nat) : List ExprPtr → List ExprPtr → Nat
  | [], _ => 0
  | n :: dom, seen => (if n ∈ seen then 0 else w n) + AstTraversal.unseenWeight w dom seen

/-- The termination measure of the traversal loop: entries still on the stack plus,
for every node of `dom` not yet seen, one iteration for the node and one per child. -/
def AstTraversal.potential (heap : Heap) (dom : List ExprPtr) (t : AstTraversal) : Nat :=
  t.stack_.length +
    AstTraversal.unseenWeight (fun n => 1 + (heap n).node.children.length) dom t.seen_

/-- A four-node example: `2 = add(0, 1)` and `3 = mul(2, 0)` over a parameter `0`
named "A" and the constant `1`. -/
def exHeap : Heap := fun p =>
  match p with
  | 0 => ⟨"A", .ParamExpr ⟨.FLOAT32, [⟨1, 3⟩]⟩⟩
  | 1 => ⟨"", .IntConst 7⟩
  | 2 => ⟨"", .CallExpr "add" [0, 1]⟩
  | 3 => ⟨"", .CallExpr "mul" [2, 0]⟩
  | _ => ⟨"", .IntConst 0⟩

/-- Every stack entry is a node of `dom`. -/
def AstTraversal.within (dom : List ExprPtr) (t : AstTraversal) : Prop :=
  ∀ x ∈ t.stack_, x.1 ∈ dom

/-- The nodes whose second (post) entry is on the stack. -/
def AstTraversal.posts (t : AstTraversal) : List ExprPtr :=
  (t.stack_.filter (fun x => x.2)).map (fun x => x.1)

/-- The loop invariant behind completeness and absence of duplicates. -/
structure AstTraversal.Inv (heap : Heap) (roots : List ExprPtr) (t : AstTraversal) : Prop where
  nodup : (AstTraversal.posts t ++ t.flat_).Nodup
  seen_iff : ∀ n, n ∈ t.seen_ ↔ n ∈ AstTraversal.posts t ∨ n ∈ t.flat_
  reach_stack : ∀ x ∈ t.stack_, Reachable heap roots x.1
  reach_flat : ∀ n ∈ t.flat_, Reachable heap roots n
  roots_done : ∀ r ∈ roots, r ∈ t.seen_ ∨ (r, false) ∈ t.stack_
  closed : ∀ n ∈ t.seen_, ∀ c ∈ (heap n).node.children, c ∈ t.seen_ ∨ (c, false) ∈ t.stack_

/-- The loop invariant behind the dependency order, for a graph whose edges
strictly lower `rank`: what is already flat is in dependency order, a node waiting
for its post entry has every child flat or above it on the stack, and everything
above a post entry has smaller rank. -/
structure AstTraversal.Ordered (heap : Heap) (dom : List ExprPtr) (rank : ExprPtr → Nat)
    (t : AstTraversal) : Prop where
  within : ∀ x ∈ t.stack_, x.1 ∈ dom
  flat_ok : ∀ l1 n l2, t.flat_ = l1 ++ n :: l2 → ∀ c ∈ (heap n).node.children, c ∈ l1
  pending : ∀ pre n post, t.stack_ = pre ++ (n, true) :: post →
    ∀ c ∈ (heap n).node.children, c ∈ t.flat_ ∨ ∃ b, (c, b) ∈ pre
  chain : ∀ pre n post, t.stack_ = pre ++ (n, true) :: post → ∀ x ∈ pre, rank x.1 < rank n
  seen_sub : ∀ n ∈ t.seen_, n ∈ t.flat_ ∨ (n, true) ∈ t.stack_

/-! ## Special ops and the registry (tile_cc.cc 439-465, 833-1128) -/

/-- Modelled from the spec: dimensions with the given sizes and row-major strides
(the stride of a dim is the product of the sizes to its right). -/
def rowMajorDims : List Nat → List TensorDimension
  | [] => []
  | s :: ss => { stride := ((ss.prod : Nat) : Int), size := s } :: rowMajorDims ss

/-- Modelled from the spec: `SimpleShape` of `tile/base/shape.h`, the given sizes
with row-major strides. -/
def SimpleShape (type : DataType) (sizes : List Nat) : TensorShape :=
  { type := type, dims := rowMajorDims sizes }

/-- Conversion of an `int64_t` to `size_t` (`sizes.push_back(args[i].iconst)`). -/
def toSizeT (v : Int) : Nat :=
  (v % 2 ^ 64).toNat

/-- The `for (size_t i = 1; i < args.size(); i++)` loop shared by `reshape` and
`prng_step`: every further argument must be an `ICONST`. -/
def iconstSizes (msg : String) : List Binding → Except String (List Nat)
  | [] => .ok []
  | .ICONST v :: rest =>
    match iconstSizes msg rest with
    | .error e => .error e
    | .ok sizes => .ok (toSizeT v :: sizes)
  | _ :: _ => .error msg

/-- The method `ReshapeOp::ComputeShape`. -/
def ReshapeOp.ComputeShape (args : List Binding) : Except String TensorShape :=
  match args with
  | [] => .error "'reshape' requires at least one argument."
  | .TENSOR shape :: rest =>
    match iconstSizes "Additional parameters to 'reshape' must be integers." rest with
    | .error e => .error e
    | .ok sizes => .ok (SimpleShape shape.type sizes)
  | _ :: _ => .error "'reshape' requires the first argument to be a tensor."

/-- The method `BooleanOp::ComputeShape`. -/
def BooleanOp.ComputeShape (env : Extern) (args : List Binding) : Except String TensorShape :=
  match ComputeOutputShape env args with
  | .error e => .error e
  | .ok ret => .ok { ret with type := DataType.BOOLEAN }

/-- The common body of `FloatCastOp`, `IntCastOp` and `UintCastOp`: `t16`, `t32`
and `t64` are the types of the three `case` labels and `op` the name in the messages. -/
def CastOp.ComputeShape (op : String) (t16 t32 t64 : DataType) (args : List Binding) :
    Except String TensorShape :=
  match args with
  | [a0, a1] =>
    match a0 with
    | .TENSOR shape =>
      match a1 with
      | .ICONST w =>
        if w = 16 then .ok { shape with type := t16 }
        else if w = 32 then .ok { shape with type := t32 }
        else if w = 64 then .ok { shape with type := t64 }
        else .error ("'" ++ op ++ "' requires the width to be one of: (16, 32, 64)")
      | _ => .error ("'" ++ op ++ "' requires the second argument to be a integer.")
    | _ => .error ("'" ++ op ++ "' requires the first argument to be a tensor.")
  | _ => .error ("'" ++ op ++ "' requires 2 arguments.")

/-- The method `FloatCastOp::ComputeShape`. -/
def FloatCastOp.ComputeShape : List Binding → Except String TensorShape :=
  CastOp.ComputeShape "as_float" .FLOAT16 .FLOAT32 .FLOAT64

/-- The method `IntCastOp::ComputeShape`. -/
def IntCastOp.ComputeShape : List Binding → Except String TensorShape :=
  CastOp.ComputeShape "as_int" .INT16 .INT32 .INT64

/-- The method `UintCastOp::ComputeShape`. -/
def UintCastOp.ComputeShape : List Binding → Except String TensorShape :=
  CastOp.ComputeShape "as_uint" .UINT16 .UINT32 .UINT64

/-- The method `IndexOp::ComputeShape`. -/
def IndexOp.ComputeShape (args : List Binding) : Except String TensorShape :=
  match args with
  | [a0, a1] =>
    match a0 with
    | .TENSOR shape =>
      match a1 with
      | .ICONST _ => .ok { shape with type := DataType.INT32 }
      | _ => .error "'index' requires the second argument to be an integer."
    | _ => .error "'index' requires the first argument to be a tensor."
  | _ => .error "'index' requires 2 arguments."

/-- The method `ElementOp::ComputeShape`. -/
def ElementOp.ComputeShape (args : List Binding) : Except String TensorShape :=
  match args with
  | [a0, a1] =>
    match a0 with
    | .TUPLE tuple =>
      match a1 with
      | .ICONST elt =>
        if elt < 0 ∨ elt ≥ (tuple.length : Int) then
          .error "'element' requires the second argument to be within the bounds of the specified tuple."
        else
          match tuple.get? elt.toNat with
          | some (.TENSOR shape) => .ok shape
          | _ => .error "'element' requires the resulting binding to be a tensor."
      | _ => .error "'element' requires the second arguement to be an integer."
    | _ => .error "'element' requires the first argument to be a tuple."
  | _ => .error "'element' requires 2 arguments."

/-- The method `GatherOp::ComputeShape`. -/
def GatherOp.ComputeShape (args : List Binding) : Except String TensorShape :=
  match args with
  | [data, index] =>
    match data, index with
    | .TENSOR dshape, .TENSOR ishape =>
      if dshape.dims.isEmpty then
        .error "'gather' requires first argument to have at least one dimension."
      else if ishape.type ≠ DataType.INT32 then
        .error "'gather' requires the data type for the second argument to be INT32."
      else
        .ok (SimpleShape dshape.type (sizesOf ishape.dims ++ sizesOf (dshape.dims.drop 1)))
    | _, _ => .error "'gather' requires both arguments to be tensors."
  | _ => .error "'gather' requires 2 arguments."

/-- The method `ScatterOp::ComputeShape`.  The unchecked `args[2].shape.dims[0]` on
an empty `dims` is undefined behaviour in C++; the model reports it as an error of
its own. -/
def ScatterOp.ComputeShape (args : List Binding) : Except String TensorShape :=
  match args with
  | [a0, a1, a2] =>
    match a0, a1, a2 with
    | .TENSOR s0, .TENSOR s1, .TENSOR s2 =>
      if s0.dims.isEmpty then
        .error "'scatter' requires first argument to have at least one dimension."
      else if s1.type ≠ DataType.INT32 then
        .error "'scatter' requires the data type for the second argument to be INT32."
      else
        match s2.dims with
        | [] => .error "undefined behaviour: args[2].shape.dims[0] out of range"
        | d0 :: _ =>
          .ok (SimpleShape s0.type (d0.size :: sizesOf (s0.dims.drop s1.dims.length)))
    | _, _, _ => .error "'scatter' requires all arguments to be tensors."
  | _ => .error "'scatter' requires 3 arguments."

/-- The method `ShapeOp::ComputeShape`. -/
def ShapeOp.ComputeShape (args : List Binding) : Except String TensorShape :=
  match args with
  | [a0] =>
    match a0 with
    | .TENSOR shape => .ok (SimpleShape DataType.INT32 [shape.dims.length])
    | _ => .error "'shape' requires one argument that is a tensor."
  | _ => .error "'shape' requires exactly one argument."

/-- The method `PrngStateOp::ComputeShape`. -/
def PrngStateOp.ComputeShape (env : Extern) (args : List Binding) : Except String TensorShape :=
  match args with
  | [a0] =>
    match a0 with
    | .TENSOR shape =>
      if shape.type ≠ DataType.PRNG then
        .error "'prng_state' requires one argument that is the result of 'prng_step'"
      else
        .ok (SimpleShape DataType.UINT32 [3, env.k_rng_size])
    | _ => .error "'prng_state' requires one argument that is a tensor."
  | _ => .error "'prng_state' requires exactly one argument."

/-- The method `PrngValueOp::ComputeShape`. -/
def PrngValueOp.ComputeShape (args : List Binding) : Except String TensorShape :=
  match args with
  | [a0] =>
    match a0 with
    | .TENSOR shape =>
      if shape.type ≠ DataType.PRNG then
        .error "'prng_value' requires one argument that is the result of 'prng_step'"
      else
        .ok { type := DataType.FLOAT32, dims := shape.dims }
    | _ => .error "'prng_value' requires one argument that is a tensor."
  | _ => .error "'prng_value' requires exactly one argument."

/-- The method `PrngStepOp::ComputeShape`. -/
def PrngStepOp.ComputeShape (env : Extern) (args : List Binding) : Except String TensorShape :=
  match args with
  | [] => .error "'prng_step' must have at least one argument."
  | .TENSOR shape :: rest =>
    if ¬ (shape = SimpleShape DataType.UINT32 [3, env.k_rng_size]) then
      .error "'prng_step' requires a valid PRNG state tensor."
    else
      match iconstSizes "'prng_step' requires additional arguments to be integers." rest with
      | .error e => .error e
      | .ok dims => .ok (SimpleShape DataType.PRNG dims)
  | _ :: _ => .error "'prng_step' requires first argument to be a tensor."

/-- The registry after `init`: `SpecialOpRegistry::Resolve(name)` followed by the
`ComputeShape` of the op found, `none` for an unregistered name. -/
def SpecialOpRegistry.Resolve (env : Extern) (name : String) :
    Option (List Binding → Except String TensorShape) :=
  if name = "as_float" then some FloatCastOp.ComputeShape
  else if name = "as_int" then some IntCastOp.ComputeShape
  else if name = "as_uint" then some UintCastOp.ComputeShape
  else if name = "cmp_eq" then some (BooleanOp.ComputeShape env)
  else if name = "cmp_ge" then some (BooleanOp.ComputeShape env)
  else if name = "cmp_gt" then some (BooleanOp.ComputeShape env)
  else if name = "cmp_le" then some (BooleanOp.ComputeShape env)
  else if name = "cmp_lt" then some (BooleanOp.ComputeShape env)
  else if name = "cmp_ne" then some (BooleanOp.ComputeShape env)
  else if name = "element" then some ElementOp.ComputeShape
  else if name = "gather" then some GatherOp.ComputeShape
  else if name = "index" then some IndexOp.ComputeShape
  else if name = "prng_state" then some (PrngStateOp.ComputeShape env)
  else if name = "prng_step" then some (PrngStepOp.ComputeShape env)
  else if name = "prng_value" then some PrngValueOp.ComputeShape
  else if name = "reshape" then some ReshapeOp.ComputeShape
  else if name = "scatter" then some ScatterOp.ComputeShape
  else if name = "shape" then some ShapeOp.ComputeShape
  else none

/-! ## ShapeEvaluator (tile_cc.cc 574-638) -/

/-- Lookup in a `std::map` / `std::unordered_map`, kept as an association list. -/
def lookup {κ α : Type} [DecidableEq κ] (m : List (κ × α)) (key : κ) : Option α :=
  match m with
  | [] => none
  | (k, v) :: rest => if k = key then some v else lookup rest key

/-- The helper `safe_at` of `base/util/lookup.h`: the value at `key`, throwing when
the key is absent. -/
def safe_at {κ α : Type} [DecidableEq κ] (m : List (κ × α)) (key : κ) : Except String α :=
  match lookup m key with
  | some v => .ok v
  | none => .error "Key not found"

/-- The member `emplace` of a map: inserts unless the key is already present. -/
def emplace {κ α : Type} [DecidableEq κ] (m : List (κ × α)) (key : κ) (v : α) :
    List (κ × α) :=
  match lookup m key with
  | some _ => m
  | none => m ++ [(key, v)]

/-- The loop `for (const auto& arg : expr.args) args.emplace_back(safe_at(..., arg.get()))`. -/
def safe_at_all {α : Type} (m : List (ExprPtr × α)) : List ExprPtr → Except String (List α)
  | [] => .ok []
  | key :: rest =>
    match safe_at m key with
    | .error e => .error e
    | .ok v =>
      match safe_at_all m rest with
      | .error e => .error e
      | .ok vs => .ok (v :: vs)

/-- The loop over `expr.inputs` in `ShapeEvaluator::Visit(const ContractionExpr&)`. -/
def ShapeEvaluator.inputShapes (bindings : List (ExprPtr × Binding)) :
    List TensorSpecExpr → Except String (List TensorShape)
  | [] => .ok []
  | input :: rest =>
    match safe_at bindings input.ref with
    | .error e => .error e
    | .ok (.TENSOR shape) =>
      match ShapeEvaluator.inputShapes bindings rest with
      | .error e => .error e
      | .ok shapes => .ok (shape :: shapes)
    | .ok _ => .error "Unexpected TensorSpecExpr in ContractionExpr."

/-- The `Visit` overloads of `ShapeEvaluator`, selected by `Accept`, on the map
`bindings_by_expr_`. -/
def ShapeEvaluator.Visit (env : Extern) (heap : Heap) (bindings : List (ExprPtr × Binding))
    (expr : ExprPtr) : Except String (List (ExprPtr × Binding)) :=
  match (heap expr).node with
  | .ParamExpr shape => .ok (emplace bindings expr (.TENSOR shape))
  | .CallExpr fn args =>
    match safe_at_all bindings args with
    | .error e => .error e
    | .ok bs =>
      match SpecialOpRegistry.Resolve env fn with
      | some op =>
        match op bs with
        | .error e => .error e
        | .ok shape => .ok (emplace bindings expr (.TENSOR shape))
      | none =>
        match ComputeOutputShape env bs with
        | .error e => .error e
        | .ok shape => .ok (emplace bindings expr (.TENSOR shape))
  | .ConstraintExpr _ => .error "Not implemented"
  | .ContractionExpr cion =>
    if cion.combo_op = CombinationOp.COND then
      .ok (emplace bindings expr
        (.TENSOR (SimpleShape DataType.BOOLEAN cion.output.output_sizes)))
    else
      match ShapeEvaluator.inputShapes bindings cion.inputs with
      | .error e => .error e
      | .ok shapes =>
        .ok (emplace bindings expr
          (.TENSOR (SimpleShape (ComputeOutputType env shapes) cion.output.output_sizes)))
  | .FloatConst value => .ok (emplace bindings expr (.FCONST value DataType.FLOAT32))
  | .IntConst value => .ok (emplace bindings expr (.ICONST value))
  | .TensorSpecExpr _ => .error "Not implemented"

/-- The constructor `ShapeEvaluator(flat, bindings)`: visits the nodes of `flat` in order. -/
def ShapeEvaluator (env : Extern) (heap : Heap) :
    List ExprPtr → List (ExprPtr × Binding) → Except String (List (ExprPtr × Binding))
  | [], bindings => .ok bindings
  | expr :: rest, bindings =>
    match ShapeEvaluator.Visit env heap bindings expr with
    | .error e => .error e
    | .ok bindings1 => ShapeEvaluator env heap rest bindings1

/-! ## Polynomials (tile/math/polynomial.h) and PolyEvaluator (tile_cc.cc 319-375) -/

/-- Modelled from the spec: `math::Polynomial<math::Rational>` of
`tile/math/polynomial.h`, "canonical affine form over rationals": a finite map from
variable names to non-zero coefficients, the constant term under the empty name,
kept sorted by name. -/
structure Polynomial where
  terms : List (String × ℚ)
  deriving DecidableEq

/-- Modelled from the spec: adds `c * name` to a sorted list of terms. -/
def Polynomial.addTerm (name : String) (c : ℚ) : List (String × ℚ) → List (String × ℚ)
  | [] => if c = 0 then [] else [(name, c)]
  | (n, d) :: rest =>
    if name = n then
      if c + d = 0 then rest else (n, c + d) :: rest
    else if name < n then
      if c = 0 then (n, d) :: rest else (name, c) :: (n, d) :: rest
    else (n, d) :: Polynomial.addTerm name c rest

/-- Modelled from the spec: the constructor `Polynomial(value)`. -/
def Polynomial.ofConst (c : ℚ) : Polynomial :=
  ⟨Polynomial.addTerm "" c []⟩

/-- Modelled from the spec: the constructor `Polynomial(name)`, the variable `name`. -/
def Polynomial.ofIndex (name : String) : Polynomial :=
  ⟨[(name, 1)]⟩

/-- Modelled from the spec: `operator+`. -/
def Polynomial.add (p q : Polynomial) : Polynomial :=
  ⟨q.terms.foldl (fun acc t => Polynomial.addTerm t.1 t.2 acc) p.terms⟩

/-- Modelled from the spec: multiplication by a constant. -/
def Polynomial.scale (p : Polynomial) (c : ℚ) : Polynomial :=
  if c = 0 then ⟨[]⟩ else ⟨p.terms.map (fun t => (t.1, t.2 * c))⟩

/-- Modelled from the spec: unary `operator-`. -/
def Polynomial.neg (p : Polynomial) : Polynomial :=
  p.scale (-1)

/-- Modelled from the spec: binary `operator-`. -/
def Polynomial.sub (p q : Polynomial) : Polynomial :=
  p.add q.neg

/-- Modelled from the spec: `isConstant()`, no variable occurs. -/
def Polynomial.isConstant (p : Polynomial) : Bool :=
  p.terms.all (fun t => t.1 = "")

/-- Modelled from the spec: `constant()`, the constant term. -/
def Polynomial.constant (p : Polynomial) : ℚ :=
  (lookup p.terms "").getD 0

/-- Modelled from the spec: division by a constant, "result = lhs / constant",
taken in the field of rationals.  The spec names no failure of the division
itself, so none is modelled; a zero divisor gives the zero polynomial. -/
def Polynomial.div (p : Polynomial) (c : ℚ) : Polynomial :=
  p.scale c⁻¹

/-- Fields of `PolyEvaluator` (`constraints_` is never used). -/
structure PolyEvaluator where
  seen_ : List (Nat × String)
  next_ : Nat

/-- The `Visit` overloads of `PolyEvaluator`, selected by `Accept`.  The unchecked
`expr.operands[0]` of a `neg` without operands is undefined behaviour in C++; the
model reports it as an error of its own. -/
def PolyEvaluator.Visit : PolyExpr → PolyEvaluator → Except String (Polynomial × PolyEvaluator)
  | .PolyIndex ptr name, pe =>
    match lookup pe.seen_ ptr with
    | some found => .ok (Polynomial.ofIndex found, pe)
    | none =>
      if name = "" then
        .ok (Polynomial.ofIndex ("x" ++ toString pe.next_),
          { seen_ := pe.seen_ ++ [(ptr, "x" ++ toString pe.next_)], next_ := pe.next_ + 1 })
      else
        .ok (Polynomial.ofIndex name, { pe with seen_ := pe.seen_ ++ [(ptr, name)] })
  | .PolyLiteral value, pe => .ok (Polynomial.ofConst value, pe)
  | .PolyOp op operands, pe =>
    if op = "neg" then
      match operands with
      | [] => .error "undefined behaviour: expr.operands[0] out of range"
      | a :: _ =>
        match PolyEvaluator.Visit a pe with
        | .error e => .error e
        | .ok (p, pe1) => .ok (p.neg, pe1)
    else
      match operands with
      | [a, b] =>
        match PolyEvaluator.Visit a pe with
        | .error e => .error e
        | .ok (lhs, pe1) =>
          match PolyEvaluator.Visit b pe1 with
          | .error e => .error e
          | .ok (rhs, pe2) =>
            if op = "add" then .ok (lhs.add rhs, pe2)
            else if op = "sub" then .ok (lhs.sub rhs, pe2)
            else if op = "mul" then
              if lhs.isConstant then .ok (rhs.scale lhs.constant, pe2)
              else if rhs.isConstant then .ok (lhs.scale rhs.constant, pe2)
              else .error "Non-linear polynomial"
            else if op = "div" then
              if ¬ rhs.isConstant then .error "Divisor of polynomials must be a constant"
              else .ok (lhs.div rhs.constant, pe2)
            else .error "Unknown PolyOp"
      | _ => .error "Invalid number of operands in PolyOp"

/-- The loops `for (const auto& idx : ...index_spec) ...push_back(idx->Accept(&poly_eval))`. -/
def PolyEvaluator.VisitAll : List PolyExpr → PolyEvaluator →
    Except String (List Polynomial × PolyEvaluator)
  | [], pe => .ok ([], pe)
  | idx :: rest, pe =>
    match PolyEvaluator.Visit idx pe with
    | .error e => .error e
    | .ok (poly, pe1) =>
      match PolyEvaluator.VisitAll rest pe1 with
      | .error e => .error e
      | .ok (polys, pe2) => .ok (poly :: polys, pe2)

/-! ## The emitted program (tile/lang/ops.h) and Evaluator (tile_cc.cc 640-812) -/

/-- The struct `TensorSpec` of the emitted program. -/
structure TensorSpec where
  id : String
  spec : List Polynomial
  deriving DecidableEq

/-- The struct `math::RangeConstraint`: `0 <= poly < range`. -/
structure RangeConstraint where
  poly : Polynomial
  range : Int
  deriving DecidableEq

/-- The struct `Contraction` of the emitted program (`use_default` empty when unset). -/
structure Contraction where
  agg_op : AggregationOp
  comb_op : CombinationOp
  no_defract : Bool
  use_default : String
  specs : List TensorSpec
  output_size : List String
  constraints : List RangeConstraint
  deriving DecidableEq

/-- The tag of an `Op`. -/
inductive OpTag where
  | CONSTANT
  | FUNCTION
  | CONTRACTION
  deriving DecidableEq, Repr

/-- The struct `Op`: `c` is `none` for the value-initialised `{}` of a constant or a
function, and `f` is the name in the `Function` member (empty for a contraction). -/
structure Op where
  tag : OpTag
  output : String
  inputs : List String
  c : Option Contraction
  f : String
  deriving DecidableEq

/-- The struct `Input` (always `Input::FIXED` here): name and per-dim names. -/
structure Input where
  name : String
  dims : List String
  deriving DecidableEq

/-- The struct `Program`. -/
structure Program where
  inputs : List Input
  ops : List Op
  outputs : List String
  next_tmp : Nat
  deriving DecidableEq

/-- The struct `RunInfo`, without the pretty-printed `code`. -/
structure RunInfo where
  program_name : String
  program : Program
  input_shapes : List (String × TensorShape)
  output_shapes : List (String × TensorShape)
  vars : List (String × Binding)
  from_edsl : Bool

/-- Fields of `Evaluator`; `names_` is used as a set. -/
structure Evaluator where
  names_ : List String
  names_by_expr_ : List (ExprPtr × String)
  bindings_by_expr_ : List (ExprPtr × Binding)
  runinfo_ : RunInfo

/-- The method `MakeUniqueName`: `pfx` itself when it is new, otherwise `pfx`
followed by the least `i` that makes a new name (the search is cut after
`names_.size() + 1` candidates, one of which must be new).  Returns the name and
the new `names_`. -/
def Evaluator.MakeUniqueName (pfx : String) (names_ : List String) : String × List String :=
  if pfx ∉ names_ then (pfx, pfx :: names_)
  else
    match (List.range (names_.length + 1)).find? (fun i => decide (pfx ++ toString i ∉ names_)) with
    | some i => (pfx ++ toString i, (pfx ++ toString i) :: names_)
    | none => (pfx, names_)

/-- The method `NewTmp`: the name for a node and the evaluator after it. -/
def Evaluator.NewTmp (name : String) (ev : Evaluator) : String × Evaluator :=
  if name = "" then
    ("_X" ++ toString ev.runinfo_.program.next_tmp,
      { ev with runinfo_ := { ev.runinfo_ with
          program := { ev.runinfo_.program with next_tmp := ev.runinfo_.program.next_tmp + 1 } } })
  else
    let r := Evaluator.MakeUniqueName name ev.names_
    (r.1, { ev with names_ := r.2 })

/-- Adds an op and records the name of the node (`ops.emplace_back(op)` and
`names_by_expr_.emplace(&expr, name)`). -/
def Evaluator.emitOp (ev : Evaluator) (expr : ExprPtr) (op : Op) : Evaluator :=
  { ev with
    runinfo_ := { ev.runinfo_ with
      program := { ev.runinfo_.program with ops := ev.runinfo_.program.ops ++ [op] } },
    names_by_expr_ := emplace ev.names_by_expr_ expr op.output }

/-- The loop over `expr.inputs` in `Evaluator::Visit(const ContractionExpr&)`: the
names of the refs, the input specs, and the polynomial evaluator after them. -/
def Evaluator.inputSpecs (names : List (ExprPtr × String)) :
    List TensorSpecExpr → PolyEvaluator →
    Except String (List String × List TensorSpec × PolyEvaluator)
  | [], pe => .ok ([], [], pe)
  | input :: rest, pe =>
    match safe_at names input.ref with
    | .error e => .error e
    | .ok id =>
      match PolyEvaluator.VisitAll input.index_spec pe with
      | .error e => .error e
      | .ok (spec, pe1) =>
        match Evaluator.inputSpecs names rest pe1 with
        | .error e => .error e
        | .ok (inputs, specs, pe2) => .ok (id :: inputs, { id := id, spec := spec } :: specs, pe2)

/-- The loop over `expr.constraints` in `Evaluator::Visit(const ContractionExpr&)`. -/
def Evaluator.rangeConstraints : List ConstraintExpr → PolyEvaluator →
    Except String (List RangeConstraint × PolyEvaluator)
  | [], pe => .ok ([], pe)
  | constraint :: rest, pe =>
    match PolyEvaluator.Visit constraint.lhs pe with
    | .error e => .error e
    | .ok (poly, pe1) =>
      match Evaluator.rangeConstraints rest pe1 with
      | .error e => .error e
      | .ok (bounds, pe2) => .ok ({ poly := poly, range := (constraint.rhs : Int) } :: bounds, pe2)

/-- The method `Evaluator::Visit(const ContractionExpr&)`. -/
def Evaluator.VisitContraction (ev : Evaluator) (expr : ExprPtr) (exprName : String)
    (cion : ContractionExpr) : Except String Evaluator :=
  match (match cion.use_default with
         | some d => safe_at ev.names_by_expr_ d
         | none => .ok "") with
  | .error e => .error e
  | .ok use_default =>
    match Evaluator.inputSpecs ev.names_by_expr_ cion.inputs { seen_ := [], next_ := 0 } with
    | .error e => .error e
    | .ok (inputs, specs, pe1) =>
      let r := Evaluator.NewTmp exprName ev
      match PolyEvaluator.VisitAll cion.output.index_spec pe1 with
      | .error e => .error e
      | .ok (outSpec, pe2) =>
        match Evaluator.rangeConstraints cion.constraints pe2 with
        | .error e => .error e
        | .ok (bounds, _) =>
          .ok (Evaluator.emitOp r.2 expr
            { tag := OpTag.CONTRACTION,
              output := r.1,
              inputs := inputs,
              c := some
                { agg_op := cion.agg_op,
                  comb_op := cion.combo_op,
                  no_defract := cion.no_defract,
                  use_default := use_default,
                  specs := { id := r.1, spec := outSpec } :: specs,
                  output_size := cion.output.output_sizes.map (fun size => toString size),
                  constraints := bounds },
              f := "" })

/-- The `Visit` overloads of `Evaluator`, selected by `Accept`. -/
def Evaluator.Visit (env : Extern) (heap : Heap) (ev : Evaluator) (expr : ExprPtr) :
    Except String Evaluator :=
  match (heap expr).node with
  | .ParamExpr shape =>
    let r := Evaluator.NewTmp (heap expr).name ev
    let input : Input :=
      { name := r.1,
        dims := (List.range shape.dims.length).map (fun i => r.1 ++ "_" ++ toString i) }
    .ok { r.2 with
      runinfo_ := { r.2.runinfo_ with
        program := { r.2.runinfo_.program with inputs := r.2.runinfo_.program.inputs ++ [input] },
        input_shapes := emplace r.2.runinfo_.input_shapes r.1 shape },
      names_by_expr_ := emplace r.2.names_by_expr_ expr r.1 }
  | .FloatConst value =>
    let r := Evaluator.NewTmp (heap expr).name ev
    .ok (Evaluator.emitOp r.2 expr
      { tag := OpTag.CONSTANT, output := r.1, inputs := [env.double_to_string value],
        c := none, f := "fconst" })
  | .IntConst value =>
    let r := Evaluator.NewTmp (heap expr).name ev
    .ok (Evaluator.emitOp r.2 expr
      { tag := OpTag.CONSTANT, output := r.1, inputs := [toString value],
        c := none, f := "iconst" })
  | .CallExpr fn args =>
    match safe_at_all ev.names_by_expr_ args with
    | .error e => .error e
    | .ok argNames =>
      let r := Evaluator.NewTmp (heap expr).name ev
      .ok (Evaluator.emitOp r.2 expr
        { tag := OpTag.FUNCTION, output := r.1, inputs := argNames, c := none, f := fn })
  | .ConstraintExpr _ => .error "Not implemented"
  | .ContractionExpr cion => Evaluator.VisitContraction ev expr (heap expr).name cion
  | .TensorSpecExpr _ => .error "Not implemented"

/-- The loop `for (const auto& expr : traversal.flat()) expr->Accept(this)`. -/
def Evaluator.VisitAll (env : Extern) (heap : Heap) :
    List ExprPtr → Evaluator → Except String Evaluator
  | [], ev => .ok ev
  | expr :: rest, ev =>
    match Evaluator.Visit env heap ev expr with
    | .error e => .error e
    | .ok ev1 => Evaluator.VisitAll env heap rest ev1

/-- Modelled from the spec: the `shape` member of a `Binding` (declared in a header
not at hand); a tensor binding holds its shape, a constant the scalar shape of its
dtype. -/
def Binding.shape : Binding → TensorShape
  | .TENSOR shape => shape
  | .ICONST _ => { type := DataType.INT32, dims := [] }
  | .FCONST _ type => { type := type, dims := [] }
  | .TUPLE _ => { type := DataType.INVALID, dims := [] }

/-- The loop over the roots at the end of `Evaluate`: records each output's name
and shape. -/
def Evaluator.recordOutputs : List ExprPtr → Evaluator → Except String Evaluator
  | [], ev => .ok ev
  | expr :: rest, ev =>
    match safe_at ev.names_by_expr_ expr with
    | .error e => .error e
    | .ok name =>
      match safe_at ev.bindings_by_expr_ expr with
      | .error e => .error e
      | .ok binding =>
        Evaluator.recordOutputs rest
          { ev with runinfo_ := { ev.runinfo_ with
              output_shapes := emplace ev.runinfo_.output_shapes name binding.shape,
              program := { ev.runinfo_.program with
                outputs := ev.runinfo_.program.outputs ++ [name] } } }

/-- The loop `for (const auto& kvp : names_by_expr_)` at the end of `Evaluate`,
taken in insertion order. -/
def Evaluator.recordVars (bindings : List (ExprPtr × Binding)) :
    List (ExprPtr × String) → List (String × Binding) → Except String (List (String × Binding))
  | [], vars => .ok vars
  | (expr, name) :: rest, vars =>
    match safe_at bindings expr with
    | .error e => .error e
    | .ok binding => Evaluator.recordVars bindings rest (emplace vars name binding)

/-- The state of a fresh `Evaluator(name)`. -/
def Evaluator.new (name : String) : Evaluator :=
  { names_ := [], names_by_expr_ := [], bindings_by_expr_ := [],
    runinfo_ :=
      { program_name := name,
        program := { inputs := [], ops := [], outputs := [], next_tmp := 0 },
        input_shapes := [], output_shapes := [], vars := [], from_edsl := false } }

/-- The function `Evaluate(name, vars)`, i.e. `Evaluator(name).Evaluate(vars)`, with
`vars` given by the expressions the tensors hold and `fuel` bounding the
iterations of the traversal loop (`none` when that bound is hit). -/
def Evaluate (env : Extern) (fuel : Nat) (heap : Heap) (name : String) (vars : List ExprPtr) :
    Option (Except String RunInfo) :=
  match AstTraversal.flat fuel heap vars with
  | none => none
  | some (.error e) => some (.error e)
  | some (.ok flat) =>
    some
      (match ShapeEvaluator env heap flat [] with
       | .error e => .error e
       | .ok bindings =>
         match Evaluator.VisitAll env heap flat
             { Evaluator.new name with bindings_by_expr_ := bindings } with
         | .error e => .error e
         | .ok ev1 =>
           match Evaluator.recordOutputs vars ev1 with
           | .error e => .error e
           | .ok ev2 =>
             match Evaluator.recordVars ev2.bindings_by_expr_ ev2.names_by_expr_
                 ev2.runinfo_.vars with
             | .error e => .error e
             | .ok vs => .ok { ev2.runinfo_ with vars := vs, from_edsl := true })

/-! ## Vocabulary of the statements about Evaluate -/

/-- Whether the node is a `ParamExpr` (it then becomes an `Input`, not an `Op`). -/
def ExprNode.isParam : ExprNode → Bool
  | .ParamExpr _ => true
  | _ => false

/-- The nodes whose names make up the `inputs` list of the op emitted for a node:
the args of a `CallExpr`, the refs of the inputs of a `ContractionExpr`. -/
def ExprNode.inputRefs : ExprNode → List ExprPtr
  | .CallExpr _ args => args
  | .ContractionExpr cion => cion.inputs.map (fun input => input.ref)
  | _ => []

/-- The names a program defines: the names of its inputs, then the outputs of its ops. -/
def Program.names (p : Program) : List String :=
  p.inputs.map (fun i => i.name) ++ p.ops.map (fun o => o.output)

/-- A diamond: `4 = add(2, 3)` with `2 = neg(1)`, `3 = neg(1)`, `1 = neg(0)` over
the constant `0`. -/
def diamondHeap : Heap := fun p =>
  match p with
  | 0 => ⟨"", .IntConst 7⟩
  | 1 => ⟨"", .CallExpr "neg" [0]⟩
  | 2 => ⟨"", .CallExpr "neg" [1]⟩
  | 3 => ⟨"", .CallExpr "neg" [1]⟩
  | 4 => ⟨"", .CallExpr "add" [2, 3]⟩
  | _ => ⟨"", .IntConst 0⟩

/-- The invariant of the evaluator behind name uniqueness: the names defined so far
are distinct, and each is either an automatic name `_X<k>` with `k` below the
counter or a name recorded in `names_` that does not begin with an underscore. -/
structure Evaluator.NamesOk (ev : Evaluator) : Prop where
  nodup : ev.runinfo_.program.names.Nodup
  origin : ∀ n ∈ ev.runinfo_.program.names,
    (∃ k, k < ev.runinfo_.program.next_tmp ∧ n = "_X" ++ toString k) ∨
      (n ∈ ev.names_ ∧ n.data.head? ≠ some '_')

/-- The invariant of the evaluator behind the topological order: every recorded
name is defined by the program so far, and every input of a FUNCTION or
CONTRACTION op is the name of an `Input` or the output of an earlier op. -/
structure Evaluator.Topo (ev : Evaluator) : Prop where
  named : ∀ k n, lookup ev.names_by_expr_ k = some n → n ∈ ev.runinfo_.program.names
  ordered : ∀ pre op post, ev.runinfo_.program.ops = pre ++ op :: post →
    op.tag ≠ OpTag.CONSTANT → ∀ n ∈ op.inputs,
      (∃ i ∈ ev.runinfo_.program.inputs, i.name = n) ∨ (∃ o ∈ pre, o.output = n)

/-- Two parameters with the same user name `A` and their sum. -/
def dupHeap : Heap := fun p =>
  match p with
  | 0 => ⟨"A", .ParamExpr ⟨.FLOAT32, [⟨1, 3⟩]⟩⟩
  | 1 => ⟨"A", .ParamExpr ⟨.FLOAT32, [⟨1, 3⟩]⟩⟩
  | 2 => ⟨"", .CallExpr "add" [0, 1]⟩
  | _ => ⟨"", .IntConst 0⟩

/-! ## Vocabulary: the binary promotion step -/

/-- The binary promotion step on dtypes, `p(ret, cur)`: one iteration of the loop
of `ComputeOutputType` on a shape of dtype `cur`. -/
def ComputeOutputType.promote (env : Extern) (ret cur : DataType) : DataType :=
  ComputeOutputType.step env ret { type := cur, dims := [] }

/-! ## Vocabulary: affine index trees -/

/-- A `PolyExpr` tree without index variables: integer literals under `neg`, `add`,
`sub`, `mul` and `div`, each with the operand count the `Index` operators give it. -/
def PolyExpr.isConstantTree : PolyExpr → Bool
  | .PolyIndex _ _ => false
  | .PolyLiteral _ => true
  | .PolyOp op [a] => op = "neg" && a.isConstantTree
  | .PolyOp op [a, b] =>
    (op = "add" || op = "sub" || op = "mul" || op = "div") && a.isConstantTree && b.isConstantTree
  | .PolyOp _ _ => false

/-- A `PolyExpr` tree built only from index variables, integer literals, `neg`,
`add` and `sub`, plus `mul` with a constant tree on at least one side and `div`
with a constant tree on the right. -/
def PolyExpr.isAffineTree : PolyExpr → Bool
  | .PolyIndex _ _ => true
  | .PolyLiteral _ => true
  | .PolyOp op [a] => op = "neg" && a.isAffineTree
  | .PolyOp op [a, b] =>
    ((op = "add" || op = "sub") && a.isAffineTree && b.isAffineTree) ||
    (op = "mul" && ((a.isConstantTree && b.isAffineTree) || (a.isAffineTree && b.isConstantTree))) ||
    (op = "div" && a.isAffineTree && b.isConstantTree)
  | .PolyOp _ _ => false

/-- The variable names a `PolyEvaluator` has assigned to index variables so far. -/
def PolyEvaluator.names (pe : PolyEvaluator) : List String :=
  pe.seen_.map (fun kv => kv.2)

/-! ## The builder: Index, Tensor, Access (tile_cc.cc 36-317, 812-827) -/

/-- The struct `Index::Impl`. -/
structure Index.Impl where
  expr : PolyExpr
  constraints : List ConstraintExpr

/-- The struct `Tensor::Impl`. -/
structure Tensor.Impl where
  expr : ExprPtr

/-- The struct `Access::Impl`; `src` is `none` for the null pointer. -/
structure Access.Impl where
  expr : ExprPtr
  src : Option Nat

/-- An `Index` object: the address of the `Index::Impl` its `shared_ptr` holds
(copies of an `Index` share it). -/
abbrev Index := Nat

/-- A `Tensor` object: the address of the `Tensor::Impl` it owns. -/
abbrev Tensor := Nat

/-- An `Access` object, given by the `Access::Impl` it owns. -/
abbrev Access := Access.Impl

/-- The objects the builder has allocated so far: the `Expr` nodes, the
`Index::Impl` objects and the `Tensor::Impl` objects, each with the next free
address. -/
structure Store where
  exprs : Heap
  next_expr : ExprPtr
  indexes : Nat → Index.Impl
  next_index : Nat
  tensors : Nat → Tensor.Impl
  next_tensor : Nat

/-- The store before anything is allocated. -/
def Store.empty : Store :=
  { exprs := fun _ => { name := "", node := .IntConst 0 },
    next_expr := 0,
    indexes := fun _ => { expr := .PolyLiteral 0, constraints := [] },
    next_index := 0,
    tensors := fun _ => { expr := 0 },
    next_tensor := 0 }

/-- Allocation of an `Expr` node (`std::make_shared`): its address and the store
after it. -/
def Store.newExpr (st : Store) (e : Expr) : ExprPtr × Store :=
  (st.next_expr,
    { st with
      exprs := fun p => if p = st.next_expr then e else st.exprs p,
      next_expr := st.next_expr + 1 })

/-- Allocation of an `Index::Impl` whose `expr` may hold the address of the new
object (`impl_.get()`). -/
def Store.newIndex (st : Store) (expr : Nat → PolyExpr) : Index × Store :=
  (st.next_index,
    { st with
      indexes := fun p =>
        if p = st.next_index then { expr := expr st.next_index, constraints := [] }
        else st.indexes p,
      next_index := st.next_index + 1 })

/-- Allocation of a `Tensor::Impl` holding `expr`. -/
def Store.newTensor (st : Store) (expr : ExprPtr) : Tensor × Store :=
  (st.next_tensor,
    { st with
      tensors := fun p => if p = st.next_tensor then { expr := expr } else st.tensors p,
      next_tensor := st.next_tensor + 1 })

/-- The constructors `Index::Index()` and `Index::Index(const std::string& name)`;
the default constructor leaves the name empty. -/
def Index.Index_name (name : String) (st : Store) : Index × Store :=
  st.newIndex (fun ptr => .PolyIndex ptr name)

/-- The constructor `Index::Index(size_t value)`. -/
def Index.Index_value (value : Nat) (st : Store) : Index × Store :=
  st.newIndex (fun _ => .PolyLiteral (toInt64 value))

/-- The method `Index::Impl::MakePolyOp(op, args)`. -/
def Index.Impl.MakePolyOp (op : String) (args : List Index) (st : Store) : Index × Store :=
  st.newIndex (fun _ => .PolyOp op (args.map (fun arg => (st.indexes arg).expr)))

/-- The unary `Index::operator-`. -/
def Index.neg (self : Index) (st : Store) : Index × Store :=
  Index.Impl.MakePolyOp "neg" [self] st

/-- The operator `Index::operator+`. -/
def Index.add (self rhs : Index) (st : Store) : Index × Store :=
  Index.Impl.MakePolyOp "add" [self, rhs] st

/-- The binary `Index::operator-`. -/
def Index.sub (self rhs : Index) (st : Store) : Index × Store :=
  Index.Impl.MakePolyOp "sub" [self, rhs] st

/-- The operator `Index::operator*`. -/
def Index.mul (self rhs : Index) (st : Store) : Index × Store :=
  Index.Impl.MakePolyOp "mul" [self, rhs] st

/-- The operator `Index::operator/`. -/
def Index.div (self rhs : Index) (st : Store) : Index × Store :=
  Index.Impl.MakePolyOp "div" [self, rhs] st

/-- The operator `Index::operator<(size_t rhs)`: appends a `ConstraintExpr` to the
constraints of this `Index` (the returned `Constraint` carries nothing). -/
def Index.lt (self : Index) (rhs : Nat) (st : Store) : Store :=
  { st with
    indexes := fun p =>
      if p = self then
        { expr := (st.indexes self).expr,
          constraints := (st.indexes self).constraints ++
            [{ lhs := (st.indexes self).expr, rhs := rhs }] }
      else st.indexes p }

/-- The constructor `Tensor::Tensor(const TensorShape& shape, const std::string& name)`. -/
def Tensor.Tensor_shape (shape : TensorShape) (name : String) (st : Store) : Tensor × Store :=
  let r := st.newExpr { name := name, node := .ParamExpr shape }
  r.2.newTensor r.1

/-- The constructor `Tensor::Tensor(const std::string& name)`; a default
`TensorShape{}` has no dims and the dtype `INVALID`. -/
def Tensor.Tensor_name (name : String) (st : Store) : Tensor × Store :=
  Tensor.Tensor_shape { type := DataType.INVALID, dims := [] } name st

/-- The constructors `Tensor::Tensor(int value)` and `Tensor::Tensor(int64_t value)`. -/
def Tensor.Tensor_int (value : Int) (st : Store) : Tensor × Store :=
  let r := st.newExpr { name := "", node := .IntConst value }
  r.2.newTensor r.1

/-- The constructor `Tensor::Tensor(double value)`. -/
def Tensor.Tensor_double (value : Double) (st : Store) : Tensor × Store :=
  let r := st.newExpr { name := "", node := .FloatConst value }
  r.2.newTensor r.1

/-- The function `Call(fn, args)`. -/
def Call (fn : String) (args : List Tensor) (st : Store) : Tensor × Store :=
  let r := st.newExpr
    { name := "", node := .CallExpr fn (args.map (fun tensor => (st.tensors tensor).expr)) }
  r.2.newTensor r.1

/-- The operator `Tensor::operator+`. -/
def Tensor.add (self rhs : Tensor) (st : Store) : Tensor × Store :=
  Call "add" [self, rhs] st

/-- The function `EvaluateShape(expr)`; `fuel` bounds the iterations of the
traversal loop (`none` when that bound is hit). -/
def EvaluateShape (env : Extern) (fuel : Nat) (heap : Heap) (expr : ExprPtr) :
    Option (Except String TensorShape) :=
  match AstTraversal.flat fuel heap [expr] with
  | none => none
  | some (.error e) => some (.error e)
  | some (.ok flat) =>
    some
      (match ShapeEvaluator env heap flat [] with
       | .error e => .error e
       | .ok bindings =>
         match safe_at bindings expr with
         | .error e => .error e
         | .ok binding => .ok binding.shape)

/-- The method `Tensor::shape()`. -/
def Tensor.shape (env : Extern) (fuel : Nat) (self : Tensor) (st : Store) :
    Option (Except String TensorShape) :=
  EvaluateShape env fuel st.exprs (st.tensors self).expr

/-- The method `Tensor::dims(dim)`. -/
def Tensor.dims (env : Extern) (fuel : Nat) (self : Tensor) (dim : Nat) (st : Store) :
    Option (Except String Nat) :=
  match Tensor.shape env fuel self st with
  | none => none
  | some (.error e) => some (.error e)
  | some (.ok this_shape) =>
    some
      (match this_shape.dims[dim]? with
       | none => .error "Requested dimension number higher than number of tensor dimensions"
       | some d => .ok d.size)

/-- The operator `Tensor::operator()(idxs, sizes)`, the access of a contraction
output. -/
def Tensor.operator_call_sizes (self : Tensor) (idxs : List Index) (sizes : List Nat)
    (st : Store) : Except String (Access × Store) :=
  if idxs.length ≠ sizes.length then
    .error ("Dimensions and sizes mismatch in contraction output. Indexes: " ++
      toString idxs.length ++ ", Sizes: " ++ toString sizes.length)
  else
    let r := st.newExpr
      { name := "",
        node := .TensorSpecExpr
          { ref := (st.tensors self).expr,
            index_spec := idxs.map (fun idx => (st.indexes idx).expr),
            output_sizes := sizes } }
    .ok ({ expr := r.1, src := some self }, r.2)

/-- The operator `Tensor::operator()(idxs) const`, the access of a contraction
input. -/
def Tensor.operator_call (env : Extern) (fuel : Nat) (self : Tensor) (idxs : List Index)
    (st : Store) : Option (Except String (Access × Store)) :=
  match Tensor.shape env fuel self st with
  | none => none
  | some (.error e) => some (.error e)
  | some (.ok this_shape) =>
    some
      (if idxs.length ≠ this_shape.dims.length then
        .error ("Unexpected number of dimensions in contraction input. Expected: " ++
          toString this_shape.dims.length ++ ", Actual: " ++ toString idxs.length)
      else
        let r := st.newExpr
          { name := "",
            node := .TensorSpecExpr
              { ref := (st.tensors self).expr,
                index_spec := idxs.map (fun idx => (st.indexes idx).expr),
                output_sizes := [] } }
        .ok ({ expr := r.1, src := some self }, r.2))

/-- The `Visit` overloads of `ConstraintCollector`, selected by `Accept`, on the
member `constraints`. -/
def ConstraintCollector.Visit (indexes : Nat → Index.Impl) :
    PolyExpr → List ConstraintExpr → List ConstraintExpr
  | .PolyIndex ptr _, constraints => constraints ++ (indexes ptr).constraints
  | .PolyLiteral _, constraints => constraints
  | .PolyOp _ operands, constraints => VisitOperands operands constraints
where
  /-- The loop `for (const auto& op : expr.operands) op->Accept(this)`. -/
  VisitOperands : List PolyExpr → List ConstraintExpr → List ConstraintExpr
    | [], constraints => constraints
    | op :: rest, constraints => VisitOperands rest (ConstraintCollector.Visit indexes op constraints)

/-- The loops `for (const auto& idx : ...->index_spec) idx->Accept(&cc)`. -/
def ConstraintCollector.VisitAll (indexes : Nat → Index.Impl) (index_spec : List PolyExpr)
    (constraints : List ConstraintExpr) : List ConstraintExpr :=
  index_spec.foldl (fun acc idx => ConstraintCollector.Visit indexes idx acc) constraints

/-- The part of `MakeContraction` that reads `rhs`: the `combo_op` and the inputs,
`none` standing for the null pointer a failed `dynamic_pointer_cast` gives.  A
default-constructed `ContractionExpr` has `combo_op` `NONE`. -/
def Access.Impl.MakeContraction.inputs (heap : Heap) (rhs : ExprPtr) :
    Except String (CombinationOp × List (Option TensorSpecExpr)) :=
  match (heap rhs).node with
  | .TensorSpecExpr input_spec => .ok (CombinationOp.NONE, [some input_spec])
  | .CallExpr fn args =>
    .ok
      (if fn = "add" then CombinationOp.PLUS
       else if fn = "mul" then CombinationOp.MULTIPLY
       else if fn = "eq" then CombinationOp.EQ
       else if fn = "cond" then CombinationOp.COND
       else CombinationOp.NONE,
       args.map (fun arg =>
         match (heap arg).node with
         | .TensorSpecExpr spec => some spec
         | _ => none))
  | _ => .error "oops: call_expr"

/-- The loop over `cion_expr->inputs` of `MakeContraction`, which collects the
constraints of every input; `tensor->index_spec` on a null input is undefined
behaviour in C++ and the model reports it as an error of its own. -/
def Access.Impl.MakeContraction.collect (indexes : Nat → Index.Impl) :
    List (Option TensorSpecExpr) → List ConstraintExpr →
    Except String (List TensorSpecExpr × List ConstraintExpr)
  | [], constraints => .ok ([], constraints)
  | none :: _, _ => .error "undefined behaviour: null TensorSpecExpr dereferenced"
  | some tensor :: rest, constraints =>
    match Access.Impl.MakeContraction.collect indexes rest
        (ConstraintCollector.VisitAll indexes tensor.index_spec constraints) with
    | .error e => .error e
    | .ok (inputs, constraints1) => .ok (tensor :: inputs, constraints1)

/-- The method `Access::Impl::MakeContraction(agg_op, rhs)`.  A default-constructed
`ContractionExpr` has no `use_default`, `no_defract` false and an empty name; a null
`src` cannot be dereferenced. -/
def Access.Impl.MakeContraction (self : Access.Impl) (agg_op : AggregationOp) (rhs : Access)
    (st : Store) : Except String Store :=
  match (st.exprs self.expr).node with
  | .TensorSpecExpr output_spec =>
    match Access.Impl.MakeContraction.inputs st.exprs rhs.expr with
    | .error e => .error e
    | .ok (combo_op, specs) =>
      match Access.Impl.MakeContraction.collect st.indexes specs
          (ConstraintCollector.VisitAll st.indexes output_spec.index_spec []) with
      | .error e => .error e
      | .ok (inputs, constraints) =>
        match self.src with
        | none => .error "undefined behaviour: null src dereferenced"
        | some src =>
          let r := st.newExpr
            { name :=
                (match (st.exprs (st.tensors src).expr).node with
                 | .ParamExpr _ => (st.exprs (st.tensors src).expr).name
                 | _ => ""),
              node := .ContractionExpr
                { agg_op := agg_op,
                  combo_op := combo_op,
                  output := output_spec,
                  inputs := inputs,
                  constraints := constraints,
                  use_default := none,
                  no_defract := false } }
          .ok { r.2 with tensors := fun p => if p = src then { expr := r.1 } else r.2.tensors p }
  | _ => .error "oops: out_spec"

/-- The operator `Access::operator+=`. -/
def Access.add_assign (self rhs : Access) (st : Store) : Except String Store :=
  Access.Impl.MakeContraction self AggregationOp.SUM rhs st

/-- The operator `Access::operator*=`. -/
def Access.mul_assign (self rhs : Access) (st : Store) : Except String Store :=
  Access.Impl.MakeContraction self AggregationOp.PROD rhs st

/-- The operator `Access::operator>=`. -/
def Access.max_assign (self rhs : Access) (st : Store) : Except String Store :=
  Access.Impl.MakeContraction self AggregationOp.MAX rhs st

/-- The operator `Access::operator<=`. -/
def Access.min_assign (self rhs : Access) (st : Store) : Except String Store :=
  Access.Impl.MakeContraction self AggregationOp.MIN rhs st

/-- The operator `Access::operator=`. -/
def Access.assign (self rhs : Access) (st : Store) : Except String Store :=
  Access.Impl.MakeContraction self AggregationOp.ASSIGN rhs st

/-- The method `Access::Impl::MakeCall(fn, rhs)`. -/
def Access.Impl.MakeCall (self : Access.Impl) (fn : String) (rhs : Access) (st : Store) :
    Access × Store :=
  let r := st.newExpr { name := "", node := .CallExpr fn [self.expr, rhs.expr] }
  ({ expr := r.1, src := none }, r.2)

/-- The operator `Access::operator+`. -/
def Access.add (self rhs : Access) (st : Store) : Access × Store :=
  Access.Impl.MakeCall self "add" rhs st

/-- The operator `Access::operator*`. -/
def Access.mul (self rhs : Access) (st : Store) : Access × Store :=
  Access.Impl.MakeCall self "mul" rhs st

/-- The operator `Access::operator==`. -/
def Access.eq (self rhs : Access) (st : Store) : Access × Store :=
  Access.Impl.MakeCall self "eq" rhs st

/-- The function `cond(lhs, rhs, true_case)`. -/
def cond (lhs rhs true_case : Access) (st : Store) : Access × Store :=
  let r := st.newExpr
    { name := "", node := .CallExpr "cond" [lhs.expr, rhs.expr, true_case.expr] }
  ({ expr := r.1, src := none }, r.2)

/-! ## Vocabulary: the contraction a tensor holds and the leaves of an index tree -/

/-- The `ContractionExpr` a tensor holds, if its expression is one. -/
def Store.contractionOf (st : Store) (tensor : Tensor) : Option ContractionExpr :=
  match (st.exprs (st.tensors tensor).expr).node with
  | .ContractionExpr cion => some cion
  | _ => none

/-- The `PolyIndex` leaves of an index tree, each given by the address of the
owning `Index::Impl`, from left to right and with repetitions. -/
def PolyExpr.leaves : PolyExpr → List Nat
  | .PolyIndex ptr _ => [ptr]
  | .PolyLiteral _ => []
  | .PolyOp _ operands => leavesOf operands
where
  /-- The leaves of a list of operands. -/
  leavesOf : List PolyExpr → List Nat
    | [] => []
    | op :: rest => op.leaves ++ leavesOf rest

/-- The leaves of the index trees of the output spec and then of each input spec of
a contraction, in that order. -/
def ContractionExpr.leaves (cion : ContractionExpr) : List Nat :=
  (cion.output.index_spec ++ cion.inputs.flatMap (fun input => input.index_spec)).flatMap
    PolyExpr.leaves

/-! ## Example programs of the builder -/

/-- The store after `Index i; Tensor A(FLOAT32 [3], "A"), B(FLOAT32 [3], "B"), O("O")`:
the index is at address 0, the tensors are 0, 1 and 2. -/
def exampleStore : Store :=
  let i := Index.Index_name "" Store.empty
  let A := Tensor.Tensor_shape ⟨.FLOAT32, [⟨1, 3⟩]⟩ "A" i.2
  let B := Tensor.Tensor_shape ⟨.FLOAT32, [⟨1, 3⟩]⟩ "B" A.2
  (Tensor.Tensor_name "O" B.2).2

/-- The statement `O({i}, {3}) += rhs` on `exampleStore` extended to `st`. -/
def exampleAssign (rhs : Access) (st : Store) : Except String Store :=
  match Tensor.operator_call_sizes 2 [0] [3] st with
  | .error e => .error e
  | .ok (lhs, st1) => Access.add_assign lhs rhs st1

/-- The accesses `A({i})` and `B({i})` on `exampleStore`, with the store after them. -/
def exampleReads : Option (Except String (Access × Access × Store)) :=
  match Tensor.operator_call refEnv 4 0 [0] exampleStore with
  | none => none
  | some (.error e) => some (.error e)
  | some (.ok (a, st1)) =>
    match Tensor.operator_call refEnv 4 1 [0] st1 with
    | none => none
    | some (.error e) => some (.error e)
    | some (.ok (b, st2)) => some (.ok (a, b, st2))

/-- The statement `O({i}, {3}) += A({i}) - B({i})`, with the private `MakeCall`
applied to a `fn` that no operator of `Access` passes. -/
def exampleSub : Option (Except String Store) :=
  match exampleReads with
  | none => none
  | some (.error e) => some (.error e)
  | some (.ok (a, b, st)) =>
    let rhs := Access.Impl.MakeCall a "sub" b st
    some (exampleAssign rhs.1 rhs.2)

/-- The statement `O({i}, {3}) += (A({i}) + B({i})) + A({i})`. -/
def exampleNested : Option (Except String Store) :=
  match exampleReads with
  | none => none
  | some (.error e) => some (.error e)
  | some (.ok (a, b, st)) =>
    let ab := Access.add a b st
    let rhs := Access.add ab.1 a ab.2
    some (exampleAssign rhs.1 rhs.2)

/-- The statement `A({i}) += B({i})`: a read access on the left side. -/
def exampleReadLeft : Option (Except String Store) :=
  match exampleReads with
  | none => none
  | some (.error e) => some (.error e)
  | some (.ok (a, b, st)) => some (Access.add_assign a b st)

/-- The program `Index k; k < 5; O({k}, {3}) += A({k})` on `exampleStore` (its
index `i` is the `k` here). -/
def exampleTwice : Option (Except String Store) :=
  match Tensor.operator_call refEnv 4 0 [0] (Index.lt 0 5 exampleStore) with
  | none => none
  | some (.error e) => some (.error e)
  | some (.ok (a, st)) => some (exampleAssign a st)

/-- The program `Index k; Index j = i + k; j < 5; O({i}, {3}) += A({j})` on
`exampleStore`: the constraint is put on the compound index `j`. -/
def exampleCompound : Option (Except String Store) :=
  let k := Index.Index_name "" exampleStore
  let j := Index.add 0 k.1 k.2
  match Tensor.operator_call refEnv 4 0 [j.1] (Index.lt j.1 5 j.2) with
  | none => none
  | some (.error e) => some (.error e)
  | some (.ok (a, st)) => some (exampleAssign a st)

/-- The store after the access `O({i}, {3})` on `exampleStore`; the access is
`{ expr := 3, src := some 2 }`. -/
def exampleOutput : Store :=
  match Tensor.operator_call_sizes 2 [0] [3] exampleStore with
  | .ok (_, st) => st
  | .error _ => exampleStore

/-- Two parameters, `INT32` and `FLOAT32`, and a contraction over them with the
output sizes 3 and 4. -/
def cionHeap : Heap := fun p =>
  match p with
  | 0 => ⟨"A", .ParamExpr ⟨.INT32, [⟨1, 3⟩]⟩⟩
  | 1 => ⟨"B", .ParamExpr ⟨.FLOAT32, [⟨1, 4⟩]⟩⟩
  | 2 => ⟨"O", .ContractionExpr
      { agg_op := .SUM, combo_op := .MULTIPLY,
        output := ⟨3, [.PolyIndex 0 "", .PolyIndex 1 ""], [3, 4]⟩,
        inputs := [⟨0, [.PolyIndex 0 ""], []⟩, ⟨1, [.PolyIndex 1 ""], []⟩],
        constraints := [], use_default := none, no_defract := false }⟩
  | _ => ⟨"", .IntConst 0⟩

/-- The store after `O({i}, {3}) >= O({i}, {3})` with both sides the one access of
`exampleOutput`. -/
def exampleSelf : Store :=
  match Access.max_assign ⟨3, some 2⟩ ⟨3, some 2⟩ exampleOutput with
  | .ok st => st
  | .error _ => exampleOutput

/-- The store of `exampleTwice` before its `+=`: after `k < 5`, the access `A({k})`,
which is `{ expr := 3, src := some 0 }`, and the access `O({k}, {3})`, which is
`{ expr := 4, src := some 2 }`. -/
def exampleTwiceStore : Store :=
  match Tensor.operator_call refEnv 4 0 [0] (Index.lt 0 5 exampleStore) with
  | some (.ok (_, st)) =>
    (match Tensor.operator_call_sizes 2 [0] [3] st with
     | .ok (_, st1) => st1
     | .error _ => st)
  | _ => exampleStore

/-- The store of `exampleTwice` after its `+=`. -/
def exampleTwiceResult : Store :=
  match Access.add_assign ⟨4, some 2⟩ ⟨3, some 0⟩ exampleTwiceStore with
  | .ok st => st
  | .error _ => exampleTwiceStore

/-! ## MatMul (lib.cc 23-29) and the lowering of tensors -/

/-- The function `Evaluate(name, vars)` on `Tensor` objects: the expressions the
tensors hold are lowered. -/
def Store.Evaluate (env : Extern) (fuel : Nat) (name : String) (vars : List Tensor)
    (st : Store) : Option (Except String RunInfo) :=
  TileCC.Evaluate env fuel st.exprs name (vars.map (fun tensor => (st.tensors tensor).expr))

/-- The function `MatMul(A, B)` of `lib.cc`.  In the statement
`C({m, n}, {M, N}) += A({m, k}) * B({k, n})` the right operand is built first, its
two accesses from left to right. -/
def MatMul (env : Extern) (fuel : Nat) (A B : Tensor) (st : Store) :
    Option (Except String (Tensor × Store)) :=
  match Tensor.dims env fuel A 0 st with
  | none => none
  | some (.error e) => some (.error e)
  | some (.ok M) =>
    match Tensor.dims env fuel B 1 st with
    | none => none
    | some (.error e) => some (.error e)
    | some (.ok N) =>
      let k := Index.Index_name "k" st
      let m := Index.Index_name "m" k.2
      let n := Index.Index_name "n" m.2
      let C := Tensor.Tensor_name "C" n.2
      match Tensor.operator_call env fuel A [m.1, k.1] C.2 with
      | none => none
      | some (.error e) => some (.error e)
      | some (.ok (a, st1)) =>
        match Tensor.operator_call env fuel B [k.1, n.1] st1 with
        | none => none
        | some (.error e) => some (.error e)
        | some (.ok (b, st2)) =>
          let rhs := Access.mul a b st2
          match Tensor.operator_call_sizes C.1 [m.1, n.1] [M, N] rhs.2 with
          | .error e => some (.error e)
          | .ok (lhs, st3) =>
            match Access.add_assign lhs rhs.1 st3 with
            | .error e => some (.error e)
            | .ok st4 => some (.ok (C.1, st4))

/-- The program `Tensor A(shapeA, nameA), B(shapeB, nameB); MatMul(A, B)` on the
empty store: the product and the store after it. -/
def matmulExample (env : Extern) (fuel : Nat) (shapeA shapeB : TensorShape)
    (nameA nameB : String) : Option (Except String (Tensor × Store)) :=
  let A := Tensor.Tensor_shape shapeA nameA Store.empty
  let B := Tensor.Tensor_shape shapeB nameB A.2
  MatMul env fuel A.1 B.1 B.2

/-- The program `Index k, i; k < N; Tensor A(shape, nameA), O(nameO);
O({i}, {size}) += A({i + k})` on the empty store, where `shape` has the dtype `type`
and the one dim `dim`, and the right side of the `+=` is built first: the tensor
`O` and the store after it. -/
def forwardingExample (env : Extern) (fuel : Nat) (N size : Nat) (type : DataType)
    (dim : TensorDimension) (nameA nameO : String) : Option (Except String (Tensor × Store)) :=
  let k := Index.Index_name "" Store.empty
  let i := Index.Index_name "" k.2
  let st := Index.lt k.1 N i.2
  let A := Tensor.Tensor_shape { type := type, dims := [dim] } nameA st
  let O := Tensor.Tensor_name nameO A.2
  let ik := Index.add i.1 k.1 O.2
  match Tensor.operator_call env fuel A.1 [ik.1] ik.2 with
  | none => none
  | some (.error e) => some (.error e)
  | some (.ok (rhs, st1)) =>
    match Tensor.operator_call_sizes O.1 [i.1] [size] st1 with
    | .error e => some (.error e)
    | .ok (lhs, st2) =>
      match Access.add_assign lhs rhs st2 with
      | .error e => some (.error e)
      | .ok st3 => some (.ok (O.1, st3))

/-- The index variables of a contraction of the emitted program: the names that
occur in the polynomials of its specs, each once, in order of first occurrence. -/
def Contraction.variables (c : Contraction) : List String :=
  (((c.specs.flatMap (fun s => s.spec)).flatMap (fun p => p.terms.map (fun t => t.1))).filter
    (fun n => n ≠ "")).eraseDups

/-- The program that builds `Tensor(i) + Tensor(f)`, the sum of an `IntConst` and a
`FloatConst`, on the empty store: the sum and the store after it. -/
def constantSum (i : Int) (f : Double) : Tensor × Store :=
  let I := Tensor.Tensor_int i Store.empty
  let F := Tensor.Tensor_double f I.2
  Tensor.add I.1 F.1 F.2

/-- Two parameters `A : INT32[3]` and `B : FLOAT32[2, 1]` and the call `A < B`
(`cmp_lt`) over them. -/
def cmpHeap : Heap := fun p =>
  match p with
  | 0 => ⟨"A", .ParamExpr ⟨.INT32, [⟨1, 3⟩]⟩⟩
  | 1 => ⟨"B", .ParamExpr ⟨.FLOAT32, [⟨1, 2⟩, ⟨1, 1⟩]⟩⟩
  | 2 => ⟨"", .CallExpr "cmp_lt" [0, 1]⟩
  | _ => ⟨"", .IntConst 0⟩

/-- The program `D = Tensor(FLOAT32[4])`, `I = Tensor(INT32[2])`,
`U = Tensor(FLOAT32[])` (a parameter without dims) and `Call("scatter", {D, I, U})`;
the call is the tensor 3. -/
def scatterExample : Store :=
  let d := Tensor.Tensor_shape (SimpleShape DataType.FLOAT32 [4]) "D" Store.empty
  let i := Tensor.Tensor_shape (SimpleShape DataType.INT32 [2]) "I" d.2
  let u := Tensor.Tensor_shape (SimpleShape DataType.FLOAT32 []) "U" i.2
  (Call "scatter" [d.1, i.1, u.1] u.2).2

/-- The method `Tensor::no_defract()`: the flag is set on the `ContractionExpr` node
the tensor holds (the node is shared, so every holder sees it). -/
def Tensor.no_defract (self : Tensor) (st : Store) : Except String Store :=
  match (st.exprs (st.tensors self).expr).node with
  | .ContractionExpr cion_expr =>
    .ok { st with
      exprs := fun p =>
        if p = (st.tensors self).expr then
          { name := (st.exprs p).name,
            node := .ContractionExpr { cion_expr with no_defract := true } }
        else st.exprs p }
  | _ => .error "no_defract can only be specified on a contraction"

/-- The method `Tensor::use_default(rhs)`. -/
def Tensor.use_default (self rhs : Tensor) (st : Store) : Except String Store :=
  match (st.exprs (st.tensors self).expr).node with
  | .ContractionExpr cion_expr =>
    .ok { st with
      exprs := fun p =>
        if p = (st.tensors self).expr then
          { name := (st.exprs p).name,
            node := .ContractionExpr
              { cion_expr with use_default := some (st.tensors rhs).expr } }
        else st.exprs p }
  | _ => .error "use_default can only be specified on a contraction"

/-- The function `LoadConstCalc(name)` of `lib.cc` (206-218) on the empty store.  The
doubles `0.0` and `3.7` are given by their bit patterns; `Tensor Simple;` and
`Tensor DoubleN;` are parameters with the empty name (the default argument of
`Tensor(const std::string&)`); in `Simple({i}, {1}) = F({})` the right operand is
built first. -/
def LoadConstCalc (env : Extern) (fuel : Nat) (name : String) :
    Option (Except String RunInfo) :=
  let N := Tensor.Tensor_int 1 Store.empty
  let F := Tensor.Tensor_double ⟨0⟩ N.2
  let F2 := Tensor.Tensor_double ⟨4615514078110652826⟩ F.2
  let i := Index.Index_name "" F2.2
  let Simple := Tensor.Tensor_name "" i.2
  match Tensor.operator_call env fuel F.1 [] Simple.2 with
  | none => none
  | some (.error e) => some (.error e)
  | some (.ok (f, st1)) =>
    match Tensor.operator_call_sizes Simple.1 [i.1] [1] st1 with
    | .error e => some (.error e)
    | .ok (simple, st2) =>
      match Access.assign simple f st2 with
      | .error e => some (.error e)
      | .ok st3 =>
        let DoubleN := Tensor.Tensor_name "" st3
        match Tensor.operator_call env fuel N.1 [] DoubleN.2 with
        | none => none
        | some (.error e) => some (.error e)
        | some (.ok (n, st4)) =>
          match Tensor.operator_call_sizes DoubleN.1 [i.1] [1] st4 with
          | .error e => some (.error e)
          | .ok (doubleN, st5) =>
            match Access.assign doubleN n st5 with
            | .error e => some (.error e)
            | .ok st6 =>
              let Partial := Tensor.add Simple.1 DoubleN.1 st6
              let O := Tensor.add Partial.1 F2.1 Partial.2
              Store.Evaluate env fuel name [O.1] O.2

/-- The store of `LoadConstCalc` after `Simple({i}, {1}) = F({})`; `Simple` is the
tensor 3 and `F` the tensor 1. -/
def loadConstStore : Store :=
  let N := Tensor.Tensor_int 1 Store.empty
  let F := Tensor.Tensor_double ⟨0⟩ N.2
  let F2 := Tensor.Tensor_double ⟨4615514078110652826⟩ F.2
  let i := Index.Index_name "" F2.2
  let Simple := Tensor.Tensor_name "" i.2
  match Tensor.operator_call refEnv 4 F.1 [] Simple.2 with
  | some (.ok (f, st1)) =>
    (match Tensor.operator_call_sizes Simple.1 [i.1] [1] st1 with
     | .ok (simple, st2) =>
       (match Access.assign simple f st2 with
        | .ok st3 => st3
        | .error _ => st2)
     | .error _ => st1)
  | _ => Simple.2

/-- The `PolyIndex` leaves of an index tree with the names they carry, from left to
right and with repetitions. -/
def PolyExpr.indexLeaves : PolyExpr → List (Nat × String)
  | .PolyIndex ptr name => [(ptr, name)]
  | .PolyLiteral _ => []
  | .PolyOp _ operands => indexLeavesOf operands
where
  /-- The leaves of a list of operands. -/
  indexLeavesOf : List PolyExpr → List (Nat × String)
    | [] => []
    | op :: rest => op.indexLeaves ++ indexLeavesOf rest

/-- What a `PolyEvaluator` holds when every `Index` it has met is known by the name
`nm` gives to its owner (empty for an anonymous `Index`): a named owner has its name
as variable, an anonymous owner has a minted name `x<k>` with `k` below the counter,
and no two anonymous owners have the same one. -/
structure PolyEvaluator.Named (nm : Nat → String) (pe : PolyEvaluator) : Prop where
  named : ∀ ptr v, lookup pe.seen_ ptr = some v → nm ptr ≠ "" → v = nm ptr
  minted : ∀ ptr v, lookup pe.seen_ ptr = some v → nm ptr = "" →
    ∃ k, k < pe.next_ ∧ v = "x" ++ toString k
  distinct : ∀ p q v, lookup pe.seen_ p = some v → lookup pe.seen_ q = some v →
    nm p = "" → nm q = "" → p = q

/-! ## The recursive linearizer the iterative one is compared with -/

/-- State of the recursive depth-first traversal: the shared seen set and the nodes
emitted so far. -/
structure RecursiveDFS where
  seen : List ExprPtr
  flat : List ExprPtr

/-- The children of a node in the order the recursive traversal visits them: the
args of a `CallExpr` from left to right; for a `ContractionExpr` its `use_default`
first (if set) and then the refs of its inputs from left to right. -/
def RecursiveDFS.childrenInOrder : ExprNode → List ExprPtr
  | .CallExpr _ args => args
  | .ContractionExpr cion =>
    (match cion.use_default with
     | some d => [d]
     | none => []) ++ cion.inputs.map (fun input => input.ref)
  | _ => []

/-- The recursive post-order visit of one node with the shared seen set: a node that
was seen is skipped; otherwise it is marked, its children are visited in order, and
the node is emitted after them.  `depth` bounds the depth of the recursion (`none`
when it is used up). -/
def RecursiveDFS.visit (heap : Heap) : Nat → ExprPtr → RecursiveDFS → Option RecursiveDFS
  | 0, _, _ => none
  | depth + 1, n, s =>
    if n ∈ s.seen then some s
    else
      match (RecursiveDFS.childrenInOrder (heap n).node).foldlM
          (fun s1 c => RecursiveDFS.visit heap depth c s1) { s with seen := n :: s.seen } with
      | none => none
      | some s1 => some { s1 with flat := s1.flat ++ [n] }

/-- The recursive linearizer: the roots are visited from last to first. -/
def RecursiveDFS.run (depth : Nat) (heap : Heap) (roots : List ExprPtr) :
    Option (List ExprPtr) :=
  (roots.reverse.foldlM (fun s r => RecursiveDFS.visit heap depth r s)
    { seen := [], flat := [] }).map (fun s => s.flat)

/-- Two parameters `A` and `D`, a contraction `O({i}, {3}) += A({i})` with
`use_default` `D`, and the call `add(O, A)`. -/
def defaultHeap : Heap := fun p =>
  match p with
  | 0 => ⟨"A", .ParamExpr ⟨.FLOAT32, [⟨1, 3⟩]⟩⟩
  | 1 => ⟨"D", .ParamExpr ⟨.FLOAT32, [⟨1, 3⟩]⟩⟩
  | 2 => ⟨"O", .ContractionExpr
      { agg_op := .SUM, combo_op := .NONE,
        output := ⟨4, [.PolyIndex 0 ""], [3]⟩,
        inputs := [⟨0, [.PolyIndex 0 ""], []⟩],
        constraints := [], use_default := some 1, no_defract := false }⟩
  | 3 => ⟨"", .CallExpr "add" [2, 0]⟩
  | _ => ⟨"", .IntConst 0⟩

/-! # Verification -/

/-! ## Facts about MergeShapes -/

theorem MergeShapes.loop_error_msg (dst src : List TensorDimension) (e : String)
    (h : MergeShapes.loop dst src = .error e) :
    e = "Mismatched tensor shapes in elementwise operation" := by
  induction dst generalizing src with
  | nil => cases src <;> simp [MergeShapes.loop] at h
  | cons d ds ih =>
    cases src with
    | nil => simp [MergeShapes.loop] at h
    | cons s ss =>
      simp only [MergeShapes.loop] at h
      split_ifs at h with h1 h2 h3
      · cases hr : MergeShapes.loop ds ss with
        | error e1 => rw [hr] at h; simp [Except.map] at h; subst h; exact ih ss hr
        | ok r => rw [hr] at h; simp [Except.map] at h
      · cases hr : MergeShapes.loop ds ss with
        | error e1 => rw [hr] at h; simp [Except.map] at h; subst h; exact ih ss hr
        | ok r => rw [hr] at h; simp [Except.map] at h
      · cases hr : MergeShapes.loop ds ss with
        | error e1 => rw [hr] at h; simp [Except.map] at h; subst h; exact ih ss hr
        | ok r => rw [hr] at h; simp [Except.map] at h
      · simp at h; exact h.symm

theorem MergeShapes.loop_error_iff (dst src : List TensorDimension) :
    (∃ e, MergeShapes.loop dst src = .error e) ↔
      ∃ p ∈ List.zip (sizesOf dst) (sizesOf src), clash p := by
  induction dst generalizing src with
  | nil => cases src <;> simp [MergeShapes.loop, sizesOf]
  | cons d ds ih =>
    cases src with
    | nil => simp [MergeShapes.loop, sizesOf]
    | cons s ss =>
      have ih1 := ih ss
      simp only [sizesOf] at ih1
      simp only [MergeShapes.loop, sizesOf, List.map_cons, List.zip_cons_cons, List.mem_cons,
        exists_eq_or_imp]
      have hmap : ∀ (f : List TensorDimension → List TensorDimension),
          (∃ e, (MergeShapes.loop ds ss).map f = .error e) ↔
            ∃ e, MergeShapes.loop ds ss = .error e := by
        intro f
        cases MergeShapes.loop ds ss <;> simp [Except.map]
      split_ifs with h1 h2 h3
      · rw [hmap, ih1]
        constructor
        · intro h; exact Or.inr h
        · rintro (h | h)
          · exact absurd h1.symm h.1
          · exact h
      · rw [hmap, ih1]
        constructor
        · intro h; exact Or.inr h
        · rintro (h | h)
          · exact absurd h2 h.2.2
          · exact h
      · rw [hmap, ih1]
        constructor
        · intro h; exact Or.inr h
        · rintro (h | h)
          · exact absurd h3 h.2.1
          · exact h
      · constructor
        · intro _
          exact Or.inl ⟨fun h => h1 h.symm, h3, h2⟩
        · intro _
          exact ⟨_, rfl⟩

theorem fst_eq_snd_of_mem_zip_same {α : Type} (l : List α) (p : α × α)
    (h : p ∈ List.zip l l) : p.1 = p.2 := by
  induction l with
  | nil => simp at h
  | cons a l ih =>
    simp only [List.zip_cons_cons, List.mem_cons] at h
    rcases h with h | h
    · subst h; rfl
    · exact ih h

theorem MergeShapes.loop_comm (dst src r : List TensorDimension)
    (h : MergeShapes.loop dst src = .ok r) :
    ∃ r', MergeShapes.loop src dst = .ok r' ∧ sizesOf r = sizesOf r' := by
  induction dst generalizing src r with
  | nil =>
    cases src with
    | nil => simp [MergeShapes.loop] at h; subst h; exact ⟨[], by simp [MergeShapes.loop], rfl⟩
    | cons s ss =>
      simp [MergeShapes.loop] at h; subst h
      exact ⟨s :: ss, by simp [MergeShapes.loop], rfl⟩
  | cons d ds ih =>
    cases src with
    | nil =>
      simp [MergeShapes.loop] at h; subst h
      exact ⟨d :: ds, by simp [MergeShapes.loop], rfl⟩
    | cons s ss =>
      simp only [MergeShapes.loop] at h
      cases hr : MergeShapes.loop ds ss with
      | error e =>
        rw [hr] at h
        simp only [Except.map] at h
        split_ifs at h
      | ok r0 =>
        rw [hr] at h
        obtain ⟨r1, hr1, hsz⟩ := ih ss r0 hr
        simp only [MergeShapes.loop, hr1, Except.map]
        simp only [Except.map] at h
        by_cases h1 : s.size = d.size
        · simp only [h1, if_true] at h
          simp only [h1, if_true]
          injection h with h; subst h
          exact ⟨_, rfl, by simp [sizesOf] at hsz ⊢; exact ⟨h1.symm, hsz⟩⟩
        · have h1' : ¬ d.size = s.size := fun hh => h1 hh.symm
          simp only [h1, if_false] at h
          simp only [h1', if_false]
          by_cases h2 : s.size = 1
          · simp only [h2, if_true] at h
            injection h with h; subst h
            by_cases h3 : d.size = 1
            · exact absurd (h2.trans h3.symm) h1
            · simp only [h3, if_false, h2, if_true]
              exact ⟨_, rfl, by simp [sizesOf] at hsz ⊢; exact hsz⟩
          · simp only [h2, if_false] at h
            by_cases h3 : d.size = 1
            · simp only [h3, if_true] at h
              injection h with h; subst h
              simp only [h3, if_true]
              exact ⟨_, rfl, by simp [sizesOf] at hsz ⊢; exact hsz⟩
            · simp [h3] at h

theorem MergeShapes.no_clash_of_ok (A B : TensorShape) (r : TensorShape × Bool)
    (hA : A.dims ≠ []) (hB : B.dims ≠ []) (h : MergeShapes A B = .ok r) :
    ¬ ∃ p ∈ List.zip (sizesOf A.dims).reverse (sizesOf B.dims).reverse,
      p.1 ≠ p.2 ∧ p.1 ≠ 1 ∧ p.2 ≠ 1 := by
  have hAl : A.dims.length ≠ 0 := by simpa using hA
  have hBl : B.dims.length ≠ 0 := by simpa using hB
  unfold MergeShapes at h
  simp only [hBl, ne_eq, not_false_eq_true, if_true, List.isEmpty_eq_true, hA, if_false] at h
  by_cases hne : A.dims = B.dims
  · rintro ⟨p, hp, h1, -, -⟩
    rw [hne] at hp
    exact absurd (fst_eq_snd_of_mem_zip_same _ _ hp) h1
  · simp only [hne, not_false_eq_true, if_true] at h
    have key := MergeShapes.loop_error_iff A.dims.reverse B.dims.reverse
    simp only [sizesOf, List.map_reverse] at key
    simp only [sizesOf]
    intro hc
    obtain ⟨e, he⟩ := key.mpr hc
    rw [he] at h
    cases h

/-- C6 (broadcasting commutativity): whenever merging `B` into `A` succeeds,
merging `A` into `B` succeeds too and both results have the same sequence of dim
sizes; scalars (empty `dims`) on either side are included. -/
theorem MergeShapes_comm_sizes (A B : TensorShape) (r : TensorShape × Bool)
    (h : MergeShapes A B = .ok r) :
    ∃ r', MergeShapes B A = .ok r' ∧ sizesOf r.1.dims = sizesOf r'.1.dims := by
  unfold MergeShapes at h ⊢
  by_cases hB : B.dims = []
  · simp [hB] at h
    subst h
    by_cases hA : A.dims = []
    · simp [hA, hB]
    · have : A.dims.length ≠ 0 := by simpa using hA
      simp [hB, hA]
  · have hBl : B.dims.length ≠ 0 := by simpa using hB
    by_cases hA : A.dims = []
    · simp [hA, hB] at h
      subst h
      simp [hA, hB]
    · have hAl : A.dims.length ≠ 0 := by simpa using hA
      by_cases hne : A.dims = B.dims
      · simp [hB, hA, hne] at h
        subst h
        simp [hB, hne]
      · have hne' : ¬ B.dims = A.dims := fun hh => hne hh.symm
        simp only [hBl, hAl, ne_eq, not_false_eq_true, if_true, List.isEmpty_eq_true, hA, hB, hne, hne',
          if_false] at h ⊢
        cases hr : MergeShapes.loop A.dims.reverse B.dims.reverse with
        | error e => rw [hr] at h; simp at h
        | ok r0 =>
          rw [hr] at h
          obtain ⟨r1, hr1, hsz⟩ := MergeShapes.loop_comm _ _ _ hr
          simp only [hr1]
          simp at h; subst h
          refine ⟨_, rfl, ?_⟩
          simp only [sizesOf, List.map_reverse] at hsz ⊢
          rw [hsz]

theorem MergeShapes_comm_sizes_witness :
    MergeShapes ⟨.FLOAT32, [⟨3, 4⟩, ⟨3, 1⟩, ⟨1, 3⟩]⟩ ⟨.INT32, [⟨3, 2⟩, ⟨1, 3⟩]⟩ =
        .ok (⟨.FLOAT32, [⟨3, 4⟩, ⟨3, 2⟩, ⟨1, 3⟩]⟩, true) ∧
      ∃ r', MergeShapes ⟨.INT32, [⟨3, 2⟩, ⟨1, 3⟩]⟩ ⟨.FLOAT32, [⟨3, 4⟩, ⟨3, 1⟩, ⟨1, 3⟩]⟩ = .ok r' ∧
        sizesOf [⟨3, 4⟩, ⟨3, 2⟩, ⟨1, 3⟩] = sizesOf r'.1.dims :=
  ⟨by decide, MergeShapes_comm_sizes _ _ (⟨.FLOAT32, [⟨3, 4⟩, ⟨3, 2⟩, ⟨1, 3⟩]⟩, true) (by decide)⟩

/-- C8 (broadcast incompatibility): for non-scalar `A` and `B`, `MergeShapes`
throws "Mismatched tensor shapes in elementwise operation" exactly when some
right-aligned pair of sizes is unequal with neither size equal to 1, and it
throws nothing else. -/
theorem MergeShapes_fails_iff_clash (A B : TensorShape) (hA : A.dims ≠ []) (hB : B.dims ≠ []) :
    ((∃ e, MergeShapes A B = .error e) ↔
      ∃ p ∈ List.zip (sizesOf A.dims).reverse (sizesOf B.dims).reverse,
        p.1 ≠ p.2 ∧ p.1 ≠ 1 ∧ p.2 ≠ 1) ∧
    ∀ e, MergeShapes A B = .error e →
      e = "Mismatched tensor shapes in elementwise operation" := by
  have hAl : A.dims.length ≠ 0 := by simpa using hA
  have hBl : B.dims.length ≠ 0 := by simpa using hB
  unfold MergeShapes
  simp only [hBl, ne_eq, not_false_eq_true, if_true, List.isEmpty_eq_true, hA, if_false]
  by_cases hne : A.dims = B.dims
  · simp only [hne, not_true_eq_false, if_false]
    constructor
    · constructor
      · rintro ⟨e, h⟩; simp at h
      · rintro ⟨p, hp, h1, -, -⟩
        exact absurd (fst_eq_snd_of_mem_zip_same _ _ hp) h1
    · intro e h; simp at h
  · simp only [hne, not_false_eq_true, if_true]
    have key := MergeShapes.loop_error_iff A.dims.reverse B.dims.reverse
    simp only [sizesOf, List.map_reverse] at key
    simp only [sizesOf]
    cases hr : MergeShapes.loop A.dims.reverse B.dims.reverse with
    | error e =>
      rw [hr] at key
      refine ⟨⟨fun _ => ?_, fun _ => ⟨e, rfl⟩⟩, ?_⟩
      · exact key.mp ⟨e, rfl⟩
      · intro e' h
        simp at h; subst h
        exact MergeShapes.loop_error_msg _ _ _ hr
    | ok r =>
      rw [hr] at key
      refine ⟨⟨?_, fun h => ?_⟩, ?_⟩
      · rintro ⟨e, h⟩; simp at h
      · have := key.mpr h
        simp at this
      · intro e h; simp at h

theorem MergeShapes_fails_iff_clash_witness :
    ((∃ e, MergeShapes ⟨.FLOAT32, [⟨3, 2⟩, ⟨1, 3⟩]⟩ ⟨.FLOAT32, [⟨1, 4⟩]⟩ = .error e) ↔
      ∃ p ∈ List.zip (sizesOf [⟨3, 2⟩, ⟨1, 3⟩]).reverse (sizesOf [⟨1, 4⟩]).reverse,
        p.1 ≠ p.2 ∧ p.1 ≠ 1 ∧ p.2 ≠ 1) ∧
    ∀ e, MergeShapes ⟨.FLOAT32, [⟨3, 2⟩, ⟨1, 3⟩]⟩ ⟨.FLOAT32, [⟨1, 4⟩]⟩ = .error e →
      e = "Mismatched tensor shapes in elementwise operation" :=
  MergeShapes_fails_iff_clash ⟨.FLOAT32, [⟨3, 2⟩, ⟨1, 3⟩]⟩ ⟨.FLOAT32, [⟨1, 4⟩]⟩ (by decide) (by decide)

theorem MergeShapes.loop_ok_shape (dst src r : List TensorDimension)
    (h : MergeShapes.loop dst src = .ok r) :
    ∃ core, r = core ++ (dst.drop src.length ++ src.drop dst.length) ∧
      sizesOf core =
        List.zipWith (fun a b => if a = 1 then b else a) (sizesOf dst) (sizesOf src) := by
  induction dst generalizing src r with
  | nil =>
    cases src with
    | nil => simp [MergeShapes.loop] at h; subst h; exact ⟨[], by simp, by simp [sizesOf]⟩
    | cons s ss =>
      simp [MergeShapes.loop] at h; subst h
      exact ⟨[], by simp, by simp [sizesOf]⟩
  | cons d ds ih =>
    cases src with
    | nil =>
      simp [MergeShapes.loop] at h; subst h
      exact ⟨[], by simp, by simp [sizesOf]⟩
    | cons s ss =>
      simp only [MergeShapes.loop] at h
      cases hr : MergeShapes.loop ds ss with
      | error e =>
        rw [hr] at h
        simp only [Except.map] at h
        split_ifs at h
      | ok r0 =>
        rw [hr] at h
        obtain ⟨core, hcore, hsz⟩ := ih ss r0 hr
        simp only [Except.map] at h
        simp only [sizesOf] at hsz
        split_ifs at h with h1 h2 h3
        · injection h with h; subst h
          refine ⟨d :: core, by simp [hcore], ?_⟩
          simp only [sizesOf, List.map_cons, List.zipWith_cons_cons, hsz]
          by_cases hd : d.size = 1
          · simp [hd, h1]
          · simp [hd]
        · injection h with h; subst h
          refine ⟨d :: core, by simp [hcore], ?_⟩
          simp only [sizesOf, List.map_cons, List.zipWith_cons_cons, hsz]
          have hd : ¬ d.size = 1 := fun hd => h1 (h2.trans hd.symm)
          simp [hd]
        · injection h with h; subst h
          refine ⟨{ d with size := s.size } :: core, by simp [hcore], ?_⟩
          simp only [sizesOf, List.map_cons, List.zipWith_cons_cons, hsz]
          simp [h3]

theorem zipWith_congr_of_mem_zip {α β γ : Type} (f g : α → β → γ) (l1 : List α) (l2 : List β)
    (h : ∀ p ∈ List.zip l1 l2, f p.1 p.2 = g p.1 p.2) :
    List.zipWith f l1 l2 = List.zipWith g l1 l2 := by
  induction l1 generalizing l2 with
  | nil => simp
  | cons a l1 ih =>
    cases l2 with
    | nil => simp
    | cons b l2 =>
      simp only [List.zipWith_cons_cons, List.cons.injEq]
      refine ⟨h (a, b) (by simp), ih l2 (fun p hp => h p ?_)⟩
      simp only [List.zip_cons_cons, List.mem_cons]
      exact Or.inr hp

/-- C7, amended (broadcast result): for non-scalar `A` (the accumulated result)
and `B` on which `MergeShapes` succeeds, the result has rank
`max (rank A) (rank B)`; at every right-aligned position where both have a dim the
result takes the size of `A` unless that size is 1, in which case it takes the
size of `B`, and this is the larger of the two sizes whenever neither is 0; the
unaligned leading dims of the longer shape stand unchanged, in order, at the
front of the result. -/
theorem MergeShapes_result (A B : TensorShape) (r : TensorShape × Bool)
    (hA : A.dims ≠ []) (hB : B.dims ≠ []) (h : MergeShapes A B = .ok r) :
    r.1.dims.length = max A.dims.length B.dims.length ∧
    (sizesOf r.1.dims).reverse.take (min A.dims.length B.dims.length) =
      List.zipWith (fun a b => if a = 1 then b else a)
        (sizesOf A.dims).reverse (sizesOf B.dims).reverse ∧
    ((∀ p ∈ List.zip (sizesOf A.dims).reverse (sizesOf B.dims).reverse, p.1 ≠ 0 ∧ p.2 ≠ 0) →
      (sizesOf r.1.dims).reverse.take (min A.dims.length B.dims.length) =
        List.zipWith max (sizesOf A.dims).reverse (sizesOf B.dims).reverse) ∧
    r.1.dims.take (max A.dims.length B.dims.length - min A.dims.length B.dims.length) =
      B.dims.take (B.dims.length - A.dims.length) ++
        A.dims.take (A.dims.length - B.dims.length) := by
  have hnoclash : ¬ ∃ p ∈ List.zip (sizesOf A.dims).reverse (sizesOf B.dims).reverse,
      p.1 ≠ p.2 ∧ p.1 ≠ 1 ∧ p.2 ≠ 1 := by
    intro hc
    exact MergeShapes.no_clash_of_ok A B r hA hB h hc
  have hmax : (∀ p ∈ List.zip (sizesOf A.dims).reverse (sizesOf B.dims).reverse,
        p.1 ≠ 0 ∧ p.2 ≠ 0) →
      List.zipWith (fun a b => if a = 1 then b else a)
          (sizesOf A.dims).reverse (sizesOf B.dims).reverse =
        List.zipWith max (sizesOf A.dims).reverse (sizesOf B.dims).reverse := by
    intro hpos
    apply zipWith_congr_of_mem_zip
    intro p hp
    have h0 := hpos p hp
    have hc : ¬ (p.1 ≠ p.2 ∧ p.1 ≠ 1 ∧ p.2 ≠ 1) := fun hc => hnoclash ⟨p, hp, hc⟩
    by_cases h1 : p.1 = 1
    · simp only [h1, if_true]
      have : 1 ≤ p.2 := Nat.one_le_iff_ne_zero.mpr h0.2
      exact (max_eq_right this).symm
    · simp only [h1, if_false]
      by_cases h2 : p.1 = p.2
      · rw [← h2]; simp
      · have h3 : p.2 = 1 := by
          by_contra h3
          exact hc ⟨h2, h1, h3⟩
        rw [h3]
        have : 1 ≤ p.1 := Nat.one_le_iff_ne_zero.mpr h0.1
        exact (max_eq_left this).symm
  have hAl : A.dims.length ≠ 0 := by simpa using hA
  have hBl : B.dims.length ≠ 0 := by simpa using hB
  unfold MergeShapes at h
  simp only [hBl, ne_eq, not_false_eq_true, if_true, List.isEmpty_eq_true, hA, if_false] at h
  by_cases hne : A.dims = B.dims
  · simp only [hne, not_true_eq_false, if_false] at h
    injection h with h; subst h
    have hself : List.zipWith (fun a b => if a = 1 then b else a)
        (sizesOf A.dims).reverse (sizesOf A.dims).reverse = (sizesOf A.dims).reverse := by
      generalize (sizesOf A.dims).reverse = l
      induction l with
      | nil => rfl
      | cons a l ih => simp [ih]
    have hlen : (sizesOf A.dims).reverse.length = A.dims.length := by simp [sizesOf]
    have htake : (sizesOf A.dims).reverse.take A.dims.length = (sizesOf A.dims).reverse := by
      rw [← hlen]; exact List.take_length _
    rw [← hne] at hmax ⊢
    refine ⟨by simp, by simp [htake, hself], fun hpos => ?_, by simp⟩
    rw [← hmax hpos]
    simp [htake, hself]
  · simp only [hne, not_false_eq_true, if_true] at h
    cases hr : MergeShapes.loop A.dims.reverse B.dims.reverse with
    | error e => rw [hr] at h; simp at h
    | ok r0 =>
      rw [hr] at h
      simp only [Except.ok.injEq] at h
      subst h
      obtain ⟨core, hr0, hsz⟩ := MergeShapes.loop_ok_shape _ _ _ hr
      simp only [sizesOf, List.map_reverse] at hsz hmax ⊢
      have hcl : core.length = min A.dims.length B.dims.length := by
        have := congrArg List.length hsz
        simpa using this
      have hsizes : (List.map (fun d => d.size) r0.reverse).reverse =
          List.map (fun d => d.size) r0 := by simp
      have htk : (List.map (fun d => d.size) r0).take (min A.dims.length B.dims.length) =
          List.map (fun d => d.size) core := by
        rw [hr0, List.map_append, ← hcl]
        have : core.length = (List.map (fun d => d.size) core).length := by simp
        rw [this, List.take_left']
        rfl
      refine ⟨?_, ?_, fun hpos => ?_, ?_⟩
      · simp only [List.length_reverse, hr0, List.length_append, List.length_drop, hcl]
        omega
      · simp only [List.map_reverse, List.reverse_reverse]
        rw [htk, hsz]
      · simp only [List.map_reverse, List.reverse_reverse]
        rw [htk, hsz, hmax hpos]
      · have hd : r0.drop (min A.dims.length B.dims.length) =
            List.drop B.dims.reverse.length A.dims.reverse ++
              List.drop A.dims.reverse.length B.dims.reverse := by
          rw [hr0, ← hcl, List.drop_left']
          rfl
        have hlen : r0.length = max A.dims.length B.dims.length := by
          simp only [hr0, List.length_append, List.length_drop, hcl, List.length_reverse]
          omega
        have : r0.reverse.take (max A.dims.length B.dims.length -
            min A.dims.length B.dims.length) =
            (r0.drop (min A.dims.length B.dims.length)).reverse := by
          rw [List.reverse_drop, hlen]
        rw [this, hd]
        simp only [List.length_reverse, List.reverse_append, List.drop_reverse,
          List.reverse_reverse]

theorem MergeShapes_result_witness :
    MergeShapes ⟨.FLOAT32, [⟨3, 4⟩, ⟨3, 1⟩, ⟨1, 3⟩]⟩ ⟨.INT32, [⟨3, 2⟩, ⟨1, 3⟩]⟩ =
        .ok (⟨.FLOAT32, [⟨3, 4⟩, ⟨3, 2⟩, ⟨1, 3⟩]⟩, true) ∧
      [(⟨3, 4⟩ : TensorDimension), ⟨3, 2⟩, ⟨1, 3⟩].length = max 3 2 ∧
      (sizesOf [⟨3, 4⟩, ⟨3, 2⟩, ⟨1, 3⟩]).reverse.take (min 3 2) =
        List.zipWith (fun a b => if a = 1 then b else a)
          (sizesOf [⟨3, 4⟩, ⟨3, 1⟩, ⟨1, 3⟩]).reverse (sizesOf [⟨3, 2⟩, ⟨1, 3⟩]).reverse ∧
      ((∀ p ∈ List.zip (sizesOf [⟨3, 4⟩, ⟨3, 1⟩, ⟨1, 3⟩]).reverse
            (sizesOf [⟨3, 2⟩, ⟨1, 3⟩]).reverse, p.1 ≠ 0 ∧ p.2 ≠ 0) →
        (sizesOf [⟨3, 4⟩, ⟨3, 2⟩, ⟨1, 3⟩]).reverse.take (min 3 2) =
          List.zipWith max (sizesOf [⟨3, 4⟩, ⟨3, 1⟩, ⟨1, 3⟩]).reverse
            (sizesOf [⟨3, 2⟩, ⟨1, 3⟩]).reverse) ∧
      [(⟨3, 4⟩ : TensorDimension), ⟨3, 2⟩, ⟨1, 3⟩].take (max 3 2 - min 3 2) =
        [(⟨3, 2⟩ : TensorDimension), ⟨1, 3⟩].take (2 - 3) ++
          [(⟨3, 4⟩ : TensorDimension), ⟨3, 1⟩, ⟨1, 3⟩].take (3 - 2) :=
  ⟨by decide,
    MergeShapes_result ⟨.FLOAT32, [⟨3, 4⟩, ⟨3, 1⟩, ⟨1, 3⟩]⟩ ⟨.INT32, [⟨3, 2⟩, ⟨1, 3⟩]⟩
      (⟨.FLOAT32, [⟨3, 4⟩, ⟨3, 2⟩, ⟨1, 3⟩]⟩, true) (by decide) (by decide) (by decide)⟩

/-- C7 as stated fails: merging `B = [1]` into `A = [0]` succeeds with result
`[0]`, which is not the larger of the two aligned sizes 0 and 1. -/
theorem MergeShapes_result_not_larger :
    MergeShapes ⟨.FLOAT32, [⟨1, 0⟩]⟩ ⟨.FLOAT32, [⟨1, 1⟩]⟩ = .ok (⟨.FLOAT32, [⟨1, 0⟩]⟩, true) ∧
      (sizesOf [⟨1, 0⟩]).reverse.take (min 1 1) ≠
        List.zipWith max (sizesOf [⟨1, 0⟩]).reverse (sizesOf [⟨1, 1⟩]).reverse := by
  decide

/-! ## Facts about ComputeOutputType -/

/-- The loop invariant of `ComputeOutputType`: `ret` after the inputs `seen`. -/
theorem ComputeOutputType.fold_inv (env : Extern) (l seen : List TensorShape) (ret : DataType)
    (hfl : (∃ s ∈ seen, is_float s.type = true) →
      is_float ret = true ∧ (∃ s ∈ seen, s.type = ret) ∧
        ∀ s ∈ seen, is_float s.type = true → bit_width env s.type ≤ bit_width env ret)
    (hnf : (∀ s ∈ seen, is_float s.type = false) →
      is_float ret = false ∧ (ret = DataType.INVALID ∨ ∃ s ∈ seen, s.type = ret) ∧
        ∀ s ∈ seen, bit_width env s.type ≤ bit_width env ret) :
    ((∃ s ∈ seen ++ l, is_float s.type = true) →
      is_float (l.foldl (ComputeOutputType.step env) ret) = true ∧
        (∃ s ∈ seen ++ l, s.type = l.foldl (ComputeOutputType.step env) ret) ∧
        ∀ s ∈ seen ++ l, is_float s.type = true →
          bit_width env s.type ≤ bit_width env (l.foldl (ComputeOutputType.step env) ret)) ∧
    ((∀ s ∈ seen ++ l, is_float s.type = false) →
      is_float (l.foldl (ComputeOutputType.step env) ret) = false ∧
        (l.foldl (ComputeOutputType.step env) ret = DataType.INVALID ∨
          ∃ s ∈ seen ++ l, s.type = l.foldl (ComputeOutputType.step env) ret) ∧
        ∀ s ∈ seen ++ l,
          bit_width env s.type ≤ bit_width env (l.foldl (ComputeOutputType.step env) ret)) := by
  induction l generalizing seen ret with
  | nil =>
    simp only [List.append_nil, List.foldl_nil]
    exact ⟨hfl, hnf⟩
  | cons x l ih =>
    have hstep := ih (seen ++ [x]) (ComputeOutputType.step env ret x) ?_ ?_
    · simp only [List.append_assoc, List.singleton_append] at hstep
      simp only [List.foldl_cons]
      exact hstep
    · -- float case after one more input
      intro hex
      by_cases hseen : ∃ s ∈ seen, is_float s.type = true
      · obtain ⟨hr, ⟨s0, hs0, hs0t⟩, hle⟩ := hfl hseen
        by_cases hx : is_float x.type = true
        · by_cases hw : bit_width env x.type > bit_width env ret
          · have hst : ComputeOutputType.step env ret x = x.type := by
              simp only [ComputeOutputType.step, hx, hr, bne_self_eq_false, Bool.false_eq_true, if_false, hw, if_true]
            rw [hst]
            refine ⟨hx, ⟨x, by simp, rfl⟩, ?_⟩
            intro s hs hsf
            rcases List.mem_append.mp hs with hs | hs
            · exact le_trans (hle s hs hsf) (le_of_lt hw)
            · simp at hs; subst hs; exact le_refl _
          · have hst : ComputeOutputType.step env ret x = ret := by
              simp only [ComputeOutputType.step, hx, hr, bne_self_eq_false, Bool.false_eq_true, if_false, hw]
            rw [hst]
            refine ⟨hr, ⟨s0, by simp [hs0], hs0t⟩, ?_⟩
            intro s hs hsf
            rcases List.mem_append.mp hs with hs | hs
            · exact hle s hs hsf
            · simp at hs; subst hs; exact not_lt.mp hw
        · have hx' : is_float x.type = false := by simpa using hx
          have hst : ComputeOutputType.step env ret x = ret := by
            simp only [ComputeOutputType.step, hx', hr, Bool.false_bne, if_true, Bool.false_eq_true, if_false]
          rw [hst]
          refine ⟨hr, ⟨s0, by simp [hs0], hs0t⟩, ?_⟩
          intro s hs hsf
          rcases List.mem_append.mp hs with hs | hs
          · exact hle s hs hsf
          · simp at hs; subst hs; rw [hx'] at hsf; cases hsf
      · have hall : ∀ s ∈ seen, is_float s.type = false := by
          intro s hs
          by_contra hc
          exact hseen ⟨s, hs, by simpa using hc⟩
        obtain ⟨hr, -, -⟩ := hnf hall
        have hx : is_float x.type = true := by
          obtain ⟨s, hs, hsf⟩ := hex
          rcases List.mem_append.mp hs with hs | hs
          · rw [hall s hs] at hsf; cases hsf
          · simp at hs; subst hs; exact hsf
        have hst : ComputeOutputType.step env ret x = x.type := by
          simp only [ComputeOutputType.step, hx, hr, Bool.true_bne, Bool.not_false, if_true]
        rw [hst]
        refine ⟨hx, ⟨x, by simp, rfl⟩, ?_⟩
        intro s hs hsf
        rcases List.mem_append.mp hs with hs | hs
        · rw [hall s hs] at hsf; cases hsf
        · simp at hs; subst hs; exact le_refl _
    · -- no float so far
      intro hall
      have hall1 : ∀ s ∈ seen, is_float s.type = false := fun s hs => hall s (by simp [hs])
      have hx : is_float x.type = false := hall x (by simp)
      obtain ⟨hr, hmem, hle⟩ := hnf hall1
      by_cases hw : bit_width env x.type > bit_width env ret
      · have hst : ComputeOutputType.step env ret x = x.type := by
          simp only [ComputeOutputType.step, hx, hr, bne_self_eq_false, Bool.false_eq_true, if_false, hw, if_true]
        rw [hst]
        refine ⟨hx, Or.inr ⟨x, by simp, rfl⟩, ?_⟩
        intro s hs
        rcases List.mem_append.mp hs with hs | hs
        · exact le_trans (hle s hs) (le_of_lt hw)
        · simp at hs; subst hs; exact le_refl _
      · have hst : ComputeOutputType.step env ret x = ret := by
          simp only [ComputeOutputType.step, hx, hr, bne_self_eq_false, Bool.false_eq_true, if_false, hw]
        rw [hst]
        refine ⟨hr, ?_, ?_⟩
        · rcases hmem with h | ⟨s, hs, hst⟩
          · exact Or.inl h
          · exact Or.inr ⟨s, by simp [hs], hst⟩
        · intro s hs
          rcases List.mem_append.mp hs with hs | hs
          · exact hle s hs
          · simp at hs; subst hs; exact not_lt.mp hw

/-- C10 (dtype promotion rule): on a non-empty list of input shapes, if some input
dtype is a float type then `ComputeOutputType` returns a float type, the dtype of
one of the inputs, whose bit width is the maximum width among the float inputs;
otherwise it returns a non-float type whose bit width is the maximum width among
all inputs. -/
theorem ComputeOutputType_promotion (env : Extern) (shapes : List TensorShape)
    (hne : shapes ≠ []) :
    ((∃ s ∈ shapes, is_float s.type = true) →
      is_float (ComputeOutputType env shapes) = true ∧
      (∃ s ∈ shapes, is_float s.type = true ∧
        bit_width env s.type = bit_width env (ComputeOutputType env shapes)) ∧
      ∀ s ∈ shapes, is_float s.type = true →
        bit_width env s.type ≤ bit_width env (ComputeOutputType env shapes)) ∧
    ((∀ s ∈ shapes, is_float s.type = false) →
      is_float (ComputeOutputType env shapes) = false ∧
      (∃ s ∈ shapes, bit_width env s.type = bit_width env (ComputeOutputType env shapes)) ∧
      ∀ s ∈ shapes, bit_width env s.type ≤ bit_width env (ComputeOutputType env shapes)) := by
  unfold ComputeOutputType
  have h := ComputeOutputType.fold_inv env shapes [] DataType.INVALID
    (by rintro ⟨s, hs, -⟩; simp at hs)
    (by intro _; exact ⟨rfl, Or.inl rfl, by simp⟩)
  simp only [List.nil_append] at h
  obtain ⟨hf, hn⟩ := h
  refine ⟨fun hex => ?_, fun hall => ?_⟩
  · obtain ⟨h1, ⟨s, hs, hst⟩, h3⟩ := hf hex
    refine ⟨h1, ⟨s, hs, ?_, ?_⟩, h3⟩
    · rw [hst]; exact h1
    · rw [hst]
  · obtain ⟨h1, h2, h3⟩ := hn hall
    refine ⟨h1, ?_, h3⟩
    rcases h2 with h2 | ⟨s, hs, hst⟩
    · obtain ⟨x, l, rfl⟩ := List.exists_cons_of_ne_nil hne
      refine ⟨x, by simp, ?_⟩
      have := h3 x (by simp)
      rw [h2] at this ⊢
      have h0 : bit_width env DataType.INVALID = 0 := rfl
      omega
    · exact ⟨s, hs, by rw [hst]⟩

theorem ComputeOutputType_promotion_witness :
    ComputeOutputType refEnv [⟨.INT64, []⟩, ⟨.FLOAT16, []⟩, ⟨.FLOAT32, []⟩, ⟨.UINT16, []⟩] =
        DataType.FLOAT32 ∧
      ComputeOutputType refEnv [⟨.INT16, []⟩, ⟨.UINT32, []⟩, ⟨.BOOLEAN, []⟩] = DataType.UINT32 ∧
      ((∃ s ∈ [(⟨.INT64, []⟩ : TensorShape), ⟨.FLOAT16, []⟩, ⟨.FLOAT32, []⟩, ⟨.UINT16, []⟩],
          is_float s.type = true) →
        is_float (ComputeOutputType refEnv
          [⟨.INT64, []⟩, ⟨.FLOAT16, []⟩, ⟨.FLOAT32, []⟩, ⟨.UINT16, []⟩]) = true ∧
        (∃ s ∈ [(⟨.INT64, []⟩ : TensorShape), ⟨.FLOAT16, []⟩, ⟨.FLOAT32, []⟩, ⟨.UINT16, []⟩],
          is_float s.type = true ∧
          bit_width refEnv s.type = bit_width refEnv (ComputeOutputType refEnv
            [⟨.INT64, []⟩, ⟨.FLOAT16, []⟩, ⟨.FLOAT32, []⟩, ⟨.UINT16, []⟩])) ∧
        ∀ s ∈ [(⟨.INT64, []⟩ : TensorShape), ⟨.FLOAT16, []⟩, ⟨.FLOAT32, []⟩, ⟨.UINT16, []⟩],
          is_float s.type = true →
          bit_width refEnv s.type ≤ bit_width refEnv (ComputeOutputType refEnv
            [⟨.INT64, []⟩, ⟨.FLOAT16, []⟩, ⟨.FLOAT32, []⟩, ⟨.UINT16, []⟩])) :=
  ⟨by decide, by decide,
    (ComputeOutputType_promotion refEnv
      [⟨.INT64, []⟩, ⟨.FLOAT16, []⟩, ⟨.FLOAT32, []⟩, ⟨.UINT16, []⟩] (by decide)).1⟩

/-! ## Facts about ComputeOutputShape -/

theorem toInt64_congr (a b : Nat) (h : a % 2 ^ 64 = b % 2 ^ 64) : toInt64 a = toInt64 b := by
  unfold toInt64
  rw [h]

theorem toInt64_of_lt (a : Nat) (h : a < 2 ^ 63) : toInt64 a = (a : Int) := by
  unfold toInt64
  have h1 : a % 2 ^ 64 = a := Nat.mod_eq_of_lt (by omega)
  rw [h1, if_pos h]

theorem ComputeOutputShape.restride_sizes (l : List TensorDimension) (s : Nat) :
    sizesOf (ComputeOutputShape.restride l s) = sizesOf l := by
  induction l generalizing s with
  | nil => rfl
  | cons d l ih =>
    simp only [ComputeOutputShape.restride, sizesOf, List.map_cons]
    have := ih ((s * d.size) % 2 ^ 64)
    simp only [sizesOf] at this
    rw [this]

theorem ComputeOutputShape.restride_append (l : List TensorDimension) (d : TensorDimension)
    (s : Nat) :
    ComputeOutputShape.restride (l ++ [d]) s =
      ComputeOutputShape.restride l s ++
        [{ d with stride := toInt64 (s * (sizesOf l).prod) }] := by
  induction l generalizing s with
  | nil => simp [ComputeOutputShape.restride, sizesOf]
  | cons a l ih =>
    have hc : toInt64 (s * a.size % 2 ^ 64 * (sizesOf l).prod) =
        toInt64 (s * (a.size * (sizesOf l).prod)) := by
      apply toInt64_congr
      rw [Nat.mod_mul_mod, Nat.mul_assoc]
    show ComputeOutputShape.restride (a :: (l ++ [d])) s = _
    simp only [sizesOf] at hc
    simp only [ComputeOutputShape.restride, ih, sizesOf, List.map_cons, List.prod_cons,
      List.cons_append, hc]

theorem ComputeOutputShape.restride_reverse_cons (d : TensorDimension)
    (ds : List TensorDimension) :
    (ComputeOutputShape.restride (d :: ds).reverse 1).reverse =
      { d with stride := toInt64 (sizesOf ds).prod } ::
        (ComputeOutputShape.restride ds.reverse 1).reverse := by
  rw [List.reverse_cons, ComputeOutputShape.restride_append]
  simp [sizesOf, List.prod_reverse]

theorem ComputeOutputShape.restride_getElem? (ds : List TensorDimension) (i : Nat) :
    (ComputeOutputShape.restride ds.reverse 1).reverse[i]? =
      (ds[i]?).map
        (fun d => { d with stride := toInt64 (sizesOf (ds.drop (i + 1))).prod }) := by
  induction ds generalizing i with
  | nil => simp [ComputeOutputShape.restride]
  | cons d ds ih =>
    rw [ComputeOutputShape.restride_reverse_cons]
    cases i with
    | zero => simp
    | succ i => simpa using ih i

/-- C9, amended (row-major strides after broadcasting): when the merge loop of
`ComputeOutputShape` succeeds and a broadcast occurred, the function returns
the merged sizes, and the stride of every dim is the product of the sizes of all
dims to its right reduced modulo `2 ^ 64` and read as a signed 64-bit integer;
it is exactly that product (1 for the last dim) whenever the product is below
`2 ^ 63`. -/
theorem ComputeOutputShape_row_major (env : Extern) (inputs : List Binding)
    (ret : TensorShape) (shapes : List TensorShape)
    (h : ComputeOutputShape.merge inputs ({ type := DataType.INVALID, dims := [] }, false, []) =
      .ok (ret, true, shapes)) :
    ∃ out, ComputeOutputShape env inputs = .ok out ∧
      sizesOf out.dims = sizesOf ret.dims ∧
      out.type = ComputeOutputType env shapes ∧
      ∀ (i : Nat) (hi : i < out.dims.length),
        out.dims[i].stride = toInt64 (sizesOf (out.dims.drop (i + 1))).prod ∧
        ((sizesOf (out.dims.drop (i + 1))).prod < 2 ^ 63 →
          out.dims[i].stride = (((sizesOf (out.dims.drop (i + 1))).prod : Nat) : Int)) := by
  have hsz : sizesOf (ComputeOutputShape.restride ret.dims.reverse 1).reverse =
      sizesOf ret.dims := by
    have := ComputeOutputShape.restride_sizes ret.dims.reverse 1
    simp only [sizesOf, List.map_reverse] at this ⊢
    rw [this, List.reverse_reverse]
  refine ⟨{ type := ComputeOutputType env shapes,
            dims := (ComputeOutputShape.restride ret.dims.reverse 1).reverse }, ?_, hsz, rfl, ?_⟩
  · simp [ComputeOutputShape, h]
  · intro i hi
    have hdrop : sizesOf (List.drop (i + 1) (ComputeOutputShape.restride ret.dims.reverse 1).reverse) =
        sizesOf (List.drop (i + 1) ret.dims) := by
      simp only [sizesOf, List.map_drop] at hsz ⊢
      rw [hsz]
    have hget := ComputeOutputShape.restride_getElem? ret.dims i
    have hlen : (ComputeOutputShape.restride ret.dims.reverse 1).reverse.length =
        ret.dims.length := by
      have := congrArg List.length hsz
      simpa [sizesOf] using this
    have hi' : i < ret.dims.length := by
      simp only at hi
      omega
    rw [List.getElem?_eq_getElem (by simpa using hi), List.getElem?_eq_getElem hi'] at hget
    simp only [Option.map_some', Option.some.injEq] at hget
    have hstride : (ComputeOutputShape.restride ret.dims.reverse 1).reverse[i].stride =
        toInt64 (sizesOf (List.drop (i + 1)
          (ComputeOutputShape.restride ret.dims.reverse 1).reverse)).prod := by
      rw [hget, hdrop]
    refine ⟨hstride, fun hlt => ?_⟩
    rw [hstride]
    exact toInt64_of_lt _ hlt

theorem ComputeOutputShape_row_major_witness :
    ∃ out, ComputeOutputShape refEnv [.TENSOR ⟨.FLOAT32, [⟨3, 4⟩, ⟨3, 1⟩, ⟨1, 3⟩]⟩,
        .TENSOR ⟨.FLOAT32, [⟨3, 2⟩, ⟨1, 3⟩]⟩] = .ok out ∧
      sizesOf out.dims = sizesOf [⟨3, 4⟩, ⟨3, 2⟩, ⟨1, 3⟩] ∧
      out.type = ComputeOutputType refEnv
        [⟨.FLOAT32, [⟨3, 4⟩, ⟨3, 1⟩, ⟨1, 3⟩]⟩, ⟨.FLOAT32, [⟨3, 2⟩, ⟨1, 3⟩]⟩] ∧
      ∀ (i : Nat) (hi : i < out.dims.length),
        out.dims[i].stride = toInt64 (sizesOf (out.dims.drop (i + 1))).prod ∧
        ((sizesOf (out.dims.drop (i + 1))).prod < 2 ^ 63 →
          out.dims[i].stride = (((sizesOf (out.dims.drop (i + 1))).prod : Nat) : Int)) :=
  ComputeOutputShape_row_major refEnv
    [.TENSOR ⟨.FLOAT32, [⟨3, 4⟩, ⟨3, 1⟩, ⟨1, 3⟩]⟩, .TENSOR ⟨.FLOAT32, [⟨3, 2⟩, ⟨1, 3⟩]⟩]
    ⟨.INVALID, [⟨3, 4⟩, ⟨3, 2⟩, ⟨1, 3⟩]⟩
    [⟨.FLOAT32, [⟨3, 4⟩, ⟨3, 1⟩, ⟨1, 3⟩]⟩, ⟨.FLOAT32, [⟨3, 2⟩, ⟨1, 3⟩]⟩] (by decide)

/-- The example of C9: `A : [4,1,3]` and `B : [2,3]` give sizes `[4,2,3]` with
strides `[6,3,1]` and dtype FLOAT32. -/
theorem ComputeOutputShape_example :
    ComputeOutputShape refEnv [.TENSOR ⟨.FLOAT32, [⟨3, 4⟩, ⟨3, 1⟩, ⟨1, 3⟩]⟩,
        .TENSOR ⟨.FLOAT32, [⟨3, 2⟩, ⟨1, 3⟩]⟩] =
      .ok ⟨.FLOAT32, [⟨6, 4⟩, ⟨3, 2⟩, ⟨1, 3⟩]⟩ := by
  decide

/-- C9 as stated fails: `A : [1, 2^32, 1]` and `B : [2^32, 1, 2^32]` (both with
exact row-major strides) broadcast to sizes `[2^32, 2^32, 2^32]`, and the stride
computed for the first dim is 0, not the product `2^64` of the sizes to its
right. -/
theorem ComputeOutputShape_stride_wraps :
    ComputeOutputShape.merge
        [.TENSOR ⟨.FLOAT32, [⟨4294967296, 1⟩, ⟨1, 4294967296⟩, ⟨1, 1⟩]⟩,
          .TENSOR ⟨.FLOAT32, [⟨4294967296, 4294967296⟩, ⟨4294967296, 1⟩, ⟨1, 4294967296⟩]⟩]
        ({ type := DataType.INVALID, dims := [] }, false, []) =
      .ok (⟨.INVALID, [⟨4294967296, 4294967296⟩, ⟨1, 4294967296⟩, ⟨1, 4294967296⟩]⟩, true,
        [⟨.FLOAT32, [⟨4294967296, 1⟩, ⟨1, 4294967296⟩, ⟨1, 1⟩]⟩,
          ⟨.FLOAT32, [⟨4294967296, 4294967296⟩, ⟨4294967296, 1⟩, ⟨1, 4294967296⟩]⟩]) ∧
    ComputeOutputShape refEnv
        [.TENSOR ⟨.FLOAT32, [⟨4294967296, 1⟩, ⟨1, 4294967296⟩, ⟨1, 1⟩]⟩,
          .TENSOR ⟨.FLOAT32, [⟨4294967296, 4294967296⟩, ⟨4294967296, 1⟩, ⟨1, 4294967296⟩]⟩] =
      .ok ⟨.FLOAT32, [⟨0, 4294967296⟩, ⟨4294967296, 4294967296⟩, ⟨1, 4294967296⟩]⟩ ∧
    (0 : Int) ≠ (((sizesOf [(⟨4294967296, 4294967296⟩ : TensorDimension),
      ⟨1, 4294967296⟩]).prod : Nat) : Int) := by
  decide

/-! ## Facts about AstTraversal -/

theorem AstTraversal.Visit_of_visitable (node : ExprNode) (hv : node.visitable = true) :
    ∃ pushes, AstTraversal.Visit node = .ok pushes ∧ pushes.Perm node.children := by
  cases node with
  | ParamExpr s => exact ⟨[], rfl, List.Perm.refl _⟩
  | IntConst v => exact ⟨[], rfl, List.Perm.refl _⟩
  | FloatConst v => exact ⟨[], rfl, List.Perm.refl _⟩
  | CallExpr fn args => exact ⟨args.reverse, rfl, List.reverse_perm _⟩
  | ContractionExpr c =>
    refine ⟨_, rfl, ?_⟩
    simp only [ExprNode.children]
    apply List.Perm.append_right
    exact (List.reverse_perm _).map _
  | TensorSpecExpr s => simp [ExprNode.visitable] at hv
  | ConstraintExpr c => simp [ExprNode.visitable] at hv

theorem AstTraversal.Visit_children (node : ExprNode) (pushes : List ExprPtr)
    (h : AstTraversal.Visit node = .ok pushes) : pushes.Perm node.children := by
  cases node with
  | ParamExpr s => simp [AstTraversal.Visit] at h; subst h; exact List.Perm.refl _
  | IntConst v => simp [AstTraversal.Visit] at h; subst h; exact List.Perm.refl _
  | FloatConst v => simp [AstTraversal.Visit] at h; subst h; exact List.Perm.refl _
  | CallExpr fn args =>
    simp [AstTraversal.Visit] at h; subst h; exact List.reverse_perm _
  | ContractionExpr c =>
    simp only [AstTraversal.Visit, Except.ok.injEq] at h
    subst h
    simp only [ExprNode.children]
    apply List.Perm.append_right
    exact (List.reverse_perm _).map _
  | TensorSpecExpr s => simp [AstTraversal.Visit] at h
  | ConstraintExpr c => simp [AstTraversal.Visit] at h

theorem AstTraversal.mem_PushAll (exprs : List ExprPtr) (stack : List (ExprPtr × Bool))
    (x : ExprPtr × Bool) :
    x ∈ AstTraversal.PushAll exprs stack ↔ (x.2 = false ∧ x.1 ∈ exprs) ∨ x ∈ stack := by
  unfold AstTraversal.PushAll
  simp only [List.mem_append, List.mem_map, List.mem_reverse]
  constructor
  · rintro (⟨e, he, rfl⟩ | h)
    · exact Or.inl ⟨rfl, he⟩
    · exact Or.inr h
  · rintro (⟨h2, h1⟩ | h)
    · exact Or.inl ⟨x.1, h1, by rw [← h2]⟩
    · exact Or.inr h

theorem AstTraversal.length_PushAll (exprs : List ExprPtr) (stack : List (ExprPtr × Bool)) :
    (AstTraversal.PushAll exprs stack).length = exprs.length + stack.length := by
  simp [AstTraversal.PushAll]

theorem AstTraversal.unseenWeight_mono (w : ExprPtr → Nat) (dom seen : List ExprPtr)
    (n : ExprPtr) :
    AstTraversal.unseenWeight w dom (n :: seen) ≤ AstTraversal.unseenWeight w dom seen := by
  induction dom with
  | nil => simp [AstTraversal.unseenWeight]
  | cons a dom ih =>
    simp only [AstTraversal.unseenWeight, List.mem_cons]
    split_ifs with h1 h2 h2
    · omega
    · omega
    · exact absurd (Or.inr h2) h1
    · omega

/-- Marking a node of `dom` as seen lowers the weight of the unseen nodes by at
least the weight of that node. -/
theorem AstTraversal.unseenWeight_drop (w : ExprPtr → Nat) (dom seen : List ExprPtr)
    (n : ExprPtr) (hn : n ∈ dom) (hs : n ∉ seen) :
    AstTraversal.unseenWeight w dom (n :: seen) + w n ≤
      AstTraversal.unseenWeight w dom seen := by
  induction dom with
  | nil => simp at hn
  | cons a dom ih =>
    have hmono := AstTraversal.unseenWeight_mono w dom seen n
    simp only [AstTraversal.unseenWeight, List.mem_cons]
    by_cases ha : a = n
    · subst ha
      simp only [true_or, if_true, hs, if_false]
      omega
    · have hn' : n ∈ dom := by
        rcases List.mem_cons.mp hn with h | h
        · exact absurd h.symm ha
        · exact h
      have := ih hn'
      split_ifs with h1 h2 h2
      · omega
      · rcases h1 with h1 | h1
        · exact absurd h1 ha
        · exact absurd h1 h2
      · exact absurd (Or.inr h2) h1
      · omega

theorem AstTraversal.loop_nil (heap : Heap) (fuel : Nat) (t : AstTraversal)
    (h : t.stack_ = []) : AstTraversal.loop heap fuel t = some (.ok t) := by
  cases fuel <;> simp [AstTraversal.loop, h]

theorem AstTraversal.loop_zero (heap : Heap) (t : AstTraversal)
    (h : t.stack_ ≠ []) : AstTraversal.loop heap 0 t = none := by
  obtain ⟨stack, flat, seen⟩ := t
  cases stack with
  | nil => exact absurd rfl h
  | cons x rest => simp [AstTraversal.loop]

theorem AstTraversal.loop_succ (heap : Heap) (fuel : Nat) (t : AstTraversal)
    (h : t.stack_ ≠ []) :
    AstTraversal.loop heap (fuel + 1) t =
      match AstTraversal.step heap t with
      | .error e => some (.error e)
      | .ok t1 => AstTraversal.loop heap fuel t1 := by
  obtain ⟨stack, flat, seen⟩ := t
  cases stack with
  | nil => exact absurd rfl h
  | cons x rest => simp [AstTraversal.loop]

theorem AstTraversal.step_progress (heap : Heap) (dom : List ExprPtr) (t : AstTraversal)
    (hclosed : ∀ n ∈ dom, ∀ c ∈ (heap n).node.children, c ∈ dom)
    (hvis : ∀ n ∈ dom, (heap n).node.visitable = true)
    (hin : AstTraversal.within dom t) (hne : t.stack_ ≠ []) :
    ∃ t1, AstTraversal.step heap t = .ok t1 ∧ AstTraversal.within dom t1 ∧
      AstTraversal.potential heap dom t1 + 1 ≤ AstTraversal.potential heap dom t := by
  obtain ⟨stack, flat, seen⟩ := t
  cases stack with
  | nil => exact absurd rfl hne
  | cons x rest =>
    obtain ⟨e, post⟩ := x
    have he : e ∈ dom := hin (e, post) (by simp)
    have hrest : ∀ y ∈ rest, y.1 ∈ dom := fun y hy => hin y (by simp [hy])
    cases post with
    | true =>
      refine ⟨_, by simp [AstTraversal.step]; rfl, ?_, ?_⟩
      · exact hrest
      · simp only [AstTraversal.potential, List.length_cons]
        omega
    | false =>
      by_cases hs : e ∈ seen
      · refine ⟨_, by simp [AstTraversal.step, hs]; rfl, ?_, ?_⟩
        · exact hrest
        · simp only [AstTraversal.potential, List.length_cons]
          omega
      · obtain ⟨pushes, hv, hperm⟩ := AstTraversal.Visit_of_visitable _ (hvis e he)
        refine ⟨_, by simp [AstTraversal.step, hs, hv]; rfl, ?_, ?_⟩
        · intro y hy
          simp only at hy
          rcases (AstTraversal.mem_PushAll _ _ _).mp hy with ⟨-, h1⟩ | h1
          · exact hclosed e he _ (hperm.mem_iff.mp h1)
          · rcases List.mem_cons.mp h1 with h2 | h2
            · rw [h2]; exact he
            · exact hrest y h2
        · have hdrop := AstTraversal.unseenWeight_drop
            (fun n => 1 + (heap n).node.children.length) dom seen e he hs
          have hlen := hperm.length_eq
          simp only [AstTraversal.potential, AstTraversal.length_PushAll, List.length_cons]
          simp only at hdrop
          omega

theorem AstTraversal.loop_total (heap : Heap) (dom : List ExprPtr)
    (hclosed : ∀ n ∈ dom, ∀ c ∈ (heap n).node.children, c ∈ dom)
    (hvis : ∀ n ∈ dom, (heap n).node.visitable = true) :
    ∀ (fuel : Nat) (t : AstTraversal), AstTraversal.within dom t →
      AstTraversal.potential heap dom t < fuel →
      ∃ r, AstTraversal.loop heap fuel t = some (.ok r) := by
  intro fuel
  induction fuel with
  | zero => intro t _ h; omega
  | succ fuel ih =>
    intro t hin hpot
    by_cases hne : t.stack_ = []
    · exact ⟨t, AstTraversal.loop_nil heap _ t hne⟩
    · obtain ⟨t1, hstep, hin1, hdec⟩ :=
        AstTraversal.step_progress heap dom t hclosed hvis hin hne
      rw [AstTraversal.loop_succ heap fuel t hne, hstep]
      exact ih t1 hin1 (by omega)

theorem AstTraversal.loop_mono (heap : Heap) :
    ∀ (fuel : Nat) (t : AstTraversal) (x : Except String AstTraversal),
      AstTraversal.loop heap fuel t = some x →
      ∀ fuel1, fuel ≤ fuel1 → AstTraversal.loop heap fuel1 t = some x := by
  intro fuel
  induction fuel with
  | zero =>
    intro t x h fuel1 _
    by_cases hne : t.stack_ = []
    · rw [AstTraversal.loop_nil heap _ t hne] at h ⊢
      exact h
    · rw [AstTraversal.loop_zero heap t hne] at h
      cases h
  | succ fuel ih =>
    intro t x h fuel1 hle
    by_cases hne : t.stack_ = []
    · rw [AstTraversal.loop_nil heap _ t hne] at h ⊢
      exact h
    · obtain ⟨k, rfl⟩ : ∃ k, fuel1 = k + 1 := ⟨fuel1 - 1, by omega⟩
      rw [AstTraversal.loop_succ heap _ t hne] at h ⊢
      cases hs : AstTraversal.step heap t with
      | error e => rw [hs] at h; exact h
      | ok t1 =>
        rw [hs] at h
        exact ih t1 x h k (by omega)

/-- A property kept by every loop iteration holds when the loop ends, and the
stack is then empty. -/
theorem AstTraversal.loop_inv (heap : Heap) (P : AstTraversal → Prop)
    (hstep : ∀ t t1, P t → t.stack_ ≠ [] → AstTraversal.step heap t = .ok t1 → P t1) :
    ∀ (fuel : Nat) (t r : AstTraversal), P t →
      AstTraversal.loop heap fuel t = some (.ok r) → P r ∧ r.stack_ = [] := by
  intro fuel
  induction fuel with
  | zero =>
    intro t r hP h
    by_cases hne : t.stack_ = []
    · rw [AstTraversal.loop_nil heap _ t hne] at h
      simp only [Option.some.injEq, Except.ok.injEq] at h
      subst h
      exact ⟨hP, hne⟩
    · rw [AstTraversal.loop_zero heap t hne] at h
      cases h
  | succ fuel ih =>
    intro t r hP h
    by_cases hne : t.stack_ = []
    · rw [AstTraversal.loop_nil heap _ t hne] at h
      simp only [Option.some.injEq, Except.ok.injEq] at h
      subst h
      exact ⟨hP, hne⟩
    · rw [AstTraversal.loop_succ heap _ t hne] at h
      cases hs : AstTraversal.step heap t with
      | error e => rw [hs] at h; simp at h
      | ok t1 =>
        rw [hs] at h
        exact ih t1 r (hstep t t1 hP hne hs) h

theorem AstTraversal.filter_PushAll (exprs : List ExprPtr) (stack : List (ExprPtr × Bool)) :
    (AstTraversal.PushAll exprs stack).filter (fun x => x.2) = stack.filter (fun x => x.2) := by
  unfold AstTraversal.PushAll
  rw [List.filter_append]
  have : List.filter (fun x => x.2) (List.map (fun e => (e, false)) exprs.reverse) = [] := by
    rw [List.filter_eq_nil_iff]
    intro x hx
    simp only [List.mem_map] at hx
    obtain ⟨e, -, rfl⟩ := hx
    simp
  rw [this, List.nil_append]

theorem AstTraversal.Inv_init (heap : Heap) (roots : List ExprPtr) :
    AstTraversal.Inv heap roots
      { stack_ := AstTraversal.PushAll roots [], flat_ := [], seen_ := [] } := by
  refine ⟨?_, ?_, ?_, ?_, ?_, ?_⟩
  · simp [AstTraversal.posts, AstTraversal.filter_PushAll]
  · intro n
    simp [AstTraversal.posts, AstTraversal.filter_PushAll]
  · intro x hx
    rcases (AstTraversal.mem_PushAll _ _ _).mp hx with ⟨-, h⟩ | h
    · exact Reachable.root _ h
    · simp at h
  · intro n hn
    simp at hn
  · intro r hr
    exact Or.inr ((AstTraversal.mem_PushAll _ _ _).mpr (Or.inl ⟨rfl, hr⟩))
  · intro n hn
    simp at hn

theorem AstTraversal.Inv_step (heap : Heap) (roots : List ExprPtr) (t t1 : AstTraversal)
    (hI : AstTraversal.Inv heap roots t) (hne : t.stack_ ≠ [])
    (hs : AstTraversal.step heap t = .ok t1) : AstTraversal.Inv heap roots t1 := by
  obtain ⟨stack, flat, seen⟩ := t
  cases stack with
  | nil => exact absurd rfl hne
  | cons x rest =>
    obtain ⟨e, post⟩ := x
    obtain ⟨hnd, hseen, hrs, hrf, hroots, hcl⟩ := hI
    simp only at hnd hseen hrs hrf hroots hcl
    have hre : Reachable heap roots e := hrs (e, post) (by simp)
    cases post with
    | true =>
      simp only [AstTraversal.step, if_true, Except.ok.injEq] at hs
      subst hs
      simp only [AstTraversal.posts, List.filter_cons, if_true, List.map_cons] at hnd hseen
      refine ⟨?_, ?_, ?_, ?_, ?_, ?_⟩
      · simp only [AstTraversal.posts]
        rw [← List.append_assoc]
        exact (List.perm_append_singleton e _).nodup_iff.mpr hnd
      · intro n
        simp only [AstTraversal.posts]
        rw [hseen n]
        simp only [List.mem_cons, List.mem_append, List.mem_singleton]
        tauto
      · intro y hy
        exact hrs y (by simp [hy])
      · intro n hn
        simp only [List.mem_append, List.mem_singleton] at hn
        rcases hn with hn | hn
        · exact hrf n hn
        · rw [hn]; exact hre
      · intro r hr
        rcases hroots r hr with h | h
        · exact Or.inl h
        · simp only [List.mem_cons, Prod.mk.injEq, Bool.false_eq_true, and_false, false_or] at h
          exact Or.inr h
      · intro n hn c hc
        rcases hcl n hn c hc with h | h
        · exact Or.inl h
        · simp only [List.mem_cons, Prod.mk.injEq, Bool.false_eq_true, and_false, false_or] at h
          exact Or.inr h
    | false =>
      simp only [AstTraversal.posts, List.filter_cons, Bool.false_eq_true, if_false]
        at hnd hseen
      by_cases hin : e ∈ seen
      · simp only [AstTraversal.step, Bool.false_eq_true, if_false, hin, if_true,
          Except.ok.injEq] at hs
        subst hs
        refine ⟨hnd, hseen, ?_, hrf, ?_, ?_⟩
        · intro y hy
          exact hrs y (by simp [hy])
        · intro r hr
          rcases hroots r hr with h | h
          · exact Or.inl h
          · rcases List.mem_cons.mp h with h | h
            · simp only [Prod.mk.injEq, and_true] at h
              rw [h]; exact Or.inl hin
            · exact Or.inr h
        · intro n hn c hc
          rcases hcl n hn c hc with h | h
          · exact Or.inl h
          · rcases List.mem_cons.mp h with h | h
            · simp only [Prod.mk.injEq, and_true] at h
              rw [h]; exact Or.inl hin
            · exact Or.inr h
      · simp only [AstTraversal.step, Bool.false_eq_true, if_false, hin] at hs
        cases hv : AstTraversal.Visit (heap e).node with
        | error m => rw [hv] at hs; simp at hs
        | ok pushes =>
          rw [hv] at hs
          simp only [Except.ok.injEq] at hs
          subst hs
          have hperm := AstTraversal.Visit_children _ _ hv
          have hposts : AstTraversal.posts
              { stack_ := AstTraversal.PushAll pushes ((e, true) :: rest), flat_ := flat,
                seen_ := e :: seen } =
              e :: List.map (fun x => x.1) (List.filter (fun x => x.2) rest) := by
            simp [AstTraversal.posts, AstTraversal.filter_PushAll]
          refine ⟨?_, ?_, ?_, hrf, ?_, ?_⟩
          · rw [hposts]
            simp only [List.cons_append, List.nodup_cons]
            refine ⟨?_, hnd⟩
            intro hmem
            exact hin ((hseen e).mpr (List.mem_append.mp hmem))
          · intro n
            rw [hposts]
            simp only [List.mem_cons]
            rw [hseen n]
            tauto
          · intro y hy
            rcases (AstTraversal.mem_PushAll _ _ _).mp hy with ⟨-, h1⟩ | h1
            · exact Reachable.child e _ hre (hperm.mem_iff.mp h1)
            · rcases List.mem_cons.mp h1 with h2 | h2
              · rw [h2]; exact hre
              · exact hrs y (by simp [h2])
          · intro r hr
            rcases hroots r hr with h | h
            · exact Or.inl (List.mem_cons_of_mem _ h)
            · rcases List.mem_cons.mp h with h | h
              · simp only [Prod.mk.injEq, and_true] at h
                rw [h]; exact Or.inl (List.mem_cons_self _ _)
              · exact Or.inr ((AstTraversal.mem_PushAll _ _ _).mpr
                  (Or.inr (List.mem_cons_of_mem _ h)))
          · intro n hn c hc
            rcases List.mem_cons.mp hn with hn | hn
            · subst hn
              exact Or.inr ((AstTraversal.mem_PushAll _ _ _).mpr
                (Or.inl ⟨rfl, hperm.mem_iff.mpr hc⟩))
            · rcases hcl n hn c hc with h | h
              · exact Or.inl (List.mem_cons_of_mem _ h)
              · rcases List.mem_cons.mp h with h | h
                · simp only [Prod.mk.injEq, and_true] at h
                  rw [h]; exact Or.inl (List.mem_cons_self _ _)
                · exact Or.inr ((AstTraversal.mem_PushAll _ _ _).mpr
                    (Or.inr (List.mem_cons_of_mem _ h)))

theorem AstTraversal.unseenWeight_nil (w : ExprPtr → Nat) (dom : List ExprPtr) :
    AstTraversal.unseenWeight w dom [] = (dom.map w).sum := by
  induction dom with
  | nil => rfl
  | cons a dom ih => simp [AstTraversal.unseenWeight, ih]

/-- With the budget of `AstTraversal.budget` the loop runs to completion, and the
final state satisfies every property that the initial state has and the loop
iterations keep. -/
theorem AstTraversal.loop_budget (heap : Heap) (dom roots : List ExprPtr)
    (hroots : ∀ r ∈ roots, r ∈ dom)
    (hclosed : ∀ n ∈ dom, ∀ c ∈ (heap n).node.children, c ∈ dom)
    (hvis : ∀ n ∈ dom, (heap n).node.visitable = true) :
    ∃ r, r.stack_ = [] ∧
      (∀ fuel, AstTraversal.budget heap dom roots ≤ fuel →
        AstTraversal.flat fuel heap roots = some (.ok r.flat_)) ∧
      ∀ P : AstTraversal → Prop,
        (∀ t t1, P t → t.stack_ ≠ [] → AstTraversal.step heap t = .ok t1 → P t1) →
        P { stack_ := AstTraversal.PushAll roots [], flat_ := [], seen_ := [] } → P r := by
  have hin : AstTraversal.within dom
      { stack_ := AstTraversal.PushAll roots [], flat_ := [], seen_ := [] } := by
    intro x hx
    rcases (AstTraversal.mem_PushAll _ _ _).mp hx with ⟨-, h⟩ | h
    · exact hroots _ h
    · simp at h
  have hpot : AstTraversal.potential heap dom
      { stack_ := AstTraversal.PushAll roots [], flat_ := [], seen_ := [] } <
      AstTraversal.budget heap dom roots := by
    simp only [AstTraversal.potential, AstTraversal.budget, AstTraversal.length_PushAll,
      AstTraversal.unseenWeight_nil, List.length_nil]
    omega
  obtain ⟨r, hr⟩ := AstTraversal.loop_total heap dom hclosed hvis _ _ hin hpot
  refine ⟨r, ?_, ?_, ?_⟩
  · exact (AstTraversal.loop_inv heap (fun _ => True) (fun _ _ _ _ _ => trivial) _ _ r
      trivial hr).2
  · intro fuel hle
    have := AstTraversal.loop_mono heap _ _ _ hr fuel hle
    simp [AstTraversal.flat, this]
  · intro P hstep hinit
    exact (AstTraversal.loop_inv heap P hstep _ _ r hinit hr).1

/-- C2 (linearizer completeness without duplicates): for a finite graph (all nodes
that can be reached lie in the finite list `dom`, none of them a bare
`TensorSpecExpr` or `ConstraintExpr`) and any list of roots, repeated or sharing
nodes, `AstTraversal` returns a flat sequence that contains every node reachable
from the roots through call args, contraction input refs and `use_default`
exactly once, and no other node. -/
theorem AstTraversal_complete_nodup (heap : Heap) (dom roots : List ExprPtr)
    (hroots : ∀ r ∈ roots, r ∈ dom)
    (hclosed : ∀ n ∈ dom, ∀ c ∈ (heap n).node.children, c ∈ dom)
    (hvis : ∀ n ∈ dom, (heap n).node.visitable = true) :
    ∃ flat,
      (∀ fuel, AstTraversal.budget heap dom roots ≤ fuel →
        AstTraversal.flat fuel heap roots = some (.ok flat)) ∧
      flat.Nodup ∧
      (∀ n, Reachable heap roots n → flat.count n = 1) ∧
      (∀ n, n ∈ flat → Reachable heap roots n) := by
  obtain ⟨r, hempty, hrun, hP⟩ := AstTraversal.loop_budget heap dom roots hroots hclosed hvis
  have hI := hP (AstTraversal.Inv heap roots) (AstTraversal.Inv_step heap roots)
    (AstTraversal.Inv_init heap roots)
  obtain ⟨hnd, hseen, -, hrf, hrd, hcl⟩ := hI
  have hposts : AstTraversal.posts r = [] := by simp [AstTraversal.posts, hempty]
  rw [hposts] at hnd hseen
  simp only [List.nil_append, List.not_mem_nil, false_or] at hnd hseen
  rw [hempty] at hrd hcl
  have hall : ∀ n, Reachable heap roots n → n ∈ r.flat_ := by
    intro n hn
    induction hn with
    | root x hx =>
      rcases hrd x hx with h | h
      · exact (hseen x).mp h
      · simp at h
    | child n c _ hc ih =>
      rcases hcl n ((hseen n).mpr ih) c hc with h | h
      · exact (hseen c).mp h
      · simp at h
  exact ⟨r.flat_, hrun, hnd, fun n hn => List.count_eq_one_of_mem hnd (hall n hn), hrf⟩

theorem AstTraversal_complete_nodup_witness :
    ∃ flat,
      (∀ fuel, AstTraversal.budget exHeap [0, 1, 2, 3] [3, 2, 3] ≤ fuel →
        AstTraversal.flat fuel exHeap [3, 2, 3] = some (.ok flat)) ∧
      flat.Nodup ∧
      (∀ n, Reachable exHeap [3, 2, 3] n → flat.count n = 1) ∧
      (∀ n, n ∈ flat → Reachable exHeap [3, 2, 3] n) :=
  AstTraversal_complete_nodup exHeap [0, 1, 2, 3] [3, 2, 3] (by decide) (by decide) (by decide)

/-- A post entry found in a stack that starts with non-post entries lies below them. -/
theorem AstTraversal.split_below (new s pre post : List (ExprPtr × Bool)) (m : ExprPtr)
    (hnew : ∀ x ∈ new, x.2 = false) (h : new ++ s = pre ++ (m, true) :: post) :
    ∃ pre1, pre = new ++ pre1 ∧ s = pre1 ++ (m, true) :: post := by
  induction new generalizing pre with
  | nil => exact ⟨pre, rfl, h⟩
  | cons a new ih =>
    cases pre with
    | nil =>
      simp only [List.cons_append, List.nil_append, List.cons.injEq] at h
      have := hnew a (by simp)
      rw [h.1] at this
      cases this
    | cons b pre =>
      simp only [List.cons_append, List.cons.injEq] at h
      obtain ⟨pre1, h1, h2⟩ := ih pre (fun x hx => hnew x (by simp [hx])) h.2
      exact ⟨pre1, by rw [h.1, h1]; rfl, h2⟩

theorem AstTraversal.split_PushAll (exprs : List ExprPtr) (s pre post : List (ExprPtr × Bool))
    (m : ExprPtr) (h : AstTraversal.PushAll exprs s = pre ++ (m, true) :: post) :
    ∃ pre1, pre = AstTraversal.PushAll exprs pre1 ∧ s = pre1 ++ (m, true) :: post := by
  unfold AstTraversal.PushAll at h ⊢
  apply AstTraversal.split_below _ _ _ _ _ _ h
  intro x hx
  simp only [List.mem_map] at hx
  obtain ⟨e, -, rfl⟩ := hx
  rfl

theorem AstTraversal.Ordered_init (heap : Heap) (dom roots : List ExprPtr)
    (rank : ExprPtr → Nat) (hroots : ∀ r ∈ roots, r ∈ dom) :
    AstTraversal.Ordered heap dom rank
      { stack_ := AstTraversal.PushAll roots [], flat_ := [], seen_ := [] } := by
  refine ⟨?_, ?_, ?_, ?_, ?_⟩
  · intro x hx
    rcases (AstTraversal.mem_PushAll _ _ _).mp hx with ⟨-, h⟩ | h
    · exact hroots _ h
    · simp at h
  · intro l1 n l2 h
    simp at h
  · intro pre n post h
    obtain ⟨pre1, -, h2⟩ := AstTraversal.split_PushAll _ _ _ _ _ h
    simp at h2
  · intro pre n post h
    obtain ⟨pre1, -, h2⟩ := AstTraversal.split_PushAll _ _ _ _ _ h
    simp at h2
  · intro n hn
    simp at hn

theorem AstTraversal.Ordered_step (heap : Heap) (dom : List ExprPtr) (rank : ExprPtr → Nat)
    (hclosed : ∀ n ∈ dom, ∀ c ∈ (heap n).node.children, c ∈ dom)
    (hacyc : ∀ n ∈ dom, ∀ c ∈ (heap n).node.children, rank c < rank n)
    (t t1 : AstTraversal) (hI : AstTraversal.Ordered heap dom rank t) (hne : t.stack_ ≠ [])
    (hs : AstTraversal.step heap t = .ok t1) : AstTraversal.Ordered heap dom rank t1 := by
  obtain ⟨stack, flat, seen⟩ := t
  cases stack with
  | nil => exact absurd rfl hne
  | cons x rest =>
    obtain ⟨e, post⟩ := x
    obtain ⟨hin, hflat, hpend, hchain, hseen⟩ := hI
    simp only at hin hflat hpend hchain hseen
    have he : e ∈ dom := hin (e, post) (by simp)
    have hrest : ∀ y ∈ rest, y.1 ∈ dom := fun y hy => hin y (by simp [hy])
    cases post with
    | true =>
      simp only [AstTraversal.step, if_true, Except.ok.injEq] at hs
      subst hs
      refine ⟨hrest, ?_, ?_, ?_, ?_⟩
      · intro l1 n l2 h c hc
        simp only at h
        rcases List.eq_nil_or_concat l2 with h2 | ⟨L, b, h2⟩
        · subst h2
          have h3 : flat ++ [e] = l1 ++ [n] := h
          obtain ⟨h4, h5⟩ := List.append_inj' h3 rfl
          simp only [List.cons.injEq, and_true] at h5
          subst h4 h5
          rcases hpend [] e rest rfl c hc with h6 | ⟨b, h6⟩
          · exact h6
          · simp at h6
        · subst h2
          have h3 : flat ++ [e] = (l1 ++ n :: L) ++ [b] := by
            rw [h]; simp
          obtain ⟨h4, -⟩ := List.append_inj' h3 rfl
          exact hflat l1 n L h4 c hc
      · intro pre n post h c hc
        simp only at h
        rcases hpend ((e, true) :: pre) n post (by rw [h]; rfl) c hc with h1 | ⟨b, h1⟩
        · exact Or.inl (List.mem_append_left _ h1)
        · rcases List.mem_cons.mp h1 with h2 | h2
          · simp only [Prod.mk.injEq] at h2
            left
            rw [h2.1]
            simp
          · exact Or.inr ⟨b, h2⟩
      · intro pre n post h y hy
        simp only at h
        exact hchain ((e, true) :: pre) n post (by rw [h]; rfl) y (List.mem_cons_of_mem _ hy)
      · intro n hn
        rcases hseen n hn with h | h
        · exact Or.inl (List.mem_append_left _ h)
        · rcases List.mem_cons.mp h with h | h
          · simp only [Prod.mk.injEq, and_true] at h
            left
            rw [h]
            simp
          · exact Or.inr h
    | false =>
      by_cases hmem : e ∈ seen
      · simp only [AstTraversal.step, Bool.false_eq_true, if_false, hmem, if_true,
          Except.ok.injEq] at hs
        subst hs
        refine ⟨hrest, hflat, ?_, ?_, ?_⟩
        · intro pre n post h c hc
          simp only at h
          have hn : n ∈ dom := hrest (n, true) (by rw [h]; simp)
          rcases hpend ((e, false) :: pre) n post (by rw [h]; rfl) c hc with h1 | ⟨b, h1⟩
          · exact Or.inl h1
          · rcases List.mem_cons.mp h1 with h2 | h2
            · simp only [Prod.mk.injEq] at h2
              obtain ⟨hce, -⟩ := h2
              subst hce
              rcases hseen c hmem with h3 | h3
              · exact Or.inl h3
              · rcases List.mem_cons.mp h3 with h4 | h4
                · simp at h4
                · rw [h] at h4
                  rcases List.mem_append.mp h4 with h5 | h5
                  · exact Or.inr ⟨true, h5⟩
                  · rcases List.mem_cons.mp h5 with h6 | h6
                    · simp only [Prod.mk.injEq, and_true] at h6
                      have := hacyc n hn c hc
                      rw [h6] at this
                      exact absurd this (lt_irrefl _)
                    · obtain ⟨p1, p2, hp⟩ := List.append_of_mem h6
                      have hlt := hchain ((c, false) :: pre ++ (n, true) :: p1) c p2
                        (by rw [h, hp]; simp) (n, true) (by simp)
                      have := hacyc n hn c hc
                      simp only at hlt
                      omega
            · exact Or.inr ⟨b, h2⟩
        · intro pre n post h y hy
          simp only at h
          exact hchain ((e, false) :: pre) n post (by rw [h]; rfl) y
            (List.mem_cons_of_mem _ hy)
        · intro n hn
          rcases hseen n hn with h | h
          · exact Or.inl h
          · rcases List.mem_cons.mp h with h | h
            · simp at h
            · exact Or.inr h
      · simp only [AstTraversal.step, Bool.false_eq_true, if_false, hmem] at hs
        cases hv : AstTraversal.Visit (heap e).node with
        | error m => rw [hv] at hs; simp at hs
        | ok pushes =>
          rw [hv] at hs
          simp only [Except.ok.injEq] at hs
          subst hs
          have hperm := AstTraversal.Visit_children _ _ hv
          refine ⟨?_, hflat, ?_, ?_, ?_⟩
          · intro y hy
            rcases (AstTraversal.mem_PushAll _ _ _).mp hy with ⟨-, h1⟩ | h1
            · exact hclosed e he _ (hperm.mem_iff.mp h1)
            · rcases List.mem_cons.mp h1 with h2 | h2
              · rw [h2]; exact he
              · exact hrest y h2
          · intro pre n post h c hc
            simp only at h
            obtain ⟨pre1, hp1, hp2⟩ := AstTraversal.split_PushAll _ _ _ _ _ h
            cases pre1 with
            | nil =>
              simp only [List.nil_append, List.cons.injEq, Prod.mk.injEq, and_true] at hp2
              obtain ⟨hen, -⟩ := hp2
              subst hen
              right
              refine ⟨false, ?_⟩
              rw [hp1]
              exact (AstTraversal.mem_PushAll _ _ _).mpr (Or.inl ⟨rfl, hperm.mem_iff.mpr hc⟩)
            | cons a pre2 =>
              simp only [List.cons_append, List.cons.injEq] at hp2
              obtain ⟨ha, hp3⟩ := hp2
              subst ha
              rcases hpend ((e, false) :: pre2) n post (by rw [hp3]; rfl) c hc with h1 | ⟨b, h1⟩
              · exact Or.inl h1
              · right
                rcases List.mem_cons.mp h1 with h2 | h2
                · simp only [Prod.mk.injEq] at h2
                  refine ⟨true, ?_⟩
                  rw [hp1, h2.1]
                  exact (AstTraversal.mem_PushAll _ _ _).mpr (Or.inr (by simp))
                · refine ⟨b, ?_⟩
                  rw [hp1]
                  exact (AstTraversal.mem_PushAll _ _ _).mpr
                    (Or.inr (List.mem_cons_of_mem _ h2))
          · intro pre n post h y hy
            simp only at h
            obtain ⟨pre1, hp1, hp2⟩ := AstTraversal.split_PushAll _ _ _ _ _ h
            rw [hp1] at hy
            cases pre1 with
            | nil =>
              simp only [List.nil_append, List.cons.injEq, Prod.mk.injEq, and_true] at hp2
              obtain ⟨hen, -⟩ := hp2
              subst hen
              rcases (AstTraversal.mem_PushAll _ _ _).mp hy with ⟨-, h1⟩ | h1
              · exact hacyc e he _ (hperm.mem_iff.mp h1)
              · simp at h1
            | cons a pre2 =>
              simp only [List.cons_append, List.cons.injEq] at hp2
              obtain ⟨ha, hp3⟩ := hp2
              subst ha
              have hen : rank e < rank n :=
                hchain ((e, false) :: pre2) n post (by rw [hp3]; rfl) (e, false) (by simp)
              rcases (AstTraversal.mem_PushAll _ _ _).mp hy with ⟨-, h1⟩ | h1
              · have := hacyc e he _ (hperm.mem_iff.mp h1)
                omega
              · rcases List.mem_cons.mp h1 with h2 | h2
                · rw [h2]; exact hen
                · exact hchain ((e, false) :: pre2) n post (by rw [hp3]; rfl) y
                    (List.mem_cons_of_mem _ h2)
          · intro n hn
            rcases List.mem_cons.mp hn with h | h
            · right
              rw [h]
              exact (AstTraversal.mem_PushAll _ _ _).mpr (Or.inr (by simp))
            · rcases hseen n h with h1 | h1
              · exact Or.inl h1
              · rcases List.mem_cons.mp h1 with h2 | h2
                · simp at h2
                · exact Or.inr ((AstTraversal.mem_PushAll _ _ _).mpr
                    (Or.inr (List.mem_cons_of_mem _ h2)))

/-- C1 (linearizer dependency order): for a finite acyclic graph (every edge from a
node of `dom` strictly lowers `rank`) and any list of roots, `AstTraversal` returns
a flat sequence in which every `CallExpr` stands after each of its args, and every
`ContractionExpr` stands after the ref of each of its inputs and after its
`use_default` expression when one is set. -/
theorem AstTraversal_dependency_order (heap : Heap) (dom roots : List ExprPtr)
    (rank : ExprPtr → Nat)
    (hroots : ∀ r ∈ roots, r ∈ dom)
    (hclosed : ∀ n ∈ dom, ∀ c ∈ (heap n).node.children, c ∈ dom)
    (hvis : ∀ n ∈ dom, (heap n).node.visitable = true)
    (hacyc : ∀ n ∈ dom, ∀ c ∈ (heap n).node.children, rank c < rank n) :
    ∃ flat,
      (∀ fuel, AstTraversal.budget heap dom roots ≤ fuel →
        AstTraversal.flat fuel heap roots = some (.ok flat)) ∧
      ∀ l1 n l2, flat = l1 ++ n :: l2 →
        (∀ fn args, (heap n).node = .CallExpr fn args → ∀ a ∈ args, a ∈ l1) ∧
        (∀ cion, (heap n).node = .ContractionExpr cion →
          (∀ input ∈ cion.inputs, input.ref ∈ l1) ∧
          (∀ d, cion.use_default = some d → d ∈ l1)) := by
  obtain ⟨r, -, hrun, hP⟩ := AstTraversal.loop_budget heap dom roots hroots hclosed hvis
  have hI := hP (AstTraversal.Ordered heap dom rank)
    (AstTraversal.Ordered_step heap dom rank hclosed hacyc)
    (AstTraversal.Ordered_init heap dom roots rank hroots)
  refine ⟨r.flat_, hrun, ?_⟩
  intro l1 n l2 hsplit
  have hch := hI.flat_ok l1 n l2 hsplit
  refine ⟨?_, ?_⟩
  · intro fn args hnode a ha
    apply hch
    rw [hnode]
    exact ha
  · intro cion hnode
    refine ⟨?_, ?_⟩
    · intro input hinput
      apply hch
      rw [hnode]
      simp only [ExprNode.children, List.mem_append, List.mem_map]
      exact Or.inl ⟨input, hinput, rfl⟩
    · intro d hd
      apply hch
      rw [hnode]
      simp only [ExprNode.children, hd, List.mem_append, List.mem_singleton, or_true]

theorem AstTraversal_dependency_order_witness :
    ∃ flat,
      (∀ fuel, AstTraversal.budget exHeap [0, 1, 2, 3] [1, 3] ≤ fuel →
        AstTraversal.flat fuel exHeap [1, 3] = some (.ok flat)) ∧
      ∀ l1 n l2, flat = l1 ++ n :: l2 →
        (∀ fn args, (exHeap n).node = .CallExpr fn args → ∀ a ∈ args, a ∈ l1) ∧
        (∀ cion, (exHeap n).node = .ContractionExpr cion →
          (∀ input ∈ cion.inputs, input.ref ∈ l1) ∧
          (∀ d, cion.use_default = some d → d ∈ l1)) :=
  AstTraversal_dependency_order exHeap [0, 1, 2, 3] [1, 3] (fun n => n)
    (by decide) (by decide) (by decide) (by decide)

/-! ## Facts about names -/

theorem digitChar_inj : ∀ i < 10, ∀ j < 10, Nat.digitChar i = Nat.digitChar j → i = j := by
  decide

theorem toDigitsCore_len (fuel n : Nat) (ds : List Char) :
    ds.length ≤ (Nat.toDigitsCore 10 fuel n ds).length := by
  induction fuel generalizing n ds with
  | zero => simp [Nat.toDigitsCore]
  | succ fuel ih =>
    simp only [Nat.toDigitsCore]
    split_ifs
    · simp
    · have := ih (n / 10) (Nat.digitChar (n % 10) :: ds)
      simp only [List.length_cons] at this
      omega

theorem toDigitsCore_len_pos (fuel n : Nat) (ds : List Char) (h : 0 < fuel) :
    ds.length + 1 ≤ (Nat.toDigitsCore 10 fuel n ds).length := by
  obtain ⟨f, rfl⟩ : ∃ f, fuel = f + 1 := ⟨fuel - 1, by omega⟩
  simp only [Nat.toDigitsCore]
  split_ifs
  · simp
  · have := toDigitsCore_len f (n / 10) (Nat.digitChar (n % 10) :: ds)
    simp only [List.length_cons] at this
    omega

theorem toDigitsCore_inj (fa : Nat) :
    ∀ (fb a b : Nat) (ds es : List Char), a < fa → b < fb → ds.length = es.length →
      Nat.toDigitsCore 10 fa a ds = Nat.toDigitsCore 10 fb b es → a = b ∧ ds = es := by
  induction fa with
  | zero => intro fb a b ds es ha; omega
  | succ fa ih =>
    intro fb a b ds es ha hb hlen h
    obtain ⟨fb, rfl⟩ : ∃ f, fb = f + 1 := ⟨fb - 1, by omega⟩
    simp only [Nat.toDigitsCore] at h
    by_cases ha0 : a / 10 = 0
    · by_cases hb0 : b / 10 = 0
      · simp only [ha0, hb0, if_true, List.cons.injEq] at h
        have ha' : a < 10 := by omega
        have hb' : b < 10 := by omega
        have := digitChar_inj (a % 10) (Nat.mod_lt _ (by norm_num)) (b % 10)
          (Nat.mod_lt _ (by norm_num)) h.1
        exact ⟨by omega, h.2⟩
      · simp only [ha0, hb0, if_true, if_false] at h
        have hpos : 0 < fb := by omega
        have := toDigitsCore_len_pos fb (b / 10) (Nat.digitChar (b % 10) :: es) hpos
        rw [← h] at this
        simp only [List.length_cons] at this
        omega
    · by_cases hb0 : b / 10 = 0
      · simp only [ha0, hb0, if_true, if_false] at h
        have hpos : 0 < fa := by omega
        have := toDigitsCore_len_pos fa (a / 10) (Nat.digitChar (a % 10) :: ds) hpos
        rw [h] at this
        simp only [List.length_cons] at this
        omega
      · simp only [ha0, hb0, if_false] at h
        have := ih fb (a / 10) (b / 10) _ _ (by omega) (by omega) (by simp [hlen]) h
        obtain ⟨h1, h2⟩ := this
        simp only [List.cons.injEq] at h2
        have := digitChar_inj (a % 10) (Nat.mod_lt _ (by norm_num)) (b % 10)
          (Nat.mod_lt _ (by norm_num)) h2.1
        exact ⟨by omega, h2.2⟩

theorem toString_nat_inj (a b : Nat) (h : toString a = toString b) : a = b := by
  have h1 : Nat.repr a = Nat.repr b := h
  have h2 : Nat.toDigits 10 a = Nat.toDigits 10 b := congrArg String.data h1
  exact (toDigitsCore_inj (a + 1) (b + 1) a b [] [] (by omega) (by omega) rfl h2).1

theorem string_append_cancel (p a b : String) (h : p ++ a = p ++ b) : a = b := by
  have := congrArg String.data h
  simp only [String.data_append, List.append_cancel_left_eq] at this
  exact String.ext this

theorem head_append (p a : String) (hp : p ≠ "") : (p ++ a).data.head? = p.data.head? := by
  have : p.data ≠ [] := by
    intro h
    apply hp
    exact String.ext h
  simp only [String.data_append]
  cases hd : p.data with
  | nil => exact absurd hd this
  | cons c cs => rfl

theorem Evaluator.MakeUniqueName_spec (pfx : String) (names : List String) (hp : pfx ≠ "") :
    (Evaluator.MakeUniqueName pfx names).1 ∉ names ∧
    (Evaluator.MakeUniqueName pfx names).2 = (Evaluator.MakeUniqueName pfx names).1 :: names ∧
    (Evaluator.MakeUniqueName pfx names).1.data.head? = pfx.data.head? := by
  unfold Evaluator.MakeUniqueName
  by_cases h : pfx ∈ names
  · simp only [h, not_true_eq_false, if_false]
    cases hf : (List.range (names.length + 1)).find?
        (fun i => decide (pfx ++ toString i ∉ names)) with
    | some i =>
      have := List.find?_some hf
      simp only [decide_eq_true_eq] at this
      exact ⟨this, rfl, head_append pfx _ hp⟩
    | none =>
      exfalso
      rw [List.find?_eq_none] at hf
      have hsub : (List.range (names.length + 1)).map (fun i => pfx ++ toString i) ⊆ names := by
        intro x hx
        simp only [List.mem_map] at hx
        obtain ⟨i, hi, rfl⟩ := hx
        have := hf i hi
        simpa using this
      have hnd : ((List.range (names.length + 1)).map (fun i => pfx ++ toString i)).Nodup := by
        apply List.Nodup.map _ (List.nodup_range _)
        intro a b hab
        exact toString_nat_inj a b (string_append_cancel pfx _ _ hab)
      have := (List.subperm_of_subset hnd hsub).length_le
      simp at this
  · rw [if_pos h]
    exact ⟨h, rfl, rfl⟩

/-! ## Facts about Evaluator -/

theorem Evaluator.NewTmp_frame (name : String) (ev : Evaluator) :
    (Evaluator.NewTmp name ev).2.names_by_expr_ = ev.names_by_expr_ ∧
    (Evaluator.NewTmp name ev).2.bindings_by_expr_ = ev.bindings_by_expr_ ∧
    (Evaluator.NewTmp name ev).2.runinfo_.program.inputs = ev.runinfo_.program.inputs ∧
    (Evaluator.NewTmp name ev).2.runinfo_.program.ops = ev.runinfo_.program.ops := by
  unfold Evaluator.NewTmp
  split_ifs <;> exact ⟨rfl, rfl, rfl, rfl⟩

theorem Evaluator.NewTmp_fresh (name : String) (ev : Evaluator) (hok : Evaluator.NamesOk ev)
    (hname : name.data.head? ≠ some '_') :
    (Evaluator.NewTmp name ev).1 ∉ ev.runinfo_.program.names ∧
    ((∃ k, k < (Evaluator.NewTmp name ev).2.runinfo_.program.next_tmp ∧
        (Evaluator.NewTmp name ev).1 = "_X" ++ toString k) ∨
      ((Evaluator.NewTmp name ev).1 ∈ (Evaluator.NewTmp name ev).2.names_ ∧
        (Evaluator.NewTmp name ev).1.data.head? ≠ some '_')) ∧
    ev.runinfo_.program.next_tmp ≤ (Evaluator.NewTmp name ev).2.runinfo_.program.next_tmp ∧
    ∀ n ∈ ev.names_, n ∈ (Evaluator.NewTmp name ev).2.names_ := by
  have hX : ∀ k : Nat, ("_X" ++ toString k).data.head? = some '_' := by
    intro k
    rw [head_append "_X" _ (by decide)]
    rfl
  unfold Evaluator.NewTmp
  by_cases he : name = ""
  · simp only [he, if_true]
    refine ⟨?_, Or.inl ⟨_, Nat.lt_succ_self _, rfl⟩, Nat.le_succ _, fun n hn => hn⟩
    intro hmem
    rcases hok.origin _ hmem with ⟨k, hk, heq⟩ | ⟨-, hhead⟩
    · have := toString_nat_inj _ _ (string_append_cancel "_X" _ _ heq)
      omega
    · exact hhead (hX _)
  · simp only [he, if_false]
    obtain ⟨h1, h2, h3⟩ := Evaluator.MakeUniqueName_spec name ev.names_ he
    have hhead : (Evaluator.MakeUniqueName name ev.names_).1.data.head? ≠ some '_' := by
      rw [h3]; exact hname
    refine ⟨?_, Or.inr ⟨?_, hhead⟩, le_refl _, ?_⟩
    · intro hmem
      rcases hok.origin _ hmem with ⟨k, -, heq⟩ | ⟨hin, -⟩
      · apply hhead
        rw [heq]
        exact hX k
      · exact h1 hin
    · rw [h2]
      exact List.mem_cons_self _ _
    · intro n hn
      rw [h2]
      exact List.mem_cons_of_mem _ hn

theorem Evaluator.inputSpecs_inputs (names : List (ExprPtr × String))
    (inputs : List TensorSpecExpr) (pe : PolyEvaluator)
    (r : List String × List TensorSpec × PolyEvaluator)
    (h : Evaluator.inputSpecs names inputs pe = .ok r) :
    safe_at_all names (inputs.map (fun input => input.ref)) = .ok r.1 := by
  induction inputs generalizing pe r with
  | nil =>
    simp only [Evaluator.inputSpecs, Except.ok.injEq] at h
    subst h
    rfl
  | cons input rest ih =>
    simp only [Evaluator.inputSpecs] at h
    cases hs : safe_at names input.ref with
    | error e => rw [hs] at h; simp at h
    | ok id =>
      rw [hs] at h
      simp only at h
      cases hv : PolyEvaluator.VisitAll input.index_spec pe with
      | error e => rw [hv] at h; simp at h
      | ok x =>
        obtain ⟨spec, pe1⟩ := x
        rw [hv] at h
        simp only at h
        cases hr : Evaluator.inputSpecs names rest pe1 with
        | error e => rw [hr] at h; simp at h
        | ok y =>
          obtain ⟨ins, specs, pe2⟩ := y
          rw [hr] at h
          simp only [Except.ok.injEq] at h
          subst h
          have := ih pe1 _ hr
          simp only [List.map_cons, safe_at_all, hs, this]

/-- What one `Visit` of the evaluator does: it takes a name from `NewTmp`, records
it for the node, and appends either an `Input` (for a `ParamExpr`) or an `Op` whose
inputs, unless it is a constant, are the recorded names of the node's input refs. -/
theorem Evaluator.Visit_spec (env : Extern) (heap : Heap) (ev ev1 : Evaluator) (expr : ExprPtr)
    (h : Evaluator.Visit env heap ev expr = .ok ev1) :
    ev1.names_ = (Evaluator.NewTmp (heap expr).name ev).2.names_ ∧
    ev1.runinfo_.program.next_tmp =
      (Evaluator.NewTmp (heap expr).name ev).2.runinfo_.program.next_tmp ∧
    ev1.names_by_expr_ =
      emplace ev.names_by_expr_ expr (Evaluator.NewTmp (heap expr).name ev).1 ∧
    ev1.bindings_by_expr_ = ev.bindings_by_expr_ ∧
    (((heap expr).node.isParam = true ∧
        ev1.runinfo_.program.ops = ev.runinfo_.program.ops ∧
        ∃ dims, ev1.runinfo_.program.inputs = ev.runinfo_.program.inputs ++
          [⟨(Evaluator.NewTmp (heap expr).name ev).1, dims⟩]) ∨
      ((heap expr).node.isParam = false ∧
        ev1.runinfo_.program.inputs = ev.runinfo_.program.inputs ∧
        ∃ op, ev1.runinfo_.program.ops = ev.runinfo_.program.ops ++ [op] ∧
          op.output = (Evaluator.NewTmp (heap expr).name ev).1 ∧
          (op.tag ≠ OpTag.CONSTANT →
            safe_at_all ev.names_by_expr_ (heap expr).node.inputRefs = .ok op.inputs) ∧
          (op.tag = OpTag.CONSTANT → (heap expr).node.inputRefs = []))) := by
  obtain ⟨f1, f2, f3, f4⟩ := Evaluator.NewTmp_frame (heap expr).name ev
  unfold Evaluator.Visit at h
  cases hn : (heap expr).node with
  | ParamExpr shape =>
    rw [hn] at h
    simp only [Except.ok.injEq] at h
    subst h
    refine ⟨rfl, rfl, by simp only [f1], by simp only [f2], Or.inl ⟨rfl, by simp only [f4], ?_⟩⟩
    refine ⟨(List.range shape.dims.length).map
      (fun i => (Evaluator.NewTmp (heap expr).name ev).1 ++ "_" ++ toString i), ?_⟩
    simp only [f3]
  | IntConst value =>
    rw [hn] at h
    simp only [Except.ok.injEq] at h
    subst h
    refine ⟨rfl, rfl, by simp only [Evaluator.emitOp, f1], by simp only [Evaluator.emitOp, f2],
      Or.inr ⟨rfl, by simp only [Evaluator.emitOp, f3], ?_⟩⟩
    refine ⟨(⟨OpTag.CONSTANT, (Evaluator.NewTmp (heap expr).name ev).1, [toString value],
      none, "iconst"⟩ : Op), ?_, ?_, ?_, ?_⟩
    · simp only [Evaluator.emitOp, f4]
    · rfl
    · intro hc
      exact absurd rfl hc
    · intro _
      rfl
  | FloatConst value =>
    rw [hn] at h
    simp only [Except.ok.injEq] at h
    subst h
    refine ⟨rfl, rfl, by simp only [Evaluator.emitOp, f1], by simp only [Evaluator.emitOp, f2],
      Or.inr ⟨rfl, by simp only [Evaluator.emitOp, f3], ?_⟩⟩
    refine ⟨(⟨OpTag.CONSTANT, (Evaluator.NewTmp (heap expr).name ev).1,
      [env.double_to_string value], none, "fconst"⟩ : Op), ?_, ?_, ?_, ?_⟩
    · simp only [Evaluator.emitOp, f4]
    · rfl
    · intro hc
      exact absurd rfl hc
    · intro _
      rfl
  | CallExpr fn args =>
    rw [hn] at h
    simp only at h
    cases hs : safe_at_all ev.names_by_expr_ args with
    | error e => rw [hs] at h; simp at h
    | ok argNames =>
      rw [hs] at h
      simp only [Except.ok.injEq] at h
      subst h
      refine ⟨rfl, rfl, by simp only [Evaluator.emitOp, f1],
        by simp only [Evaluator.emitOp, f2],
        Or.inr ⟨rfl, by simp only [Evaluator.emitOp, f3], ?_⟩⟩
      refine ⟨(⟨OpTag.FUNCTION, (Evaluator.NewTmp (heap expr).name ev).1, argNames,
        none, fn⟩ : Op), ?_, ?_, ?_, ?_⟩
      · simp only [Evaluator.emitOp, f4]
      · rfl
      · intro _
        exact hs
      · intro hc
        simp at hc
  | ContractionExpr cion =>
    rw [hn] at h
    simp only [Evaluator.VisitContraction] at h
    cases hu : (match cion.use_default with
        | some d => safe_at ev.names_by_expr_ d
        | none => Except.ok "") with
    | error e => rw [hu] at h; simp at h
    | ok use_default =>
      rw [hu] at h
      simp only at h
      cases hi : Evaluator.inputSpecs ev.names_by_expr_ cion.inputs { seen_ := [], next_ := 0 } with
      | error e => rw [hi] at h; simp at h
      | ok x =>
        obtain ⟨inputs, specs, pe1⟩ := x
        rw [hi] at h
        simp only at h
        cases ho : PolyEvaluator.VisitAll cion.output.index_spec pe1 with
        | error e => rw [ho] at h; simp at h
        | ok y =>
          obtain ⟨outSpec, pe2⟩ := y
          rw [ho] at h
          simp only at h
          cases hc : Evaluator.rangeConstraints cion.constraints pe2 with
          | error e => rw [hc] at h; simp at h
          | ok z =>
            obtain ⟨bounds, pe3⟩ := z
            rw [hc] at h
            simp only [Except.ok.injEq] at h
            subst h
            refine ⟨rfl, rfl, by simp only [Evaluator.emitOp, f1],
              by simp only [Evaluator.emitOp, f2],
              Or.inr ⟨rfl, by simp only [Evaluator.emitOp, f3], ?_⟩⟩
            refine ⟨(⟨OpTag.CONTRACTION, (Evaluator.NewTmp (heap expr).name ev).1, inputs,
              some ⟨cion.agg_op, cion.combo_op, cion.no_defract, use_default,
                ⟨(Evaluator.NewTmp (heap expr).name ev).1, outSpec⟩ :: specs,
                cion.output.output_sizes.map (fun size => toString size), bounds⟩,
              ""⟩ : Op), ?_, ?_, ?_, ?_⟩
            · simp only [Evaluator.emitOp, f4]
            · rfl
            · intro _
              exact Evaluator.inputSpecs_inputs _ _ _ _ hi
            · intro hc
              simp at hc
  | TensorSpecExpr spec => rw [hn] at h; simp at h
  | ConstraintExpr c => rw [hn] at h; simp at h

theorem lookup_append {κ α : Type} [DecidableEq κ] (m m1 : List (κ × α)) (key : κ) :
    lookup (m ++ m1) key = (lookup m key).orElse (fun _ => lookup m1 key) := by
  induction m with
  | nil => simp [lookup]
  | cons x m ih =>
    obtain ⟨k, v⟩ := x
    simp only [List.cons_append, lookup]
    split_ifs
    · rfl
    · exact ih

theorem lookup_emplace {κ α : Type} [DecidableEq κ] (m : List (κ × α)) (k key : κ) (v x : α)
    (h : lookup (emplace m k v) key = some x) :
    lookup m key = some x ∨ (key = k ∧ x = v) := by
  unfold emplace at h
  cases hk : lookup m k with
  | some y =>
    rw [hk] at h
    exact Or.inl h
  | none =>
    rw [hk] at h
    simp only [lookup_append] at h
    cases hm : lookup m key with
    | some z =>
      rw [hm] at h
      exact Or.inl h
    | none =>
      rw [hm] at h
      simp only [Option.orElse, lookup] at h
      split_ifs at h with hkk
      · simp only [Option.some.injEq] at h
        exact Or.inr ⟨hkk.symm, h.symm⟩

theorem lookup_emplace_mono {κ α : Type} [DecidableEq κ] (m : List (κ × α)) (k key : κ)
    (v x : α) (h : lookup m key = some x) : lookup (emplace m k v) key = some x := by
  unfold emplace
  cases hk : lookup m k with
  | some y => exact h
  | none =>
    simp only [lookup_append, h, Option.orElse]

theorem lookup_emplace_self {κ α : Type} [DecidableEq κ] (m : List (κ × α)) (k : κ) (v : α)
    (h : lookup m k = none) : lookup (emplace m k v) k = some v := by
  unfold emplace
  simp only [h, lookup_append, Option.orElse, lookup, if_true]

theorem safe_at_all_mem {α : Type} (m : List (ExprPtr × α)) (keys : List ExprPtr)
    (vs : List α) (h : safe_at_all m keys = .ok vs) :
    ∀ v ∈ vs, ∃ k ∈ keys, lookup m k = some v := by
  induction keys generalizing vs with
  | nil =>
    simp only [safe_at_all, Except.ok.injEq] at h
    subst h
    intro v hv
    simp at hv
  | cons key rest ih =>
    simp only [safe_at_all, safe_at] at h
    cases hl : lookup m key with
    | none => rw [hl] at h; simp at h
    | some v0 =>
      rw [hl] at h
      simp only at h
      cases hr : safe_at_all m rest with
      | error e => rw [hr] at h; simp at h
      | ok vs0 =>
        rw [hr] at h
        simp only [Except.ok.injEq] at h
        subst h
        intro v hv
        rcases List.mem_cons.mp hv with hv | hv
        · subst hv
          exact ⟨key, List.mem_cons_self _ _, hl⟩
        · obtain ⟨k, hk, hkl⟩ := ih vs0 hr v hv
          exact ⟨k, List.mem_cons_of_mem _ hk, hkl⟩

/-- A property of the evaluator that depends on the nodes visited so far and is
kept by every `Visit` holds after the whole pass over `flat`. -/
theorem Evaluator.VisitAll_trace (env : Extern) (heap : Heap) (flat : List ExprPtr)
    (P : List ExprPtr → Evaluator → Prop)
    (hstep : ∀ done expr rest ev ev1, flat = done ++ expr :: rest → P done ev →
      Evaluator.Visit env heap ev expr = .ok ev1 → P (done ++ [expr]) ev1) :
    ∀ (todo done : List ExprPtr) (ev evf : Evaluator), flat = done ++ todo → P done ev →
      Evaluator.VisitAll env heap todo ev = .ok evf → P flat evf := by
  intro todo
  induction todo with
  | nil =>
    intro done ev evf hflat hP h
    simp only [Evaluator.VisitAll, Except.ok.injEq] at h
    subst h
    rw [hflat]
    simpa using hP
  | cons expr rest ih =>
    intro done ev evf hflat hP h
    simp only [Evaluator.VisitAll] at h
    cases hv : Evaluator.Visit env heap ev expr with
    | error e => rw [hv] at h; simp at h
    | ok ev1 =>
      rw [hv] at h
      exact ih (done ++ [expr]) ev1 evf (by rw [hflat]; simp)
        (hstep done expr rest ev ev1 hflat hP hv) h

theorem Evaluator.recordOutputs_frame (vars : List ExprPtr) (ev ev2 : Evaluator)
    (h : Evaluator.recordOutputs vars ev = .ok ev2) :
    ev2.runinfo_.program.inputs = ev.runinfo_.program.inputs ∧
    ev2.runinfo_.program.ops = ev.runinfo_.program.ops ∧
    ev2.names_by_expr_ = ev.names_by_expr_ := by
  induction vars generalizing ev with
  | nil =>
    simp only [Evaluator.recordOutputs, Except.ok.injEq] at h
    subst h
    exact ⟨rfl, rfl, rfl⟩
  | cons expr rest ih =>
    simp only [Evaluator.recordOutputs] at h
    cases hn : safe_at ev.names_by_expr_ expr with
    | error e => rw [hn] at h; simp at h
    | ok name =>
      rw [hn] at h
      simp only at h
      cases hb : safe_at ev.bindings_by_expr_ expr with
      | error e => rw [hb] at h; simp at h
      | ok binding =>
        rw [hb] at h
        simp only at h
        have h3 := ih _ h
        exact h3

/-- What a successful `Evaluate` went through: the traversal, the shape pass, the
emission pass and the recording of the outputs. -/
theorem Evaluate_ok (env : Extern) (fuel : Nat) (heap : Heap) (name : String)
    (vars : List ExprPtr) (ri : RunInfo)
    (h : Evaluate env fuel heap name vars = some (.ok ri)) :
    ∃ flat bindings ev1,
      AstTraversal.flat fuel heap vars = some (.ok flat) ∧
      ShapeEvaluator env heap flat [] = .ok bindings ∧
      Evaluator.VisitAll env heap flat
        { Evaluator.new name with bindings_by_expr_ := bindings } = .ok ev1 ∧
      ri.program.inputs = ev1.runinfo_.program.inputs ∧
      ri.program.ops = ev1.runinfo_.program.ops := by
  unfold Evaluate at h
  cases ht : AstTraversal.flat fuel heap vars with
  | none => rw [ht] at h; simp at h
  | some x =>
    cases x with
    | error e => rw [ht] at h; simp at h
    | ok flat =>
      rw [ht] at h
      simp only [Option.some.injEq] at h
      cases hs : ShapeEvaluator env heap flat [] with
      | error e => rw [hs] at h; simp at h
      | ok bindings =>
        rw [hs] at h
        simp only at h
        cases hv : Evaluator.VisitAll env heap flat
            { Evaluator.new name with bindings_by_expr_ := bindings } with
        | error e => rw [hv] at h; simp at h
        | ok ev1 =>
          rw [hv] at h
          simp only at h
          cases ho : Evaluator.recordOutputs vars ev1 with
          | error e => rw [ho] at h; simp at h
          | ok ev2 =>
            rw [ho] at h
            simp only at h
            cases hr : Evaluator.recordVars ev2.bindings_by_expr_ ev2.names_by_expr_
                ev2.runinfo_.vars with
            | error e => rw [hr] at h; simp at h
            | ok vs =>
              rw [hr] at h
              simp only [Except.ok.injEq] at h
              subst h
              obtain ⟨f1, f2, -⟩ := Evaluator.recordOutputs_frame vars ev1 ev2 ho
              exact ⟨flat, bindings, ev1, rfl, hs, hv, f1, f2⟩

/-- Whatever budget it was given, a traversal that finished returns each
reachable node exactly once and nothing else. -/
theorem AstTraversal.flat_sound (fuel : Nat) (heap : Heap) (roots flat : List ExprPtr)
    (h : AstTraversal.flat fuel heap roots = some (.ok flat)) :
    flat.Nodup ∧ ∀ n, n ∈ flat ↔ Reachable heap roots n := by
  unfold AstTraversal.flat at h
  cases hl : AstTraversal.loop heap fuel
      { stack_ := AstTraversal.PushAll roots [], flat_ := [], seen_ := [] } with
  | none => rw [hl] at h; simp at h
  | some x =>
    cases x with
    | error e => rw [hl] at h; simp at h
    | ok r =>
      rw [hl] at h
      simp only [Option.some.injEq, Except.ok.injEq] at h
      subst h
      obtain ⟨hI, hempty⟩ := AstTraversal.loop_inv heap (AstTraversal.Inv heap roots)
        (AstTraversal.Inv_step heap roots) fuel _ r (AstTraversal.Inv_init heap roots) hl
      obtain ⟨hnd, hseen, -, hrf, hrd, hcl⟩ := hI
      have hposts : AstTraversal.posts r = [] := by simp [AstTraversal.posts, hempty]
      rw [hposts] at hnd hseen
      simp only [List.nil_append, List.not_mem_nil, false_or] at hnd hseen
      rw [hempty] at hrd hcl
      refine ⟨hnd, fun n => ⟨hrf n, fun hn => ?_⟩⟩
      induction hn with
      | root x hx =>
        rcases hrd x hx with h | h
        · exact (hseen x).mp h
        · simp at h
      | child n c _ hc ih =>
        rcases hcl n ((hseen n).mpr ih) c hc with h | h
        · exact (hseen c).mp h
        · simp at h

theorem Evaluator.Topo_step (env : Extern) (heap : Heap) (ev ev1 : Evaluator) (expr : ExprPtr)
    (hT : Evaluator.Topo ev) (h : Evaluator.Visit env heap ev expr = .ok ev1) :
    Evaluator.Topo ev1 := by
  obtain ⟨-, -, hnames, -, hcase⟩ := Evaluator.Visit_spec env heap ev ev1 expr h
  obtain ⟨hnamed, hord⟩ := hT
  rcases hcase with ⟨-, hops, dims, hin⟩ | ⟨-, hin, op, hops, hout, hrefs, -⟩
  · have hsub : ∀ n ∈ ev.runinfo_.program.names, n ∈ ev1.runinfo_.program.names := by
      intro n hn
      simp only [Program.names, hops, hin, List.map_append, List.mem_append] at hn ⊢
      tauto
    refine ⟨?_, ?_⟩
    · intro k n hl
      rw [hnames] at hl
      rcases lookup_emplace _ _ _ _ _ hl with h1 | ⟨-, h1⟩
      · exact hsub n (hnamed k n h1)
      · simp only [Program.names, hin, List.map_append, List.mem_append, List.map_cons,
          List.map_nil, List.mem_singleton]
        exact Or.inl (Or.inr h1)
    · intro pre op post hsplit htag n hn
      rw [hops] at hsplit
      rcases hord pre op post hsplit htag n hn with ⟨i, hi, hi2⟩ | h2
      · exact Or.inl ⟨i, by rw [hin]; exact List.mem_append_left _ hi, hi2⟩
      · exact Or.inr h2
  · have hsub : ∀ n ∈ ev.runinfo_.program.names, n ∈ ev1.runinfo_.program.names := by
      intro n hn
      simp only [Program.names, hops, hin, List.map_append, List.mem_append] at hn ⊢
      tauto
    refine ⟨?_, ?_⟩
    · intro k n hl
      rw [hnames] at hl
      rcases lookup_emplace _ _ _ _ _ hl with h1 | ⟨-, h1⟩
      · exact hsub n (hnamed k n h1)
      · simp only [Program.names, hops, List.map_append, List.mem_append, List.map_cons,
          List.map_nil, List.mem_singleton]
        exact Or.inr (Or.inr (by rw [h1, hout]))
    · intro pre op1 post hsplit htag n hn
      rw [hops] at hsplit
      rw [hin]
      rcases List.eq_nil_or_concat post with hp | ⟨L, b, hp⟩
      · subst hp
        have h3 : ev.runinfo_.program.ops ++ [op] = pre ++ [op1] := hsplit
        obtain ⟨h4, h5⟩ := List.append_inj' h3 rfl
        simp only [List.cons.injEq, and_true] at h5
        subst h4 h5
        obtain ⟨k, -, hk⟩ := safe_at_all_mem _ _ _ (hrefs htag) n hn
        have hmem := hnamed k n hk
        simp only [Program.names, List.mem_append, List.mem_map] at hmem
        rcases hmem with ⟨i, hi, hi2⟩ | ⟨o, ho, ho2⟩
        · exact Or.inl ⟨i, hi, hi2⟩
        · exact Or.inr ⟨o, ho, ho2⟩
      · subst hp
        have h3 : ev.runinfo_.program.ops ++ [op] = (pre ++ op1 :: L) ++ [b] := by
          rw [hsplit]; simp
        obtain ⟨h4, -⟩ := List.append_inj' h3 rfl
        exact hord pre op1 L h4 htag n hn

theorem Evaluator.Topo_new (name : String) (bindings : List (ExprPtr × Binding)) :
    Evaluator.Topo { Evaluator.new name with bindings_by_expr_ := bindings } := by
  refine ⟨?_, ?_⟩
  · intro k n h
    simp [Evaluator.new, lookup] at h
  · intro pre op post h
    simp [Evaluator.new] at h

/-- C3, amended (topological order of the emitted program): in every program
produced by `Evaluate`, for every emitted FUNCTION or CONTRACTION op and every
entry `n` of its inputs list, `n` is the name of an `Input` of the program or the
output of an op emitted earlier.  (The inputs list of a CONSTANT op holds the
printed literal, which no earlier `Input` or op defines.) -/
theorem Evaluate_topological (env : Extern) (fuel : Nat) (heap : Heap) (name : String)
    (vars : List ExprPtr) (ri : RunInfo)
    (h : Evaluate env fuel heap name vars = some (.ok ri)) :
    ∀ pre op post, ri.program.ops = pre ++ op :: post → op.tag ≠ OpTag.CONSTANT →
      ∀ n ∈ op.inputs,
        (∃ i ∈ ri.program.inputs, i.name = n) ∨ (∃ o ∈ pre, o.output = n) := by
  obtain ⟨flat, bindings, ev1, -, -, hv, hin, hops⟩ := Evaluate_ok env fuel heap name vars ri h
  have hT := Evaluator.VisitAll_trace env heap flat (fun _ ev => Evaluator.Topo ev)
    (fun _ expr _ ev ev1 _ hP hvis => Evaluator.Topo_step env heap ev ev1 expr hP hvis)
    flat [] _ ev1 rfl (Evaluator.Topo_new name bindings) hv
  intro pre op post hsplit htag n hn
  rw [hin]
  rw [hops] at hsplit
  exact hT.ordered pre op post hsplit htag n hn

theorem Evaluate_topological_witness :
    Evaluate refEnv 20 exHeap "p" [3] = some (.ok
      { program_name := "p",
        program := ⟨[⟨"A", ["A_0"]⟩],
          [⟨.CONSTANT, "_X0", ["7"], none, "iconst"⟩,
            ⟨.FUNCTION, "_X1", ["A", "_X0"], none, "add"⟩,
            ⟨.FUNCTION, "_X2", ["_X1", "A"], none, "mul"⟩], ["_X2"], 3⟩,
        input_shapes := [("A", ⟨.FLOAT32, [⟨1, 3⟩]⟩)],
        output_shapes := [("_X2", ⟨.FLOAT32, [⟨1, 3⟩]⟩)],
        vars := [("A", .TENSOR ⟨.FLOAT32, [⟨1, 3⟩]⟩), ("_X0", .ICONST 7),
          ("_X1", .TENSOR ⟨.FLOAT32, [⟨1, 3⟩]⟩), ("_X2", .TENSOR ⟨.FLOAT32, [⟨1, 3⟩]⟩)],
        from_edsl := true }) ∧
    ∀ pre op post,
      [(⟨.CONSTANT, "_X0", ["7"], none, "iconst"⟩ : Op),
        ⟨.FUNCTION, "_X1", ["A", "_X0"], none, "add"⟩,
        ⟨.FUNCTION, "_X2", ["_X1", "A"], none, "mul"⟩] = pre ++ op :: post →
      op.tag ≠ OpTag.CONSTANT →
      ∀ n ∈ op.inputs,
        (∃ i ∈ [(⟨"A", ["A_0"]⟩ : Input)], i.name = n) ∨ (∃ o ∈ pre, o.output = n) :=
  ⟨rfl, Evaluate_topological refEnv 20 exHeap "p" [3] _ rfl⟩

/-- C3 as stated fails: lowering the single constant `IntConst(7)` emits the
CONSTANT op `_X0` whose inputs list is `["7"]`, and no `Input` or earlier op has
the name `7`. -/
theorem Evaluate_constant_input_undefined :
    ∃ ri, Evaluate refEnv 20 diamondHeap "p" [0] = some (.ok ri) ∧
      ri.program.inputs = [] ∧
      ri.program.ops = [⟨.CONSTANT, "_X0", ["7"], none, "iconst"⟩] ∧
      ∃ pre op post, ri.program.ops = pre ++ op :: post ∧ op.tag = OpTag.CONSTANT ∧
        ∃ n ∈ op.inputs,
          ¬ ((∃ i ∈ ri.program.inputs, i.name = n) ∨ (∃ o ∈ pre, o.output = n)) := by
  refine ⟨{ program_name := "p",
            program := ⟨[], [⟨.CONSTANT, "_X0", ["7"], none, "iconst"⟩], ["_X0"], 1⟩,
            input_shapes := [], output_shapes := [("_X0", ⟨.INT32, []⟩)],
            vars := [("_X0", .ICONST 7)], from_edsl := true }, rfl, rfl, rfl, ?_⟩
  refine ⟨[], ⟨.CONSTANT, "_X0", ["7"], none, "iconst"⟩, [], rfl, rfl, "7", ?_, ?_⟩
  · simp
  · simp

theorem Evaluator.NamesOk_step (env : Extern) (heap : Heap) (ev ev1 : Evaluator)
    (expr : ExprPtr) (hok : Evaluator.NamesOk ev)
    (hname : (heap expr).name.data.head? ≠ some '_')
    (h : Evaluator.Visit env heap ev expr = .ok ev1) :
    Evaluator.NamesOk ev1 ∧
    ev1.runinfo_.program.names.Perm
      ((Evaluator.NewTmp (heap expr).name ev).1 :: ev.runinfo_.program.names) := by
  obtain ⟨hn1, hn2, -, -, hcase⟩ := Evaluator.Visit_spec env heap ev ev1 expr h
  obtain ⟨hfresh, horigin, hle, hmono⟩ := Evaluator.NewTmp_fresh (heap expr).name ev hok hname
  have hperm : ev1.runinfo_.program.names.Perm
      ((Evaluator.NewTmp (heap expr).name ev).1 :: ev.runinfo_.program.names) := by
    rcases hcase with ⟨-, hops, dims, hin⟩ | ⟨-, hin, op, hops, hout, -, -⟩
    · simp only [Program.names, hops, hin, List.map_append, List.map_cons, List.map_nil,
        List.append_assoc, List.singleton_append]
      exact List.perm_middle
    · simp only [Program.names, hops, hin, List.map_append, List.map_cons, List.map_nil, hout]
      rw [← List.append_assoc]
      exact List.perm_append_singleton _ _
  refine ⟨⟨?_, ?_⟩, hperm⟩
  · rw [hperm.nodup_iff]
    exact List.nodup_cons.mpr ⟨hfresh, hok.nodup⟩
  · intro n hn
    rw [hn1, hn2]
    rcases List.mem_cons.mp (hperm.mem_iff.mp hn) with h1 | h1
    · rw [h1]
      exact horigin
    · rcases hok.origin n h1 with ⟨k, hk, hk2⟩ | ⟨hk, hk2⟩
      · exact Or.inl ⟨k, by omega, hk2⟩
      · exact Or.inr ⟨hmono n hk, hk2⟩

theorem Evaluator.NamesOk_new (name : String) (bindings : List (ExprPtr × Binding)) :
    Evaluator.NamesOk { Evaluator.new name with bindings_by_expr_ := bindings } := by
  refine ⟨?_, ?_⟩
  · simp [Evaluator.new, Program.names]
  · intro n hn
    simp [Evaluator.new, Program.names] at hn

/-- C5 (name uniqueness): if no name carried by a node reachable from the outputs
begins with an underscore, then in every program produced by `Evaluate` the names
given to the emitted inputs and ops (user names passed through `MakeUniqueName`,
and automatic names `_X<k>`) are pairwise distinct. -/
theorem Evaluate_names_unique (env : Extern) (fuel : Nat) (heap : Heap) (name : String)
    (vars : List ExprPtr) (ri : RunInfo)
    (hnames : ∀ p, Reachable heap vars p → (heap p).name.data.head? ≠ some '_')
    (h : Evaluate env fuel heap name vars = some (.ok ri)) :
    (ri.program.inputs.map (fun i => i.name) ++ ri.program.ops.map (fun o => o.output)).Nodup := by
  obtain ⟨flat, bindings, ev1, hflat, -, hv, hin, hops⟩ :=
    Evaluate_ok env fuel heap name vars ri h
  obtain ⟨-, hreach⟩ := AstTraversal.flat_sound fuel heap vars flat hflat
  have hK := Evaluator.VisitAll_trace env heap flat (fun _ ev => Evaluator.NamesOk ev)
    (fun done expr rest ev ev1 hsplit hP hvis =>
      (Evaluator.NamesOk_step env heap ev ev1 expr hP
        (hnames expr ((hreach expr).mp (by rw [hsplit]; simp))) hvis).1)
    flat [] _ ev1 rfl (Evaluator.NamesOk_new name bindings) hv
  have hnd := hK.nodup
  rw [hin, hops]
  exact hnd

theorem Evaluate_names_unique_witness :
    Evaluate refEnv 20 dupHeap "p" [2] = some (.ok
      { program_name := "p",
        program := ⟨[⟨"A", ["A_0"]⟩, ⟨"A0", ["A0_0"]⟩],
          [⟨.FUNCTION, "_X0", ["A", "A0"], none, "add"⟩], ["_X0"], 1⟩,
        input_shapes := [("A", ⟨.FLOAT32, [⟨1, 3⟩]⟩), ("A0", ⟨.FLOAT32, [⟨1, 3⟩]⟩)],
        output_shapes := [("_X0", ⟨.FLOAT32, [⟨1, 3⟩]⟩)],
        vars := [("A", .TENSOR ⟨.FLOAT32, [⟨1, 3⟩]⟩), ("A0", .TENSOR ⟨.FLOAT32, [⟨1, 3⟩]⟩),
          ("_X0", .TENSOR ⟨.FLOAT32, [⟨1, 3⟩]⟩)],
        from_edsl := true }) ∧
    (∀ p, Reachable dupHeap [2] p → (dupHeap p).name.data.head? ≠ some '_') ∧
    (([(⟨"A", ["A_0"]⟩ : Input), ⟨"A0", ["A0_0"]⟩]).map (fun i => i.name) ++
      ([(⟨.FUNCTION, "_X0", ["A", "A0"], none, "add"⟩ : Op)]).map (fun o => o.output)).Nodup :=
  have hnames : ∀ p, Reachable dupHeap [2] p → (dupHeap p).name.data.head? ≠ some '_' := by
    intro p _
    unfold dupHeap
    split <;> decide
  ⟨rfl, hnames, Evaluate_names_unique refEnv 20 dupHeap "p" [2] _ hnames rfl⟩

/-- The loop body only reads the dtype of the shape. -/
theorem ComputeOutputType.step_promote (env : Extern) (ret : DataType) (shape : TensorShape) :
    ComputeOutputType.step env ret shape = ComputeOutputType.promote env ret shape.type := rfl

/-- The promotion step keeps the leftmost greatest dtype, which is associative. -/
theorem ComputeOutputType.promote_assoc (env : Extern) (a b c : DataType) :
    ComputeOutputType.promote env (ComputeOutputType.promote env a b) c =
      ComputeOutputType.promote env a (ComputeOutputType.promote env b c) := by
  simp only [ComputeOutputType.promote, ComputeOutputType.step]
  cases ha : is_float a <;> cases hb : is_float b <;> cases hc : is_float c <;>
    by_cases h1 : bit_width env b > bit_width env a <;>
    by_cases h2 : bit_width env c > bit_width env b <;>
    by_cases h3 : bit_width env c > bit_width env a <;>
    simp [ha, hb, hc, h1, h2, h3] <;> omega

/-- `INVALID` on the right never wins. -/
theorem ComputeOutputType.promote_invalid_right (env : Extern) (a : DataType) :
    ComputeOutputType.promote env a DataType.INVALID = a := by
  simp only [ComputeOutputType.promote, ComputeOutputType.step]
  cases ha : is_float a <;> simp [is_float, bit_width]

/-- Running the loop from `r` is one promotion of `r` with the result of the loop
run from `INVALID`. -/
theorem ComputeOutputType.foldl_promote (env : Extern) (ys : List TensorShape) (r : DataType) :
    ys.foldl (ComputeOutputType.step env) r =
      ComputeOutputType.promote env r (ys.foldl (ComputeOutputType.step env) DataType.INVALID) := by
  induction ys using List.reverseRecOn with
  | nil => simp [ComputeOutputType.promote_invalid_right]
  | append_singleton ys y ih =>
    simp only [List.foldl_append, List.foldl_cons, List.foldl_nil]
    rw [ih, ComputeOutputType.step_promote, ComputeOutputType.step_promote,
      ComputeOutputType.promote_assoc]

/-- A result of `ComputeOutputType` survives a promotion that starts from `INVALID`. -/
theorem ComputeOutputType.promote_invalid_left (env : Extern) (xs : List TensorShape) :
    ComputeOutputType.promote env DataType.INVALID (ComputeOutputType env xs) =
      ComputeOutputType env xs := by
  unfold ComputeOutputType
  rw [← ComputeOutputType.foldl_promote]

/-- Claim C11: dtype promotion is associative.  For all lists of shapes `xs` and
`ys`, `ComputeOutputType (xs ++ ys)` is `ComputeOutputType` of the two-element list
whose dtypes are `ComputeOutputType xs` and `ComputeOutputType ys` (whatever dims
the two shapes carry), and the binary promotion step `p` satisfies
`p (p a b) c = p a (p b c)` for all dtypes `a`, `b`, `c`. -/
theorem ComputeOutputType_assoc (env : Extern) :
    (∀ (xs ys : List TensorShape) (dx dy : List TensorDimension),
      ComputeOutputType env (xs ++ ys) =
        ComputeOutputType env [{ type := ComputeOutputType env xs, dims := dx },
          { type := ComputeOutputType env ys, dims := dy }]) ∧
    (∀ a b c : DataType,
      ComputeOutputType.promote env (ComputeOutputType.promote env a b) c =
        ComputeOutputType.promote env a (ComputeOutputType.promote env b c)) := by
  refine ⟨?_, ComputeOutputType.promote_assoc env⟩
  intro xs ys dx dy
  have h1 : ComputeOutputType env (xs ++ ys) =
      ComputeOutputType.promote env (ComputeOutputType env xs) (ComputeOutputType env ys) := by
    unfold ComputeOutputType
    rw [List.foldl_append, ComputeOutputType.foldl_promote]
  rw [h1]
  show _ = ComputeOutputType.step env (ComputeOutputType.step env DataType.INVALID _) _
  rw [ComputeOutputType.step_promote, ComputeOutputType.step_promote,
    ComputeOutputType.promote_invalid_left]

/-! ## PolyEvaluator: affine trees and the checks of mul and div -/

/-- Adding a term brings in no name but its own. -/
theorem Polynomial.addTerm_keys (P : String → Prop) (name : String) (c : ℚ) (hn : P name) :
    ∀ l : List (String × ℚ), (∀ t ∈ l, P t.1) → ∀ t ∈ Polynomial.addTerm name c l, P t.1
  | [], _, t, ht => by
    simp only [Polynomial.addTerm] at ht
    split_ifs at ht with h
    · simp at ht
    · simp only [List.mem_singleton] at ht; subst ht; exact hn
  | (n, d) :: rest, hl, t, ht => by
    simp only [Polynomial.addTerm] at ht
    have hrest : ∀ t ∈ rest, P t.1 := fun t ht => hl t (List.mem_cons_of_mem _ ht)
    have hnd : P n := hl (n, d) (List.mem_cons_self _ _)
    split_ifs at ht with h1 h2 h3 h4
    · exact hrest t ht
    · rcases List.mem_cons.1 ht with h | h
      · subst h; exact hnd
      · exact hrest t h
    · exact hl t ht
    · rcases List.mem_cons.1 ht with h | h
      · subst h; exact hn
      · exact hl t h
    · rcases List.mem_cons.1 ht with h | h
      · subst h; exact hnd
      · exact Polynomial.addTerm_keys P name c hn rest hrest t h

/-- A sum has no names but those of its summands. -/
theorem Polynomial.add_keys (P : String → Prop) (p q : Polynomial)
    (hp : ∀ t ∈ p.terms, P t.1) (hq : ∀ t ∈ q.terms, P t.1) :
    ∀ t ∈ (p.add q).terms, P t.1 := by
  unfold Polynomial.add
  generalize p.terms = acc at hp
  generalize q.terms = l at hq
  induction l generalizing acc with
  | nil => simpa using hp
  | cons x l ih =>
    simp only [List.foldl_cons]
    apply ih
    · exact Polynomial.addTerm_keys P x.1 x.2 (hq x (List.mem_cons_self _ _)) acc hp
    · exact fun t ht => hq t (List.mem_cons_of_mem _ ht)

/-- Scaling brings in no name. -/
theorem Polynomial.scale_keys (P : String → Prop) (p : Polynomial) (c : ℚ)
    (hp : ∀ t ∈ p.terms, P t.1) : ∀ t ∈ (p.scale c).terms, P t.1 := by
  unfold Polynomial.scale
  split_ifs with h
  · simp
  · intro t ht
    simp only [List.mem_map] at ht
    obtain ⟨u, hu, rfl⟩ := ht
    exact hp u hu

/-- Negation brings in no name. -/
theorem Polynomial.neg_keys (P : String → Prop) (p : Polynomial)
    (hp : ∀ t ∈ p.terms, P t.1) : ∀ t ∈ p.neg.terms, P t.1 :=
  Polynomial.scale_keys P p _ hp

/-- A difference has no names but those of its operands. -/
theorem Polynomial.sub_keys (P : String → Prop) (p q : Polynomial)
    (hp : ∀ t ∈ p.terms, P t.1) (hq : ∀ t ∈ q.terms, P t.1) :
    ∀ t ∈ (p.sub q).terms, P t.1 :=
  Polynomial.add_keys P p _ hp (Polynomial.neg_keys P q hq)

/-- Division by a constant brings in no name. -/
theorem Polynomial.div_keys (P : String → Prop) (p : Polynomial) (c : ℚ)
    (hp : ∀ t ∈ p.terms, P t.1) : ∀ t ∈ (p.div c).terms, P t.1 :=
  Polynomial.scale_keys P p _ hp

/-- A successful `lookup` returns an entry of the map. -/
theorem lookup_mem {κ α : Type} [DecidableEq κ] (m : List (κ × α)) (key : κ) (v : α)
    (h : lookup m key = some v) : (key, v) ∈ m := by
  induction m with
  | nil => simp [lookup] at h
  | cons x m ih =>
    obtain ⟨k, w⟩ := x
    simp only [lookup] at h
    split_ifs at h with hk
    · simp only [Option.some.injEq] at h
      subst hk; subst h
      exact List.mem_cons_self _ _
    · exact List.mem_cons_of_mem _ (ih h)

/-- A constant polynomial has at most the constant term. -/
theorem Polynomial.ofConst_keys (P : String → Prop) (c : ℚ) (h0 : P "") :
    ∀ t ∈ (Polynomial.ofConst c).terms, P t.1 :=
  Polynomial.addTerm_keys P "" c h0 [] (by simp)

/-- `isConstant` says that every term is the constant term. -/
theorem Polynomial.isConstant_iff (p : Polynomial) :
    p.isConstant = true ↔ ∀ t ∈ p.terms, t.1 = "" := by
  simp [Polynomial.isConstant, List.all_eq_true]

/-- `Visit(const PolyIndex&)`, unfolded. -/
theorem PolyEvaluator.Visit_index (ptr : Nat) (name : String) (pe : PolyEvaluator) :
    PolyEvaluator.Visit (.PolyIndex ptr name) pe =
      match lookup pe.seen_ ptr with
      | some found => .ok (Polynomial.ofIndex found, pe)
      | none =>
        if name = "" then
          .ok (Polynomial.ofIndex ("x" ++ toString pe.next_),
            { seen_ := pe.seen_ ++ [(ptr, "x" ++ toString pe.next_)], next_ := pe.next_ + 1 })
        else
          .ok (Polynomial.ofIndex name, { pe with seen_ := pe.seen_ ++ [(ptr, name)] }) := rfl

/-- `Visit(const PolyLiteral&)`, unfolded. -/
theorem PolyEvaluator.Visit_literal (value : Int) (pe : PolyEvaluator) :
    PolyEvaluator.Visit (.PolyLiteral value) pe = .ok (Polynomial.ofConst value, pe) := rfl

/-- `Visit(const PolyOp&)` on no operands. -/
theorem PolyEvaluator.Visit_nil (op : String) (pe : PolyEvaluator) :
    PolyEvaluator.Visit (.PolyOp op []) pe =
      if op = "neg" then .error "undefined behaviour: expr.operands[0] out of range"
      else .error "Invalid number of operands in PolyOp" := rfl

/-- `Visit(const PolyOp&)` on one operand. -/
theorem PolyEvaluator.Visit_one (op : String) (a : PolyExpr) (pe : PolyEvaluator) :
    PolyEvaluator.Visit (.PolyOp op [a]) pe =
      if op = "neg" then
        match PolyEvaluator.Visit a pe with
        | .error e => .error e
        | .ok (p, pe1) => .ok (p.neg, pe1)
      else .error "Invalid number of operands in PolyOp" := rfl

/-- `Visit(const PolyOp&)` on two operands. -/
theorem PolyEvaluator.Visit_two (op : String) (a b : PolyExpr) (pe : PolyEvaluator) :
    PolyEvaluator.Visit (.PolyOp op [a, b]) pe =
      if op = "neg" then
        match PolyEvaluator.Visit a pe with
        | .error e => .error e
        | .ok (p, pe1) => .ok (p.neg, pe1)
      else
        match PolyEvaluator.Visit a pe with
        | .error e => .error e
        | .ok (lhs, pe1) =>
          match PolyEvaluator.Visit b pe1 with
          | .error e => .error e
          | .ok (rhs, pe2) =>
            if op = "add" then .ok (lhs.add rhs, pe2)
            else if op = "sub" then .ok (lhs.sub rhs, pe2)
            else if op = "mul" then
              if lhs.isConstant then .ok (rhs.scale lhs.constant, pe2)
              else if rhs.isConstant then .ok (lhs.scale rhs.constant, pe2)
              else .error "Non-linear polynomial"
            else if op = "div" then
              if ¬ rhs.isConstant then .error "Divisor of polynomials must be a constant"
              else .ok (lhs.div rhs.constant, pe2)
            else .error "Unknown PolyOp" := rfl

/-- `Visit(const PolyOp&)` on three or more operands. -/
theorem PolyEvaluator.Visit_many (op : String) (a b c : PolyExpr) (rest : List PolyExpr)
    (pe : PolyEvaluator) :
    PolyEvaluator.Visit (.PolyOp op (a :: b :: c :: rest)) pe =
      if op = "neg" then
        match PolyEvaluator.Visit a pe with
        | .error e => .error e
        | .ok (p, pe1) => .ok (p.neg, pe1)
      else .error "Invalid number of operands in PolyOp" := rfl

/-- A tree without index variables evaluates, leaves the evaluator as it was and
gives a constant polynomial. -/
theorem PolyEvaluator.Visit_constantTree : ∀ (e : PolyExpr), e.isConstantTree = true →
    ∀ pe : PolyEvaluator, ∃ p, PolyEvaluator.Visit e pe = .ok (p, pe) ∧ ∀ t ∈ p.terms, t.1 = ""
  | .PolyIndex _ _, h, _ => by simp [PolyExpr.isConstantTree] at h
  | .PolyLiteral v, _, pe =>
    ⟨Polynomial.ofConst v, rfl, Polynomial.ofConst_keys (fun n => n = "") _ rfl⟩
  | .PolyOp op [], h, _ => by simp [PolyExpr.isConstantTree] at h
  | .PolyOp op [a], h, pe => by
    simp only [PolyExpr.isConstantTree, Bool.and_eq_true, decide_eq_true_eq] at h
    obtain ⟨p, hp, hk⟩ := PolyEvaluator.Visit_constantTree a h.2 pe
    refine ⟨p.neg, ?_, Polynomial.neg_keys (fun n => n = "") p hk⟩
    rw [PolyEvaluator.Visit_one, if_pos h.1, hp]
  | .PolyOp op [a, b], h, pe => by
    simp only [PolyExpr.isConstantTree, Bool.and_eq_true, Bool.or_eq_true, decide_eq_true_eq] at h
    obtain ⟨p, hp, hpk⟩ := PolyEvaluator.Visit_constantTree a h.1.2 pe
    obtain ⟨q, hq, hqk⟩ := PolyEvaluator.Visit_constantTree b h.2 pe
    have hpc : p.isConstant = true := (Polynomial.isConstant_iff p).2 hpk
    have hqc : q.isConstant = true := (Polynomial.isConstant_iff q).2 hqk
    rw [PolyEvaluator.Visit_two, hp]
    simp only [hq]
    rcases h.1.1 with ((h1 | h1) | h1) | h1
    · subst h1
      exact ⟨p.add q, by simp, Polynomial.add_keys (fun n => n = "") p q hpk hqk⟩
    · subst h1
      exact ⟨p.sub q, by simp, Polynomial.sub_keys (fun n => n = "") p q hpk hqk⟩
    · subst h1
      exact ⟨q.scale p.constant, by simp [hpc],
        Polynomial.scale_keys (fun n => n = "") q _ hqk⟩
    · subst h1
      exact ⟨p.div q.constant, by simp [hqc],
        Polynomial.div_keys (fun n => n = "") p _ hpk⟩
  | .PolyOp op (_ :: _ :: _ :: _), h, _ => by simp [PolyExpr.isConstantTree] at h

/-- Names stay assigned when the evaluator goes on. -/
theorem PolyEvaluator.names_mono (pe pe1 : PolyEvaluator) (p : Polynomial)
    (hext : ∃ extra, pe1.seen_ = pe.seen_ ++ extra)
    (hk : ∀ t ∈ p.terms, t.1 = "" ∨ t.1 ∈ pe.names) :
    ∀ t ∈ p.terms, t.1 = "" ∨ t.1 ∈ pe1.names := by
  obtain ⟨extra, he⟩ := hext
  intro t ht
  rcases hk t ht with h | h
  · exact Or.inl h
  · refine Or.inr ?_
    simp only [PolyEvaluator.names, he, List.map_append, List.mem_append]
    exact Or.inl h

/-- A constant polynomial mentions no variable. -/
theorem PolyEvaluator.names_const (pe : PolyEvaluator) (p : Polynomial)
    (hk : ∀ t ∈ p.terms, t.1 = "") : ∀ t ∈ p.terms, t.1 = "" ∨ t.1 ∈ pe.names :=
  fun t ht => Or.inl (hk t ht)

/-- An affine tree evaluates; the evaluator only gains names, and every term of the
result is the constant term or a term on one assigned variable. -/
theorem PolyEvaluator.Visit_affineTree : ∀ (e : PolyExpr), e.isAffineTree = true →
    ∀ pe : PolyEvaluator, ∃ p pe1, PolyEvaluator.Visit e pe = .ok (p, pe1) ∧
      (∃ extra, pe1.seen_ = pe.seen_ ++ extra) ∧
      ∀ t ∈ p.terms, t.1 = "" ∨ t.1 ∈ pe1.names
  | .PolyIndex ptr name, _, pe => by
    rw [PolyEvaluator.Visit_index]
    cases hl : lookup pe.seen_ ptr with
    | some found =>
      refine ⟨_, _, rfl, ⟨[], by simp⟩, ?_⟩
      intro t ht
      simp only [Polynomial.ofIndex, List.mem_singleton] at ht
      subst ht
      exact Or.inr (List.mem_map.2 ⟨(ptr, found), lookup_mem _ _ _ hl, rfl⟩)
    | none =>
      by_cases hn : name = ""
      · simp only [hn, if_true]
        refine ⟨_, _, rfl, ⟨_, rfl⟩, ?_⟩
        intro t ht
        simp only [Polynomial.ofIndex, List.mem_singleton] at ht
        subst ht
        exact Or.inr (by simp [PolyEvaluator.names])
      · simp only [hn, if_false]
        refine ⟨_, _, rfl, ⟨_, rfl⟩, ?_⟩
        intro t ht
        simp only [Polynomial.ofIndex, List.mem_singleton] at ht
        subst ht
        exact Or.inr (by simp [PolyEvaluator.names])
  | .PolyLiteral v, _, pe =>
    ⟨Polynomial.ofConst v, pe, rfl, ⟨[], by simp⟩,
      Polynomial.ofConst_keys (fun n => n = "" ∨ n ∈ pe.names) _ (Or.inl rfl)⟩
  | .PolyOp op [], h, _ => by simp [PolyExpr.isAffineTree] at h
  | .PolyOp op [a], h, pe => by
    simp only [PolyExpr.isAffineTree, Bool.and_eq_true, decide_eq_true_eq] at h
    obtain ⟨p, pe1, hp, hext, hk⟩ := PolyEvaluator.Visit_affineTree a h.2 pe
    refine ⟨p.neg, pe1, ?_, hext, Polynomial.neg_keys (fun n => n = "" ∨ n ∈ pe1.names) p hk⟩
    rw [PolyEvaluator.Visit_one, if_pos h.1, hp]
  | .PolyOp op [a, b], h, pe => by
    simp only [PolyExpr.isAffineTree, Bool.and_eq_true, Bool.or_eq_true, decide_eq_true_eq] at h
    rcases h with (⟨⟨hop, ha⟩, hb⟩ | ⟨hop, hab⟩) | ⟨⟨hop, ha⟩, hb⟩
    · obtain ⟨p, pe1, hp, hext1, hk1⟩ := PolyEvaluator.Visit_affineTree a ha pe
      obtain ⟨q, pe2, hq, hext2, hk2⟩ := PolyEvaluator.Visit_affineTree b hb pe1
      have hk1 := PolyEvaluator.names_mono pe1 pe2 p hext2 hk1
      have hext : ∃ extra, pe2.seen_ = pe.seen_ ++ extra := by
        obtain ⟨e1, h1⟩ := hext1
        obtain ⟨e2, h2⟩ := hext2
        exact ⟨e1 ++ e2, by rw [h2, h1, List.append_assoc]⟩
      rw [PolyEvaluator.Visit_two, hp]
      simp only [hq]
      rcases hop with h1 | h1
      · subst h1
        exact ⟨p.add q, pe2, by simp, hext, Polynomial.add_keys (fun n => n = "" ∨ n ∈ pe2.names) p q hk1 hk2⟩
      · subst h1
        exact ⟨p.sub q, pe2, by simp, hext, Polynomial.sub_keys (fun n => n = "" ∨ n ∈ pe2.names) p q hk1 hk2⟩
    · subst hop
      rcases hab with ⟨ha, hb⟩ | ⟨ha, hb⟩
      · obtain ⟨p, hp, hk1⟩ := PolyEvaluator.Visit_constantTree a ha pe
        obtain ⟨q, pe2, hq, hext2, hk2⟩ := PolyEvaluator.Visit_affineTree b hb pe
        have hpc : p.isConstant = true := (Polynomial.isConstant_iff p).2 hk1
        rw [PolyEvaluator.Visit_two, hp]
        simp only [hq]
        exact ⟨q.scale p.constant, pe2, by simp [hpc], hext2, Polynomial.scale_keys (fun n => n = "" ∨ n ∈ pe2.names) q _ hk2⟩
      · obtain ⟨p, pe1, hp, hext1, hk1⟩ := PolyEvaluator.Visit_affineTree a ha pe
        obtain ⟨q, hq, hk2⟩ := PolyEvaluator.Visit_constantTree b hb pe1
        have hqc : q.isConstant = true := (Polynomial.isConstant_iff q).2 hk2
        rw [PolyEvaluator.Visit_two, hp]
        simp only [hq]
        by_cases hpc : p.isConstant = true
        · exact ⟨q.scale p.constant, pe1, by simp [hpc], hext1,
            Polynomial.scale_keys (fun n => n = "" ∨ n ∈ pe1.names) q _
              (PolyEvaluator.names_const pe1 q hk2)⟩
        · exact ⟨p.scale q.constant, pe1, by simp [hpc, hqc], hext1,
            Polynomial.scale_keys (fun n => n = "" ∨ n ∈ pe1.names) p _ hk1⟩
    · subst hop
      obtain ⟨p, pe1, hp, hext1, hk1⟩ := PolyEvaluator.Visit_affineTree a ha pe
      obtain ⟨q, hq, hk2⟩ := PolyEvaluator.Visit_constantTree b hb pe1
      have hqc : q.isConstant = true := (Polynomial.isConstant_iff q).2 hk2
      rw [PolyEvaluator.Visit_two, hp]
      simp only [hq]
      exact ⟨p.div q.constant, pe1, by simp [hqc], hext1, Polynomial.div_keys (fun n => n = "" ∨ n ∈ pe1.names) p _ hk1⟩
  | .PolyOp op (_ :: _ :: _ :: _), h, _ => by simp [PolyExpr.isAffineTree] at h

/-- Claim C12 (affinity): every `PolyExpr` tree built only from index variables,
integer literals, `neg`, `add` and `sub`, plus `mul` with a constant tree on at
least one side and `div` with a constant tree on the right, evaluates in
`PolyEvaluator` without error, from every state of the evaluator; and every term of
the resulting polynomial is either the constant term (empty name) or a rational
multiple of exactly one index variable the evaluator has named, that is, every
non-constant monomial has degree 1. -/
theorem PolyEvaluator_affinity (e : PolyExpr) (h : e.isAffineTree = true) (pe : PolyEvaluator) :
    ∃ p pe1, PolyEvaluator.Visit e pe = .ok (p, pe1) ∧
      ∀ t ∈ p.terms, t.1 = "" ∨ t.1 ∈ pe1.names := by
  obtain ⟨p, pe1, hp, _, hk⟩ := PolyEvaluator.Visit_affineTree e h pe
  exact ⟨p, pe1, hp, hk⟩

theorem PolyEvaluator_affinity_witness :
    PolyExpr.isAffineTree (.PolyOp "div" [.PolyOp "add" [.PolyIndex 0 "",
        .PolyOp "mul" [.PolyLiteral 3, .PolyIndex 1 "k"]], .PolyLiteral 2]) = true ∧
    ∃ p pe1, PolyEvaluator.Visit (.PolyOp "div" [.PolyOp "add" [.PolyIndex 0 "",
        .PolyOp "mul" [.PolyLiteral 3, .PolyIndex 1 "k"]], .PolyLiteral 2]) ⟨[], 0⟩ = .ok (p, pe1) ∧
      ∀ t ∈ p.terms, t.1 = "" ∨ t.1 ∈ pe1.names :=
  ⟨by decide, PolyEvaluator_affinity _ (by decide) _⟩

/-- Claim C13 (non-affine index rejection): for a two-operand `PolyOp` whose
operands both evaluate successfully, to `lhs` and then `rhs`: op `mul` fails
exactly when neither polynomial is constant, and then with "Non-linear polynomial";
otherwise it yields the other operand multiplied by the constant (`rhs` times the
constant of `lhs` when `lhs` is constant, else `lhs` times the constant of `rhs`).
Op `div` fails exactly when `rhs` is not constant, with "Divisor of polynomials
must be a constant", and otherwise yields `lhs` divided by the constant of `rhs`. -/
theorem PolyEvaluator_mul_div (a b : PolyExpr) (pe pe1 pe2 : PolyEvaluator)
    (lhs rhs : Polynomial)
    (ha : PolyEvaluator.Visit a pe = .ok (lhs, pe1))
    (hb : PolyEvaluator.Visit b pe1 = .ok (rhs, pe2)) :
    (((∃ e, PolyEvaluator.Visit (.PolyOp "mul" [a, b]) pe = .error e) ↔
        (lhs.isConstant = false ∧ rhs.isConstant = false)) ∧
      (lhs.isConstant = false → rhs.isConstant = false →
        PolyEvaluator.Visit (.PolyOp "mul" [a, b]) pe = .error "Non-linear polynomial") ∧
      (lhs.isConstant = true →
        PolyEvaluator.Visit (.PolyOp "mul" [a, b]) pe = .ok (rhs.scale lhs.constant, pe2)) ∧
      (lhs.isConstant = false → rhs.isConstant = true →
        PolyEvaluator.Visit (.PolyOp "mul" [a, b]) pe = .ok (lhs.scale rhs.constant, pe2))) ∧
    (((∃ e, PolyEvaluator.Visit (.PolyOp "div" [a, b]) pe = .error e) ↔
        rhs.isConstant = false) ∧
      (rhs.isConstant = false →
        PolyEvaluator.Visit (.PolyOp "div" [a, b]) pe =
          .error "Divisor of polynomials must be a constant") ∧
      (rhs.isConstant = true →
        PolyEvaluator.Visit (.PolyOp "div" [a, b]) pe = .ok (lhs.div rhs.constant, pe2))) := by
  have hmul : PolyEvaluator.Visit (.PolyOp "mul" [a, b]) pe =
      if lhs.isConstant then .ok (rhs.scale lhs.constant, pe2)
      else if rhs.isConstant then .ok (lhs.scale rhs.constant, pe2)
      else .error "Non-linear polynomial" := by
    rw [PolyEvaluator.Visit_two, ha]
    simp only [hb]
    simp
  have hdiv : PolyEvaluator.Visit (.PolyOp "div" [a, b]) pe =
      if ¬ rhs.isConstant then .error "Divisor of polynomials must be a constant"
      else .ok (lhs.div rhs.constant, pe2) := by
    rw [PolyEvaluator.Visit_two, ha]
    simp only [hb]
    simp
  rw [hmul, hdiv]
  cases hl : lhs.isConstant <;> cases hr : rhs.isConstant <;> simp

theorem PolyEvaluator_mul_div_witness :
    PolyEvaluator.Visit (.PolyIndex 0 "") ⟨[], 0⟩ =
        .ok (Polynomial.ofIndex "x0", ⟨[(0, "x0")], 1⟩) ∧
      PolyEvaluator.Visit (.PolyIndex 1 "") ⟨[(0, "x0")], 1⟩ =
        .ok (Polynomial.ofIndex "x1", ⟨[(0, "x0"), (1, "x1")], 2⟩) ∧
      ((Polynomial.ofIndex "x0").isConstant = false →
        (Polynomial.ofIndex "x1").isConstant = false →
        PolyEvaluator.Visit (.PolyOp "mul" [.PolyIndex 0 "", .PolyIndex 1 ""]) ⟨[], 0⟩ =
          .error "Non-linear polynomial") ∧
      ((Polynomial.ofIndex "x1").isConstant = false →
        PolyEvaluator.Visit (.PolyOp "div" [.PolyIndex 0 "", .PolyIndex 1 ""]) ⟨[], 0⟩ =
          .error "Divisor of polynomials must be a constant") :=
  ⟨rfl, rfl,
    (PolyEvaluator_mul_div (.PolyIndex 0 "") (.PolyIndex 1 "") ⟨[], 0⟩ ⟨[(0, "x0")], 1⟩
      ⟨[(0, "x0"), (1, "x1")], 2⟩ (Polynomial.ofIndex "x0") (Polynomial.ofIndex "x1")
      rfl rfl).1.2.1,
    (PolyEvaluator_mul_div (.PolyIndex 0 "") (.PolyIndex 1 "") ⟨[], 0⟩ ⟨[(0, "x0")], 1⟩
      ⟨[(0, "x0"), (1, "x1")], 2⟩ (Polynomial.ofIndex "x0") (Polynomial.ofIndex "x1")
      rfl rfl).2.2.1⟩

/-! ## ShapeEvaluator on a contraction -/

/-- The sizes of `rowMajorDims` are the given sizes. -/
theorem rowMajorDims_sizes (sizes : List Nat) : sizesOf (rowMajorDims sizes) = sizes := by
  induction sizes with
  | nil => rfl
  | cons s ss ih =>
    simp only [rowMajorDims, sizesOf, List.map_cons] at ih ⊢
    rw [ih]

/-- The strides of `rowMajorDims` are the products of the sizes to the right. -/
theorem rowMajorDims_stride (sizes : List Nat) (i : Nat) (hi : i < (rowMajorDims sizes).length) :
    ((rowMajorDims sizes)[i]).stride = (((sizes.drop (i + 1)).prod : Nat) : Int) := by
  induction sizes generalizing i with
  | nil => simp [rowMajorDims] at hi
  | cons s ss ih =>
    cases i with
    | zero => simp [rowMajorDims]
    | succ j =>
      simp only [rowMajorDims, List.getElem_cons_succ, List.drop_succ_cons]
      exact ih j _

/-- The loop over the inputs succeeds when every input ref has a TENSOR binding, and
returns the shapes in order. -/
theorem ShapeEvaluator.inputShapes_ok (bindings : List (ExprPtr × Binding))
    (inputs : List TensorSpecExpr) (shapes : List TensorShape)
    (h : List.Forall₂ (fun ref shape => lookup bindings ref = some (Binding.TENSOR shape))
      (inputs.map (fun input => input.ref)) shapes) :
    ShapeEvaluator.inputShapes bindings inputs = .ok shapes := by
  induction inputs generalizing shapes with
  | nil =>
    simp only [List.map_nil, List.forall₂_nil_left_iff] at h
    subst h
    rfl
  | cons input rest ih =>
    simp only [List.map_cons, List.forall₂_cons_left_iff] at h
    obtain ⟨shape, shapes1, h1, h2, rfl⟩ := h
    simp only [ShapeEvaluator.inputShapes, safe_at, h1, ih shapes1 h2]

/-- Claim C18 (contraction shape inference): for a `ContractionExpr` node whose
input refs all have TENSOR bindings, with shapes `shapes` in the order of the
inputs, `ShapeEvaluator::Visit` succeeds and emplaces for the node a TENSOR binding
(which is the binding of the node from then on when the node had none, as in every
pass over a flat list) whose sizes are exactly `output.output_sizes`, whose strides
are row-major (the product of the sizes to the right), and whose dtype is `BOOLEAN`
when `combo_op` is `COND` and otherwise `ComputeOutputType shapes`.  The statement
reads nothing of the contraction but `combo_op`, the output sizes and the input
refs, so the binding does not depend on the index polynomials, the constraints or
`agg_op`. -/
theorem ShapeEvaluator_contraction (env : Extern) (heap : Heap)
    (bindings : List (ExprPtr × Binding)) (expr : ExprPtr) (cion : ContractionExpr)
    (shapes : List TensorShape)
    (hnode : (heap expr).node = .ContractionExpr cion)
    (hin : List.Forall₂ (fun ref shape => lookup bindings ref = some (Binding.TENSOR shape))
      (cion.inputs.map (fun input => input.ref)) shapes) :
    ∃ shape, ShapeEvaluator.Visit env heap bindings expr =
        .ok (emplace bindings expr (Binding.TENSOR shape)) ∧
      (lookup bindings expr = none →
        lookup (emplace bindings expr (Binding.TENSOR shape)) expr =
          some (Binding.TENSOR shape)) ∧
      sizesOf shape.dims = cion.output.output_sizes ∧
      (∀ (i : Nat) (hi : i < shape.dims.length),
        shape.dims[i].stride = (((cion.output.output_sizes.drop (i + 1)).prod : Nat) : Int)) ∧
      shape.type = (if cion.combo_op = CombinationOp.COND then DataType.BOOLEAN
        else ComputeOutputType env shapes) := by
  by_cases hc : cion.combo_op = CombinationOp.COND
  · refine ⟨SimpleShape DataType.BOOLEAN cion.output.output_sizes, ?_,
      lookup_emplace_self _ _ _, rowMajorDims_sizes _, ?_, ?_⟩
    · simp only [ShapeEvaluator.Visit, hnode, hc, if_true]
    · intro i hi
      exact rowMajorDims_stride _ i hi
    · simp only [hc, if_true, SimpleShape]
  · refine ⟨SimpleShape (ComputeOutputType env shapes) cion.output.output_sizes, ?_,
      lookup_emplace_self _ _ _, rowMajorDims_sizes _, ?_, ?_⟩
    · simp only [ShapeEvaluator.Visit, hnode, hc, if_false,
        ShapeEvaluator.inputShapes_ok bindings cion.inputs shapes hin]
    · intro i hi
      exact rowMajorDims_stride _ i hi
    · simp only [hc, if_false, SimpleShape]

theorem ShapeEvaluator_contraction_witness :
    (cionHeap 2).node = .ContractionExpr
        { agg_op := .SUM, combo_op := .MULTIPLY,
          output := ⟨3, [.PolyIndex 0 "", .PolyIndex 1 ""], [3, 4]⟩,
          inputs := [⟨0, [.PolyIndex 0 ""], []⟩, ⟨1, [.PolyIndex 1 ""], []⟩],
          constraints := [], use_default := none, no_defract := false } ∧
    ∃ shape,
      ShapeEvaluator.Visit refEnv cionHeap
        [(0, Binding.TENSOR ⟨.INT32, [⟨1, 3⟩]⟩), (1, Binding.TENSOR ⟨.FLOAT32, [⟨1, 4⟩]⟩)] 2 =
          .ok (emplace [(0, Binding.TENSOR ⟨.INT32, [⟨1, 3⟩]⟩),
            (1, Binding.TENSOR ⟨.FLOAT32, [⟨1, 4⟩]⟩)] 2 (Binding.TENSOR shape)) ∧
      (lookup [(0, Binding.TENSOR ⟨.INT32, [⟨1, 3⟩]⟩),
          (1, Binding.TENSOR ⟨.FLOAT32, [⟨1, 4⟩]⟩)] 2 = none →
        lookup (emplace [(0, Binding.TENSOR ⟨.INT32, [⟨1, 3⟩]⟩),
          (1, Binding.TENSOR ⟨.FLOAT32, [⟨1, 4⟩]⟩)] 2 (Binding.TENSOR shape)) 2 =
          some (Binding.TENSOR shape)) ∧
      sizesOf shape.dims = [3, 4] ∧
      (∀ (i : Nat) (hi : i < shape.dims.length),
        shape.dims[i].stride = ((([3, 4].drop (i + 1)).prod : Nat) : Int)) ∧
      shape.type = (if CombinationOp.MULTIPLY = CombinationOp.COND then DataType.BOOLEAN
        else ComputeOutputType refEnv [⟨.INT32, [⟨1, 3⟩]⟩, ⟨.FLOAT32, [⟨1, 4⟩]⟩]) :=
  ⟨rfl, ShapeEvaluator_contraction refEnv cionHeap
    [(0, Binding.TENSOR ⟨.INT32, [⟨1, 3⟩]⟩), (1, Binding.TENSOR ⟨.FLOAT32, [⟨1, 4⟩]⟩)] 2 _
    [⟨.INT32, [⟨1, 3⟩]⟩, ⟨.FLOAT32, [⟨1, 4⟩]⟩] rfl
    (List.Forall₂.cons rfl (List.Forall₂.cons rfl List.Forall₂.nil))⟩

/-! ## Facts about the builder -/

mutual
/-- The collector appends, for each leaf of the tree from left to right, the
constraints of the `Index` that owns the leaf. -/
theorem ConstraintCollector.Visit_eq (indexes : Nat → Index.Impl) :
    ∀ (e : PolyExpr) (acc : List ConstraintExpr),
      ConstraintCollector.Visit indexes e acc =
        acc ++ e.leaves.flatMap (fun p => (indexes p).constraints)
  | .PolyIndex ptr _, acc => by
    simp [ConstraintCollector.Visit, PolyExpr.leaves]
  | .PolyLiteral _, acc => by
    simp [ConstraintCollector.Visit, PolyExpr.leaves]
  | .PolyOp _ operands, acc => by
    rw [ConstraintCollector.Visit, PolyExpr.leaves]
    exact ConstraintCollector.VisitOperands_eq indexes operands acc
/-- The loop over the operands of a `PolyOp` does the same for each operand in turn. -/
theorem ConstraintCollector.VisitOperands_eq (indexes : Nat → Index.Impl) :
    ∀ (es : List PolyExpr) (acc : List ConstraintExpr),
      ConstraintCollector.Visit.VisitOperands indexes es acc =
        acc ++ (PolyExpr.leaves.leavesOf es).flatMap (fun p => (indexes p).constraints)
  | [], acc => by
    simp [ConstraintCollector.Visit.VisitOperands, PolyExpr.leaves.leavesOf]
  | e :: rest, acc => by
    rw [ConstraintCollector.Visit.VisitOperands, PolyExpr.leaves.leavesOf,
      ConstraintCollector.Visit_eq indexes e acc,
      ConstraintCollector.VisitOperands_eq indexes rest]
    simp [List.flatMap_append]
end

/-- The collector run over an index_spec. -/
theorem ConstraintCollector.VisitAll_eq (indexes : Nat → Index.Impl)
    (index_spec : List PolyExpr) (acc : List ConstraintExpr) :
    ConstraintCollector.VisitAll indexes index_spec acc =
      acc ++ (index_spec.flatMap PolyExpr.leaves).flatMap (fun p => (indexes p).constraints) := by
  unfold ConstraintCollector.VisitAll
  induction index_spec generalizing acc with
  | nil => simp
  | cons idx rest ih =>
    simp only [List.foldl_cons, List.flatMap_cons, List.flatMap_append]
    rw [ih, ConstraintCollector.Visit_eq, List.append_assoc]

/-- The loop over inputs none of which is null collects their constraints in order. -/
theorem Access.Impl.MakeContraction.collect_eq (indexes : Nat → Index.Impl)
    (inputs : List TensorSpecExpr) (acc : List ConstraintExpr) :
    Access.Impl.MakeContraction.collect indexes (inputs.map some) acc =
      .ok (inputs, acc ++ ((inputs.flatMap (fun input => input.index_spec)).flatMap
        PolyExpr.leaves).flatMap (fun p => (indexes p).constraints)) := by
  induction inputs generalizing acc with
  | nil => simp [Access.Impl.MakeContraction.collect]
  | cons tensor rest ih =>
    simp only [List.map_cons, Access.Impl.MakeContraction.collect, ih,
      ConstraintCollector.VisitAll_eq]
    simp [List.flatMap_append, List.append_assoc]

/-- The loop over the inputs succeeds only when no input is null. -/
theorem Access.Impl.MakeContraction.collect_some (indexes : Nat → Index.Impl)
    (specs : List (Option TensorSpecExpr)) (acc : List ConstraintExpr)
    (inputs : List TensorSpecExpr) (constraints : List ConstraintExpr)
    (h : Access.Impl.MakeContraction.collect indexes specs acc = .ok (inputs, constraints)) :
    specs = inputs.map some := by
  induction specs generalizing acc inputs constraints with
  | nil =>
    simp only [Access.Impl.MakeContraction.collect, Except.ok.injEq, Prod.mk.injEq] at h
    rw [← h.1]
    rfl
  | cons spec rest ih =>
    cases spec with
    | none => simp [Access.Impl.MakeContraction.collect] at h
    | some tensor =>
      simp only [Access.Impl.MakeContraction.collect] at h
      cases hr : Access.Impl.MakeContraction.collect indexes rest
          (ConstraintCollector.VisitAll indexes tensor.index_spec acc) with
      | error e => rw [hr] at h; simp at h
      | ok r =>
        obtain ⟨ins, cs⟩ := r
        rw [hr] at h
        simp only [Except.ok.injEq, Prod.mk.injEq] at h
        rw [← h.1, ih _ _ _ hr]
        rfl

/-- What a successful `MakeContraction` has done: the left side is a
`TensorSpecExpr` with a source tensor, the right side gave a `combo_op` and inputs
none of which is null, and the source tensor now holds a new `ContractionExpr` made
of these, with the constraints of all leaves of the output and the inputs. -/
theorem Access.Impl.MakeContraction_ok (self : Access.Impl) (agg_op : AggregationOp)
    (rhs : Access) (st st1 : Store)
    (h : Access.Impl.MakeContraction self agg_op rhs st = .ok st1) :
    ∃ output_spec combo_op inputs src,
      (st.exprs self.expr).node = .TensorSpecExpr output_spec ∧
      Access.Impl.MakeContraction.inputs st.exprs rhs.expr = .ok (combo_op, inputs.map some) ∧
      self.src = some src ∧
      st1.contractionOf src = some
        { agg_op := agg_op, combo_op := combo_op, output := output_spec, inputs := inputs,
          constraints := ((output_spec.index_spec ++
            inputs.flatMap (fun input => input.index_spec)).flatMap PolyExpr.leaves).flatMap
              (fun p => (st.indexes p).constraints),
          use_default := none, no_defract := false } ∧
      (∀ p, p ≠ st.next_expr → st1.exprs p = st.exprs p) ∧
      (∀ t, t ≠ src → st1.tensors t = st.tensors t) ∧
      st1.indexes = st.indexes := by
  unfold Access.Impl.MakeContraction at h
  cases hn : (st.exprs self.expr).node with
  | TensorSpecExpr output_spec =>
    rw [hn] at h
    simp only at h
    cases hi : Access.Impl.MakeContraction.inputs st.exprs rhs.expr with
    | error e => rw [hi] at h; simp at h
    | ok r =>
      obtain ⟨combo_op, specs⟩ := r
      rw [hi] at h
      simp only at h
      cases hc : Access.Impl.MakeContraction.collect st.indexes specs
          (ConstraintCollector.VisitAll st.indexes output_spec.index_spec []) with
      | error e => rw [hc] at h; simp at h
      | ok r =>
        obtain ⟨inputs, constraints⟩ := r
        rw [hc] at h
        simp only at h
        cases hs : self.src with
        | none => rw [hs] at h; simp at h
        | some src =>
          rw [hs] at h
          simp only [Except.ok.injEq] at h
          subst h
          have hspecs := Access.Impl.MakeContraction.collect_some _ _ _ _ _ hc
          subst hspecs
          rw [Access.Impl.MakeContraction.collect_eq, ConstraintCollector.VisitAll_eq] at hc
          simp only [Except.ok.injEq, Prod.mk.injEq, true_and, List.nil_append] at hc
          refine ⟨output_spec, combo_op, inputs, src, rfl, rfl, rfl, ?_, ?_, ?_, rfl⟩
          · rw [← hc]
            simp [Store.contractionOf, Store.newExpr, List.flatMap_append]
          · intro p hp
            simp [Store.newExpr, hp]
          · intro t ht
            simp [Store.newExpr, ht]
  | _ => rw [hn] at h; simp at h

/-- `MakeContraction` succeeds when the left side is a `TensorSpecExpr` with a source
tensor and the right side gives inputs none of which is null. -/
theorem Access.Impl.MakeContraction_succeeds (self : Access.Impl) (agg_op : AggregationOp)
    (rhs : Access) (st : Store) (output_spec : TensorSpecExpr) (src : Nat)
    (combo_op : CombinationOp) (inputs : List TensorSpecExpr)
    (hout : (st.exprs self.expr).node = .TensorSpecExpr output_spec)
    (hsrc : self.src = some src)
    (hin : Access.Impl.MakeContraction.inputs st.exprs rhs.expr = .ok (combo_op, inputs.map some)) :
    ∃ st1 cion, Access.Impl.MakeContraction self agg_op rhs st = .ok st1 ∧
      st1.contractionOf src = some cion ∧ cion.agg_op = agg_op ∧ cion.combo_op = combo_op ∧
      cion.output = output_spec ∧ cion.inputs = inputs := by
  have h : ∃ st1, Access.Impl.MakeContraction self agg_op rhs st = .ok st1 := by
    unfold Access.Impl.MakeContraction
    rw [hout]
    simp only [hin, Access.Impl.MakeContraction.collect_eq, hsrc]
    exact ⟨_, rfl⟩
  obtain ⟨st1, h⟩ := h
  obtain ⟨out1, combo1, inputs1, src1, h1, h2, h3, h4, -⟩ :=
    Access.Impl.MakeContraction_ok self agg_op rhs st st1 h
  rw [hout] at h1
  rw [hin] at h2
  rw [hsrc] at h3
  simp only [ExprNode.TensorSpecExpr.injEq] at h1
  simp only [Except.ok.injEq, Prod.mk.injEq] at h2
  simp only [Option.some.injEq] at h3
  have hinj : inputs = inputs1 :=
    List.map_injective_iff.2 (Option.some_injective _) h2.2
  subst h1; subst h3; subst hinj
  exact ⟨st1, _, h, h4, rfl, h2.1.symm, rfl, rfl⟩

/-- Claim C19, amended (contraction right-hand side): for a left side that is a
`TensorSpecExpr` with a source tensor, forming a contraction fails with
"oops: call_expr" whenever `rhs` is neither a `TensorSpecExpr` nor a `CallExpr`;
the `fn` of a `CallExpr` is not checked.  When `rhs` is a `TensorSpecExpr` the
contraction gets `inputs = [rhs]` and `combo_op` `NONE`.  When `rhs` is a `CallExpr`
whose args are all `TensorSpecExpr`s the contraction is formed with the args as
inputs, in order, and with `combo_op` `PLUS`, `MULTIPLY`, `EQ` or `COND` for the
`fn` `add`, `mul`, `eq` or `cond` and `NONE` for every other `fn`. -/
theorem MakeContraction_rhs (self : Access.Impl) (agg_op : AggregationOp) (rhs : Access)
    (st : Store) (output_spec : TensorSpecExpr) (src : Nat)
    (hout : (st.exprs self.expr).node = .TensorSpecExpr output_spec)
    (hsrc : self.src = some src) :
    ((∀ spec, (st.exprs rhs.expr).node ≠ .TensorSpecExpr spec) →
      (∀ fn args, (st.exprs rhs.expr).node ≠ .CallExpr fn args) →
      Access.Impl.MakeContraction self agg_op rhs st = .error "oops: call_expr") ∧
    (∀ spec, (st.exprs rhs.expr).node = .TensorSpecExpr spec →
      ∃ st1 cion, Access.Impl.MakeContraction self agg_op rhs st = .ok st1 ∧
        st1.contractionOf src = some cion ∧ cion.agg_op = agg_op ∧
        cion.output = output_spec ∧ cion.inputs = [spec] ∧
        cion.combo_op = CombinationOp.NONE) ∧
    (∀ fn args inputs, (st.exprs rhs.expr).node = .CallExpr fn args →
      args.map (fun arg => (st.exprs arg).node) = inputs.map ExprNode.TensorSpecExpr →
      ∃ st1 cion, Access.Impl.MakeContraction self agg_op rhs st = .ok st1 ∧
        st1.contractionOf src = some cion ∧ cion.agg_op = agg_op ∧
        cion.output = output_spec ∧ cion.inputs = inputs ∧
        cion.combo_op =
          (if fn = "add" then CombinationOp.PLUS
           else if fn = "mul" then CombinationOp.MULTIPLY
           else if fn = "eq" then CombinationOp.EQ
           else if fn = "cond" then CombinationOp.COND
           else CombinationOp.NONE)) := by
  refine ⟨?_, ?_, ?_⟩
  · intro h1 h2
    unfold Access.Impl.MakeContraction
    rw [hout]
    have hi : Access.Impl.MakeContraction.inputs st.exprs rhs.expr = .error "oops: call_expr" := by
      unfold Access.Impl.MakeContraction.inputs
      cases hn : (st.exprs rhs.expr).node with
      | TensorSpecExpr spec => exact absurd hn (h1 spec)
      | CallExpr fn args => exact absurd hn (h2 fn args)
      | _ => rfl
    simp only [hi]
  · intro spec hspec
    have hin : Access.Impl.MakeContraction.inputs st.exprs rhs.expr =
        .ok (CombinationOp.NONE, [spec].map some) := by
      unfold Access.Impl.MakeContraction.inputs
      rw [hspec]
      rfl
    obtain ⟨st1, cion, h, hc, ha, hco, ho, hi⟩ :=
      Access.Impl.MakeContraction_succeeds self agg_op rhs st output_spec src _ _ hout hsrc hin
    exact ⟨st1, cion, h, hc, ha, ho, hi, hco⟩
  · intro fn args inputs hcall hargs
    have hmap : args.map (fun arg =>
        match (st.exprs arg).node with
        | .TensorSpecExpr spec => some spec
        | _ => none) = inputs.map some := by
      have h1 : args.map (fun arg =>
          match (st.exprs arg).node with
          | .TensorSpecExpr spec => some spec
          | _ => none) =
          (args.map (fun arg => (st.exprs arg).node)).map (fun node =>
            match node with
            | .TensorSpecExpr spec => some spec
            | _ => none) := by
        rw [List.map_map]
        rfl
      rw [h1, hargs, List.map_map]
      rfl
    have hin : Access.Impl.MakeContraction.inputs st.exprs rhs.expr =
        .ok ((if fn = "add" then CombinationOp.PLUS
           else if fn = "mul" then CombinationOp.MULTIPLY
           else if fn = "eq" then CombinationOp.EQ
           else if fn = "cond" then CombinationOp.COND
           else CombinationOp.NONE), inputs.map some) := by
      unfold Access.Impl.MakeContraction.inputs
      rw [hcall]
      exact congrArg (fun l => Except.ok ((if fn = "add" then CombinationOp.PLUS
           else if fn = "mul" then CombinationOp.MULTIPLY
           else if fn = "eq" then CombinationOp.EQ
           else if fn = "cond" then CombinationOp.COND
           else CombinationOp.NONE), l)) hmap
    obtain ⟨st1, cion, h, hc, ha, hco, ho, hi⟩ :=
      Access.Impl.MakeContraction_succeeds self agg_op rhs st output_spec src _ _ hout hsrc hin
    exact ⟨st1, cion, h, hc, ha, ho, hi, hco⟩

theorem MakeContraction_rhs_witness :
    (exampleOutput.exprs 3).node = .TensorSpecExpr ⟨2, [.PolyIndex 0 ""], [3]⟩ ∧
    (∀ spec, (exampleOutput.exprs 3).node = .TensorSpecExpr spec →
      ∃ st1 cion, Access.Impl.MakeContraction ⟨3, some 2⟩ AggregationOp.MAX ⟨3, some 2⟩
          exampleOutput = .ok st1 ∧
        st1.contractionOf 2 = some cion ∧ cion.agg_op = AggregationOp.MAX ∧
        cion.output = ⟨2, [.PolyIndex 0 ""], [3]⟩ ∧ cion.inputs = [spec] ∧
        cion.combo_op = CombinationOp.NONE) :=
  ⟨rfl, (MakeContraction_rhs ⟨3, some 2⟩ AggregationOp.MAX ⟨3, some 2⟩ exampleOutput
    ⟨2, [.PolyIndex 0 ""], [3]⟩ 2 rfl rfl).2.1⟩

/-- Counterexample to claim C19 as stated: with the right side a `CallExpr` whose
`fn` is `sub`, none of `add`, `mul`, `eq`, `cond`, forming the contraction does not
fail; the contraction is made with `combo_op` `NONE` and the two args as inputs.
And with the right side `(A({i}) + B({i})) + A({i})`, a `CallExpr` whose `fn` is
`add`, no contraction with the args as inputs is formed: the first arg is no
`TensorSpecExpr` and is dereferenced as a null pointer. -/
theorem MakeContraction_rhs_unchecked :
    exampleSub.map (fun r => r.map (fun st =>
        (st.contractionOf 2).map (fun cion => (cion.combo_op, cion.inputs.map (fun t => t.ref))))) =
      some (.ok (some (CombinationOp.NONE, [0, 1]))) ∧
    exampleNested.map (fun r => r.map (fun st => (st.contractionOf 2).isSome)) =
      some (.error "undefined behaviour: null TensorSpecExpr dereferenced") :=
  ⟨rfl, rfl⟩

/-- The output access holds a new `TensorSpecExpr` with the given indexes and sizes. -/
theorem Tensor.operator_call_sizes_ok (self : Tensor) (idxs : List Index) (sizes : List Nat)
    (st st1 : Store) (lhs : Access)
    (h : Tensor.operator_call_sizes self idxs sizes st = .ok (lhs, st1)) :
    idxs.length = sizes.length ∧ lhs.src = some self ∧
      (st1.exprs lhs.expr).node = .TensorSpecExpr
        { ref := (st.tensors self).expr,
          index_spec := idxs.map (fun idx => (st.indexes idx).expr),
          output_sizes := sizes } := by
  unfold Tensor.operator_call_sizes at h
  split_ifs at h with hlen
  simp only [Except.ok.injEq, Prod.mk.injEq] at h
  obtain ⟨rfl, rfl⟩ := h
  refine ⟨not_not.1 hlen, rfl, ?_⟩
  simp [Store.newExpr]

/-- The read access holds a new `TensorSpecExpr` with the given indexes, as many as
the tensor has dims, and no sizes. -/
theorem Tensor.operator_call_ok (env : Extern) (fuel : Nat) (self : Tensor) (idxs : List Index)
    (st st1 : Store) (lhs : Access)
    (h : Tensor.operator_call env fuel self idxs st = some (.ok (lhs, st1))) :
    (∃ this_shape, Tensor.shape env fuel self st = some (.ok this_shape) ∧
      idxs.length = this_shape.dims.length) ∧
    lhs.src = some self ∧
      (st1.exprs lhs.expr).node = .TensorSpecExpr
        { ref := (st.tensors self).expr,
          index_spec := idxs.map (fun idx => (st.indexes idx).expr),
          output_sizes := [] } := by
  unfold Tensor.operator_call at h
  cases hs : Tensor.shape env fuel self st with
  | none => rw [hs] at h; simp at h
  | some r =>
    cases r with
    | error e => rw [hs] at h; simp at h
    | ok this_shape =>
      rw [hs] at h
      simp only [Option.some.injEq] at h
      split_ifs at h with hlen
      simp only [Except.ok.injEq, Prod.mk.injEq] at h
      obtain ⟨rfl, rfl⟩ := h
      refine ⟨⟨this_shape, rfl, not_not.1 hlen⟩, rfl, ?_⟩
      simp [Store.newExpr]

/-- Claim C20, amended (builder invariant on output specs): a `ContractionExpr`
formed by `+=`, `*=`, `>=`, `<=` or `=` (any `agg_op`) on an access whose
`TensorSpecExpr` is still the one the access was made with satisfies
`output.output_sizes.len == output.index_spec.len` when the access comes from the
output form `Tensor::operator()(idxs, sizes)`.  When it comes from the read form
`Tensor::operator()(idxs)`, `output.output_sizes` is empty while
`output.index_spec` has as many entries as the tensor has dims, so the two lengths
agree only for a tensor without dims. -/
theorem MakeContraction_output_sizes (self : Tensor) (idxs : List Index)
    (st st1 st2 st3 : Store) (lhs rhs : Access) (agg_op : AggregationOp)
    (hkeep : st2.exprs lhs.expr = st1.exprs lhs.expr)
    (hmk : Access.Impl.MakeContraction lhs agg_op rhs st2 = .ok st3) :
    (∀ sizes, Tensor.operator_call_sizes self idxs sizes st = .ok (lhs, st1) →
      ∃ cion, st3.contractionOf self = some cion ∧ cion.agg_op = agg_op ∧
        cion.output.output_sizes = sizes ∧
        cion.output.output_sizes.length = cion.output.index_spec.length) ∧
    (∀ env fuel, Tensor.operator_call env fuel self idxs st = some (.ok (lhs, st1)) →
      ∃ cion this_shape, st3.contractionOf self = some cion ∧ cion.agg_op = agg_op ∧
        Tensor.shape env fuel self st = some (.ok this_shape) ∧
        cion.output.output_sizes = [] ∧
        cion.output.index_spec.length = this_shape.dims.length) := by
  obtain ⟨out, combo, inputs, src, hout, -, hsrc, hc, -⟩ :=
    Access.Impl.MakeContraction_ok lhs agg_op rhs st2 st3 hmk
  rw [hkeep] at hout
  constructor
  · intro sizes hacc
    obtain ⟨hlen, hs, hnode⟩ := Tensor.operator_call_sizes_ok self idxs sizes st st1 lhs hacc
    rw [hnode] at hout
    simp only [ExprNode.TensorSpecExpr.injEq] at hout
    rw [hs] at hsrc
    simp only [Option.some.injEq] at hsrc
    subst hsrc
    subst hout
    exact ⟨_, hc, rfl, rfl, by simp [hlen]⟩
  · intro env fuel hacc
    obtain ⟨⟨this_shape, hshape, hlen⟩, hs, hnode⟩ :=
      Tensor.operator_call_ok env fuel self idxs st st1 lhs hacc
    rw [hnode] at hout
    simp only [ExprNode.TensorSpecExpr.injEq] at hout
    rw [hs] at hsrc
    simp only [Option.some.injEq] at hsrc
    subst hsrc
    subst hout
    exact ⟨_, this_shape, hc, rfl, hshape, rfl, by simp [hlen]⟩

theorem MakeContraction_output_sizes_witness :
    Tensor.operator_call_sizes 2 [0] [3] exampleStore = .ok (⟨3, some 2⟩, exampleOutput) ∧
    Access.Impl.MakeContraction ⟨3, some 2⟩ AggregationOp.MAX ⟨3, some 2⟩ exampleOutput =
      .ok exampleSelf ∧
    ∃ cion, exampleSelf.contractionOf 2 = some cion ∧ cion.agg_op = AggregationOp.MAX ∧
      cion.output.output_sizes = [3] ∧
      cion.output.output_sizes.length = cion.output.index_spec.length :=
  ⟨rfl, rfl,
    (MakeContraction_output_sizes 2 [0] exampleStore exampleOutput exampleOutput exampleSelf
      ⟨3, some 2⟩ ⟨3, some 2⟩ AggregationOp.MAX rfl rfl).1 [3] rfl⟩

/-- Counterexample to claim C20 as stated: `A({i}) += B({i})` on a tensor `A` with
one dim uses a read access as the left side; the contraction it forms has one
index in `output.index_spec` and no `output.output_sizes`. -/
theorem MakeContraction_read_access_left :
    exampleReadLeft.map (fun r => r.map (fun st =>
        (st.contractionOf 0).map (fun cion =>
          (cion.output.output_sizes.length, cion.output.index_spec.length)))) =
      some (.ok (some (0, 1))) :=
  rfl

/-- The operator `idx < N` appends its `ConstraintExpr` to the constraints of the
`Index` it is applied to and leaves every other `Index` as it was. -/
theorem Index.lt_constraints (self : Index) (rhs : Nat) (st : Store) :
    ((Index.lt self rhs st).indexes self).constraints =
        (st.indexes self).constraints ++ [{ lhs := (st.indexes self).expr, rhs := rhs }] ∧
      ∀ p, p ≠ self → (Index.lt self rhs st).indexes p = st.indexes p := by
  constructor
  · simp [Index.lt]
  · intro p hp
    simp [Index.lt, hp]

/-- Claim C14, amended (constraint harvesting): the constraints list of a contraction
formed through `MakeContraction` holds, for every `PolyIndex` leaf of the index
trees of the output and of the inputs, the constraints of the `Index` that owns the
leaf, as they stand when the contraction is formed.  So a constraint is in the list
exactly when it is a constraint of the owner of some leaf (none of those is missed;
a constraint put on a compound `Index` or on a literal, which owns no leaf, is not
harvested), and the length of the list is the sum, over all leaf occurrences, of
the number of constraints of the owner: nothing is de-duplicated, and a constraint
of an index that occurs `n` times appears `n` times. -/
theorem MakeContraction_constraints (self : Access.Impl) (agg_op : AggregationOp)
    (rhs : Access) (st st1 : Store)
    (h : Access.Impl.MakeContraction self agg_op rhs st = .ok st1) :
    ∃ src cion, self.src = some src ∧ st1.contractionOf src = some cion ∧
      (∀ x, x ∈ cion.constraints ↔ ∃ p ∈ cion.leaves, x ∈ (st.indexes p).constraints) ∧
      cion.constraints.length =
        (cion.leaves.map (fun p => (st.indexes p).constraints.length)).sum := by
  obtain ⟨out, combo, inputs, src, -, -, hsrc, hc, -⟩ :=
    Access.Impl.MakeContraction_ok self agg_op rhs st st1 h
  refine ⟨src, _, hsrc, hc, ?_, ?_⟩
  · intro x
    simp only [ContractionExpr.leaves, List.mem_flatMap]
  · simp only [ContractionExpr.leaves, List.length_flatMap]
    rfl

theorem MakeContraction_constraints_witness :
    Access.Impl.MakeContraction ⟨4, some 2⟩ AggregationOp.SUM ⟨3, some 0⟩ exampleTwiceStore =
      .ok exampleTwiceResult ∧
    ∃ src cion, (some 2 : Option Nat) = some src ∧
      exampleTwiceResult.contractionOf src = some cion ∧
      (∀ x, x ∈ cion.constraints ↔
        ∃ p ∈ cion.leaves, x ∈ (exampleTwiceStore.indexes p).constraints) ∧
      cion.constraints.length =
        (cion.leaves.map (fun p => (exampleTwiceStore.indexes p).constraints.length)).sum :=
  ⟨rfl, MakeContraction_constraints ⟨4, some 2⟩ AggregationOp.SUM ⟨3, some 0⟩
    exampleTwiceStore exampleTwiceResult rfl⟩

/-- Counterexample to claim C14 as stated.  In `Index k; k < 5; O({k}, {3}) += A({k})`
one constraint is created and the index is referenced twice: the constraints list
of the contraction holds that constraint twice, not once.  In
`Index j = i + k; j < 5; O({i}, {3}) += A({j})` the constraint is created on the
index `j`, which is referenced in the index_spec of the input: the constraints
list of the contraction is empty. -/
theorem MakeContraction_constraints_not_unique :
    ((Index.lt 0 5 exampleStore).indexes 0).constraints = [⟨.PolyIndex 0 "", 5⟩] ∧
    exampleTwice.map (fun r => r.map (fun st =>
        (st.contractionOf 2).map (fun cion => cion.constraints))) =
      some (.ok (some [⟨.PolyIndex 0 "", 5⟩, ⟨.PolyIndex 0 "", 5⟩])) ∧
    exampleCompound.map (fun r => r.map (fun st =>
        ((st.indexes 2).constraints, (st.contractionOf 2).map (fun cion =>
          (cion.inputs.map (fun t => t.index_spec), cion.constraints))))) =
      some (.ok ([⟨.PolyOp "add" [.PolyIndex 0 "", .PolyIndex 1 ""], 5⟩],
        some ([[.PolyOp "add" [.PolyIndex 0 "", .PolyIndex 1 ""]]], []))) :=
  ⟨rfl, rfl, rfl⟩

/-! ## Lowering of the example programs -/

/-- The method `NewTmp` changes nothing of the evaluator but `names_` and `next_tmp`. -/
theorem Evaluator.NewTmp_eta (name : String) (ev : Evaluator) :
    Evaluator.NewTmp name ev =
      ((Evaluator.NewTmp name ev).1,
        { names_ := (Evaluator.NewTmp name ev).2.names_,
          names_by_expr_ := ev.names_by_expr_,
          bindings_by_expr_ := ev.bindings_by_expr_,
          runinfo_ :=
            { program_name := ev.runinfo_.program_name,
              program :=
                { inputs := ev.runinfo_.program.inputs,
                  ops := ev.runinfo_.program.ops,
                  outputs := ev.runinfo_.program.outputs,
                  next_tmp := (Evaluator.NewTmp name ev).2.runinfo_.program.next_tmp },
              input_shapes := ev.runinfo_.input_shapes,
              output_shapes := ev.runinfo_.output_shapes,
              vars := ev.runinfo_.vars,
              from_edsl := ev.runinfo_.from_edsl } }) := by
  unfold Evaluator.NewTmp
  split_ifs <;> rfl

/-- The visit of a `ParamExpr` by the evaluator, written out. -/
theorem Evaluator.Visit_param (env : Extern) (heap : Heap) (ev : Evaluator) (expr : ExprPtr)
    (name : String) (shape : TensorShape)
    (h : heap expr = { name := name, node := .ParamExpr shape }) :
    Evaluator.Visit env heap ev expr = .ok
      { names_ := (Evaluator.NewTmp name ev).2.names_,
        names_by_expr_ := emplace ev.names_by_expr_ expr (Evaluator.NewTmp name ev).1,
        bindings_by_expr_ := ev.bindings_by_expr_,
        runinfo_ :=
          { program_name := ev.runinfo_.program_name,
            program :=
              { inputs := ev.runinfo_.program.inputs ++
                  [{ name := (Evaluator.NewTmp name ev).1,
                     dims := (List.range shape.dims.length).map
                       (fun i => (Evaluator.NewTmp name ev).1 ++ "_" ++ toString i) }],
                ops := ev.runinfo_.program.ops,
                outputs := ev.runinfo_.program.outputs,
                next_tmp := (Evaluator.NewTmp name ev).2.runinfo_.program.next_tmp },
            input_shapes := emplace ev.runinfo_.input_shapes (Evaluator.NewTmp name ev).1 shape,
            output_shapes := ev.runinfo_.output_shapes,
            vars := ev.runinfo_.vars,
            from_edsl := ev.runinfo_.from_edsl } } := by
  unfold Evaluator.Visit
  rw [h]
  simp only
  rw [Evaluator.NewTmp_eta name ev]

/-- The visit of a `ContractionExpr` without `use_default` by the evaluator, written
out for index polynomials that evaluate. -/
theorem Evaluator.Visit_contraction (env : Extern) (heap : Heap) (ev : Evaluator)
    (expr : ExprPtr) (name : String) (cion : ContractionExpr)
    (inputs : List String) (specs : List TensorSpec) (pe1 pe2 pe3 : PolyEvaluator)
    (outSpec : List Polynomial) (bounds : List RangeConstraint)
    (h : heap expr = { name := name, node := .ContractionExpr cion })
    (hd : cion.use_default = none)
    (hin : Evaluator.inputSpecs ev.names_by_expr_ cion.inputs { seen_ := [], next_ := 0 } =
      .ok (inputs, specs, pe1))
    (hout : PolyEvaluator.VisitAll cion.output.index_spec pe1 = .ok (outSpec, pe2))
    (hc : Evaluator.rangeConstraints cion.constraints pe2 = .ok (bounds, pe3)) :
    Evaluator.Visit env heap ev expr = .ok
      { names_ := (Evaluator.NewTmp name ev).2.names_,
        names_by_expr_ := emplace ev.names_by_expr_ expr (Evaluator.NewTmp name ev).1,
        bindings_by_expr_ := ev.bindings_by_expr_,
        runinfo_ :=
          { program_name := ev.runinfo_.program_name,
            program :=
              { inputs := ev.runinfo_.program.inputs,
                ops := ev.runinfo_.program.ops ++
                  [{ tag := OpTag.CONTRACTION,
                     output := (Evaluator.NewTmp name ev).1,
                     inputs := inputs,
                     c := some
                       { agg_op := cion.agg_op,
                         comb_op := cion.combo_op,
                         no_defract := cion.no_defract,
                         use_default := "",
                         specs := { id := (Evaluator.NewTmp name ev).1, spec := outSpec } :: specs,
                         output_size := cion.output.output_sizes.map (fun size => toString size),
                         constraints := bounds },
                     f := "" }],
                outputs := ev.runinfo_.program.outputs,
                next_tmp := (Evaluator.NewTmp name ev).2.runinfo_.program.next_tmp },
            input_shapes := ev.runinfo_.input_shapes,
            output_shapes := ev.runinfo_.output_shapes,
            vars := ev.runinfo_.vars,
            from_edsl := ev.runinfo_.from_edsl } } := by
  unfold Evaluator.Visit
  rw [h]
  simp only
  unfold Evaluator.VisitContraction
  rw [hd]
  simp only [hin, hout, hc]
  rw [Evaluator.NewTmp_eta name ev]
  rfl

/-- The loop of the evaluator over a node and the rest. -/
theorem Evaluator.VisitAll_cons_ok (env : Extern) (heap : Heap) (expr : ExprPtr)
    (rest : List ExprPtr) (ev ev1 ev2 : Evaluator)
    (h1 : Evaluator.Visit env heap ev expr = .ok ev1)
    (h2 : Evaluator.VisitAll env heap rest ev1 = .ok ev2) :
    Evaluator.VisitAll env heap (expr :: rest) ev = .ok ev2 := by
  simp only [Evaluator.VisitAll, h1, h2]

/-- `Evaluate` succeeds when each of its passes does. -/
theorem Evaluate_of_parts (env : Extern) (fuel : Nat) (heap : Heap) (name : String)
    (vars flat : List ExprPtr) (bindings : List (ExprPtr × Binding)) (ev1 ev2 : Evaluator)
    (vs : List (String × Binding))
    (hflat : AstTraversal.flat fuel heap vars = some (.ok flat))
    (hshape : ShapeEvaluator env heap flat [] = .ok bindings)
    (hvisit : Evaluator.VisitAll env heap flat
      { Evaluator.new name with bindings_by_expr_ := bindings } = .ok ev1)
    (hout : Evaluator.recordOutputs vars ev1 = .ok ev2)
    (hvars : Evaluator.recordVars ev2.bindings_by_expr_ ev2.names_by_expr_ ev2.runinfo_.vars =
      .ok vs) :
    Evaluate env fuel heap name vars =
      some (.ok { ev2.runinfo_ with vars := vs, from_edsl := true }) := by
  unfold Evaluate
  simp only [hflat, hshape, hvisit, hout, hvars]

/-- Claim C17 (constant elementwise path): for every integer `i` and float `f`,
lowering `Tensor(i) + Tensor(f)`, the sum of an `IntConst` and a `FloatConst`, with
enough fuel for the traversal, emits no input and exactly three ops in this order:
CONSTANT "iconst", CONSTANT "fconst", and one FUNCTION op "add" whose inputs are
the names of those two constants in that order; the shape recorded for the output,
and the one `EvaluateShape` infers for the sum, is a scalar (no dims) of dtype
`FLOAT32`. -/
theorem Evaluate_constant_sum (env : Extern) (name : String) (i : Int) (f : Double)
    (fuel : Nat) (hfuel : 7 ≤ fuel) :
    ∃ ri, Store.Evaluate env fuel name [(constantSum i f).1] (constantSum i f).2 = some (.ok ri) ∧
      ri.program.inputs = [] ∧
      ri.program.ops =
        [{ tag := OpTag.CONSTANT, output := "_X0", inputs := [toString i], c := none,
           f := "iconst" },
         { tag := OpTag.CONSTANT, output := "_X1", inputs := [env.double_to_string f],
           c := none, f := "fconst" },
         { tag := OpTag.FUNCTION, output := "_X2", inputs := ["_X0", "_X1"], c := none,
           f := "add" }] ∧
      ri.program.outputs = ["_X2"] ∧
      ri.output_shapes = [("_X2", { type := DataType.FLOAT32, dims := [] })] ∧
      Tensor.shape env fuel (constantSum i f).1 (constantSum i f).2 =
        some (.ok { type := DataType.FLOAT32, dims := [] }) := by
  obtain ⟨k, rfl⟩ := Nat.exists_eq_add_of_le hfuel
  rw [Nat.add_comm 7 k]
  have h0 : "_X0" = "_X" ++ toString (0 : Nat) := rfl
  have h1 : "_X1" = "_X" ++ toString (1 : Nat) := rfl
  have h2 : "_X2" = "_X" ++ toString (2 : Nat) := rfl
  rw [h0, h1, h2]
  refine ⟨_, rfl, ?_, ?_, ?_, ?_, ?_⟩ <;> rfl

theorem Evaluate_constant_sum_witness :
    7 ≤ 7 ∧
    ∃ ri, Store.Evaluate refEnv 7 "p" [(constantSum 3 ⟨0⟩).1] (constantSum 3 ⟨0⟩).2 =
        some (.ok ri) ∧
      ri.program.inputs = [] ∧
      ri.program.ops =
        [{ tag := OpTag.CONSTANT, output := "_X0", inputs := [toString (3 : Int)], c := none,
           f := "iconst" },
         { tag := OpTag.CONSTANT, output := "_X1", inputs := [refEnv.double_to_string ⟨0⟩],
           c := none, f := "fconst" },
         { tag := OpTag.FUNCTION, output := "_X2", inputs := ["_X0", "_X1"], c := none,
           f := "add" }] ∧
      ri.program.outputs = ["_X2"] ∧
      ri.output_shapes = [("_X2", { type := DataType.FLOAT32, dims := [] })] ∧
      Tensor.shape refEnv 7 (constantSum 3 ⟨0⟩).1 (constantSum 3 ⟨0⟩).2 =
        some (.ok { type := DataType.FLOAT32, dims := [] }) :=
  ⟨by decide, Evaluate_constant_sum refEnv "p" 3 ⟨0⟩ 7 (by decide)⟩

/-- Claim C15 (constraint forwarding): for every bound `N`, building
`Index k, i; k < N; O({i}, {size}) += A({i + k})`, with `k` and `i` plain index
variables and `A` a parameter with one dim, and lowering `O` with enough fuel for
the traversals, emits one op, a CONTRACTION.  Its output spec is the variable `x0`
of `i`, its input spec is `x0 + x1`, so `x1` is the variable assigned to `k`, and
its constraints list is exactly one `RangeConstraint`, whose polynomial is the
single variable `x1` and whose range is `N`. -/
theorem Evaluate_constraint_forwarding (env : Extern) (fuel : Nat) (hfuel : 5 ≤ fuel)
    (N size : Nat) (type : DataType) (dim : TensorDimension) (nameA nameO name : String) :
    ∃ O st ri,
      forwardingExample env fuel N size type dim nameA nameO = some (.ok (O, st)) ∧
      Store.Evaluate env fuel name [O] st = some (.ok ri) ∧
      ∃ op c, ri.program.ops = [op] ∧ op.tag = OpTag.CONTRACTION ∧ op.c = some c ∧
        c.specs.map (fun s => s.spec) =
          [[Polynomial.ofIndex "x0"],
           [(Polynomial.ofIndex "x0").add (Polynomial.ofIndex "x1")]] ∧
        c.constraints = [{ poly := Polynomial.ofIndex "x1", range := (N : Int) }] := by
  obtain ⟨k, rfl⟩ := Nat.exists_eq_add_of_le hfuel
  rw [Nat.add_comm 5 k]
  apply Exists.intro
  apply Exists.intro
  apply Exists.intro
  apply And.intro
  · rfl
  apply And.intro
  · apply Evaluate_of_parts
    · rfl
    · rfl
    · apply Evaluator.VisitAll_cons_ok
      · exact Evaluator.Visit_param _ _ _ _ nameA _ rfl
      apply Evaluator.VisitAll_cons_ok
      · apply Evaluator.Visit_contraction _ _ _ _ nameO
        · rfl
        · rfl
        · rfl
        · rfl
        · rfl
      rfl
    · rfl
    · rfl
  apply Exists.intro
  apply Exists.intro
  apply And.intro
  · rfl
  apply And.intro
  · rfl
  apply And.intro
  · rfl
  refine ⟨?_, ?_⟩ <;> rfl

theorem Evaluate_constraint_forwarding_witness :
    5 ≤ 5 ∧
    ∃ O st ri,
      forwardingExample refEnv 5 5 8 .FLOAT32 ⟨1, 12⟩ "A" "O" = some (.ok (O, st)) ∧
      Store.Evaluate refEnv 5 "p" [O] st = some (.ok ri) ∧
      ∃ op c, ri.program.ops = [op] ∧ op.tag = OpTag.CONTRACTION ∧ op.c = some c ∧
        c.specs.map (fun s => s.spec) =
          [[Polynomial.ofIndex "x0"],
           [(Polynomial.ofIndex "x0").add (Polynomial.ofIndex "x1")]] ∧
        c.constraints = [{ poly := Polynomial.ofIndex "x1", range := ((5 : Nat) : Int) }] :=
  ⟨by decide, Evaluate_constraint_forwarding refEnv 5 (by decide) 5 8 .FLOAT32 ⟨1, 12⟩
    "A" "O" "p"⟩

/-- Claim C16 (MatMul lowering): for all sizes `M`, `K`, `N`, with `A` a `FLOAT32`
parameter of shape `[M, K]` and `B` a parameter of shape `[K, N]` (any strides, any
names, any dtype of `B`), lowering `MatMul(A, B)`, that is
`C({m, n}, {M, N}) += A({m, k}) * B({k, n})`, with enough fuel for the traversals,
emits exactly two inputs and exactly one op.  The op is a CONTRACTION whose inputs
are the names of the two inputs, with `agg_op` `SUM`, `comb_op` `MULTIPLY`,
`output_size` `[str(M), str(N)]`, no constraints, and specs that are the output
spec `[m, n]` followed by exactly the two input specs `[m, k]` and `[k, n]`; the
index variables that occur across the spec polynomials are exactly the three
distinct variables `m`, `n` and `k`. -/
theorem MatMul_lowering (env : Extern) (fuel : Nat) (hfuel : 7 ≤ fuel) (M K N : Nat)
    (sa0 sa1 sb0 sb1 : Int) (typeB : DataType) (nameA nameB name : String) :
    ∃ C st ri,
      matmulExample env fuel ⟨.FLOAT32, [⟨sa0, M⟩, ⟨sa1, K⟩]⟩ ⟨typeB, [⟨sb0, K⟩, ⟨sb1, N⟩]⟩
        nameA nameB = some (.ok (C, st)) ∧
      Store.Evaluate env fuel name [C] st = some (.ok ri) ∧
      ri.program.inputs.length = 2 ∧
      ∃ op c, ri.program.ops = [op] ∧ op.tag = OpTag.CONTRACTION ∧ op.c = some c ∧
        op.inputs = ri.program.inputs.map (fun input => input.name) ∧
        c.agg_op = AggregationOp.SUM ∧ c.comb_op = CombinationOp.MULTIPLY ∧
        c.output_size = [toString M, toString N] ∧
        c.specs.map (fun s => s.id) = op.output :: op.inputs ∧
        c.specs.map (fun s => s.spec) =
          [[Polynomial.ofIndex "m", Polynomial.ofIndex "n"],
           [Polynomial.ofIndex "m", Polynomial.ofIndex "k"],
           [Polynomial.ofIndex "k", Polynomial.ofIndex "n"]] ∧
        c.constraints = [] ∧
        c.variables = ["m", "n", "k"] ∧ c.variables.length = 3 := by
  obtain ⟨k, rfl⟩ := Nat.exists_eq_add_of_le hfuel
  rw [Nat.add_comm 7 k]
  apply Exists.intro
  apply Exists.intro
  apply Exists.intro
  apply And.intro
  · rfl
  apply And.intro
  · apply Evaluate_of_parts
    · rfl
    · rfl
    · apply Evaluator.VisitAll_cons_ok
      · exact Evaluator.Visit_param _ _ _ _ nameA _ rfl
      apply Evaluator.VisitAll_cons_ok
      · exact Evaluator.Visit_param _ _ _ _ nameB _ rfl
      apply Evaluator.VisitAll_cons_ok
      · apply Evaluator.Visit_contraction _ _ _ _ "C"
        · rfl
        · rfl
        · rfl
        · rfl
        · rfl
      rfl
    · rfl
    · rfl
  apply And.intro
  · rfl
  apply Exists.intro
  apply Exists.intro
  apply And.intro
  · rfl
  apply And.intro
  · rfl
  apply And.intro
  · rfl
  refine ⟨?_, ?_, ?_, ?_, ?_, ?_, ?_, ?_, ?_⟩ <;> rfl

theorem MatMul_lowering_witness :
    7 ≤ 7 ∧
    ∃ C st ri,
      matmulExample refEnv 7 ⟨.FLOAT32, [⟨3, 2⟩, ⟨1, 3⟩]⟩ ⟨.FLOAT32, [⟨4, 3⟩, ⟨1, 4⟩]⟩
        "A" "B" = some (.ok (C, st)) ∧
      Store.Evaluate refEnv 7 "p" [C] st = some (.ok ri) ∧
      ri.program.inputs.length = 2 ∧
      ∃ op c, ri.program.ops = [op] ∧ op.tag = OpTag.CONTRACTION ∧ op.c = some c ∧
        op.inputs = ri.program.inputs.map (fun input => input.name) ∧
        c.agg_op = AggregationOp.SUM ∧ c.comb_op = CombinationOp.MULTIPLY ∧
        c.output_size = [toString 2, toString 4] ∧
        c.specs.map (fun s => s.id) = op.output :: op.inputs ∧
        c.specs.map (fun s => s.spec) =
          [[Polynomial.ofIndex "m", Polynomial.ofIndex "n"],
           [Polynomial.ofIndex "m", Polynomial.ofIndex "k"],
           [Polynomial.ofIndex "k", Polynomial.ofIndex "n"]] ∧
        c.constraints = [] ∧
        c.variables = ["m", "n", "k"] ∧ c.variables.length = 3 :=
  ⟨by decide, MatMul_lowering refEnv 7 (by decide) 2 3 4 3 1 4 1 .FLOAT32 "A" "B" "p"⟩

/-! ## The unique-name rule -/

/-- The suffix search of `MakeUniqueName` always finds a new name among the first
`names_.size() + 1` candidates, so the cut of the search is never reached. -/
theorem Evaluator.MakeUniqueName_found (pfx : String) (names : List String) :
    ∃ i, (List.range (names.length + 1)).find?
      (fun i => decide (pfx ++ toString i ∉ names)) = some i := by
  cases hf : (List.range (names.length + 1)).find?
      (fun i => decide (pfx ++ toString i ∉ names)) with
  | some i => exact ⟨i, rfl⟩
  | none =>
    exfalso
    rw [List.find?_eq_none] at hf
    have hsub : (List.range (names.length + 1)).map (fun i => pfx ++ toString i) ⊆ names := by
      intro x hx
      simp only [List.mem_map] at hx
      obtain ⟨i, hi, rfl⟩ := hx
      have := hf i hi
      simpa using this
    have hnd : ((List.range (names.length + 1)).map (fun i => pfx ++ toString i)).Nodup := by
      apply List.Nodup.map _ (List.nodup_range _)
      intro a b hab
      exact toString_nat_inj a b (string_append_cancel pfx _ _ hab)
    have := (List.subperm_of_subset hnd hsub).length_le
    simp at this

/-- The first element of `List.range n` that satisfies `p` is the least number that
does. -/
theorem find?_range_least (p : Nat → Bool) (n i : Nat)
    (h : (List.range n).find? p = some i) : p i = true ∧ ∀ j < i, p j = false := by
  obtain ⟨hp, pre, post, hl, hpre⟩ := List.find?_eq_some.1 h
  refine ⟨hp, ?_⟩
  intro j hj
  have hsorted : (pre ++ i :: post).Pairwise (· < ·) := by
    rw [← hl]
    exact List.pairwise_lt_range n
  have hin : i ∈ List.range n := by
    rw [hl]
    simp
  have hjn : j ∈ pre ++ i :: post := by
    rw [← hl]
    exact List.mem_range.2 (lt_trans hj (List.mem_range.1 hin))
  rw [List.pairwise_append] at hsorted
  obtain ⟨-, hip, -⟩ := hsorted
  rw [List.pairwise_cons] at hip
  rcases List.mem_append.1 hjn with h1 | h1
  · have := hpre j h1
    simpa using this
  · rcases List.mem_cons.1 h1 with h2 | h2
    · omega
    · have := hip.1 j h2
      omega

/-- Claim C29 (unique-name rule): for every list of already used names and every
`pfx`, `MakeUniqueName` returns `pfx` verbatim when it is not yet used, and
otherwise `pfx` followed by the decimal numeral of the least `i >= 0` for which
that string is not yet used (every smaller suffix gives a used name); in both
cases the names used afterwards are the old ones plus exactly the returned name. -/
theorem MakeUniqueName_rule (pfx : String) (names : List String) :
    (pfx ∉ names → Evaluator.MakeUniqueName pfx names = (pfx, pfx :: names)) ∧
    (pfx ∈ names → ∃ i : Nat,
      pfx ++ toString i ∉ names ∧ (∀ j < i, pfx ++ toString j ∈ names) ∧
      Evaluator.MakeUniqueName pfx names = (pfx ++ toString i, (pfx ++ toString i) :: names)) ∧
    (∀ x, x ∈ (Evaluator.MakeUniqueName pfx names).2 ↔
      x = (Evaluator.MakeUniqueName pfx names).1 ∨ x ∈ names) := by
  have hfound := Evaluator.MakeUniqueName_found pfx names
  obtain ⟨i, hi⟩ := hfound
  have hleast := find?_range_least _ _ _ hi
  simp only [decide_eq_true_eq, decide_eq_false_iff_not, not_not] at hleast
  refine ⟨?_, ?_, ?_⟩
  · intro h
    unfold Evaluator.MakeUniqueName
    rw [if_pos h]
  · intro h
    refine ⟨i, hleast.1, hleast.2, ?_⟩
    unfold Evaluator.MakeUniqueName
    rw [if_neg (not_not.2 h)]
    simp only [hi]
  · intro x
    unfold Evaluator.MakeUniqueName
    by_cases h : pfx ∈ names
    · rw [if_neg (not_not.2 h)]
      simp only [hi, List.mem_cons]
    · rw [if_pos h]
      simp only [List.mem_cons]

/-! ## Malformed `PolyOp`s in `PolyEvaluator` -/

/-- The six comparison names resolve to `BooleanOp`. -/
theorem SpecialOpRegistry.Resolve_cmp (env : Extern) (fn : String)
    (hfn : fn ∈ ["cmp_eq", "cmp_ne", "cmp_lt", "cmp_le", "cmp_gt", "cmp_ge"]) :
    SpecialOpRegistry.Resolve env fn = some (BooleanOp.ComputeShape env) := by
  simp only [List.mem_cons, List.mem_singleton, List.not_mem_nil, or_false] at hfn
  rcases hfn with h | h | h | h | h | h <;> subst h <;> rfl

/-- Claim C24 (comparisons always produce BOOLEAN): for each of cmp_eq, cmp_ne,
cmp_lt, cmp_le, cmp_gt, cmp_ge and every list of argument bindings, shape inference
of the `CallExpr` fails with the error of `ComputeOutputShape` when default
broadcasting fails on the arguments, and otherwise succeeds and binds the node to a
TENSOR with the dims of `ComputeOutputShape` and the dtype `BOOLEAN`, whatever the
dtypes of the arguments are. -/
theorem BooleanOp_always_boolean (env : Extern) (fn : String)
    (hfn : fn ∈ ["cmp_eq", "cmp_ne", "cmp_lt", "cmp_le", "cmp_gt", "cmp_ge"])
    (heap : Heap) (bindings : List (ExprPtr × Binding)) (expr : ExprPtr)
    (args : List ExprPtr) (bs : List Binding)
    (hnode : (heap expr).node = .CallExpr fn args)
    (hargs : safe_at_all bindings args = .ok bs) :
    (∀ e, ComputeOutputShape env bs = .error e →
      BooleanOp.ComputeShape env bs = .error e ∧
      ShapeEvaluator.Visit env heap bindings expr = .error e) ∧
    (∀ ret, ComputeOutputShape env bs = .ok ret →
      BooleanOp.ComputeShape env bs = .ok { type := DataType.BOOLEAN, dims := ret.dims } ∧
      ShapeEvaluator.Visit env heap bindings expr =
        .ok (emplace bindings expr
          (Binding.TENSOR { type := DataType.BOOLEAN, dims := ret.dims }))) := by
  have hres := SpecialOpRegistry.Resolve_cmp env fn hfn
  constructor
  · intro e he
    have hb : BooleanOp.ComputeShape env bs = .error e := by
      simp only [BooleanOp.ComputeShape, he]
    refine ⟨hb, ?_⟩
    simp only [ShapeEvaluator.Visit, hnode, hargs, hres, hb]
  · intro ret he
    have hb : BooleanOp.ComputeShape env bs =
        .ok { type := DataType.BOOLEAN, dims := ret.dims } := by
      simp only [BooleanOp.ComputeShape, he]
    refine ⟨hb, ?_⟩
    simp only [ShapeEvaluator.Visit, hnode, hargs, hres, hb]

theorem BooleanOp_always_boolean_witness :
    "cmp_lt" ∈ ["cmp_eq", "cmp_ne", "cmp_lt", "cmp_le", "cmp_gt", "cmp_ge"] ∧
    (cmpHeap 2).node = .CallExpr "cmp_lt" [0, 1] ∧
    safe_at_all [(0, Binding.TENSOR ⟨.INT32, [⟨1, 3⟩]⟩),
        (1, Binding.TENSOR ⟨.FLOAT32, [⟨1, 2⟩, ⟨1, 1⟩]⟩)] [0, 1] =
      .ok [Binding.TENSOR ⟨.INT32, [⟨1, 3⟩]⟩, Binding.TENSOR ⟨.FLOAT32, [⟨1, 2⟩, ⟨1, 1⟩]⟩] ∧
    ComputeOutputShape refEnv
        [Binding.TENSOR ⟨.INT32, [⟨1, 3⟩]⟩, Binding.TENSOR ⟨.FLOAT32, [⟨1, 2⟩, ⟨1, 1⟩]⟩] =
      .ok ⟨.FLOAT32, [⟨3, 2⟩, ⟨1, 3⟩]⟩ ∧
    ShapeEvaluator.Visit refEnv cmpHeap
        [(0, Binding.TENSOR ⟨.INT32, [⟨1, 3⟩]⟩),
          (1, Binding.TENSOR ⟨.FLOAT32, [⟨1, 2⟩, ⟨1, 1⟩]⟩)] 2 =
      .ok (emplace [(0, Binding.TENSOR ⟨.INT32, [⟨1, 3⟩]⟩),
          (1, Binding.TENSOR ⟨.FLOAT32, [⟨1, 2⟩, ⟨1, 1⟩]⟩)] 2
        (Binding.TENSOR ⟨.BOOLEAN, [⟨3, 2⟩, ⟨1, 3⟩]⟩)) :=
  ⟨by decide, rfl, rfl, rfl,
    ((BooleanOp_always_boolean refEnv "cmp_lt" (by decide) cmpHeap
      [(0, Binding.TENSOR ⟨.INT32, [⟨1, 3⟩]⟩),
        (1, Binding.TENSOR ⟨.FLOAT32, [⟨1, 2⟩, ⟨1, 1⟩]⟩)] 2 [0, 1]
      [Binding.TENSOR ⟨.INT32, [⟨1, 3⟩]⟩, Binding.TENSOR ⟨.FLOAT32, [⟨1, 2⟩, ⟨1, 1⟩]⟩]
      rfl rfl).2 ⟨.FLOAT32, [⟨3, 2⟩, ⟨1, 3⟩]⟩ rfl).2⟩

/-- The loop over the further arguments succeeds on `ICONST`s and converts each to
`size_t`. -/
theorem iconstSizes_ok (msg : String) (sizes : List Int) :
    iconstSizes msg (sizes.map Binding.ICONST) = .ok (sizes.map toSizeT) := by
  induction sizes with
  | nil => rfl
  | cons s rest ih => simp only [List.map_cons, iconstSizes, ih]

/-- The loop over the further arguments throws on the first argument that is not
an `ICONST`. -/
theorem iconstSizes_error (msg : String) (rest : List Binding)
    (h : ∃ b ∈ rest, ∀ v, b ≠ Binding.ICONST v) : iconstSizes msg rest = .error msg := by
  induction rest with
  | nil =>
    obtain ⟨b, hb, _⟩ := h
    simp at hb
  | cons a rest ih =>
    cases a with
    | ICONST v =>
      have h2 : ∃ b ∈ rest, ∀ v, b ≠ Binding.ICONST v := by
        obtain ⟨b, hb, hne⟩ := h
        rcases List.mem_cons.1 hb with h1 | h1
        · exact absurd h1 (hne v)
        · exact ⟨b, h1, hne⟩
      simp only [iconstSizes, ih h2]
    | TENSOR s => rfl
    | FCONST f t => rfl
    | TUPLE t => rfl

/-- A value in the non-negative range of `int64_t` is converted to itself. -/
theorem toSizeT_of_nonneg (v : Int) (h0 : 0 ≤ v) (h1 : v < 2 ^ 64) :
    ((toSizeT v : Nat) : Int) = v := by
  unfold toSizeT
  rw [Int.emod_eq_of_lt h0 h1]
  exact Int.toNat_of_nonneg h0

/-- Claim C25 (reshape shape rule): for every argument list, reshape fails if the
list is empty, if the first argument is not a TENSOR, or if any later argument is
not an ICONST ("Additional parameters to 'reshape' must be integers."); otherwise,
for arguments (t, s1..sn), it returns `SimpleShape(t.dtype, [s1..sn])` with each
`s_i` converted to `size_t`, which is `s_i` itself whenever `0 <= s_i`: rank n,
sizes in argument order, row-major strides; reshape(t:[6,4], 24) has shape [24]. -/
theorem ReshapeOp_shape (env : Extern) :
    SpecialOpRegistry.Resolve env "reshape" = some ReshapeOp.ComputeShape ∧
    ReshapeOp.ComputeShape [] = .error "'reshape' requires at least one argument." ∧
    (∀ (a : Binding) (rest : List Binding), (∀ t, a ≠ Binding.TENSOR t) →
      ReshapeOp.ComputeShape (a :: rest) =
        .error "'reshape' requires the first argument to be a tensor.") ∧
    (∀ (t : TensorShape) (rest : List Binding), (∃ b ∈ rest, ∀ v, b ≠ Binding.ICONST v) →
      ReshapeOp.ComputeShape (Binding.TENSOR t :: rest) =
        .error "Additional parameters to 'reshape' must be integers.") ∧
    (∀ (t : TensorShape) (sizes : List Int),
      ReshapeOp.ComputeShape (Binding.TENSOR t :: sizes.map Binding.ICONST) =
        .ok (SimpleShape t.type (sizes.map toSizeT)) ∧
      (SimpleShape t.type (sizes.map toSizeT)).type = t.type ∧
      (SimpleShape t.type (sizes.map toSizeT)).dims.length = sizes.length ∧
      sizesOf (SimpleShape t.type (sizes.map toSizeT)).dims = sizes.map toSizeT ∧
      (∀ (i : Nat) (hi : i < (SimpleShape t.type (sizes.map toSizeT)).dims.length),
        (SimpleShape t.type (sizes.map toSizeT)).dims[i].stride =
          ((((sizes.map toSizeT).drop (i + 1)).prod : Nat) : Int)) ∧
      ((∀ s ∈ sizes, 0 ≤ s ∧ s < 2 ^ 63) →
        List.map Int.ofNat (sizesOf (SimpleShape t.type (sizes.map toSizeT)).dims) =
          sizes)) ∧
    ReshapeOp.ComputeShape
        [Binding.TENSOR (SimpleShape DataType.FLOAT32 [6, 4]), Binding.ICONST 24] =
      .ok { type := DataType.FLOAT32, dims := [⟨1, 24⟩] } := by
  refine ⟨rfl, rfl, ?_, ?_, ?_, rfl⟩
  · intro a rest ha
    cases a with
    | TENSOR t => exact absurd rfl (ha t)
    | ICONST v => rfl
    | FCONST f t => rfl
    | TUPLE t => rfl
  · intro t rest h
    simp only [ReshapeOp.ComputeShape, iconstSizes_error _ rest h]
  · intro t sizes
    have hsz : sizesOf (SimpleShape t.type (sizes.map toSizeT)).dims = sizes.map toSizeT :=
      rowMajorDims_sizes _
    refine ⟨?_, rfl, ?_, hsz, ?_, ?_⟩
    · simp only [ReshapeOp.ComputeShape, iconstSizes_ok]
    · have := congrArg List.length hsz
      simpa [sizesOf] using this
    · intro i hi
      exact rowMajorDims_stride _ i hi
    · intro hall
      rw [hsz, List.map_map]
      conv_rhs => rw [← List.map_id sizes]
      apply List.map_congr_left
      intro s hs
      have := hall s hs
      exact toSizeT_of_nonneg s this.1 (lt_trans this.2 (by norm_num))

/-- The shape rule of scatter on arguments that pass its checks, when `upd` has at
least one dimension. -/
theorem ScatterOp.ComputeShape_ok (data idx upd : TensorShape) (d0 : TensorDimension)
    (rest : List TensorDimension) (hdata : data.dims ≠ []) (hidx : idx.type = DataType.INT32)
    (hupd : upd.dims = d0 :: rest) :
    ScatterOp.ComputeShape [Binding.TENSOR data, Binding.TENSOR idx, Binding.TENSOR upd] =
      .ok (SimpleShape data.type (d0.size :: sizesOf (data.dims.drop idx.dims.length))) := by
  have h1 : data.dims.isEmpty = false := by
    cases hd : data.dims with
    | nil => exact absurd hd hdata
    | cons a l => rfl
  simp only [ScatterOp.ComputeShape, h1, hidx, hupd]
  simp

/-- Claim C26 (scatter shape rule is well defined), the case the code misses:
`data : FLOAT32[4]`, `idx : INT32[2]` and an `upd` without dims pass all four
argument checks of scatter, and the rule then reads `upd.dims[0]` of an empty
vector, which no check guards (the model reports it as an error of its own); the
same happens when the call is built with `Call("scatter", {D, I, U})` and its shape
is asked for. -/
theorem ScatterOp_upd_unchecked :
    ScatterOp.ComputeShape
        [Binding.TENSOR ⟨.FLOAT32, [⟨1, 4⟩]⟩, Binding.TENSOR ⟨.INT32, [⟨1, 2⟩]⟩,
          Binding.TENSOR ⟨.FLOAT32, []⟩] =
      .error "undefined behaviour: args[2].shape.dims[0] out of range" ∧
    (∀ (data idx upd : TensorShape), data.dims ≠ [] → idx.type = DataType.INT32 →
      upd.dims = [] →
      ScatterOp.ComputeShape [Binding.TENSOR data, Binding.TENSOR idx, Binding.TENSOR upd] =
        .error "undefined behaviour: args[2].shape.dims[0] out of range") ∧
    Tensor.shape refEnv 10 3 scatterExample =
      some (.error "undefined behaviour: args[2].shape.dims[0] out of range") := by
  refine ⟨rfl, ?_, rfl⟩
  intro data idx upd hdata hidx hupd
  have h1 : data.dims.isEmpty = false := by
    cases hd : data.dims with
    | nil => exact absurd hd hdata
    | cons a l => rfl
  simp only [ScatterOp.ComputeShape, h1, hidx, hupd]
  simp

/-- Claim C27 (index shape rule) fails as stated: for a parameter `t` with the sizes
[3, 4] and column-major strides [1, 3], `index(t, 0)` keeps the strides of `t`, so
the result is not `SimpleShape(INT32, [3, 4])`, whose row-major strides are [4, 1]. -/
theorem IndexOp_keeps_strides :
    IndexOp.ComputeShape [Binding.TENSOR ⟨.FLOAT32, [⟨1, 3⟩, ⟨3, 4⟩]⟩, Binding.ICONST 0] =
      .ok ⟨.INT32, [⟨1, 3⟩, ⟨3, 4⟩]⟩ ∧
    SimpleShape DataType.INT32 (sizesOf [⟨1, 3⟩, ⟨3, 4⟩]) = ⟨.INT32, [⟨4, 3⟩, ⟨1, 4⟩]⟩ ∧
    IndexOp.ComputeShape [Binding.TENSOR ⟨.FLOAT32, [⟨1, 3⟩, ⟨3, 4⟩]⟩, Binding.ICONST 0] ≠
      .ok (SimpleShape DataType.INT32 (sizesOf [⟨1, 3⟩, ⟨3, 4⟩])) := by
  refine ⟨rfl, rfl, ?_⟩
  decide

/-- Claim C27 (index shape rule), amended: for every TENSOR binding `t` and ICONST
axis, `index(t, axis)` returns the shape of `t` with the dtype replaced by `INT32`,
that is the dims of `t` with their sizes and their strides (which is
`SimpleShape(INT32, sizes of t)` exactly when the strides of `t` are row-major); it
fails when the argument count is not 2, when the first argument is not a TENSOR and
when the second is not an ICONST. -/
theorem IndexOp_shape (env : Extern) :
    SpecialOpRegistry.Resolve env "index" = some IndexOp.ComputeShape ∧
    (∀ (t : TensorShape) (axis : Int),
      IndexOp.ComputeShape [Binding.TENSOR t, Binding.ICONST axis] =
        .ok { type := DataType.INT32, dims := t.dims } ∧
      (IndexOp.ComputeShape [Binding.TENSOR t, Binding.ICONST axis] =
          .ok (SimpleShape DataType.INT32 (sizesOf t.dims)) ↔
        t.dims = rowMajorDims (sizesOf t.dims))) ∧
    (∀ args : List Binding, args.length ≠ 2 →
      IndexOp.ComputeShape args = .error "'index' requires 2 arguments.") ∧
    (∀ a b : Binding, (∀ t, a ≠ Binding.TENSOR t) →
      IndexOp.ComputeShape [a, b] =
        .error "'index' requires the first argument to be a tensor.") ∧
    (∀ (t : TensorShape) (b : Binding), (∀ v, b ≠ Binding.ICONST v) →
      IndexOp.ComputeShape [Binding.TENSOR t, b] =
        .error "'index' requires the second argument to be an integer.") := by
  refine ⟨rfl, ?_, ?_, ?_, ?_⟩
  · intro t axis
    refine ⟨rfl, ?_⟩
    simp only [IndexOp.ComputeShape, SimpleShape, Except.ok.injEq, TensorShape.mk.injEq,
      true_and]
  · intro args h
    match args, h with
    | [], _ => rfl
    | [_], _ => rfl
    | [_, _], h => exact absurd rfl h
    | _ :: _ :: _ :: _, _ => rfl
  · intro a b ha
    cases a with
    | TENSOR t => exact absurd rfl (ha t)
    | ICONST v => rfl
    | FCONST f t => rfl
    | TUPLE t => rfl
  · intro t b hb
    cases b with
    | ICONST v => exact absurd rfl (hb v)
    | TENSOR t => rfl
    | FCONST f t => rfl
    | TUPLE t => rfl

/-- Claim C28 (PRNG ops compose): for every TENSOR `t` of dtype PRNG,
`prng_state(t)` returns `SimpleShape(UINT32, [3, k_rng_size])`, and that result is
accepted as the state argument of `prng_step`: for every list of ICONST sizes
d1..dn, `prng_step(prng_state(t), d1..dn)` returns `SimpleShape(PRNG, [d1..dn])`
(each `d_i` converted to `size_t`, which is `d_i` itself whenever `0 <= d_i`), which
in turn is accepted by `prng_state` and by `prng_value`, the latter returning dtype
FLOAT32 with the dims [d1..dn]; `prng_state` and `prng_value` fail on every tensor
whose dtype is not PRNG. -/
theorem Prng_ops_compose (env : Extern) :
    (SpecialOpRegistry.Resolve env "prng_state" = some (PrngStateOp.ComputeShape env) ∧
      SpecialOpRegistry.Resolve env "prng_step" = some (PrngStepOp.ComputeShape env) ∧
      SpecialOpRegistry.Resolve env "prng_value" = some PrngValueOp.ComputeShape) ∧
    (∀ t : TensorShape, t.type = DataType.PRNG →
      PrngStateOp.ComputeShape env [Binding.TENSOR t] =
        .ok (SimpleShape DataType.UINT32 [3, env.k_rng_size])) ∧
    (∀ (t : TensorShape) (sizes : List Int), t.type = DataType.PRNG →
      ∃ state step,
        PrngStateOp.ComputeShape env [Binding.TENSOR t] = .ok state ∧
        PrngStepOp.ComputeShape env (Binding.TENSOR state :: sizes.map Binding.ICONST) =
          .ok step ∧
        step = SimpleShape DataType.PRNG (sizes.map toSizeT) ∧
        sizesOf step.dims = sizes.map toSizeT ∧
        ((∀ d ∈ sizes, 0 ≤ d ∧ d < 2 ^ 63) → List.map Int.ofNat (sizesOf step.dims) = sizes) ∧
        PrngStateOp.ComputeShape env [Binding.TENSOR step] =
          .ok (SimpleShape DataType.UINT32 [3, env.k_rng_size]) ∧
        PrngValueOp.ComputeShape [Binding.TENSOR step] =
          .ok { type := DataType.FLOAT32, dims := step.dims }) ∧
    (∀ t : TensorShape, t.type ≠ DataType.PRNG →
      PrngStateOp.ComputeShape env [Binding.TENSOR t] =
        .error "'prng_state' requires one argument that is the result of 'prng_step'" ∧
      PrngValueOp.ComputeShape [Binding.TENSOR t] =
        .error "'prng_value' requires one argument that is the result of 'prng_step'") := by
  have hstate : ∀ t : TensorShape, t.type = DataType.PRNG →
      PrngStateOp.ComputeShape env [Binding.TENSOR t] =
        .ok (SimpleShape DataType.UINT32 [3, env.k_rng_size]) := by
    intro t ht
    simp only [PrngStateOp.ComputeShape, ht, ne_eq, not_true_eq_false, if_false]
  refine ⟨⟨rfl, rfl, rfl⟩, hstate, ?_, ?_⟩
  · intro t sizes ht
    have hsz : sizesOf (SimpleShape DataType.PRNG (sizes.map toSizeT)).dims =
        sizes.map toSizeT := rowMajorDims_sizes _
    refine ⟨_, _, hstate t ht, ?_, rfl, hsz, ?_, hstate _ rfl, ?_⟩
    · simp only [PrngStepOp.ComputeShape, not_true_eq_false, if_false, iconstSizes_ok]
    · intro hall
      rw [hsz, List.map_map]
      conv_rhs => rw [← List.map_id sizes]
      apply List.map_congr_left
      intro s hs
      have := hall s hs
      exact toSizeT_of_nonneg s this.1 (lt_trans this.2 (by norm_num))
    · simp only [PrngValueOp.ComputeShape, SimpleShape, ne_eq, not_true_eq_false, if_false]
  · intro t ht
    constructor
    · simp only [PrngStateOp.ComputeShape, ne_eq, ht, not_false_eq_true, if_true]
    · simp only [PrngValueOp.ComputeShape, ne_eq, ht, not_false_eq_true, if_true]

/-! ## no_defract and use_default -/

/-- Claim C23 (no_defract and use_default): each of the two fails if and only if the
tensor's current expression is not a `ContractionExpr` (with the message that it
"can only be specified on a contraction"); on success `no_defract` sets only the
`no_defract` flag of that contraction to true and `use_default(rhs)` sets only its
`use_default` to the expression of `rhs`: `agg_op`, `combo_op`, `output`, `inputs`,
`constraints` and the name of the node are unchanged, and so are every other node,
every tensor and every index. -/
theorem no_defract_use_default (self rhs : Tensor) (st : Store) :
    ((∃ e, Tensor.no_defract self st = .error e) ↔ st.contractionOf self = none) ∧
    ((∃ e, Tensor.use_default self rhs st = .error e) ↔ st.contractionOf self = none) ∧
    (st.contractionOf self = none →
      Tensor.no_defract self st = .error "no_defract can only be specified on a contraction" ∧
      Tensor.use_default self rhs st =
        .error "use_default can only be specified on a contraction") ∧
    (∀ cion, st.contractionOf self = some cion →
      (∃ st1, Tensor.no_defract self st = .ok st1 ∧
        st1.contractionOf self = some
          { agg_op := cion.agg_op, combo_op := cion.combo_op, output := cion.output,
            inputs := cion.inputs, constraints := cion.constraints,
            use_default := cion.use_default, no_defract := true } ∧
        (st1.exprs (st.tensors self).expr).name = (st.exprs (st.tensors self).expr).name ∧
        (∀ p, p ≠ (st.tensors self).expr → st1.exprs p = st.exprs p) ∧
        st1.tensors = st.tensors ∧ st1.indexes = st.indexes ∧
        st1.next_expr = st.next_expr ∧ st1.next_index = st.next_index ∧
        st1.next_tensor = st.next_tensor) ∧
      (∃ st1, Tensor.use_default self rhs st = .ok st1 ∧
        st1.contractionOf self = some
          { agg_op := cion.agg_op, combo_op := cion.combo_op, output := cion.output,
            inputs := cion.inputs, constraints := cion.constraints,
            use_default := some (st.tensors rhs).expr, no_defract := cion.no_defract } ∧
        (st1.exprs (st.tensors self).expr).name = (st.exprs (st.tensors self).expr).name ∧
        (∀ p, p ≠ (st.tensors self).expr → st1.exprs p = st.exprs p) ∧
        st1.tensors = st.tensors ∧ st1.indexes = st.indexes ∧
        st1.next_expr = st.next_expr ∧ st1.next_index = st.next_index ∧
        st1.next_tensor = st.next_tensor)) := by
  have hnone : st.contractionOf self = none →
      Tensor.no_defract self st = .error "no_defract can only be specified on a contraction" ∧
      Tensor.use_default self rhs st =
        .error "use_default can only be specified on a contraction" := by
    intro h
    unfold Store.contractionOf at h
    unfold Tensor.no_defract Tensor.use_default
    cases hn : (st.exprs (st.tensors self).expr).node with
    | ContractionExpr c => rw [hn] at h; exact absurd h (by simp)
    | ParamExpr s => exact ⟨rfl, rfl⟩
    | IntConst v => exact ⟨rfl, rfl⟩
    | FloatConst v => exact ⟨rfl, rfl⟩
    | CallExpr f a => exact ⟨rfl, rfl⟩
    | TensorSpecExpr s => exact ⟨rfl, rfl⟩
    | ConstraintExpr c => exact ⟨rfl, rfl⟩
  have hsome : ∀ cion, st.contractionOf self = some cion →
      (st.exprs (st.tensors self).expr).node = .ContractionExpr cion := by
    intro cion h
    unfold Store.contractionOf at h
    cases hn : (st.exprs (st.tensors self).expr).node with
    | ContractionExpr c =>
      rw [hn] at h
      simp only [Option.some.injEq] at h
      rw [h]
    | ParamExpr s => rw [hn] at h; exact absurd h (by simp)
    | IntConst v => rw [hn] at h; exact absurd h (by simp)
    | FloatConst v => rw [hn] at h; exact absurd h (by simp)
    | CallExpr f a => rw [hn] at h; exact absurd h (by simp)
    | TensorSpecExpr s => rw [hn] at h; exact absurd h (by simp)
    | ConstraintExpr c => rw [hn] at h; exact absurd h (by simp)
  have hok : ∀ cion, st.contractionOf self = some cion →
      (∃ st1, Tensor.no_defract self st = .ok st1 ∧
        st1.contractionOf self = some
          { agg_op := cion.agg_op, combo_op := cion.combo_op, output := cion.output,
            inputs := cion.inputs, constraints := cion.constraints,
            use_default := cion.use_default, no_defract := true } ∧
        (st1.exprs (st.tensors self).expr).name = (st.exprs (st.tensors self).expr).name ∧
        (∀ p, p ≠ (st.tensors self).expr → st1.exprs p = st.exprs p) ∧
        st1.tensors = st.tensors ∧ st1.indexes = st.indexes ∧
        st1.next_expr = st.next_expr ∧ st1.next_index = st.next_index ∧
        st1.next_tensor = st.next_tensor) ∧
      (∃ st1, Tensor.use_default self rhs st = .ok st1 ∧
        st1.contractionOf self = some
          { agg_op := cion.agg_op, combo_op := cion.combo_op, output := cion.output,
            inputs := cion.inputs, constraints := cion.constraints,
            use_default := some (st.tensors rhs).expr, no_defract := cion.no_defract } ∧
        (st1.exprs (st.tensors self).expr).name = (st.exprs (st.tensors self).expr).name ∧
        (∀ p, p ≠ (st.tensors self).expr → st1.exprs p = st.exprs p) ∧
        st1.tensors = st.tensors ∧ st1.indexes = st.indexes ∧
        st1.next_expr = st.next_expr ∧ st1.next_index = st.next_index ∧
        st1.next_tensor = st.next_tensor) := by
    intro cion h
    have hn := hsome cion h
    have h1 : Tensor.no_defract self st = .ok
        { st with
          exprs := fun p =>
            if p = (st.tensors self).expr then
              { name := (st.exprs p).name,
                node := .ContractionExpr { cion with no_defract := true } }
            else st.exprs p } := by
      simp only [Tensor.no_defract, hn]
    have h2 : Tensor.use_default self rhs st = .ok
        { st with
          exprs := fun p =>
            if p = (st.tensors self).expr then
              { name := (st.exprs p).name,
                node := .ContractionExpr
                  { cion with use_default := some (st.tensors rhs).expr } }
            else st.exprs p } := by
      simp only [Tensor.use_default, hn]
    constructor
    · refine ⟨_, h1, ?_, ?_, ?_, rfl, rfl, rfl, rfl, rfl⟩
      · simp only [Store.contractionOf, if_true]
      · simp only [if_true]
      · intro p hp
        simp only [if_neg hp]
    · refine ⟨_, h2, ?_, ?_, ?_, rfl, rfl, rfl, rfl, rfl⟩
      · simp only [Store.contractionOf, if_true]
      · simp only [if_true]
      · intro p hp
        simp only [if_neg hp]
  refine ⟨?_, ?_, hnone, hok⟩
  · constructor
    · rintro ⟨e, he⟩
      cases hc : st.contractionOf self with
      | none => rfl
      | some cion =>
        obtain ⟨⟨st1, h1, _⟩, _⟩ := hok cion hc
        rw [h1] at he
        exact absurd he (by simp)
    · intro h
      exact ⟨_, (hnone h).1⟩
  · constructor
    · rintro ⟨e, he⟩
      cases hc : st.contractionOf self with
      | none => rfl
      | some cion =>
        obtain ⟨_, ⟨st1, h1, _⟩⟩ := hok cion hc
        rw [h1] at he
        exact absurd he (by simp)
    · intro h
      exact ⟨_, (hnone h).2⟩

/-! ## The checks of the two access forms -/

/-- Claim C22 (access construction checks): for every tensor `T`, index list `idxs`
and size list `sizes`, the output access `T(idxs, sizes)` fails if and only if
`idxs.len != sizes.len`, and the read access `T(idxs)`, on a tensor whose shape is
currently inferred as `this_shape`, fails if and only if `idxs.len` differs from
the rank of `this_shape` (and it fails with the error of the shape inference when
that fails); on success the created `TensorSpecExpr` refers to the
current expression of `T` and carries the index polynomials of `idxs` in order,
with `sizes` for the output access and with no sizes for the read access, and the
access remembers `T` as its source. -/
theorem Tensor_access_checks (env : Extern) (fuel : Nat) (T : Tensor) (idxs : List Index)
    (sizes : List Nat) (st : Store) :
    ((∃ e, Tensor.operator_call_sizes T idxs sizes st = .error e) ↔
      idxs.length ≠ sizes.length) ∧
    (idxs.length = sizes.length →
      ∃ access st1, Tensor.operator_call_sizes T idxs sizes st = .ok (access, st1) ∧
        access.src = some T ∧
        (st1.exprs access.expr).node = .TensorSpecExpr
          { ref := (st.tensors T).expr,
            index_spec := idxs.map (fun idx => (st.indexes idx).expr),
            output_sizes := sizes }) ∧
    (∀ this_shape, Tensor.shape env fuel T st = some (.ok this_shape) →
      ((∃ e, Tensor.operator_call env fuel T idxs st = some (.error e)) ↔
        idxs.length ≠ this_shape.dims.length) ∧
      (idxs.length = this_shape.dims.length →
        ∃ access st1, Tensor.operator_call env fuel T idxs st = some (.ok (access, st1)) ∧
          access.src = some T ∧
          (st1.exprs access.expr).node = .TensorSpecExpr
            { ref := (st.tensors T).expr,
              index_spec := idxs.map (fun idx => (st.indexes idx).expr),
              output_sizes := [] })) ∧
    (∀ e, Tensor.shape env fuel T st = some (.error e) →
      Tensor.operator_call env fuel T idxs st = some (.error e)) := by
  have hout : idxs.length = sizes.length →
      ∃ access st1, Tensor.operator_call_sizes T idxs sizes st = .ok (access, st1) ∧
        access.src = some T ∧
        (st1.exprs access.expr).node = .TensorSpecExpr
          { ref := (st.tensors T).expr,
            index_spec := idxs.map (fun idx => (st.indexes idx).expr),
            output_sizes := sizes } := by
    intro hlen
    have h : ∃ r, Tensor.operator_call_sizes T idxs sizes st = .ok r := by
      unfold Tensor.operator_call_sizes
      rw [if_neg (not_not.2 hlen)]
      exact ⟨_, rfl⟩
    obtain ⟨⟨access, st1⟩, h⟩ := h
    have h2 := Tensor.operator_call_sizes_ok T idxs sizes st st1 access h
    exact ⟨access, st1, h, h2.2.1, h2.2.2⟩
  have hin : ∀ this_shape, Tensor.shape env fuel T st = some (.ok this_shape) →
      idxs.length = this_shape.dims.length →
      ∃ access st1, Tensor.operator_call env fuel T idxs st = some (.ok (access, st1)) ∧
        access.src = some T ∧
        (st1.exprs access.expr).node = .TensorSpecExpr
          { ref := (st.tensors T).expr,
            index_spec := idxs.map (fun idx => (st.indexes idx).expr),
            output_sizes := [] } := by
    intro this_shape hshape hlen
    have h : ∃ r, Tensor.operator_call env fuel T idxs st = some (.ok r) := by
      unfold Tensor.operator_call
      rw [hshape]
      simp only [if_neg (not_not.2 hlen)]
      exact ⟨_, rfl⟩
    obtain ⟨⟨access, st1⟩, h⟩ := h
    have h2 := Tensor.operator_call_ok env fuel T idxs st st1 access h
    exact ⟨access, st1, h, h2.2.1, h2.2.2⟩
  refine ⟨?_, hout, ?_, ?_⟩
  · constructor
    · rintro ⟨e, he⟩ hlen
      obtain ⟨access, st1, h, -⟩ := hout hlen
      rw [h] at he
      exact absurd he (by simp)
    · intro hlen
      unfold Tensor.operator_call_sizes
      rw [if_pos hlen]
      exact ⟨_, rfl⟩
  · intro this_shape hshape
    refine ⟨?_, hin this_shape hshape⟩
    constructor
    · rintro ⟨e, he⟩ hlen
      obtain ⟨access, st1, h, -⟩ := hin this_shape hshape hlen
      rw [h] at he
      exact absurd he (by simp)
    · intro hlen
      unfold Tensor.operator_call
      rw [hshape]
      simp only [if_pos hlen]
      exact ⟨_, rfl⟩
  · intro e h
    unfold Tensor.operator_call
    rw [h]

/-! ## The rank of the accesses inside a contraction -/

/-- The inputs `MakeContraction` reads from `rhs` are `TensorSpecExpr` nodes of the
store: `rhs` itself or arguments of the call `rhs`. -/
theorem Access.Impl.MakeContraction.inputs_mem (heap : Heap) (rhs : ExprPtr)
    (combo_op : CombinationOp) (inputs : List TensorSpecExpr)
    (h : Access.Impl.MakeContraction.inputs heap rhs = .ok (combo_op, inputs.map some)) :
    ∀ input ∈ inputs, ∃ p, (heap p).node = .TensorSpecExpr input ∧
      (p = rhs ∨ ∃ fn args, (heap rhs).node = .CallExpr fn args ∧ p ∈ args) := by
  intro input hmem
  unfold Access.Impl.MakeContraction.inputs at h
  cases hn : (heap rhs).node with
  | TensorSpecExpr spec =>
    rw [hn] at h
    simp only [Except.ok.injEq, Prod.mk.injEq] at h
    have h2 : some input ∈ [some spec] := by
      rw [h.2]
      exact List.mem_map_of_mem _ hmem
    simp only [List.mem_singleton, Option.some.injEq] at h2
    exact ⟨rhs, by rw [hn, h2], Or.inl rfl⟩
  | CallExpr fn args =>
    rw [hn] at h
    simp only [Except.ok.injEq, Prod.mk.injEq] at h
    have h2 := List.mem_map_of_mem some hmem
    rw [← h.2] at h2
    obtain ⟨arg, hargs, harg⟩ := List.mem_map.1 h2
    refine ⟨arg, ?_, Or.inr ⟨fn, args, rfl, hargs⟩⟩
    cases ha : (heap arg).node with
    | TensorSpecExpr spec =>
      rw [ha] at harg
      simp only [Option.some.injEq] at harg
      rw [harg]
    | ParamExpr s => rw [ha] at harg; simp at harg
    | IntConst v => rw [ha] at harg; simp at harg
    | FloatConst v => rw [ha] at harg; simp at harg
    | CallExpr f a => rw [ha] at harg; simp at harg
    | ContractionExpr c => rw [ha] at harg; simp at harg
    | ConstraintExpr c => rw [ha] at harg; simp at harg
  | ParamExpr s => rw [hn] at h; simp at h
  | IntConst v => rw [hn] at h; simp at h
  | FloatConst v => rw [hn] at h; simp at h
  | ContractionExpr c => rw [hn] at h; simp at h
  | ConstraintExpr c => rw [hn] at h; simp at h

/-- Claim C21 (builder invariant on access rank) fails for the output spec: after
`O({k}, {3}) += A({k})` with `Tensor O("O")`, the output spec of the contraction has
one index, while its ref is the parameter `O` was before, whose inferred shape has
rank 0. -/
theorem MakeContraction_output_rank :
    (exampleTwiceResult.contractionOf 2).map (fun cion =>
        (cion.output.index_spec.length,
          (EvaluateShape refEnv 4 exampleTwiceResult.exprs cion.output.ref).map
            (fun r => r.map (fun shape => shape.dims.length)))) =
      some (1, some (.ok 0)) :=
  rfl

/-- Claim C21, amended (builder invariant on access rank): in a `ContractionExpr`
formed by `MakeContraction`, the output spec is the `TensorSpecExpr` of the left
access and every input spec is the `TensorSpecExpr` of the right access or of an
argument of the call the right access holds.  Such a spec, when it is the node a
read access `T(idxs)` was made with, has `index_spec.len` equal to the rank of the
shape inferred for its ref when the access was made; when it is the node an output
access `T(idxs, sizes)` was made with, it has `index_spec.len` equal to `sizes.len`,
the length of its `output_sizes` (not to the rank of its ref, which is the
expression `T` held before). -/
theorem MakeContraction_access_rank (env : Extern) (fuel : Nat) (lhs rhs : Access)
    (agg_op : AggregationOp) (st2 st3 : Store)
    (hmk : Access.Impl.MakeContraction lhs agg_op rhs st2 = .ok st3) :
    ∃ src cion, lhs.src = some src ∧ st3.contractionOf src = some cion ∧
      (st2.exprs lhs.expr).node = .TensorSpecExpr cion.output ∧
      (∀ input ∈ cion.inputs, ∃ p, (st2.exprs p).node = .TensorSpecExpr input ∧
        (p = rhs.expr ∨ ∃ fn args, (st2.exprs rhs.expr).node = .CallExpr fn args ∧ p ∈ args)) ∧
      (∀ spec p, (spec = cion.output ∨ spec ∈ cion.inputs) →
        (st2.exprs p).node = .TensorSpecExpr spec →
        (∀ T idxs st st1 access,
          Tensor.operator_call env fuel T idxs st = some (.ok (access, st1)) →
          access.expr = p → st2.exprs p = st1.exprs p →
          ∃ shape, EvaluateShape env fuel st.exprs spec.ref = some (.ok shape) ∧
            spec.index_spec.length = shape.dims.length) ∧
        (∀ T idxs sizes st st1 access,
          Tensor.operator_call_sizes T idxs sizes st = .ok (access, st1) →
          access.expr = p → st2.exprs p = st1.exprs p →
          spec.output_sizes = sizes ∧ spec.index_spec.length = sizes.length)) := by
  obtain ⟨out, combo, inputs, src, hout, hin, hsrc, hc, -⟩ :=
    Access.Impl.MakeContraction_ok lhs agg_op rhs st2 st3 hmk
  refine ⟨src, _, hsrc, hc, hout,
    Access.Impl.MakeContraction.inputs_mem st2.exprs rhs.expr combo inputs hin, ?_⟩
  intro spec p _ hp
  constructor
  · intro T idxs st st1 access hacc hexpr hkeep
    obtain ⟨⟨shape, hshape, hlen⟩, -, hn⟩ :=
      Tensor.operator_call_ok env fuel T idxs st st1 access hacc
    rw [hexpr, ← hkeep, hp] at hn
    simp only [ExprNode.TensorSpecExpr.injEq] at hn
    subst hn
    exact ⟨shape, hshape, by simp [hlen]⟩
  · intro T idxs sizes st st1 access hacc hexpr hkeep
    obtain ⟨hlen, -, hn⟩ := Tensor.operator_call_sizes_ok T idxs sizes st st1 access hacc
    rw [hexpr, ← hkeep, hp] at hn
    simp only [ExprNode.TensorSpecExpr.injEq] at hn
    subst hn
    exact ⟨rfl, by simp [hlen]⟩

theorem MakeContraction_access_rank_witness :
    Access.Impl.MakeContraction ⟨4, some 2⟩ AggregationOp.SUM ⟨3, some 0⟩ exampleTwiceStore =
      .ok exampleTwiceResult ∧
    ∃ src cion, (⟨4, some 2⟩ : Access).src = some src ∧
      exampleTwiceResult.contractionOf src = some cion ∧
      (exampleTwiceStore.exprs (⟨4, some 2⟩ : Access).expr).node =
        .TensorSpecExpr cion.output ∧
      (∀ input ∈ cion.inputs, ∃ p, (exampleTwiceStore.exprs p).node = .TensorSpecExpr input ∧
        (p = (⟨3, some 0⟩ : Access).expr ∨
          ∃ fn args, (exampleTwiceStore.exprs (⟨3, some 0⟩ : Access).expr).node =
            .CallExpr fn args ∧ p ∈ args)) ∧
      (∀ spec p, (spec = cion.output ∨ spec ∈ cion.inputs) →
        (exampleTwiceStore.exprs p).node = .TensorSpecExpr spec →
        (∀ T idxs st st1 access,
          Tensor.operator_call refEnv 4 T idxs st = some (.ok (access, st1)) →
          access.expr = p → exampleTwiceStore.exprs p = st1.exprs p →
          ∃ shape, EvaluateShape refEnv 4 st.exprs spec.ref = some (.ok shape) ∧
            spec.index_spec.length = shape.dims.length) ∧
        (∀ T idxs sizes st st1 access,
          Tensor.operator_call_sizes T idxs sizes st = .ok (access, st1) →
          access.expr = p → exampleTwiceStore.exprs p = st1.exprs p →
          spec.output_sizes = sizes ∧ spec.index_spec.length = sizes.length)) :=
  ⟨rfl, MakeContraction_access_rank refEnv 4 ⟨4, some 2⟩ ⟨3, some 0⟩ AggregationOp.SUM
    exampleTwiceStore exampleTwiceResult rfl⟩

/-- The two accesses of `O({k}, {3}) += A({k})`: the read access `A({k})` is the
node 3 and has one index for the one dim of `A`, the output access `O({k}, {3})` is
the node 4 and has one index for its one size. -/
theorem exampleTwice_accesses :
    (Tensor.operator_call refEnv 4 0 [0] (Index.lt 0 5 exampleStore)).map
        (fun r => r.map (fun a => a.1)) = some (.ok ⟨3, some 0⟩) ∧
    (exampleTwiceStore.exprs 3).node =
      .TensorSpecExpr ⟨0, [.PolyIndex 0 ""], []⟩ ∧
    EvaluateShape refEnv 4 (Index.lt 0 5 exampleStore).exprs 0 =
      some (.ok ⟨.FLOAT32, [⟨1, 3⟩]⟩) ∧
    (exampleTwiceStore.exprs 4).node =
      .TensorSpecExpr ⟨2, [.PolyIndex 0 ""], [3]⟩ :=
  ⟨rfl, rfl, rfl, rfl⟩

/-! ## The first input and the order of the inputs of ComputeOutputType -/

/-- The result of one loop iteration is the old `ret` or the dtype of the input,
and the latter only for a float dtype or one of positive bit width. -/
theorem ComputeOutputType.step_cases (env : Extern) (ret : DataType) (s : TensorShape) :
    ComputeOutputType.step env ret s = ret ∨
      (ComputeOutputType.step env ret s = s.type ∧
        (is_float s.type = true ∨ 0 < bit_width env s.type)) := by
  unfold ComputeOutputType.step
  dsimp only
  split_ifs with h1 h2 h3
  · exact Or.inr ⟨rfl, Or.inl h2⟩
  · exact Or.inl rfl
  · exact Or.inr ⟨rfl, Or.inr (by omega)⟩
  · exact Or.inl rfl

/-- The loop of `ComputeOutputType` keeps `ret` among `INVALID`, the float dtypes
and the dtypes of positive bit width. -/
theorem ComputeOutputType.fold_cases (env : Extern) (l : List TensorShape) :
    ∀ ret : DataType,
      (ret = DataType.INVALID ∨ is_float ret = true ∨ 0 < bit_width env ret) →
      (l.foldl (ComputeOutputType.step env) ret = DataType.INVALID ∨
        is_float (l.foldl (ComputeOutputType.step env) ret) = true ∨
        0 < bit_width env (l.foldl (ComputeOutputType.step env) ret)) := by
  induction l with
  | nil => intro ret h; exact h
  | cons x l ih =>
    intro ret h
    simp only [List.foldl_cons]
    apply ih
    rcases ComputeOutputType.step_cases env ret x with h1 | ⟨h1, h2⟩
    · rw [h1]; exact h
    · rw [h1]; exact Or.inr h2

/-- The result of `ComputeOutputType` is `INVALID`, a float dtype, or a dtype of
positive bit width. -/
theorem ComputeOutputType.result_cases (env : Extern) (l : List TensorShape) :
    ComputeOutputType env l = DataType.INVALID ∨ is_float (ComputeOutputType env l) = true ∨
      0 < bit_width env (ComputeOutputType env l) :=
  ComputeOutputType.fold_cases env l DataType.INVALID (Or.inl rfl)

/-- The fold on one input, for every value of the header widths:
`ComputeOutputType` of `[s]` returns the dtype of `s` exactly when that dtype is a
float type, has a positive bit width, or is `INVALID` itself, and returns `INVALID`
otherwise.  The sized integer and float dtypes seed the fold whatever the header
gives as widths of `BOOLEAN` and `PRNG`; `BOOLEAN` and `PRNG` do exactly when their
bit width is positive. -/
theorem ComputeOutputType.single_cases (env : Extern) (s : TensorShape) :
    (ComputeOutputType env [s] = s.type ↔
      (is_float s.type = true ∨ 0 < bit_width env s.type ∨ s.type = DataType.INVALID)) ∧
    (ComputeOutputType env [s] = s.type ∨ ComputeOutputType env [s] = DataType.INVALID) ∧
    (s.type ≠ DataType.BOOLEAN → s.type ≠ DataType.PRNG → ComputeOutputType env [s] = s.type) ∧
    (s.type = DataType.BOOLEAN → (ComputeOutputType env [s] = s.type ↔ 0 < env.bool_width)) ∧
    (s.type = DataType.PRNG → (ComputeOutputType env [s] = s.type ↔ 0 < env.prng_width)) := by
  have hiff : ComputeOutputType env [s] = s.type ↔
      (is_float s.type = true ∨ 0 < bit_width env s.type ∨ s.type = DataType.INVALID) := by
    cases hs : s.type <;>
      simp [ComputeOutputType, ComputeOutputType.step, is_float, bit_width, hs,
        Nat.pos_iff_ne_zero]
  refine ⟨hiff, ?_, ?_, ?_, ?_⟩
  · rcases ComputeOutputType.step_cases env DataType.INVALID s with h | ⟨h, -⟩
    · exact Or.inr h
    · exact Or.inl h
  · intro h1 h2
    rw [hiff]
    cases hs : s.type <;> simp [is_float, bit_width] <;> simp_all
  · intro h
    rw [hiff, h]
    simp [is_float, bit_width]
  · intro h
    rw [hiff, h]
    simp [is_float, bit_width]

/-- What `ComputeOutputType` returns on any list: with a float input, a float input
dtype of the greatest width among the float inputs; without one, `INVALID` or an
input dtype, not float and of the greatest width among the inputs. -/
theorem ComputeOutputType.result_spec (env : Extern) (l : List TensorShape) :
    ((∃ s ∈ l, is_float s.type = true) →
      is_float (ComputeOutputType env l) = true ∧
        (∃ s ∈ l, s.type = ComputeOutputType env l) ∧
        ∀ s ∈ l, is_float s.type = true →
          bit_width env s.type ≤ bit_width env (ComputeOutputType env l)) ∧
    ((∀ s ∈ l, is_float s.type = false) →
      is_float (ComputeOutputType env l) = false ∧
        (ComputeOutputType env l = DataType.INVALID ∨
          ∃ s ∈ l, s.type = ComputeOutputType env l) ∧
        ∀ s ∈ l, bit_width env s.type ≤ bit_width env (ComputeOutputType env l)) := by
  have h := ComputeOutputType.fold_inv env l [] DataType.INVALID
    (by rintro ⟨s, hs, -⟩; simp at hs)
    (by intro _; exact ⟨rfl, Or.inl rfl, by intro s hs; simp at hs⟩)
  simpa [ComputeOutputType] using h

/-- Claim C36 (dtype promotion is order-independent) fails on a tie: `INT32` and
`UINT32` are both non-float and 32 bits wide, and the fold keeps the one that comes
first, whatever widths the header gives to `BOOLEAN` and `PRNG`; the dtype inferred
for an elementwise call over the two follows. -/
theorem ComputeOutputType_order_dependent :
    [(⟨.INT32, []⟩ : TensorShape), ⟨.UINT32, []⟩].Perm [⟨.UINT32, []⟩, ⟨.INT32, []⟩] ∧
    (∀ env : Extern,
      ComputeOutputType env [⟨.INT32, []⟩, ⟨.UINT32, []⟩] = DataType.INT32 ∧
      ComputeOutputType env [⟨.UINT32, []⟩, ⟨.INT32, []⟩] = DataType.UINT32 ∧
      ComputeOutputShape env [Binding.TENSOR ⟨.INT32, []⟩, Binding.TENSOR ⟨.UINT32, []⟩] =
        .ok ⟨.INT32, []⟩ ∧
      ComputeOutputShape env [Binding.TENSOR ⟨.UINT32, []⟩, Binding.TENSOR ⟨.INT32, []⟩] =
        .ok ⟨.UINT32, []⟩) := by
  refine ⟨List.Perm.swap _ _ _, ?_⟩
  intro env
  exact ⟨rfl, rfl, rfl, rfl⟩

/-- Claim C36, amended (dtype promotion and the order of the inputs): for every list
of input shapes and every permutation of it, the two results of `ComputeOutputType`
agree in being float or not and in their bit width; they are the same dtype
whenever no two inputs have different dtypes of the same float-ness and the same
bit width (otherwise the first of the tied inputs decides). -/
theorem ComputeOutputType_perm (env : Extern) (l1 l2 : List TensorShape)
    (hperm : l1.Perm l2) :
    is_float (ComputeOutputType env l1) = is_float (ComputeOutputType env l2) ∧
    bit_width env (ComputeOutputType env l1) = bit_width env (ComputeOutputType env l2) ∧
    ((∀ s ∈ l1, ∀ t ∈ l1, is_float s.type = is_float t.type →
        bit_width env s.type = bit_width env t.type → s.type = t.type) →
      ComputeOutputType env l1 = ComputeOutputType env l2) := by
  have hmem : ∀ s, s ∈ l1 ↔ s ∈ l2 := fun s => hperm.mem_iff
  obtain ⟨hf1, hn1⟩ := ComputeOutputType.result_spec env l1
  obtain ⟨hf2, hn2⟩ := ComputeOutputType.result_spec env l2
  have hc1 := ComputeOutputType.result_cases env l1
  have hc2 := ComputeOutputType.result_cases env l2
  by_cases hex : ∃ s ∈ l1, is_float s.type = true
  · have hex2 : ∃ s ∈ l2, is_float s.type = true := by
      obtain ⟨s, hs, hsf⟩ := hex
      exact ⟨s, (hmem s).1 hs, hsf⟩
    obtain ⟨hr1, ⟨s1, hs1, hst1⟩, hle1⟩ := hf1 hex
    obtain ⟨hr2, ⟨s2, hs2, hst2⟩, hle2⟩ := hf2 hex2
    have hw : bit_width env (ComputeOutputType env l1) =
        bit_width env (ComputeOutputType env l2) := by
      have a := hle1 s2 ((hmem s2).2 hs2) (by rw [hst2]; exact hr2)
      have b := hle2 s1 ((hmem s1).1 hs1) (by rw [hst1]; exact hr1)
      rw [hst1] at b
      rw [hst2] at a
      omega
    refine ⟨by rw [hr1, hr2], hw, ?_⟩
    intro hties
    have := hties s1 hs1 s2 ((hmem s2).2 hs2) (by rw [hst1, hst2, hr1, hr2])
      (by rw [hst1, hst2]; exact hw)
    rw [← hst1, ← hst2]
    exact this
  · have hall : ∀ s ∈ l1, is_float s.type = false := by
      intro s hs
      cases hsf : is_float s.type with
      | false => rfl
      | true => exact absurd ⟨s, hs, hsf⟩ hex
    have hall2 : ∀ s ∈ l2, is_float s.type = false := fun s hs => hall s ((hmem s).2 hs)
    obtain ⟨hr1, hin1, hle1⟩ := hn1 hall
    obtain ⟨hr2, hin2, hle2⟩ := hn2 hall2
    have h0 : bit_width env DataType.INVALID = 0 := rfl
    have hw : bit_width env (ComputeOutputType env l1) =
        bit_width env (ComputeOutputType env l2) := by
      rcases hin1 with h1 | ⟨s1, hs1, hst1⟩ <;> rcases hin2 with h2 | ⟨s2, hs2, hst2⟩
      · rw [h1, h2]
      · have a := hle1 s2 ((hmem s2).2 hs2)
        rw [hst2, h1, h0] at a
        rw [h1, h0]
        omega
      · have b := hle2 s1 ((hmem s1).1 hs1)
        rw [hst1, h2, h0] at b
        rw [h2, h0]
        omega
      · have a := hle1 s2 ((hmem s2).2 hs2)
        have b := hle2 s1 ((hmem s1).1 hs1)
        rw [hst1] at b
        rw [hst2] at a
        omega
    refine ⟨by rw [hr1, hr2], hw, ?_⟩
    intro hties
    rcases hin1 with h1 | ⟨s1, hs1, hst1⟩ <;> rcases hin2 with h2 | ⟨s2, hs2, hst2⟩
    · rw [h1, h2]
    · rcases hc2 with h | h | h
      · rw [h1, h]
      · rw [hr2] at h; exact absurd h (by simp)
      · rw [← hw, h1, h0] at h; exact absurd h (lt_irrefl _)
    · rcases hc1 with h | h | h
      · rw [h2, h]
      · rw [hr1] at h; exact absurd h (by simp)
      · rw [hw, h2, h0] at h; exact absurd h (lt_irrefl _)
    · have := hties s1 hs1 s2 ((hmem s2).2 hs2) (by rw [hst1, hst2, hr1, hr2])
        (by rw [hst1, hst2]; exact hw)
      rw [← hst1, ← hst2]
      exact this

theorem ComputeOutputType_perm_witness :
    [(⟨.INT16, []⟩ : TensorShape), ⟨.FLOAT32, []⟩, ⟨.UINT32, []⟩].Perm
      [⟨.UINT32, []⟩, ⟨.INT16, []⟩, ⟨.FLOAT32, []⟩] ∧
    is_float (ComputeOutputType refEnv [⟨.INT16, []⟩, ⟨.FLOAT32, []⟩, ⟨.UINT32, []⟩]) =
      is_float (ComputeOutputType refEnv [⟨.UINT32, []⟩, ⟨.INT16, []⟩, ⟨.FLOAT32, []⟩]) ∧
    bit_width refEnv
        (ComputeOutputType refEnv [⟨.INT16, []⟩, ⟨.FLOAT32, []⟩, ⟨.UINT32, []⟩]) =
      bit_width refEnv
        (ComputeOutputType refEnv [⟨.UINT32, []⟩, ⟨.INT16, []⟩, ⟨.FLOAT32, []⟩]) ∧
    ((∀ s ∈ [(⟨.INT16, []⟩ : TensorShape), ⟨.FLOAT32, []⟩, ⟨.UINT32, []⟩],
        ∀ t ∈ [(⟨.INT16, []⟩ : TensorShape), ⟨.FLOAT32, []⟩, ⟨.UINT32, []⟩],
        is_float s.type = is_float t.type →
        bit_width refEnv s.type = bit_width refEnv t.type → s.type = t.type) →
      ComputeOutputType refEnv [⟨.INT16, []⟩, ⟨.FLOAT32, []⟩, ⟨.UINT32, []⟩] =
        ComputeOutputType refEnv [⟨.UINT32, []⟩, ⟨.INT16, []⟩, ⟨.FLOAT32, []⟩]) :=
  ⟨by decide,
    ComputeOutputType_perm refEnv [⟨.INT16, []⟩, ⟨.FLOAT32, []⟩, ⟨.UINT32, []⟩]
      [⟨.UINT32, []⟩, ⟨.INT16, []⟩, ⟨.FLOAT32, []⟩] (by decide)⟩

/-! ## The exact list of harvested constraints -/

/-- The leaves of the operands of a `PolyOp`, operand by operand from left to right. -/
theorem PolyExpr.leavesOf_eq (operands : List PolyExpr) :
    PolyExpr.leaves.leavesOf operands = operands.flatMap PolyExpr.leaves := by
  induction operands with
  | nil => rfl
  | cons op rest ih =>
    rw [PolyExpr.leaves.leavesOf, ih, List.flatMap_cons]

/-- Claim C37 (harvested constraint list, exactly): for every contraction formed by
`MakeContraction`, its constraints list equals the concatenation, over the index
polynomials of the output in order, then over the index polynomials of each input
in input order, and within each polynomial over its `PolyIndex` leaves from left to
right (the leaves of a `PolyOp` being those of its operands in operand order), of
the constraint list of the `Index` that owns the leaf as it stands when the
contraction is formed; a literal has no leaf and contributes nothing, and a
constraint added to an `Index` afterwards changes no contraction. -/
theorem MakeContraction_constraints_exact (self : Access.Impl) (agg_op : AggregationOp)
    (rhs : Access) (st st1 : Store)
    (h : Access.Impl.MakeContraction self agg_op rhs st = .ok st1) :
    ∃ src cion, self.src = some src ∧ st1.contractionOf src = some cion ∧
      cion.constraints =
        (cion.output.index_spec ++ cion.inputs.flatMap (fun input => input.index_spec)).flatMap
          (fun poly => poly.leaves.flatMap (fun p => (st.indexes p).constraints)) ∧
      (∀ ptr name, (PolyExpr.PolyIndex ptr name).leaves = [ptr]) ∧
      (∀ value, (PolyExpr.PolyLiteral value).leaves = []) ∧
      (∀ op operands, (PolyExpr.PolyOp op operands).leaves =
        operands.flatMap PolyExpr.leaves) ∧
      (∀ (idx : Index) (bound : Nat) (st2 : Store) (tensor : Tensor),
        (Index.lt idx bound st2).contractionOf tensor = st2.contractionOf tensor) ∧
      (∀ (idx : Index) (bound : Nat),
        (Index.lt idx bound st1).contractionOf src = some cion) := by
  obtain ⟨out, combo, inputs, src, -, -, hsrc, hc, -⟩ :=
    Access.Impl.MakeContraction_ok self agg_op rhs st st1 h
  refine ⟨src, _, hsrc, hc, ?_, fun _ _ => rfl, fun _ => rfl, ?_, fun _ _ _ _ => rfl, ?_⟩
  · simp only [List.flatMap_assoc]
  · intro op operands
    rw [PolyExpr.leaves, PolyExpr.leavesOf_eq]
  · intro idx bound
    exact hc

theorem MakeContraction_constraints_exact_witness :
    Access.Impl.MakeContraction ⟨4, some 2⟩ AggregationOp.SUM ⟨3, some 0⟩ exampleTwiceStore =
      .ok exampleTwiceResult ∧
    ∃ src cion, (⟨4, some 2⟩ : Access).src = some src ∧
      exampleTwiceResult.contractionOf src = some cion ∧
      cion.constraints =
        (cion.output.index_spec ++ cion.inputs.flatMap (fun input => input.index_spec)).flatMap
          (fun poly => poly.leaves.flatMap
            (fun p => (exampleTwiceStore.indexes p).constraints)) ∧
      (∀ ptr name, (PolyExpr.PolyIndex ptr name).leaves = [ptr]) ∧
      (∀ value, (PolyExpr.PolyLiteral value).leaves = []) ∧
      (∀ op operands, (PolyExpr.PolyOp op operands).leaves =
        operands.flatMap PolyExpr.leaves) ∧
      (∀ (idx : Index) (bound : Nat) (st2 : Store) (tensor : Tensor),
        (Index.lt idx bound st2).contractionOf tensor = st2.contractionOf tensor) ∧
      (∀ (idx : Index) (bound : Nat),
        (Index.lt idx bound exampleTwiceResult).contractionOf src = some cion) :=
  ⟨rfl, MakeContraction_constraints_exact ⟨4, some 2⟩ AggregationOp.SUM ⟨3, some 0⟩
    exampleTwiceStore exampleTwiceResult rfl⟩

/-! ## LoadConstCalc: a contraction over a scalar constant -/

/-- The shape rule of a contraction that does not combine with `COND` throws on a
first input whose ref is bound to anything but a TENSOR. -/
theorem ShapeEvaluator.Visit_contraction_const (env : Extern) (heap : Heap)
    (bindings : List (ExprPtr × Binding)) (expr : ExprPtr) (cion : ContractionExpr)
    (input : TensorSpecExpr) (rest : List TensorSpecExpr) (b : Binding)
    (hnode : (heap expr).node = .ContractionExpr cion)
    (hcombo : cion.combo_op ≠ CombinationOp.COND)
    (hin : cion.inputs = input :: rest)
    (hb : lookup bindings input.ref = some b) (hnt : ∀ shape, b ≠ Binding.TENSOR shape) :
    ShapeEvaluator.Visit env heap bindings expr =
      .error "Unexpected TensorSpecExpr in ContractionExpr." := by
  have h1 : ShapeEvaluator.inputShapes bindings cion.inputs =
      .error "Unexpected TensorSpecExpr in ContractionExpr." := by
    rw [hin]
    cases b with
    | TENSOR shape => exact absurd rfl (hnt shape)
    | ICONST v => simp only [ShapeEvaluator.inputShapes, safe_at, hb]
    | FCONST v t => simp only [ShapeEvaluator.inputShapes, safe_at, hb]
    | TUPLE t => simp only [ShapeEvaluator.inputShapes, safe_at, hb]
  simp only [ShapeEvaluator.Visit, hnode, if_neg hcombo, h1]

/-- Claim C33 (contractions over scalar constants lower successfully), as the code
behaves: after `Simple({i}, {1}) = F({})` of `LoadConstCalc`, with `F` the constant
`0.0`, the read access was accepted (the shape inferred for `F` has rank 0), the
contraction has the one input `F` with no index, and shape inference of `Simple` and
`Evaluate` both throw "Unexpected TensorSpecExpr in ContractionExpr.", because the
binding of a constant is not a TENSOR; so does `LoadConstCalc` as a whole. -/
theorem LoadConstCalc_throws :
    Tensor.shape refEnv 6 1 loadConstStore = some (.ok ⟨.FLOAT32, []⟩) ∧
    (loadConstStore.contractionOf 3).map (fun cion =>
        (cion.agg_op, cion.combo_op, cion.output.output_sizes,
          cion.inputs.map (fun input =>
            ((loadConstStore.exprs input.ref).node.visitable, input.index_spec.length)))) =
      some (AggregationOp.ASSIGN, CombinationOp.NONE, [1], [(true, 0)]) ∧
    (loadConstStore.exprs 1).node = .FloatConst ⟨0⟩ ∧
    Tensor.shape refEnv 6 3 loadConstStore =
      some (.error "Unexpected TensorSpecExpr in ContractionExpr.") ∧
    (∀ name, Store.Evaluate refEnv 10 name [3] loadConstStore =
      some (.error "Unexpected TensorSpecExpr in ContractionExpr.")) ∧
    (∀ env name, LoadConstCalc env 30 name =
      some (.error "Unexpected TensorSpecExpr in ContractionExpr.")) := by
  refine ⟨rfl, rfl, rfl, rfl, fun _ => rfl, fun _ _ => rfl⟩

/-! ## Identity of index variables in PolyEvaluator -/

/-- A property of the evaluator that every visit of a `PolyIndex` leaf keeps is kept
by the visit of a whole tree. -/
theorem PolyEvaluator.Visit_inv (P : PolyEvaluator → Prop) (Q : Nat × String → Prop)
    (hleaf : ∀ ptr name pe p pe1, Q (ptr, name) → P pe →
      PolyEvaluator.Visit (.PolyIndex ptr name) pe = .ok (p, pe1) → P pe1) :
    ∀ (e : PolyExpr), (∀ l ∈ e.indexLeaves, Q l) → ∀ pe p pe1, P pe →
      PolyEvaluator.Visit e pe = .ok (p, pe1) → P pe1
  | .PolyIndex ptr name, hq, pe, p, pe1, hP, h =>
    hleaf ptr name pe p pe1 (hq _ (by simp [PolyExpr.indexLeaves])) hP h
  | .PolyLiteral v, _, pe, p, pe1, hP, h => by
    rw [PolyEvaluator.Visit_literal] at h
    simp only [Except.ok.injEq, Prod.mk.injEq] at h
    rw [← h.2]
    exact hP
  | .PolyOp op [], _, pe, p, pe1, _, h => by
    rw [PolyEvaluator.Visit_nil] at h
    split_ifs at h
  | .PolyOp op [a], hq, pe, p, pe1, hP, h => by
    rw [PolyEvaluator.Visit_one] at h
    have hqa : ∀ l ∈ a.indexLeaves, Q l := fun l hl =>
      hq l (by simp [PolyExpr.indexLeaves, PolyExpr.indexLeaves.indexLeavesOf, hl])
    split_ifs at h
    cases ha : PolyEvaluator.Visit a pe with
    | error e => rw [ha] at h; simp at h
    | ok r =>
      obtain ⟨pa, pea⟩ := r
      rw [ha] at h
      simp only [Except.ok.injEq, Prod.mk.injEq] at h
      rw [← h.2]
      exact PolyEvaluator.Visit_inv P Q hleaf a hqa pe pa pea hP ha
  | .PolyOp op [a, b], hq, pe, p, pe1, hP, h => by
    rw [PolyEvaluator.Visit_two] at h
    have hqa : ∀ l ∈ a.indexLeaves, Q l := fun l hl =>
      hq l (by simp [PolyExpr.indexLeaves, PolyExpr.indexLeaves.indexLeavesOf, hl])
    have hqb : ∀ l ∈ b.indexLeaves, Q l := fun l hl =>
      hq l (by simp [PolyExpr.indexLeaves, PolyExpr.indexLeaves.indexLeavesOf, hl])
    cases ha : PolyEvaluator.Visit a pe with
    | error e => rw [ha] at h; simp at h
    | ok r =>
      obtain ⟨pa, pea⟩ := r
      have hPa := PolyEvaluator.Visit_inv P Q hleaf a hqa pe pa pea hP ha
      rw [ha] at h
      by_cases hop : op = "neg"
      · rw [if_pos hop] at h
        simp only [Except.ok.injEq, Prod.mk.injEq] at h
        rw [← h.2]
        exact hPa
      · rw [if_neg hop] at h
        dsimp only at h
        cases hb : PolyEvaluator.Visit b pea with
        | error e => rw [hb] at h; simp at h
        | ok r2 =>
          obtain ⟨pb, peb⟩ := r2
          have hPb := PolyEvaluator.Visit_inv P Q hleaf b hqb pea pb peb hPa hb
          rw [hb] at h
          dsimp only at h
          have hpe : pe1 = peb := by
            split_ifs at h <;> simp only [Except.ok.injEq, Prod.mk.injEq] at h <;>
              exact h.2.symm
          rw [hpe]
          exact hPb
  | .PolyOp op (a :: b :: c :: rest), hq, pe, p, pe1, hP, h => by
    rw [PolyEvaluator.Visit_many] at h
    have hqa : ∀ l ∈ a.indexLeaves, Q l := fun l hl =>
      hq l (by simp [PolyExpr.indexLeaves, PolyExpr.indexLeaves.indexLeavesOf, hl])
    split_ifs at h
    cases ha : PolyEvaluator.Visit a pe with
    | error e => rw [ha] at h; simp at h
    | ok r =>
      obtain ⟨pa, pea⟩ := r
      rw [ha] at h
      simp only [Except.ok.injEq, Prod.mk.injEq] at h
      rw [← h.2]
      exact PolyEvaluator.Visit_inv P Q hleaf a hqa pe pa pea hP ha

/-- The loop over a list of index trees keeps what every visit of a leaf keeps. -/
theorem PolyEvaluator.VisitAll_inv (P : PolyEvaluator → Prop) (Q : Nat × String → Prop)
    (hleaf : ∀ ptr name pe p pe1, Q (ptr, name) → P pe →
      PolyEvaluator.Visit (.PolyIndex ptr name) pe = .ok (p, pe1) → P pe1) :
    ∀ (es : List PolyExpr), (∀ e ∈ es, ∀ l ∈ e.indexLeaves, Q l) → ∀ pe polys pe1, P pe →
      PolyEvaluator.VisitAll es pe = .ok (polys, pe1) → P pe1 := by
  intro es
  induction es with
  | nil =>
    intro _ pe polys pe1 hP h
    simp only [PolyEvaluator.VisitAll, Except.ok.injEq, Prod.mk.injEq] at h
    rw [← h.2]
    exact hP
  | cons e rest ih =>
    intro hq pe polys pe1 hP h
    simp only [PolyEvaluator.VisitAll] at h
    cases he : PolyEvaluator.Visit e pe with
    | error x => rw [he] at h; simp at h
    | ok r =>
      obtain ⟨p, pe2⟩ := r
      rw [he] at h
      dsimp only at h
      have hP2 := PolyEvaluator.Visit_inv P Q hleaf e (hq e (by simp)) pe p pe2 hP he
      cases hr : PolyEvaluator.VisitAll rest pe2 with
      | error x => rw [hr] at h; simp at h
      | ok r2 =>
        obtain ⟨ps, pe3⟩ := r2
        rw [hr] at h
        simp only [Except.ok.injEq, Prod.mk.injEq] at h
        rw [← h.2]
        exact ih (fun e1 h1 => hq e1 (by simp [h1])) pe2 ps pe3 hP2 hr

/-- The visit of a leaf: the variable of the owner if it has one, which the visit
then leaves alone; otherwise a new entry for the owner, with the name of the leaf
or, for a leaf without name, the minted name `x<next_>`. -/
theorem PolyEvaluator.Visit_leaf (ptr : Nat) (name : String) (pe : PolyEvaluator) :
    ∃ v pe1, PolyEvaluator.Visit (.PolyIndex ptr name) pe = .ok (Polynomial.ofIndex v, pe1) ∧
      lookup pe1.seen_ ptr = some v ∧
      (∀ q w, lookup pe.seen_ q = some w → lookup pe1.seen_ q = some w) ∧
      (∀ w, lookup pe.seen_ ptr = some w → v = w ∧ pe1 = pe) ∧
      (lookup pe.seen_ ptr = none →
        v = (if name = "" then "x" ++ toString pe.next_ else name) ∧
        pe1.seen_ = pe.seen_ ++ [(ptr, v)] ∧
        pe1.next_ = (if name = "" then pe.next_ + 1 else pe.next_)) := by
  rw [PolyEvaluator.Visit_index]
  cases hl : lookup pe.seen_ ptr with
  | some found =>
    refine ⟨found, pe, rfl, hl, fun _ _ h => h, ?_, ?_⟩
    · intro w hw
      simp only [Option.some.injEq] at hw
      exact ⟨hw, rfl⟩
    · intro h
      simp at h
  | none =>
    by_cases hn : name = ""
    · refine ⟨"x" ++ toString pe.next_,
        ⟨pe.seen_ ++ [(ptr, "x" ++ toString pe.next_)], pe.next_ + 1⟩,
        by simp only [hn, if_true], ?_, ?_, ?_, ?_⟩
      · simp [lookup_append, hl, lookup]
      · intro q w hq
        simp [lookup_append, hq]
      · intro w hw
        simp at hw
      · intro _
        simp [hn]
    · refine ⟨name, ⟨pe.seen_ ++ [(ptr, name)], pe.next_⟩,
        by simp only [hn, if_false], ?_, ?_, ?_, ?_⟩
      · simp [lookup_append, hl, lookup]
      · intro q w hq
        simp [lookup_append, hq]
      · intro w hw
        simp at hw
      · intro _
        simp [hn]

/-- A visit never changes the variable of an owner the evaluator has met. -/
theorem PolyEvaluator.Visit_mono (e : PolyExpr) (pe : PolyEvaluator) (p : Polynomial)
    (pe1 : PolyEvaluator) (h : PolyEvaluator.Visit e pe = .ok (p, pe1)) :
    ∀ q w, lookup pe.seen_ q = some w → lookup pe1.seen_ q = some w := by
  refine PolyEvaluator.Visit_inv
    (fun x => ∀ q w, lookup pe.seen_ q = some w → lookup x.seen_ q = some w)
    (fun _ => True) ?_ e (fun _ _ => trivial) pe p pe1 (fun _ _ h => h) h
  intro ptr name pe2 p2 pe3 _ hP h2 q w hq
  obtain ⟨v, pe4, hv, -, hmono, -⟩ := PolyEvaluator.Visit_leaf ptr name pe2
  rw [hv] at h2
  simp only [Except.ok.injEq, Prod.mk.injEq] at h2
  rw [← h2.2]
  exact hmono q w (hP q w hq)

/-- Lookup in a map with one more entry at its end. -/
theorem lookup_snoc {κ α : Type} [DecidableEq κ] (m : List (κ × α)) (k q : κ) (v w : α)
    (h : lookup (m ++ [(k, v)]) q = some w) :
    lookup m q = some w ∨ (lookup m q = none ∧ q = k ∧ w = v) := by
  rw [lookup_append] at h
  cases hm : lookup m q with
  | some x =>
    rw [hm] at h
    simp only [Option.orElse] at h
    exact Or.inl h
  | none =>
    rw [hm] at h
    simp only [Option.orElse, lookup] at h
    split_ifs at h with hk
    simp only [Option.some.injEq] at h
    exact Or.inr ⟨rfl, hk.symm, h.symm⟩

/-- A fresh evaluator has met no `Index`. -/
theorem PolyEvaluator.Named_new (nm : Nat → String) :
    PolyEvaluator.Named nm { seen_ := [], next_ := 0 } :=
  ⟨fun _ _ h => by simp [lookup] at h, fun _ _ h => by simp [lookup] at h,
    fun _ _ _ h => by simp [lookup] at h⟩

/-- The visit of a leaf that carries the name of its owner keeps the evaluator
`Named`. -/
theorem PolyEvaluator.Named_leaf (nm : Nat → String) (ptr : Nat) (name : String)
    (pe : PolyEvaluator) (p : Polynomial) (pe1 : PolyEvaluator) (hname : name = nm ptr)
    (hN : PolyEvaluator.Named nm pe)
    (h : PolyEvaluator.Visit (.PolyIndex ptr name) pe = .ok (p, pe1)) :
    PolyEvaluator.Named nm pe1 := by
  obtain ⟨v, pe2, hv, -, -, hold, hnew⟩ := PolyEvaluator.Visit_leaf ptr name pe
  rw [hv] at h
  simp only [Except.ok.injEq, Prod.mk.injEq] at h
  obtain ⟨-, rfl⟩ := h
  cases hl : lookup pe.seen_ ptr with
  | some w =>
    rw [(hold w hl).2]
    exact hN
  | none =>
    obtain ⟨hv1, hseen, hnext⟩ := hnew hl
    have hle : pe.next_ ≤ pe2.next_ := by
      rw [hnext]
      split_ifs <;> omega
    have hfresh : nm ptr = "" → v = "x" ++ toString pe.next_ ∧ pe.next_ < pe2.next_ := by
      intro h0
      rw [hname, h0] at hv1
      rw [hname, h0] at hnext
      simp only [if_true] at hv1 hnext
      exact ⟨hv1, by omega⟩
    have hclash : ∀ q w, lookup pe.seen_ q = some w → nm q = "" → nm ptr = "" → w ≠ v := by
      intro q w hq hnq hnp hwv
      obtain ⟨k, hk, hwk⟩ := hN.minted q w hq hnq
      rw [hwv, (hfresh hnp).1] at hwk
      have := toString_nat_inj _ _ (string_append_cancel "x" _ _ hwk)
      omega
    refine ⟨?_, ?_, ?_⟩
    · intro q w hq hnq
      rw [hseen] at hq
      rcases lookup_snoc _ _ _ _ _ hq with h1 | ⟨-, rfl, rfl⟩
      · exact hN.named q w h1 hnq
      · rw [hv1, hname, if_neg hnq]
    · intro q w hq hnq
      rw [hseen] at hq
      rcases lookup_snoc _ _ _ _ _ hq with h1 | ⟨-, rfl, rfl⟩
      · obtain ⟨k, hk, hwk⟩ := hN.minted q w h1 hnq
        exact ⟨k, by omega, hwk⟩
      · exact ⟨pe.next_, (hfresh hnq).2, (hfresh hnq).1⟩
    · intro a b w ha hb hna hnb
      rw [hseen] at ha hb
      rcases lookup_snoc _ _ _ _ _ ha with h1 | ⟨-, rfl, rfl⟩ <;>
        rcases lookup_snoc _ _ _ _ _ hb with h2 | ⟨-, h2a, h2b⟩
      · exact hN.distinct a b w h1 h2 hna hnb
      · subst h2a
        exact absurd h2b (hclash a w h1 hna hnb)
      · exact absurd rfl (hclash b _ h2 hnb hna)
      · exact h2a.symm

/-- The loop over two lists of index trees in a row is the loop over the first
followed by the loop over the second. -/
theorem PolyEvaluator.VisitAll_append (es1 es2 : List PolyExpr) (pe pe1 pe2 : PolyEvaluator)
    (ps1 ps2 : List Polynomial) (h1 : PolyEvaluator.VisitAll es1 pe = .ok (ps1, pe1))
    (h2 : PolyEvaluator.VisitAll es2 pe1 = .ok (ps2, pe2)) :
    PolyEvaluator.VisitAll (es1 ++ es2) pe = .ok (ps1 ++ ps2, pe2) := by
  induction es1 generalizing pe ps1 with
  | nil =>
    simp only [PolyEvaluator.VisitAll, Except.ok.injEq, Prod.mk.injEq] at h1
    obtain ⟨rfl, rfl⟩ := h1
    exact h2
  | cons e rest ih =>
    simp only [PolyEvaluator.VisitAll] at h1
    cases he : PolyEvaluator.Visit e pe with
    | error x => rw [he] at h1; simp at h1
    | ok r =>
      obtain ⟨p, pe3⟩ := r
      rw [he] at h1
      dsimp only at h1
      cases hr : PolyEvaluator.VisitAll rest pe3 with
      | error x => rw [hr] at h1; simp at h1
      | ok r2 =>
        obtain ⟨ps, pe4⟩ := r2
        rw [hr] at h1
        simp only [Except.ok.injEq, Prod.mk.injEq] at h1
        obtain ⟨rfl, rfl⟩ := h1
        have := ih pe3 ps hr
        rw [List.cons_append, PolyEvaluator.VisitAll, he]
        dsimp only
        rw [this]
        rfl

/-- The loop over the inputs of a contraction visits the index trees of the inputs
in order, with the one evaluator. -/
theorem Evaluator.inputSpecs_VisitAll (names : List (ExprPtr × String)) :
    ∀ (inputs : List TensorSpecExpr) (pe : PolyEvaluator) (ids : List String)
      (specs : List TensorSpec) (pe1 : PolyEvaluator),
      Evaluator.inputSpecs names inputs pe = .ok (ids, specs, pe1) →
      PolyEvaluator.VisitAll (inputs.flatMap (fun input => input.index_spec)) pe =
        .ok (specs.flatMap (fun spec => spec.spec), pe1) := by
  intro inputs
  induction inputs with
  | nil =>
    intro pe ids specs pe1 h
    simp only [Evaluator.inputSpecs, Except.ok.injEq, Prod.mk.injEq] at h
    obtain ⟨-, rfl, rfl⟩ := h
    rfl
  | cons input rest ih =>
    intro pe ids specs pe1 h
    simp only [Evaluator.inputSpecs] at h
    cases hs : safe_at names input.ref with
    | error x => rw [hs] at h; simp at h
    | ok id =>
      rw [hs] at h
      dsimp only at h
      cases hv : PolyEvaluator.VisitAll input.index_spec pe with
      | error x => rw [hv] at h; simp at h
      | ok r =>
        obtain ⟨spec, pe2⟩ := r
        rw [hv] at h
        dsimp only at h
        cases hr : Evaluator.inputSpecs names rest pe2 with
        | error x => rw [hr] at h; simp at h
        | ok r2 =>
          obtain ⟨ids2, specs2, pe3⟩ := r2
          rw [hr] at h
          simp only [Except.ok.injEq, Prod.mk.injEq] at h
          obtain ⟨-, rfl, rfl⟩ := h
          have h2 := ih pe2 ids2 specs2 pe3 hr
          simp only [List.flatMap_cons]
          exact PolyEvaluator.VisitAll_append _ _ pe pe2 pe3 spec _ hv h2

/-- The loop over the constraints of a contraction visits their left sides in order,
with the one evaluator. -/
theorem Evaluator.rangeConstraints_VisitAll :
    ∀ (constraints : List ConstraintExpr) (pe : PolyEvaluator) (bounds : List RangeConstraint)
      (pe1 : PolyEvaluator),
      Evaluator.rangeConstraints constraints pe = .ok (bounds, pe1) →
      PolyEvaluator.VisitAll (constraints.map (fun c => c.lhs)) pe =
        .ok (bounds.map (fun b => b.poly), pe1) := by
  intro constraints
  induction constraints with
  | nil =>
    intro pe bounds pe1 h
    simp only [Evaluator.rangeConstraints, Except.ok.injEq, Prod.mk.injEq] at h
    obtain ⟨rfl, rfl⟩ := h
    rfl
  | cons c rest ih =>
    intro pe bounds pe1 h
    simp only [Evaluator.rangeConstraints] at h
    cases hv : PolyEvaluator.Visit c.lhs pe with
    | error x => rw [hv] at h; simp at h
    | ok r =>
      obtain ⟨poly, pe2⟩ := r
      rw [hv] at h
      dsimp only at h
      cases hr : Evaluator.rangeConstraints rest pe2 with
      | error x => rw [hr] at h; simp at h
      | ok r2 =>
        obtain ⟨bs, pe3⟩ := r2
        rw [hr] at h
        simp only [Except.ok.injEq, Prod.mk.injEq] at h
        obtain ⟨rfl, rfl⟩ := h
        have h2 := ih pe2 bs pe3 hr
        simp only [List.map_cons, PolyEvaluator.VisitAll, hv, h2]

/-- The lowering of a contraction evaluates the index trees of its inputs, then of
its output, then the left sides of its constraints with one `PolyEvaluator` that
starts fresh. -/
theorem Evaluator.VisitContraction_VisitAll (ev ev1 : Evaluator) (expr : ExprPtr)
    (exprName : String) (cion : ContractionExpr)
    (h : Evaluator.VisitContraction ev expr exprName cion = .ok ev1) :
    ∃ polys pe,
      PolyEvaluator.VisitAll
        (cion.inputs.flatMap (fun input => input.index_spec) ++
          (cion.output.index_spec ++ cion.constraints.map (fun c => c.lhs)))
        { seen_ := [], next_ := 0 } = .ok (polys, pe) := by
  unfold Evaluator.VisitContraction at h
  split at h
  · simp at h
  · rename_i use_default _
    cases hi : Evaluator.inputSpecs ev.names_by_expr_ cion.inputs { seen_ := [], next_ := 0 } with
    | error x => rw [hi] at h; simp at h
    | ok r =>
      obtain ⟨ids, specs, pe1⟩ := r
      rw [hi] at h
      dsimp only at h
      cases ho : PolyEvaluator.VisitAll cion.output.index_spec pe1 with
      | error x => rw [ho] at h; simp at h
      | ok r2 =>
        obtain ⟨outSpec, pe2⟩ := r2
        rw [ho] at h
        dsimp only at h
        cases hc : Evaluator.rangeConstraints cion.constraints pe2 with
        | error x => rw [hc] at h; simp at h
        | ok r3 =>
          obtain ⟨bounds, pe3⟩ := r3
          have h1 := Evaluator.inputSpecs_VisitAll _ _ _ _ _ _ hi
          have h3 := Evaluator.rangeConstraints_VisitAll _ _ _ _ hc
          exact ⟨_, pe3, PolyEvaluator.VisitAll_append _ _ _ _ _ _ _ h1
            (PolyEvaluator.VisitAll_append _ _ _ _ _ _ _ ho h3)⟩

/-- Claim C32 (index-variable identity) fails for user-named indexes: two distinct
`Index` objects that were both given the name "i" evaluate to the one variable `i`,
and an `Index` named "x0" shares its variable with the first anonymous `Index`,
whose minted name is `x0`. -/
theorem PolyEvaluator_names_shared :
    ((Index.Index_name "i" (Index.Index_name "i" Store.empty).2).2.indexes 0).expr =
      .PolyIndex 0 "i" ∧
    ((Index.Index_name "i" (Index.Index_name "i" Store.empty).2).2.indexes 1).expr =
      .PolyIndex 1 "i" ∧
    PolyEvaluator.VisitAll [.PolyIndex 0 "i", .PolyIndex 1 "i"] { seen_ := [], next_ := 0 } =
      .ok ([Polynomial.ofIndex "i", Polynomial.ofIndex "i"],
        { seen_ := [(0, "i"), (1, "i")], next_ := 0 }) ∧
    PolyEvaluator.VisitAll [.PolyIndex 0 "", .PolyIndex 1 "x0"] { seen_ := [], next_ := 0 } =
      .ok ([Polynomial.ofIndex "x0", Polynomial.ofIndex "x0"],
        { seen_ := [(0, "x0"), (1, "x0")], next_ := 1 }) :=
  ⟨rfl, rfl, rfl, rfl⟩

/-- Claim C32, amended (index-variable identity): within one `PolyEvaluator`, a
`PolyIndex` leaf evaluates to the variable recorded for its owner, which no later
visit changes, so the same `Index` always yields the same variable; the lowering of
a contraction evaluates the index trees of the inputs, of the output and of the
constraints with one evaluator that starts fresh.  When every leaf carries the name
`nm` of its owner, a user-named `Index` has its name as variable and an anonymous
one a minted name `x0`, `x1`, …; two distinct anonymous `Index` objects never share
a variable, and two distinct user-named ones share it exactly when their names are
equal. -/
theorem PolyEvaluator_index_identity (nm : Nat → String) :
    (∀ ptr name pe, ∃ v pe1,
      PolyEvaluator.Visit (.PolyIndex ptr name) pe = .ok (Polynomial.ofIndex v, pe1) ∧
      lookup pe1.seen_ ptr = some v ∧ ∀ w, lookup pe.seen_ ptr = some w → v = w) ∧
    (∀ e pe p pe1, PolyEvaluator.Visit e pe = .ok (p, pe1) →
      ∀ q w, lookup pe.seen_ q = some w → lookup pe1.seen_ q = some w) ∧
    (∀ ev ev1 expr exprName cion,
      Evaluator.VisitContraction ev expr exprName cion = .ok ev1 →
      ∃ polys pe,
        PolyEvaluator.VisitAll
          (cion.inputs.flatMap (fun input => input.index_spec) ++
            (cion.output.index_spec ++ cion.constraints.map (fun c => c.lhs)))
          { seen_ := [], next_ := 0 } = .ok (polys, pe)) ∧
    (∀ es polys pe, (∀ e ∈ es, ∀ l ∈ e.indexLeaves, l.2 = nm l.1) →
      PolyEvaluator.VisitAll es { seen_ := [], next_ := 0 } = .ok (polys, pe) →
      (∀ ptr v, lookup pe.seen_ ptr = some v → nm ptr ≠ "" → v = nm ptr) ∧
      (∀ ptr v, lookup pe.seen_ ptr = some v → nm ptr = "" →
        ∃ k, k < pe.next_ ∧ v = "x" ++ toString k) ∧
      (∀ p q v, lookup pe.seen_ p = some v → lookup pe.seen_ q = some v →
        nm p = "" → nm q = "" → p = q) ∧
      (∀ p q vp vq, lookup pe.seen_ p = some vp → lookup pe.seen_ q = some vq →
        nm p ≠ "" → nm q ≠ "" → (vp = vq ↔ nm p = nm q))) := by
  refine ⟨?_, PolyEvaluator.Visit_mono, Evaluator.VisitContraction_VisitAll, ?_⟩
  · intro ptr name pe
    obtain ⟨v, pe1, h1, h2, -, h3, -⟩ := PolyEvaluator.Visit_leaf ptr name pe
    exact ⟨v, pe1, h1, h2, fun w hw => (h3 w hw).1⟩
  · intro es polys pe hq h
    have hN : PolyEvaluator.Named nm pe :=
      PolyEvaluator.VisitAll_inv (PolyEvaluator.Named nm) (fun l => l.2 = nm l.1)
        (fun ptr name pe0 p pe1 hl hP hv =>
          PolyEvaluator.Named_leaf nm ptr name pe0 p pe1 hl hP hv)
        es hq _ polys pe (PolyEvaluator.Named_new nm) h
    refine ⟨hN.named, hN.minted, hN.distinct, ?_⟩
    intro p q vp vq hp hq2 hnp hnq
    rw [hN.named p vp hp hnp, hN.named q vq hq2 hnq]

/-! ## The iterative linearizer and the recursive one -/

/-- The nodes `AstTraversal::Visit` pushes are, read from the last push to the
first, the children in the order of the recursive traversal. -/
theorem AstTraversal.Visit_order (node : ExprNode) (hv : node.visitable = true) :
    AstTraversal.Visit node = .ok (RecursiveDFS.childrenInOrder node).reverse := by
  cases node with
  | CallExpr fn args => rfl
  | ContractionExpr cion =>
    cases hd : cion.use_default with
    | none => simp [AstTraversal.Visit, RecursiveDFS.childrenInOrder, hd, List.map_reverse]
    | some d => simp [AstTraversal.Visit, RecursiveDFS.childrenInOrder, hd, List.map_reverse]
  | ParamExpr s => rfl
  | IntConst v => rfl
  | FloatConst v => rfl
  | TensorSpecExpr s => simp [ExprNode.visitable] at hv
  | ConstraintExpr c => simp [ExprNode.visitable] at hv

/-- The children in the order of the recursive traversal are the children. -/
theorem RecursiveDFS.mem_childrenInOrder (node : ExprNode) (c : ExprPtr) :
    c ∈ RecursiveDFS.childrenInOrder node ↔ c ∈ node.children := by
  cases node with
  | CallExpr fn args => rfl
  | ContractionExpr cion =>
    simp only [RecursiveDFS.childrenInOrder, ExprNode.children, List.mem_append]
    exact Or.comm
  | ParamExpr s => rfl
  | IntConst v => rfl
  | FloatConst v => rfl
  | TensorSpecExpr s => rfl
  | ConstraintExpr c => rfl

/-- One iteration of the traversal loop. -/
theorem AstTraversal.loop_step (heap : Heap) (fuel : Nat) (t t1 : AstTraversal)
    (hne : t.stack_ ≠ []) (hs : AstTraversal.step heap t = .ok t1) :
    AstTraversal.loop heap (fuel + 1) t = AstTraversal.loop heap fuel t1 := by
  rw [AstTraversal.loop_succ heap fuel t hne, hs]

/-- The loop simulates the recursive visits of a list of nodes that lie on top of
the stack, given that it simulates each single visit at this depth. -/
theorem RecursiveDFS.sim_all (heap : Heap) (dom : List ExprPtr) (depth : Nat)
    (hv : ∀ (n : ExprPtr) (s s1 : RecursiveDFS), n ∈ dom →
      RecursiveDFS.visit heap depth n s = some s1 →
      ∀ rest, ∃ k, ∀ fuel,
        AstTraversal.loop heap (fuel + k)
            { stack_ := (n, false) :: rest, flat_ := s.flat, seen_ := s.seen } =
          AstTraversal.loop heap fuel { stack_ := rest, flat_ := s1.flat, seen_ := s1.seen }) :
    ∀ (cs : List ExprPtr) (s s1 : RecursiveDFS), (∀ c ∈ cs, c ∈ dom) →
      cs.foldlM (fun s2 c => RecursiveDFS.visit heap depth c s2) s = some s1 →
      ∀ rest, ∃ k, ∀ fuel,
        AstTraversal.loop heap (fuel + k)
            { stack_ := cs.map (fun c => (c, false)) ++ rest, flat_ := s.flat,
              seen_ := s.seen } =
          AstTraversal.loop heap fuel { stack_ := rest, flat_ := s1.flat, seen_ := s1.seen } := by
  intro cs
  induction cs with
  | nil =>
    intro s s1 _ h rest
    simp only [List.foldlM_nil, Option.pure_def, Option.some.injEq] at h
    subst h
    exact ⟨0, fun fuel => rfl⟩
  | cons c cs ih =>
    intro s s1 hdom h rest
    rw [List.foldlM_cons] at h
    cases hc : RecursiveDFS.visit heap depth c s with
    | none => rw [hc] at h; simp at h
    | some s2 =>
      rw [hc] at h
      simp only [Option.some_bind, Option.bind_eq_bind] at h
      obtain ⟨k1, hk1⟩ := hv c s s2 (hdom c (by simp)) hc (cs.map (fun c => (c, false)) ++ rest)
      obtain ⟨k2, hk2⟩ := ih s2 s1 (fun x hx => hdom x (by simp [hx])) h rest
      refine ⟨k2 + k1, fun fuel => ?_⟩
      rw [← Nat.add_assoc, List.map_cons, List.cons_append, hk1, hk2]

/-- The loop simulates the recursive visit of the node on top of the stack: after
some iterations the node is popped for good, and the flat list and the seen set are
those of the recursive visit. -/
theorem RecursiveDFS.sim_visit (heap : Heap) (dom : List ExprPtr)
    (hclosed : ∀ n ∈ dom, ∀ c ∈ (heap n).node.children, c ∈ dom)
    (hvis : ∀ n ∈ dom, (heap n).node.visitable = true) :
    ∀ (depth : Nat) (n : ExprPtr) (s s1 : RecursiveDFS), n ∈ dom →
      RecursiveDFS.visit heap depth n s = some s1 →
      ∀ rest, ∃ k, ∀ fuel,
        AstTraversal.loop heap (fuel + k)
            { stack_ := (n, false) :: rest, flat_ := s.flat, seen_ := s.seen } =
          AstTraversal.loop heap fuel { stack_ := rest, flat_ := s1.flat, seen_ := s1.seen } := by
  intro depth
  induction depth with
  | zero =>
    intro n s s1 _ h
    simp [RecursiveDFS.visit] at h
  | succ depth ih =>
    intro n s s1 hn h rest
    rw [RecursiveDFS.visit] at h
    by_cases hseen : n ∈ s.seen
    · rw [if_pos hseen] at h
      simp only [Option.some.injEq] at h
      subst h
      refine ⟨1, fun fuel => ?_⟩
      apply AstTraversal.loop_step
      · simp
      · simp [AstTraversal.step, hseen]
    · rw [if_neg hseen] at h
      cases hc : (RecursiveDFS.childrenInOrder (heap n).node).foldlM
          (fun s1 c => RecursiveDFS.visit heap depth c s1) { s with seen := n :: s.seen } with
      | none => rw [hc] at h; simp at h
      | some s2 =>
        rw [hc] at h
        simp only [Option.some.injEq] at h
        subst h
        have hdom : ∀ c ∈ RecursiveDFS.childrenInOrder (heap n).node, c ∈ dom := fun c hc1 =>
          hclosed n hn c ((RecursiveDFS.mem_childrenInOrder _ c).1 hc1)
        obtain ⟨k, hk⟩ := RecursiveDFS.sim_all heap dom depth ih _ _ s2 hdom hc ((n, true) :: rest)
        refine ⟨k + 2, fun fuel => ?_⟩
        have h1 : AstTraversal.step heap
            { stack_ := (n, false) :: rest, flat_ := s.flat, seen_ := s.seen } =
            .ok { stack_ := (RecursiveDFS.childrenInOrder (heap n).node).map (fun c => (c, false)) ++
                    (n, true) :: rest,
                  flat_ := s.flat, seen_ := n :: s.seen } := by
          simp [AstTraversal.step, hseen, AstTraversal.Visit_order _ (hvis n hn),
            AstTraversal.PushAll]
        have h2 : AstTraversal.step heap
            { stack_ := (n, true) :: rest, flat_ := s2.flat, seen_ := s2.seen } =
            .ok { stack_ := rest, flat_ := s2.flat ++ [n], seen_ := s2.seen } := by
          simp [AstTraversal.step]
        have e1 : fuel + (k + 2) = (fuel + 1 + k) + 1 := by omega
        rw [e1, AstTraversal.loop_step heap _ _ _ (by simp) h1, hk,
          AstTraversal.loop_step heap _ _ _ (by simp) h2]

/-- On a graph whose edges strictly lower `rank`, the recursive visit of a node
returns when the depth is above the rank of the node. -/
theorem RecursiveDFS.visit_total (heap : Heap) (dom : List ExprPtr) (rank : ExprPtr → Nat)
    (hclosed : ∀ n ∈ dom, ∀ c ∈ (heap n).node.children, c ∈ dom)
    (hacyc : ∀ n ∈ dom, ∀ c ∈ (heap n).node.children, rank c < rank n) :
    ∀ (depth : Nat) (n : ExprPtr) (s : RecursiveDFS), n ∈ dom → rank n < depth →
      ∃ s1, RecursiveDFS.visit heap depth n s = some s1 := by
  intro depth
  induction depth with
  | zero => intro n s _ h; omega
  | succ depth ih =>
    intro n s hn hr
    rw [RecursiveDFS.visit]
    by_cases hseen : n ∈ s.seen
    · exact ⟨s, by rw [if_pos hseen]⟩
    · rw [if_neg hseen]
      have hall : ∀ (cs : List ExprPtr) (s2 : RecursiveDFS),
          (∀ c ∈ cs, c ∈ dom ∧ rank c < depth) →
          ∃ s3, cs.foldlM (fun s1 c => RecursiveDFS.visit heap depth c s1) s2 = some s3 := by
        intro cs
        induction cs with
        | nil => intro s2 _; exact ⟨s2, rfl⟩
        | cons c cs ihc =>
          intro s2 hcs
          obtain ⟨s3, h3⟩ := ih c s2 (hcs c (by simp)).1 (hcs c (by simp)).2
          obtain ⟨s4, h4⟩ := ihc s3 (fun x hx => hcs x (by simp [hx]))
          refine ⟨s4, ?_⟩
          rw [List.foldlM_cons, h3]
          exact h4
      obtain ⟨s3, h3⟩ := hall (RecursiveDFS.childrenInOrder (heap n).node)
        { s with seen := n :: s.seen } (by
          intro c hc
          have hc1 := (RecursiveDFS.mem_childrenInOrder _ c).1 hc
          have := hacyc n hn c hc1
          exact ⟨hclosed n hn c hc1, by omega⟩)
      exact ⟨_, by rw [h3]⟩

/-- Claim C35 (the iterative linearizer equals the recursive one): for a finite
acyclic graph (the nodes of `dom`, closed under children, none a bare
`TensorSpecExpr` or `ConstraintExpr`, every edge lowering `rank`) and every root
list, `AstTraversal` with its explicit stack and seen set and the recursive
post-order traversal with a shared seen set return the same flat sequence: the
recursive one visits the roots from last to first and, at each node, the args of a
`CallExpr` from left to right, resp. the `use_default` of a `ContractionExpr` first
(if set) and then the refs of its inputs from left to right, and emits a node after
its children.  Both return: the loop within `AstTraversal.budget` iterations, the
recursion within a depth above the ranks of the roots. -/
theorem AstTraversal_equals_recursive (heap : Heap) (dom roots : List ExprPtr)
    (rank : ExprPtr → Nat)
    (hroots : ∀ r ∈ roots, r ∈ dom)
    (hclosed : ∀ n ∈ dom, ∀ c ∈ (heap n).node.children, c ∈ dom)
    (hvis : ∀ n ∈ dom, (heap n).node.visitable = true)
    (hacyc : ∀ n ∈ dom, ∀ c ∈ (heap n).node.children, rank c < rank n) :
    ∃ flat,
      (∀ fuel, AstTraversal.budget heap dom roots ≤ fuel →
        AstTraversal.flat fuel heap roots = some (.ok flat)) ∧
      (∀ depth, (∀ r ∈ roots, rank r < depth) →
        RecursiveDFS.run depth heap roots = some flat) := by
  obtain ⟨r, -, hflat, -⟩ := AstTraversal.loop_budget heap dom roots hroots hclosed hvis
  refine ⟨r.flat_, hflat, ?_⟩
  intro depth hdepth
  have hall : ∀ (cs : List ExprPtr) (s2 : RecursiveDFS),
      (∀ c ∈ cs, c ∈ dom ∧ rank c < depth) →
      ∃ s3, cs.foldlM (fun s1 c => RecursiveDFS.visit heap depth c s1) s2 = some s3 := by
    intro cs
    induction cs with
    | nil => intro s2 _; exact ⟨s2, rfl⟩
    | cons c cs ihc =>
      intro s2 hcs
      obtain ⟨s3, h3⟩ := RecursiveDFS.visit_total heap dom rank hclosed hacyc depth c s2
        (hcs c (by simp)).1 (hcs c (by simp)).2
      obtain ⟨s4, h4⟩ := ihc s3 (fun x hx => hcs x (by simp [hx]))
      refine ⟨s4, ?_⟩
      rw [List.foldlM_cons, h3]
      exact h4
  have hrev : ∀ c ∈ roots.reverse, c ∈ dom ∧ rank c < depth := by
    intro c hc
    have := List.mem_reverse.1 hc
    exact ⟨hroots c this, hdepth c this⟩
  obtain ⟨s1, hs1⟩ := hall roots.reverse { seen := [], flat := [] } hrev
  obtain ⟨k, hk⟩ := RecursiveDFS.sim_all heap dom depth
    (RecursiveDFS.sim_visit heap dom hclosed hvis depth) roots.reverse
    { seen := [], flat := [] } s1 (fun c hc => (hrev c hc).1) hs1 []
  have h1 := hflat (AstTraversal.budget heap dom roots + k) (by omega)
  have h2 : AstTraversal.flat (AstTraversal.budget heap dom roots + k) heap roots =
      some (.ok s1.flat) := by
    unfold AstTraversal.flat AstTraversal.PushAll
    rw [hk, AstTraversal.loop_nil heap _ _ rfl]
  rw [h1] at h2
  simp only [Option.some.injEq, Except.ok.injEq] at h2
  unfold RecursiveDFS.run
  rw [hs1, h2]
  rfl

theorem AstTraversal_equals_recursive_witness :
    ∃ flat,
      (∀ fuel, AstTraversal.budget exHeap [0, 1, 2, 3] [1, 3] ≤ fuel →
        AstTraversal.flat fuel exHeap [1, 3] = some (.ok flat)) ∧
      (∀ depth, (∀ r ∈ [1, 3], (fun n => n) r < depth) →
        RecursiveDFS.run depth exHeap [1, 3] = some flat) :=
  AstTraversal_equals_recursive exHeap [0, 1, 2, 3] [1, 3] (fun n => n)
    (by decide) (by decide) (by decide) (by decide)

/-! ## The lookups of the lowering -/

/-- The flat sequence of a finite acyclic graph, in dependency order. -/
theorem AstTraversal.flat_ordered (heap : Heap) (dom roots : List ExprPtr)
    (rank : ExprPtr → Nat)
    (hroots : ∀ r ∈ roots, r ∈ dom)
    (hclosed : ∀ n ∈ dom, ∀ c ∈ (heap n).node.children, c ∈ dom)
    (hvis : ∀ n ∈ dom, (heap n).node.visitable = true)
    (hacyc : ∀ n ∈ dom, ∀ c ∈ (heap n).node.children, rank c < rank n) :
    ∃ flat,
      (∀ fuel, AstTraversal.budget heap dom roots ≤ fuel →
        AstTraversal.flat fuel heap roots = some (.ok flat)) ∧
      (∀ l1 n l2, flat = l1 ++ n :: l2 → ∀ c ∈ (heap n).node.children, c ∈ l1) ∧
      (∀ n ∈ flat, n ∈ dom) ∧ (∀ r ∈ roots, r ∈ flat) := by
  obtain ⟨r, -, hflat, hP⟩ := AstTraversal.loop_budget heap dom roots hroots hclosed hvis
  have hO := hP (AstTraversal.Ordered heap dom rank)
    (fun t t1 hI hne hs => AstTraversal.Ordered_step heap dom rank hclosed hacyc t t1 hI hne hs)
    (AstTraversal.Ordered_init heap dom roots rank hroots)
  have hsound := AstTraversal.flat_sound _ heap roots r.flat_ (hflat _ (le_refl _))
  have hreach : ∀ n, Reachable heap roots n → n ∈ dom := by
    intro n hr
    induction hr with
    | root r hr => exact hroots r hr
    | child n c _ hc ih => exact hclosed n ih c hc
  refine ⟨r.flat_, hflat, hO.flat_ok, ?_, ?_⟩
  · intro n hn
    exact hreach n ((hsound.2 n).1 hn)
  · intro x hx
    exact (hsound.2 x).2 (Reachable.root x hx)

/-- A successful visit of the shape pass binds the node and changes no other
binding. -/
theorem ShapeEvaluator.Visit_emplace (env : Extern) (heap : Heap)
    (bindings bindings1 : List (ExprPtr × Binding)) (expr : ExprPtr)
    (h : ShapeEvaluator.Visit env heap bindings expr = .ok bindings1) :
    ∃ b, bindings1 = emplace bindings expr b := by
  unfold ShapeEvaluator.Visit at h
  split at h
  · exact ⟨_, (Except.ok.inj h).symm⟩
  · split at h
    · simp at h
    · split at h
      · split at h
        · simp at h
        · exact ⟨_, (Except.ok.inj h).symm⟩
      · split at h
        · simp at h
        · exact ⟨_, (Except.ok.inj h).symm⟩
  · simp at h
  · split at h
    · exact ⟨_, (Except.ok.inj h).symm⟩
    · split at h
      · simp at h
      · exact ⟨_, (Except.ok.inj h).symm⟩
  · exact ⟨_, (Except.ok.inj h).symm⟩
  · exact ⟨_, (Except.ok.inj h).symm⟩
  · simp at h

/-- After `emplace` the key is bound. -/
theorem lookup_emplace_isSome {κ α : Type} [DecidableEq κ] (m : List (κ × α)) (k : κ) (v : α) :
    (lookup (emplace m k v) k).isSome = true := by
  cases h : lookup m k with
  | none => rw [lookup_emplace_self m k v h]; rfl
  | some x =>
    have : emplace m k v = m := by simp [emplace, h]
    rw [this, h]
    rfl

/-- `emplace` keeps every key bound. -/
theorem lookup_emplace_isSome_mono {κ α : Type} [DecidableEq κ] (m : List (κ × α)) (k q : κ)
    (v : α) (h : (lookup m q).isSome = true) : (lookup (emplace m k v) q).isSome = true := by
  cases hq : lookup m q with
  | none => rw [hq] at h; simp at h
  | some x => rw [lookup_emplace_mono m k q v x hq]; rfl

/-- After the shape pass over a list of nodes every one of them has a binding, and
the bindings that were there are kept. -/
theorem ShapeEvaluator_keys (env : Extern) (heap : Heap) :
    ∀ (l : List ExprPtr) (b0 b : List (ExprPtr × Binding)),
      ShapeEvaluator env heap l b0 = .ok b →
      ∀ x, (x ∈ l ∨ (lookup b0 x).isSome = true) → (lookup b x).isSome = true := by
  intro l
  induction l with
  | nil =>
    intro b0 b h x hx
    simp only [ShapeEvaluator, Except.ok.injEq] at h
    subst h
    rcases hx with hx | hx
    · simp at hx
    · exact hx
  | cons e rest ih =>
    intro b0 b h x hx
    simp only [ShapeEvaluator] at h
    cases hv : ShapeEvaluator.Visit env heap b0 e with
    | error err => rw [hv] at h; simp at h
    | ok b1 =>
      rw [hv] at h
      obtain ⟨v, rfl⟩ := ShapeEvaluator.Visit_emplace env heap b0 b1 e hv
      apply ih _ b h x
      rcases hx with hx | hx
      · rcases List.mem_cons.1 hx with rfl | hx
        · exact Or.inr (lookup_emplace_isSome _ _ _)
        · exact Or.inl hx
      · exact Or.inr (lookup_emplace_isSome_mono _ _ _ _ hx)

/-- A bound key is found by `safe_at`. -/
theorem safe_at_ok {α : Type} (m : List (ExprPtr × α)) (key : ExprPtr)
    (h : (lookup m key).isSome = true) : ∃ v, safe_at m key = .ok v := by
  cases hl : lookup m key with
  | none => rw [hl] at h; simp at h
  | some v => exact ⟨v, by simp [safe_at, hl]⟩

/-- Keys that are all bound are all found by the argument loop. -/
theorem safe_at_all_ok {α : Type} (m : List (ExprPtr × α)) (keys : List ExprPtr)
    (h : ∀ k ∈ keys, (lookup m k).isSome = true) : ∃ vs, safe_at_all m keys = .ok vs := by
  induction keys with
  | nil => exact ⟨[], rfl⟩
  | cons k rest ih =>
    obtain ⟨v, hv⟩ := safe_at_ok m k (h k (by simp))
    obtain ⟨vs, hvs⟩ := ih (fun x hx => h x (by simp [hx]))
    exact ⟨v :: vs, by simp [safe_at_all, hv, hvs]⟩

/-- After the emission pass over a list of nodes every one of them has a name, the
names that were there are kept, every named node is one of the list or was named
before, and the bindings are untouched. -/
theorem Evaluator.VisitAll_keys (env : Extern) (heap : Heap) :
    ∀ (l : List ExprPtr) (ev ev1 : Evaluator),
      Evaluator.VisitAll env heap l ev = .ok ev1 →
      (∀ x, (x ∈ l ∨ (lookup ev.names_by_expr_ x).isSome = true) →
        (lookup ev1.names_by_expr_ x).isSome = true) ∧
      (∀ kv ∈ ev1.names_by_expr_, kv.1 ∈ l ∨ kv ∈ ev.names_by_expr_) ∧
      ev1.bindings_by_expr_ = ev.bindings_by_expr_ := by
  intro l
  induction l with
  | nil =>
    intro ev ev1 h
    simp only [Evaluator.VisitAll, Except.ok.injEq] at h
    subst h
    refine ⟨?_, fun kv hkv => Or.inr hkv, rfl⟩
    intro x hx
    rcases hx with hx | hx
    · simp at hx
    · exact hx
  | cons e rest ih =>
    intro ev ev1 h
    simp only [Evaluator.VisitAll] at h
    cases hv : Evaluator.Visit env heap ev e with
    | error err => rw [hv] at h; simp at h
    | ok ev2 =>
      rw [hv] at h
      obtain ⟨-, -, hnames, hbind, -⟩ := Evaluator.Visit_spec env heap ev ev2 e hv
      obtain ⟨h1, h2, h3⟩ := ih ev2 ev1 h
      refine ⟨?_, ?_, by rw [h3, hbind]⟩
      · intro x hx
        apply h1
        rw [hnames]
        rcases hx with hx | hx
        · rcases List.mem_cons.1 hx with rfl | hx
          · exact Or.inr (lookup_emplace_isSome _ _ _)
          · exact Or.inl hx
        · exact Or.inr (lookup_emplace_isSome_mono _ _ _ _ hx)
      · intro kv hkv
        rcases h2 kv hkv with hk | hk
        · exact Or.inl (List.mem_cons_of_mem _ hk)
        · rw [hnames] at hk
          unfold emplace at hk
          split at hk
          · exact Or.inr hk
          · rcases List.mem_append.1 hk with hk | hk
            · exact Or.inr hk
            · simp only [List.mem_singleton] at hk
              subst hk
              exact Or.inl (List.mem_cons_self _ _)

/-- The loop over the roots at the end of `Evaluate` finds the name and the binding
of every root that has them. -/
theorem Evaluator.recordOutputs_ok :
    ∀ (vars : List ExprPtr) (ev : Evaluator),
      (∀ r ∈ vars, (lookup ev.names_by_expr_ r).isSome = true ∧
        (lookup ev.bindings_by_expr_ r).isSome = true) →
      ∃ ev2, Evaluator.recordOutputs vars ev = .ok ev2 ∧
        ev2.names_by_expr_ = ev.names_by_expr_ ∧
        ev2.bindings_by_expr_ = ev.bindings_by_expr_ := by
  intro vars
  induction vars with
  | nil => intro ev _; exact ⟨ev, rfl, rfl, rfl⟩
  | cons r rest ih =>
    intro ev h
    obtain ⟨n, hn⟩ := safe_at_ok _ r (h r (by simp)).1
    obtain ⟨b, hb⟩ := safe_at_ok _ r (h r (by simp)).2
    obtain ⟨ev2, h2, h3, h4⟩ := ih
      { ev with runinfo_ := { ev.runinfo_ with
          output_shapes := emplace ev.runinfo_.output_shapes n b.shape,
          program := { ev.runinfo_.program with
            outputs := ev.runinfo_.program.outputs ++ [n] } } }
      (fun x hx => h x (by simp [hx]))
    refine ⟨ev2, ?_, h3, h4⟩
    simp only [Evaluator.recordOutputs, hn, hb]
    exact h2

/-- The loop over `names_by_expr_` at the end of `Evaluate` finds the binding of
every named node that has one. -/
theorem Evaluator.recordVars_ok (bindings : List (ExprPtr × Binding)) :
    ∀ (names : List (ExprPtr × String)) (vars : List (String × Binding)),
      (∀ kv ∈ names, (lookup bindings kv.1).isSome = true) →
      ∃ vs, Evaluator.recordVars bindings names vars = .ok vs := by
  intro names
  induction names with
  | nil => intro vars _; exact ⟨vars, rfl⟩
  | cons kv rest ih =>
    intro vars h
    obtain ⟨k, n⟩ := kv
    obtain ⟨b, hb⟩ := safe_at_ok bindings k (h (k, n) (by simp))
    obtain ⟨vs, hvs⟩ := ih (emplace vars n b) (fun x hx => h x (by simp [hx]))
    exact ⟨vs, by simp only [Evaluator.recordVars, hb, hvs]⟩

/-- The op a visit of the evaluator appends names as `use_default` nothing, or the
name recorded for some node. -/
theorem Evaluator.Visit_use_default (env : Extern) (heap : Heap) (ev ev1 : Evaluator)
    (expr : ExprPtr) (h : Evaluator.Visit env heap ev expr = .ok ev1) :
    ∀ op, ev1.runinfo_.program.ops = ev.runinfo_.program.ops ++ [op] →
      ∀ c, op.c = some c →
        c.use_default = "" ∨ ∃ d, lookup ev.names_by_expr_ d = some c.use_default := by
  have hframe := (Evaluator.NewTmp_frame (heap expr).name ev).2.2.2
  have hemit : ∀ (op0 op : Op),
      (Evaluator.emitOp (Evaluator.NewTmp (heap expr).name ev).2 expr op0).runinfo_.program.ops =
        ev.runinfo_.program.ops ++ [op] → op = op0 := by
    intro op0 op h1
    simp only [Evaluator.emitOp, hframe] at h1
    have := List.append_cancel_left h1
    simp only [List.cons.injEq, and_true] at this
    exact this.symm
  unfold Evaluator.Visit at h
  split at h
  · intro op hops
    simp only [Except.ok.injEq] at h
    subst h
    simp only [hframe] at hops
    have := congrArg List.length hops
    simp at this
  · intro op hops c hc
    simp only [Except.ok.injEq] at h
    subst h
    rw [hemit _ op hops] at hc
    simp at hc
  · intro op hops c hc
    simp only [Except.ok.injEq] at h
    subst h
    rw [hemit _ op hops] at hc
    simp at hc
  · split at h
    · simp at h
    · intro op hops c hc
      simp only [Except.ok.injEq] at h
      subst h
      rw [hemit _ op hops] at hc
      simp at hc
  · simp at h
  · rename_i cion _
    unfold Evaluator.VisitContraction at h
    split at h
    · simp at h
    · rename_i use_default hud
      split at h
      · simp at h
      · split at h
        · simp at h
        · split at h
          · simp at h
          · intro op hops c hc
            simp only [Except.ok.injEq] at h
            subst h
            rw [hemit _ op hops] at hc
            simp only [Option.some.injEq] at hc
            subst hc
            simp only
            cases hd : cion.use_default with
            | none =>
              rw [hd] at hud
              simp only [Except.ok.injEq] at hud
              exact Or.inl hud.symm
            | some d =>
              rw [hd] at hud
              simp only [safe_at] at hud
              cases hl : lookup ev.names_by_expr_ d with
              | none => rw [hl] at hud; simp at hud
              | some v =>
                rw [hl] at hud
                simp only [Except.ok.injEq] at hud
                exact Or.inr ⟨d, by rw [hl, hud]⟩
  · simp at h

/-- The invariant of the evaluator behind the `use_default` names: the `use_default`
of every emitted contraction is empty (none was set) or the name of an `Input` or
the output of an earlier op. -/
theorem Evaluator.Defaults_step (env : Extern) (heap : Heap) (ev ev1 : Evaluator)
    (expr : ExprPtr) (hT : Evaluator.Topo ev)
    (hD : ∀ pre op post, ev.runinfo_.program.ops = pre ++ op :: post → ∀ c, op.c = some c →
      c.use_default = "" ∨ (∃ i ∈ ev.runinfo_.program.inputs, i.name = c.use_default) ∨
        (∃ o ∈ pre, o.output = c.use_default))
    (h : Evaluator.Visit env heap ev expr = .ok ev1) :
    ∀ pre op post, ev1.runinfo_.program.ops = pre ++ op :: post → ∀ c, op.c = some c →
      c.use_default = "" ∨ (∃ i ∈ ev1.runinfo_.program.inputs, i.name = c.use_default) ∨
        (∃ o ∈ pre, o.output = c.use_default) := by
  obtain ⟨-, -, -, -, hcase⟩ := Evaluator.Visit_spec env heap ev ev1 expr h
  have hud := Evaluator.Visit_use_default env heap ev ev1 expr h
  intro pre op post hsplit c hc
  rcases hcase with ⟨-, hops, dims, hin⟩ | ⟨-, hin, op0, hops, -⟩
  · rw [hops] at hsplit
    rcases hD pre op post hsplit c hc with h1 | ⟨i, hi, hi2⟩ | h1
    · exact Or.inl h1
    · exact Or.inr (Or.inl ⟨i, by rw [hin]; exact List.mem_append_left _ hi, hi2⟩)
    · exact Or.inr (Or.inr h1)
  · rw [hin]
    rcases List.eq_nil_or_concat post with hp | ⟨L, b, hp⟩
    · subst hp
      have h3 : ev.runinfo_.program.ops ++ [op0] = pre ++ [op] := by rw [← hops, hsplit]
      obtain ⟨h4, h5⟩ := List.append_inj' h3 rfl
      simp only [List.cons.injEq, and_true] at h5
      subst h4 h5
      rcases hud op0 hops c hc with h1 | ⟨d, hd⟩
      · exact Or.inl h1
      · have hmem := hT.named d _ hd
        simp only [Program.names, List.mem_append, List.mem_map] at hmem
        rcases hmem with ⟨i, hi, hi2⟩ | ⟨o, ho, ho2⟩
        · exact Or.inr (Or.inl ⟨i, hi, hi2⟩)
        · exact Or.inr (Or.inr ⟨o, ho, ho2⟩)
    · subst hp
      have h3 : ev.runinfo_.program.ops ++ [op0] = (pre ++ op :: L) ++ [b] := by
        rw [← hops, hsplit]; simp
      obtain ⟨h4, -⟩ := List.append_inj' h3 rfl
      exact hD pre op L h4 c hc

/-- Claim C34 (lowering lookups never miss): for a finite acyclic graph whose nodes
are only `ParamExpr`, `IntConst`, `FloatConst`, `CallExpr` and `ContractionExpr`,
the traversal returns a flat sequence, and at every node of it, whatever came
before having succeeded, the shape pass finds the binding of every call arg and of
every contraction input ref, and the emission pass finds the name of every call
arg, of every contraction input ref and of the `use_default`; when both passes
succeed, the names and bindings of the roots and the binding of every named node
are found and `Evaluate` returns a program.  In every program `Evaluate` returns,
every input of a FUNCTION or CONTRACTION op, and every `use_default` name that is
set, is the name of an `Input` or the output of an op emitted earlier. -/
theorem Evaluate_lookups_never_miss (env : Extern) (heap : Heap) (dom roots : List ExprPtr)
    (rank : ExprPtr → Nat) (name : String)
    (hroots : ∀ r ∈ roots, r ∈ dom)
    (hclosed : ∀ n ∈ dom, ∀ c ∈ (heap n).node.children, c ∈ dom)
    (hvis : ∀ n ∈ dom, (heap n).node.visitable = true)
    (hacyc : ∀ n ∈ dom, ∀ c ∈ (heap n).node.children, rank c < rank n) :
    ∃ flat,
      (∀ fuel, AstTraversal.budget heap dom roots ≤ fuel →
        AstTraversal.flat fuel heap roots = some (.ok flat)) ∧
      (∀ pre n post bindings, flat = pre ++ n :: post →
        ShapeEvaluator env heap pre [] = .ok bindings →
        (∀ fn args, (heap n).node = .CallExpr fn args →
          ∃ bs, safe_at_all bindings args = .ok bs) ∧
        (∀ cion, (heap n).node = .ContractionExpr cion →
          ∀ input ∈ cion.inputs, ∃ b, safe_at bindings input.ref = .ok b)) ∧
      (∀ pre n post bindings ev, flat = pre ++ n :: post →
        Evaluator.VisitAll env heap pre
          { Evaluator.new name with bindings_by_expr_ := bindings } = .ok ev →
        (∀ fn args, (heap n).node = .CallExpr fn args →
          ∃ names, safe_at_all ev.names_by_expr_ args = .ok names) ∧
        (∀ cion, (heap n).node = .ContractionExpr cion →
          (∀ d, cion.use_default = some d → ∃ s, safe_at ev.names_by_expr_ d = .ok s) ∧
          (∀ input ∈ cion.inputs, ∃ id, safe_at ev.names_by_expr_ input.ref = .ok id))) ∧
      (∀ bindings ev1, ShapeEvaluator env heap flat [] = .ok bindings →
        Evaluator.VisitAll env heap flat
          { Evaluator.new name with bindings_by_expr_ := bindings } = .ok ev1 →
        (∀ r ∈ roots, (∃ s, safe_at ev1.names_by_expr_ r = .ok s) ∧
          (∃ b, safe_at ev1.bindings_by_expr_ r = .ok b)) ∧
        (∀ kv ∈ ev1.names_by_expr_, ∃ b, safe_at ev1.bindings_by_expr_ kv.1 = .ok b) ∧
        ∃ ri, ∀ fuel, AstTraversal.budget heap dom roots ≤ fuel →
          Evaluate env fuel heap name roots = some (.ok ri)) ∧
      (∀ fuel ri, Evaluate env fuel heap name roots = some (.ok ri) →
        ∀ pre op post, ri.program.ops = pre ++ op :: post →
          (op.tag ≠ OpTag.CONSTANT → ∀ n ∈ op.inputs,
            (∃ i ∈ ri.program.inputs, i.name = n) ∨ (∃ o ∈ pre, o.output = n)) ∧
          (∀ c, op.c = some c → c.use_default ≠ "" →
            (∃ i ∈ ri.program.inputs, i.name = c.use_default) ∨
              (∃ o ∈ pre, o.output = c.use_default))) := by
  obtain ⟨flat, hflat, hord, -, hrootsIn⟩ :=
    AstTraversal.flat_ordered heap dom roots rank hroots hclosed hvis hacyc
  refine ⟨flat, hflat, ?_, ?_, ?_, ?_⟩
  · intro pre n post bindings hsplit hs
    have hkeys := ShapeEvaluator_keys env heap pre [] bindings hs
    have hch : ∀ c ∈ (heap n).node.children, (lookup bindings c).isSome = true :=
      fun c hc => hkeys c (Or.inl (hord pre n post hsplit c hc))
    constructor
    · intro fn args hnode
      apply safe_at_all_ok
      intro k hk
      exact hch k (by rw [hnode]; exact hk)
    · intro cion hnode input hin
      apply safe_at_ok
      apply hch
      rw [hnode]
      simp only [ExprNode.children, List.mem_append, List.mem_map]
      exact Or.inl ⟨input, hin, rfl⟩
  · intro pre n post bindings ev hsplit hv
    have hkeys := (Evaluator.VisitAll_keys env heap pre _ ev hv).1
    have hch : ∀ c ∈ (heap n).node.children, (lookup ev.names_by_expr_ c).isSome = true :=
      fun c hc => hkeys c (Or.inl (hord pre n post hsplit c hc))
    constructor
    · intro fn args hnode
      apply safe_at_all_ok
      intro k hk
      exact hch k (by rw [hnode]; exact hk)
    · intro cion hnode
      constructor
      · intro d hd
        apply safe_at_ok
        apply hch
        rw [hnode]
        simp only [ExprNode.children, List.mem_append, hd, List.mem_singleton]
        exact Or.inr trivial
      · intro input hin
        apply safe_at_ok
        apply hch
        rw [hnode]
        simp only [ExprNode.children, List.mem_append, List.mem_map]
        exact Or.inl ⟨input, hin, rfl⟩
  · intro bindings ev1 hs hv
    have hbk := ShapeEvaluator_keys env heap flat [] bindings hs
    obtain ⟨hnk, hsub, hbind⟩ := Evaluator.VisitAll_keys env heap flat _ ev1 hv
    have hb1 : ev1.bindings_by_expr_ = bindings := hbind
    have hr : ∀ r ∈ roots, (lookup ev1.names_by_expr_ r).isSome = true ∧
        (lookup ev1.bindings_by_expr_ r).isSome = true := by
      intro r hr
      refine ⟨hnk r (Or.inl (hrootsIn r hr)), ?_⟩
      rw [hb1]
      exact hbk r (Or.inl (hrootsIn r hr))
    have hn : ∀ kv ∈ ev1.names_by_expr_, (lookup ev1.bindings_by_expr_ kv.1).isSome = true := by
      intro kv hkv
      rw [hb1]
      rcases hsub kv hkv with h1 | h1
      · exact hbk kv.1 (Or.inl h1)
      · simp [Evaluator.new] at h1
    refine ⟨fun r hr2 => ⟨safe_at_ok _ r (hr r hr2).1, safe_at_ok _ r (hr r hr2).2⟩,
      fun kv hkv => safe_at_ok _ kv.1 (hn kv hkv), ?_⟩
    obtain ⟨ev2, ho, hn2, hb2⟩ := Evaluator.recordOutputs_ok roots ev1 hr
    obtain ⟨vs, hvs⟩ := Evaluator.recordVars_ok ev2.bindings_by_expr_ ev2.names_by_expr_
      ev2.runinfo_.vars (by rw [hn2, hb2]; exact hn)
    refine ⟨{ ev2.runinfo_ with vars := vs, from_edsl := true }, ?_⟩
    intro fuel hfuel
    unfold Evaluate
    rw [hflat fuel hfuel]
    simp only [hs, hv, ho, hvs]
  · intro fuel ri h
    obtain ⟨flat1, bindings, ev1, -, -, hv, hin, hops⟩ :=
      Evaluate_ok env fuel heap name roots ri h
    have hT := Evaluator.VisitAll_trace env heap flat1
      (fun _ ev => Evaluator.Topo ev ∧
        ∀ pre op post, ev.runinfo_.program.ops = pre ++ op :: post → ∀ c, op.c = some c →
          c.use_default = "" ∨ (∃ i ∈ ev.runinfo_.program.inputs, i.name = c.use_default) ∨
            (∃ o ∈ pre, o.output = c.use_default))
      (fun _ expr _ ev ev1 _ hP hvis =>
        ⟨Evaluator.Topo_step env heap ev ev1 expr hP.1 hvis,
          Evaluator.Defaults_step env heap ev ev1 expr hP.1 hP.2 hvis⟩)
      flat1 [] _ ev1 rfl
      ⟨Evaluator.Topo_new name bindings, by
        intro pre op post hsplit
        simp [Evaluator.new] at hsplit⟩ hv
    intro pre op post hsplit
    rw [hin]
    rw [hops] at hsplit
    refine ⟨fun htag n hn => hT.1.ordered pre op post hsplit htag n hn, ?_⟩
    intro c hc hne
    rcases hT.2 pre op post hsplit c hc with h1 | h1
    · exact absurd h1 hne
    · exact h1

theorem Evaluate_lookups_never_miss_witness :
    (Evaluate refEnv 20 defaultHeap "p" [3]).map (fun r => r.map (fun (ri : RunInfo) =>
        (ri.program.inputs.map (fun (i : Input) => i.name),
          ri.program.ops.map (fun (o : Op) =>
            (o.output, o.inputs, o.c.map (fun (c : Contraction) => c.use_default)))))) =
      some (.ok (["D", "A"], [("O", ["A"], some "D"), ("_X0", ["O", "A"], none)])) ∧
    ∃ flat,
      (∀ fuel, AstTraversal.budget defaultHeap [0, 1, 2, 3] [3] ≤ fuel →
        AstTraversal.flat fuel defaultHeap [3] = some (.ok flat)) ∧
      (∀ pre n post bindings, flat = pre ++ n :: post →
        ShapeEvaluator refEnv defaultHeap pre [] = .ok bindings →
        (∀ fn args, (defaultHeap n).node = .CallExpr fn args →
          ∃ bs, safe_at_all bindings args = .ok bs) ∧
        (∀ cion, (defaultHeap n).node = .ContractionExpr cion →
          ∀ input ∈ cion.inputs, ∃ b, safe_at bindings input.ref = .ok b)) ∧
      (∀ pre n post bindings ev, flat = pre ++ n :: post →
        Evaluator.VisitAll refEnv defaultHeap pre
          { Evaluator.new "p" with bindings_by_expr_ := bindings } = .ok ev →
        (∀ fn args, (defaultHeap n).node = .CallExpr fn args →
          ∃ names, safe_at_all ev.names_by_expr_ args = .ok names) ∧
        (∀ cion, (defaultHeap n).node = .ContractionExpr cion →
          (∀ d, cion.use_default = some d → ∃ s, safe_at ev.names_by_expr_ d = .ok s) ∧
          (∀ input ∈ cion.inputs, ∃ id, safe_at ev.names_by_expr_ input.ref = .ok id))) ∧
      (∀ bindings ev1, ShapeEvaluator refEnv defaultHeap flat [] = .ok bindings →
        Evaluator.VisitAll refEnv defaultHeap flat
          { Evaluator.new "p" with bindings_by_expr_ := bindings } = .ok ev1 →
        (∀ r ∈ [3], (∃ s, safe_at ev1.names_by_expr_ r = .ok s) ∧
          (∃ b, safe_at ev1.bindings_by_expr_ r = .ok b)) ∧
        (∀ kv ∈ ev1.names_by_expr_, ∃ b, safe_at ev1.bindings_by_expr_ kv.1 = .ok b) ∧
        ∃ ri, ∀ fuel, AstTraversal.budget defaultHeap [0, 1, 2, 3] [3] ≤ fuel →
          Evaluate refEnv fuel defaultHeap "p" [3] = some (.ok ri)) ∧
      (∀ fuel ri, Evaluate refEnv fuel defaultHeap "p" [3] = some (.ok ri) →
        ∀ pre op post, ri.program.ops = pre ++ op :: post →
          (op.tag ≠ OpTag.CONSTANT → ∀ n ∈ op.inputs,
            (∃ i ∈ ri.program.inputs, i.name = n) ∨ (∃ o ∈ pre, o.output = n)) ∧
          (∀ c, op.c = some c → c.use_default ≠ "" →
            (∃ i ∈ ri.program.inputs, i.name = c.use_default) ∨
              (∃ o ∈ pre, o.output = c.use_default))) :=
  ⟨rfl, Evaluate_lookups_never_miss refEnv defaultHeap [0, 1, 2, 3] [3] (fun n => n) "p"
    (by decide) (by decide) (by decide) (by decide)⟩

end TileCC
